import Mathlib

/-! # Test-image generator: configuration model and specification builder

A shallow embedding of `internal/config` (`config.go`, `filters.go`, `builder.go`).

Conventions of the embedding.

* A Go `string` is a Lean `String`, read as its sequence of code points. The
  case mappings of `strings.ToLower`, `strings.ToUpper` and of the title caser
  are computed on ASCII; above ASCII they follow the Unicode case tables, which
  are a parameter of the embedding (`CaseTables`).
* A Go `int` is a Lean `Int`; the places where the 64-bit range matters
  (`strconv.Atoi`, the float to int conversion) state the range explicitly.
* A Go `float64` is the type `F64` below: an exact model of IEEE 754 binary64
  with round-to-nearest-even, built on natural-number arithmetic only.
* A Go `map[string]V` is a list of `(key, value)` entries. Go draws a new
  order at every execution of a `range` statement over a map. The functions of
  the builder visit the entries in the order of the list, which stands for one
  order used throughout; the functions with the suffix `In` take the orders of
  all executions of the loops of a run (`MapOrders`), and the statements on the
  order of the jobs are made on them.
* A function returning `(T, error)` returns `Except String T`, the string
  being the error message.
-/

set_option autoImplicit false

namespace Go

/-- Equality of results is decidable. -/
instance instDecidableEqExcept {ε α : Type} [DecidableEq ε] [DecidableEq α] :
    DecidableEq (Except ε α) := fun a b =>
  match a, b with
  | .ok x, .ok y =>
    if h : x = y then isTrue (by rw [h]) else isFalse (fun h2 => h (by cases h2; rfl))
  | .error x, .error y =>
    if h : x = y then isTrue (by rw [h]) else isFalse (fun h2 => h (by cases h2; rfl))
  | .ok _, .error _ => isFalse (fun h2 => by cases h2)
  | .error _, .ok _ => isFalse (fun h2 => by cases h2)

/-! ## Strings (package `strings`, `unicode`) -/

/-- The predicate `unicode.IsSpace`. -/
def isSpace (c : Char) : Bool :=
  let n := c.toNat
  (9 ≤ n && n ≤ 13) || n == 32 || n == 0x85 || n == 0xA0 || n == 0x1680 ||
  (0x2000 ≤ n && n ≤ 0x200A) || n == 0x2028 || n == 0x2029 || n == 0x202F ||
  n == 0x205F || n == 0x3000

/-- Drops the trailing characters satisfying `p`. -/
def dropWhileEnd (p : Char → Bool) (l : List Char) : List Char :=
  (l.reverse.dropWhile p).reverse

/-- The function `strings.TrimSpace`. -/
def TrimSpace (s : String) : String :=
  ⟨dropWhileEnd isSpace (s.data.dropWhile isSpace)⟩

/-- Splits a list of characters at every occurrence of `c`. -/
def splitOnChar (c : Char) : List Char → List (List Char)
  | [] => [[]]
  | x :: xs =>
    match splitOnChar c xs with
    | [] => [[]]
    | p :: ps => if x = c then [] :: p :: ps else (x :: p) :: ps

/-- The function `strings.Split` for a one-character separator. -/
def Split (s : String) (sep : Char) : List String :=
  (splitOnChar sep s.data).map String.mk

/-- The function `strings.Contains` for a one-character substring. -/
def Contains (s : String) (c : Char) : Bool :=
  s.data.contains c

/-- The function `strings.ReplaceAll` for a one-character pattern. -/
def ReplaceAll (s : String) (old : Char) (new : String) : String :=
  ⟨s.data.flatMap (fun c => if c = old then new.data else [c])⟩

/-- The case tables of package `unicode` for the runes above
`unicode.MaxASCII`, and the caser `cases.Title(language.English)` of
`golang.org/x/text` on the strings that hold such a rune. The tables are data
of the Unicode standard, fixed by the Go toolchain and outside the repository;
the embedding leaves them open, so that a statement about `ToLower`, `ToUpper`
or `Title` holds whatever the tables are. -/
class CaseTables where
  /-- The mapping `unicode.To(unicode.LowerCase, r)` on a rune above ASCII. -/
  lower : Char → Char
  /-- The mapping `unicode.To(unicode.UpperCase, r)` on a rune above ASCII. -/
  upper : Char → Char
  /-- The caser `cases.Title(language.English)` on a string with a rune above
  ASCII. -/
  title : String → String
  /-- The lower case of a rune above ASCII is a rune above ASCII or a
  lower-case ASCII letter (in Unicode, `U+0130` has the lower case `i` and
  `U+212A` the lower case `k`; no other rune above ASCII has an ASCII lower
  case). -/
  lower_ascii : ∀ c : Char, 128 ≤ c.toNat → (lower c).toNat < 128 →
    97 ≤ (lower c).toNat ∧ (lower c).toNat ≤ 122

/-- The function `unicode.ToLower`: the ASCII letters are mapped directly,
the runes above ASCII through the case tables. -/
def unicodeToLower [CaseTables] (r : Char) : Char :=
  if r.toNat ≤ 127 then r.toLower else CaseTables.lower r

/-- The function `unicode.ToUpper`. -/
def unicodeToUpper [CaseTables] (r : Char) : Char :=
  if r.toNat ≤ 127 then r.toUpper else CaseTables.upper r

/-- The function `strings.ToLower`: every rune is mapped by
`unicode.ToLower`. -/
def ToLower [CaseTables] (s : String) : String :=
  ⟨s.data.map unicodeToLower⟩

/-- The function `strings.ToUpper`: every rune is mapped by
`unicode.ToUpper`. -/
def ToUpper [CaseTables] (s : String) : String :=
  ⟨s.data.map unicodeToUpper⟩

/-- The string holds ASCII characters only. -/
def isASCII (s : String) : Bool :=
  s.data.all (fun c => c.toNat ≤ 127)

/-! ## Integers (package `strconv`) -/

/-- Two to the power 63, the first integer above the `int` range. -/
def twoPow63 : Int := 9223372036854775808

/-- The value of a decimal digit. -/
def digitVal (c : Char) : Option Nat :=
  if 48 ≤ c.toNat ∧ c.toNat ≤ 57 then some (c.toNat - 48) else none

/-- Reads a non-empty run of decimal digits; `acc` is the value read so far
and `seen` tells whether a digit has been read. -/
def readDigits : List Char → Nat → Bool → Option Nat
  | [], acc, seen => if seen then some acc else none
  | c :: cs, acc, _ =>
    match digitVal c with
    | some d => readDigits cs (acc * 10 + d) true
    | none => none

/-- The function `strconv.Atoi` on a 64-bit platform: an optional sign followed
by one or more decimal digits, the value within the `int` range. -/
def Atoi (s : String) : Option Int :=
  let body (neg : Bool) (ds : List Char) : Option Int :=
    match readDigits ds 0 false with
    | none => none
    | some n =>
      let v : Int := if neg then -(n : Int) else (n : Int)
      if -twoPow63 ≤ v ∧ v < twoPow63 then some v else none
  match s.data with
  | [] => none
  | c :: cs =>
    if c = '-' then body true cs
    else if c = '+' then body false cs
    else body false (c :: cs)

/-- Decimal digits of a natural number, least significant first; `fuel`
bounds the number of digits. -/
def natDigitsRev : Nat → Nat → List Char
  | 0, _ => []
  | fuel + 1, n =>
    if n < 10 then [Char.ofNat (48 + n)]
    else Char.ofNat (48 + n % 10) :: natDigitsRev fuel (n / 10)

/-- The verb `%d` of `fmt.Sprintf` (also `strconv.Itoa`). -/
def Itoa (z : Int) : String :=
  let ds : List Char := (natDigitsRev (z.natAbs + 1) z.natAbs).reverse
  if z < 0 then ⟨'-' :: ds⟩ else ⟨ds⟩

/-! ## Binary64 floating point -/

/-- A `float64`: not-a-number, an infinity, or the finite value
`(-1)^neg * m * 2^e` in lowest terms (`m` odd, or `m = 0` and `e = 0`). -/
inductive F64 where
  | nan : F64
  | inf (neg : Bool) : F64
  | fin (neg : Bool) (m : Nat) (e : Int) : F64
  deriving DecidableEq, Repr

namespace F64

/-- Number of binary digits of `n`, by halving at most `fuel` times. -/
def bitLenAux : Nat → Nat → Nat
  | 0, _ => 0
  | fuel + 1, n => if n = 0 then 0 else bitLenAux fuel (n / 2) + 1

/-- Number of binary digits of `n` (`0` for `0`). -/
def bitLen (n : Nat) : Nat := bitLenAux n n

/-- The integer `⌊log₂ (n / d)⌋` for positive `n` and `d`. -/
def floorLog2 (n d : Nat) : Int :=
  let k : Int := (bitLen n : Int) - (bitLen d : Int)
  if d * 2 ^ k.toNat ≤ n * 2 ^ (-k).toNat then k else k - 1

/-- The integer nearest to `n / d`, ties going to the even one. -/
def roundHalfEven (n d : Nat) : Nat :=
  let q := n / d
  let r := n % d
  if 2 * r < d then q
  else if d < 2 * r then q + 1
  else if q % 2 = 0 then q else q + 1

/-- Divides `m` by two while it is even, counting the divisions in `e`. -/
def reduce : Nat → Nat → Int → Nat × Int
  | 0, m, e => (m, e)
  | fuel + 1, m, e =>
    if m % 2 = 0 ∧ m ≠ 0 then reduce fuel (m / 2) (e + 1) else (m, e)

/-- The finite value `(-1)^neg * m * 2^e`, brought to lowest terms. -/
def mk (neg : Bool) (m : Nat) (e : Int) : F64 :=
  if m = 0 then fin neg 0 0
  else fin neg (reduce m m e).1 (reduce m m e).2

/-- Rounds the rational `n / d` (with `d > 0`) to binary64, nearest-even:
53 significant bits, least exponent `-1074`, overflow to infinity. -/
def round (neg : Bool) (n d : Nat) : F64 :=
  if n = 0 then fin neg 0 0
  else
    let e : Int := max (floorLog2 n d - 52) (-1074)
    let m := roundHalfEven (n * 2 ^ (-e).toNat) (d * 2 ^ e.toNat)
    if (bitLen m : Int) + e > 1024 then inf neg else mk neg m e

/-- Rounds `(n / d) * b ^ p` for a base `b` and an integer exponent `p`. -/
def roundScaled (neg : Bool) (n d b : Nat) (p : Int) : F64 :=
  round neg (n * b ^ p.toNat) (d * b ^ (-p).toNat)

/-- Go's `x * y` on `float64`. -/
def mul : F64 → F64 → F64
  | nan, _ => nan
  | _, nan => nan
  | inf s, inf t => inf (xor s t)
  | inf s, fin t m _ => if m = 0 then nan else inf (xor s t)
  | fin s m _, inf t => if m = 0 then nan else inf (xor s t)
  | fin s m e, fin t n f => roundScaled (xor s t) (m * n) 1 2 (e + f)

/-- Go's `x / y` on `float64`. -/
def div : F64 → F64 → F64
  | nan, _ => nan
  | _, nan => nan
  | inf _, inf _ => nan
  | inf s, fin t _ _ => inf (xor s t)
  | fin s _ _, inf t => fin (xor s t) 0 0
  | fin s m e, fin t n f =>
    if n = 0 then (if m = 0 then nan else inf (xor s t))
    else roundScaled (xor s t) m n 2 (e - f)

/-- Go's conversion `float64(z)` of an `int`. -/
def ofInt (z : Int) : F64 :=
  round (decide (z < 0)) z.natAbs 1

/-- Go's conversion `int(x)` of a `float64`: truncation towards zero. For a
value outside the `int` range, and for not-a-number, the language leaves the
result to the implementation; this is the amd64 result, `-2^63`. -/
def toInt : F64 → Int
  | nan => -twoPow63
  | inf _ => -twoPow63
  | fin s m e =>
    let a : Nat := m * 2 ^ e.toNat / 2 ^ (-e).toNat
    let v : Int := if s then -(a : Int) else (a : Int)
    if -twoPow63 ≤ v ∧ v < twoPow63 then v else -twoPow63

/-- The magnitude of a `float64` as a rational; an infinity counts as `2^1024`,
the least magnitude that rounds to it. -/
def absRat : F64 → ℚ
  | nan => 0
  | inf _ => 2 ^ (1024 : Int)
  | fin _ m e => (m : ℚ) * 2 ^ e

/-- The exponent that `round` gives to the rounded mantissa. -/
def roundExp (n d : Nat) : Int := max (floorLog2 n d - 52) (-1074)

/-- The mantissa that `round` obtains before the overflow test. -/
def roundMant (n d : Nat) : Nat :=
  roundHalfEven (n * 2 ^ (-(roundExp n d)).toNat) (d * 2 ^ (roundExp n d).toNat)

/-- The sign bit of a `float64` (`false` for not-a-number). -/
def signBit : F64 → Bool
  | nan => false
  | inf s => s
  | fin s _ _ => s

/-- Whether a `float64` is zero or negative. -/
def nonPositive : F64 → Bool
  | nan => false
  | inf s => s
  | fin s m _ => s || m == 0

/-- Go's `x + y` on `float64`: the exact sum, rounded; an exact zero sum is
`+0` unless both operands are `-0`. -/
def add : F64 → F64 → F64
  | nan, _ => nan
  | _, nan => nan
  | inf s, inf t => if s = t then inf s else nan
  | inf s, fin _ _ _ => inf s
  | fin _ _ _, inf t => inf t
  | fin s m e, fin t n f =>
    let g : Int := min e f
    let a : Int := (if s then -1 else 1) * ((m * 2 ^ (e - g).toNat : Nat) : Int)
    let b : Int := (if t then -1 else 1) * ((n * 2 ^ (f - g).toNat : Nat) : Int)
    let c : Int := a + b
    if c = 0 then fin (s && t) 0 0
    else roundScaled (decide (c < 0)) c.natAbs 1 2 g

end F64

/-! ## `strconv.ParseFloat` -/

/-- The value of a hexadecimal digit. -/
def hexVal (c : Char) : Option Nat :=
  if 48 ≤ c.toNat ∧ c.toNat ≤ 57 then some (c.toNat - 48)
  else if 97 ≤ c.toLower.toNat ∧ c.toLower.toNat ≤ 102 then some (c.toLower.toNat - 87)
  else none

/-- The special values of `ParseFloat`: `nan`, and `inf` or `infinity` with an
optional sign, in any letter case. -/
def special (s : List Char) : Option F64 :=
  let low := s.map Char.toLower
  if low = "nan".data then some F64.nan
  else if low = "inf".data ∨ low = "infinity".data then some (F64.inf false)
  else if low = "+inf".data ∨ low = "+infinity".data then some (F64.inf false)
  else if low = "-inf".data ∨ low = "-infinity".data then some (F64.inf true)
  else none

/-- The mantissa being read: the digits as one integer, the number of digits
after the point, and the two flags of `readFloat`. -/
structure Mantissa where
  val : Nat
  frac : Nat
  sawdot : Bool
  sawdigits : Bool
  deriving DecidableEq, Repr

/-- The digit loop of `readFloat`: digits in base 10 or 16, at most one point,
underscores skipped; stops at the first other character. -/
def scanMantissa (hex : Bool) : List Char → Mantissa → Mantissa × List Char
  | [], st => (st, [])
  | c :: cs, st =>
    if c = '_' then scanMantissa hex cs st
    else if c = '.' then
      if st.sawdot then (st, c :: cs)
      else scanMantissa hex cs ⟨st.val, st.frac, true, st.sawdigits⟩
    else
      match (if hex then hexVal c else digitVal c) with
      | some d =>
        scanMantissa hex cs
          ⟨st.val * (if hex then 16 else 10) + d,
           if st.sawdot then st.frac + 1 else st.frac, st.sawdot, true⟩
      | none => (st, c :: cs)

/-- The exponent digits of `readFloat`: underscores skipped, the value no
longer updated once it has reached 10000. -/
def scanExponent : List Char → Nat → Nat × List Char
  | [], e => (e, [])
  | c :: cs, e =>
    if c = '_' then scanExponent cs e
    else
      match digitVal c with
      | some d => scanExponent cs (if e < 10000 then e * 10 + d else e)
      | none => (e, c :: cs)

/-- The optional exponent of `readFloat` (`e` in base 10, a mandatory `p` in
base 16), which has to end the input. -/
def readExponent (hex : Bool) : List Char → Option Int
  | [] => if hex then none else some 0
  | c :: cs =>
    if c.toLower = (if hex then 'p' else 'e') then
      let digits (neg : Bool) (ds : List Char) : Option Int :=
        match ds with
        | [] => none
        | d :: _ =>
          if (digitVal d).isSome then
            match scanExponent ds 0 with
            | (e, []) => some (if neg then -(e : Int) else (e : Int))
            | (_, _ :: _) => none
          else none
      match cs with
      | [] => none
      | x :: xs =>
        if x = '+' then digits false xs
        else if x = '-' then digits true xs
        else digits false (x :: xs)
    else none

/-- The loop of `underscoreOK`; `saw` is `0` after a digit (or the base
prefix), `1` after an underscore, `2` otherwise. -/
def underscoreLoop (hex : Bool) : List Char → Nat → Bool
  | [], saw => saw != 1
  | c :: cs, saw =>
    if (digitVal c).isSome || (hex && (hexVal c).isSome) then underscoreLoop hex cs 0
    else if c = '_' then (if saw != 0 then false else underscoreLoop hex cs 1)
    else if saw == 1 then false
    else underscoreLoop hex cs 2

/-- The function `underscoreOK`: an underscore only between digits, or
between a base prefix and a digit. -/
def underscoreOK (s : List Char) : Bool :=
  let body : List Char :=
    match s with
    | c :: cs => if c = '-' ∨ c = '+' then cs else s
    | [] => s
  match body with
  | a :: b :: rest =>
    if a = '0' ∧ (b.toLower = 'b' ∨ b.toLower = 'o' ∨ b.toLower = 'x') then
      underscoreLoop (b.toLower = 'x') rest 0
    else underscoreLoop false body 2
  | _ => underscoreLoop false body 2

/-- The range error of `ParseFloat`: a value that rounds to an infinity is an
error. -/
def rangeChecked (v : F64) : Option F64 :=
  match v with
  | F64.inf _ => none
  | _ => some v

/-- The test of `readFloat` for a base prefix: `0x` or `0X` followed by at
least one more character. -/
def hasHexPrefix (body : List Char) : Bool :=
  match body with
  | a :: b :: _ :: _ => a = '0' ∧ b.toLower = 'x'
  | _ => false

/-- The number proper of `ParseFloat`, after the sign: the rounded value,
`none` on a syntax error or when the value overflows. -/
def parseNumber (neg : Bool) (whole body : List Char) : Option F64 :=
  let hex : Bool := hasHexPrefix body
  match scanMantissa hex (if hex then body.drop 2 else body) ⟨0, 0, false, false⟩ with
  | (st, rest) =>
    if st.sawdigits then
      match readExponent hex rest with
      | none => none
      | some ex =>
        if underscoreOK whole then
          rangeChecked
            (if hex then F64.roundScaled neg st.val 1 2 (ex - 4 * (st.frac : Int))
             else F64.roundScaled neg st.val 1 10 (ex - (st.frac : Int)))
        else none
    else none

/-- The function `strconv.ParseFloat(s, 64)`: the whole of `s` has to be a
decimal or hexadecimal floating-point literal (optionally signed) or a special
value; the result is the nearest `float64`, an overflow being an error. -/
def ParseFloat (s : String) : Option F64 :=
  match special s.data with
  | some v => some v
  | none =>
    match s.data with
    | [] => none
    | c :: cs =>
      if c = '+' then parseNumber false s.data cs
      else if c = '-' then parseNumber true s.data cs
      else parseNumber false s.data (c :: cs)

/-! ## Paths (package `path/filepath`, Unix) and title case -/

/-- The component walk of `filepath.Clean`: empty and `.` components are
dropped, `..` removes the component before it (at the root it is dropped, at
the start of a relative path it is kept). `stack` is in reverse order. -/
def cleanComponents (rooted : Bool) : List (List Char) → List (List Char) → List (List Char)
  | stack, [] => stack.reverse
  | stack, c :: cs =>
    if c = [] ∨ c = ['.'] then cleanComponents rooted stack cs
    else if c = ['.', '.'] then
      match stack with
      | top :: rest =>
        if top = ['.', '.'] then cleanComponents rooted (c :: stack) cs
        else cleanComponents rooted rest cs
      | [] => if rooted then cleanComponents rooted [] cs else cleanComponents rooted [c] cs
    else cleanComponents rooted (c :: stack) cs

/-- The function `filepath.Clean` with separator `/`. -/
def Clean (path : String) : String :=
  let rooted : Bool := path.data.head? = some '/'
  let body : List Char :=
    List.intercalate ['/'] (cleanComponents rooted [] (splitOnChar '/' path.data))
  if rooted then ⟨'/' :: body⟩
  else if body = [] then "."
  else ⟨body⟩

/-- The function `filepath.Join`: the elements from the first non-empty one
on, joined by `/` and cleaned; the empty string when all are empty. -/
def Join (elem : List String) : String :=
  match elem.dropWhile (fun e => e = "") with
  | [] => ""
  | es => Clean ⟨List.intercalate ['/'] (es.map String.data)⟩

/-- Whether a character continues a word for title casing. -/
def isWordChar (c : Char) : Bool :=
  c.isAlphanum || c = '_' || c.toNat = 39

/-- The walk of `Title` over an ASCII string: `inWord` tells whether the
previous character belongs to the current word. -/
def titleLoop : List Char → Bool → List Char
  | [], _ => []
  | c :: cs, inWord =>
    (if inWord then c.toLower else c.toUpper) :: titleLoop cs (isWordChar c)

/-- Modelled from the spec: the caser `cases.Title(language.English)` of
`golang.org/x/text`, which is outside the repository. On an ASCII string the
first letter of every word is put in upper case and the other letters in
lower case; on a string with a rune above ASCII the result is that of the
case tables. -/
def Title [CaseTables] (s : String) : String :=
  if isASCII s then ⟨titleLoop s.data false⟩ else CaseTables.title s

/-- A lower-case table for the examples: the Unicode lower cases of `U+00C9`,
`U+0130` and `U+212A`; the other runes are left as they are. -/
def sampleLower (c : Char) : Char :=
  if c.toNat = 0xC9 then Char.ofNat 0xE9
  else if c.toNat = 0x130 then 'i'
  else if c.toNat = 0x212A then 'k'
  else c

/-- An upper-case table for the examples: the Unicode upper cases of `U+00E9`,
`U+0131` and `U+017F`; the other runes are left as they are. -/
def sampleUpper (c : Char) : Char :=
  if c.toNat = 0xE9 then Char.ofNat 0xC9
  else if c.toNat = 0x131 then 'I'
  else if c.toNat = 0x17F then 'S'
  else c

/-- A title walk for the examples, with the two tables above. -/
def sampleTitleLoop : List Char → Bool → List Char
  | [], _ => []
  | c :: cs, inWord =>
    (if inWord then (if c.toNat ≤ 127 then c.toLower else sampleLower c)
      else (if c.toNat ≤ 127 then c.toUpper else sampleUpper c)) ::
      sampleTitleLoop cs (isWordChar c || decide (128 ≤ c.toNat))

/-- The case tables of the examples. An example evaluates them on ASCII
strings, where they are never consulted, and on the runes listed above. -/
instance sampleTables : CaseTables where
  lower := sampleLower
  upper := sampleUpper
  title := fun s => ⟨sampleTitleLoop s.data false⟩
  lower_ascii := by
    intro c h1 h2
    have e1 : (Char.ofNat 0xE9).toNat = 233 := by decide
    have e2 : ('i' : Char).toNat = 105 := by decide
    have e3 : ('k' : Char).toNat = 107 := by decide
    unfold sampleLower at h2 ⊢
    split_ifs at h2 ⊢
    · omega
    · omega
    · omega
    · omega

/-! ## Vocabulary on numerals -/

/-- Whether a character is a decimal digit. -/
def isDigitChar (c : Char) : Bool := 48 ≤ c.toNat && c.toNat ≤ 57

/-- The number that a run of decimal digits denotes when appended to the
number `acc`. -/
def digitsFrom (acc : Nat) (ds : List Char) : Nat :=
  ds.foldl (fun a c => a * 10 + (c.toNat - 48)) acc

/-- The characters of an unsigned decimal numeral: the digits `ip`, followed
by a point and the digits `fp` unless `fp` is empty. -/
def numeralChars (ip fp : List Char) : List Char :=
  if fp = [] then ip else ip ++ '.' :: fp

/-! ## Vocabulary on paths -/

/-- A path component that `Clean` keeps as it is: not empty, without a
separator, and neither `.` nor `..`. -/
def normalComp (t : List Char) : Prop :=
  t ≠ [] ∧ (∀ x ∈ t, x ≠ '/') ∧ t ≠ ['.'] ∧ t ≠ ['.', '.']

/-- The components that `Join` and `Clean` leave of a base directory, as
`strings.Split` by `/` sees them in the result: an empty first component for a
rooted path, then the cleaned components. -/
def pathPrefix (base : String) : List (List Char) :=
  (if base.data.head? = some '/' then [[]] else []) ++
    cleanComponents (base.data.head? = some '/') [] (splitOnChar '/' base.data)

/-- A list of characters without the character `c`. -/
def freeOf (c : Char) (l : List Char) : Prop := ∀ x ∈ l, x ≠ c

/-- The function `filepath.Dir` with separator `/`: the path up to and
including its last separator, cleaned. -/
def Dir (path : String) : String :=
  Clean ⟨dropWhileEnd (fun c => c != '/') path.data⟩

/-- The function `filepath.Base` with separator `/`: the last element of the
path, after the trailing separators are removed; `.` for the empty path and
`/` for a path of separators only. -/
def Base (path : String) : String :=
  if path = "" then "."
  else
    let stripped := dropWhileEnd (fun c => c == '/') path.data
    let last := (stripped.reverse.takeWhile (fun c => c != '/')).reverse
    if last = [] then "/" else ⟨last⟩

/-- The function `strings.Join`. -/
def stringsJoin (elems : List String) (sep : String) : String :=
  ⟨List.intercalate sep.data (elems.map String.data)⟩

/-! ## `time` -/

/-- A `time.Time`, as the number of nanoseconds since the zero `Time`. -/
structure Time where
  nanos : Int
  deriving DecidableEq, Repr

/-- The method `Time.IsZero`. -/
def Time.IsZero (t : Time) : Bool :=
  decide (t.nanos = 0)

/-- The method `Time.Sub`: the difference `t - u` as a `Duration` (an `int64` of
nanoseconds), which saturates at the smallest and the largest `Duration`. -/
def Time.Sub (t u : Time) : Int :=
  let d := t.nanos - u.nanos
  if d < -twoPow63 then -twoPow63
  else if twoPow63 ≤ d then twoPow63 - 1
  else d

/-- The method `Duration.Seconds`:
`sec := d / Second; nsec := d % Second; float64(sec) + float64(nsec)/1e9`. -/
def Seconds (d : Int) : F64 :=
  let sec := d.tdiv 1000000000
  let nsec := d.tmod 1000000000
  F64.add (F64.ofInt sec) (F64.div (F64.ofInt nsec) (F64.ofInt 1000000000))

end Go

namespace config

open Go

/-! ## `config.go`: the ratio model -/

/-- The struct `RatioInfo`. -/
structure RatioInfo where
  Ratio : String
  Width : Int
  Height : Int
  Decimal : F64
  IsDecimal : Bool
  DisplayName : String
  deriving DecidableEq, Repr

/-- The function `ParseRatio` of `config.go`. -/
def ParseRatio (ratio0 : String) : Except String RatioInfo :=
  let ratio := TrimSpace ratio0
  match Split ratio ':' with
  | [p0, p1] =>
    let widthStr := TrimSpace p0
    let heightStr := TrimSpace p1
    let isDecimal := Contains widthStr '.' || Contains heightStr '.'
    let finish (width height : Int) (decimal : F64) : Except String RatioInfo :=
      if width ≤ 0 ∨ height ≤ 0 then
        .error ("ratio dimensions must be positive: " ++ ratio)
      else
        let displayName := ReplaceAll ratio ':' "-"
        let displayName := ReplaceAll displayName '.' "_"
        let displayName := ReplaceAll displayName ' ' ""
        .ok ⟨ratio, width, height, decimal, isDecimal, displayName⟩
    if isDecimal then
      match ParseFloat widthStr with
      | none => .error ("invalid ratio width: " ++ widthStr)
      | some w =>
        match ParseFloat heightStr with
        | none => .error ("invalid ratio height: " ++ heightStr)
        | some h =>
          finish (F64.toInt (F64.mul w (F64.ofInt 100)))
            (F64.toInt (F64.mul h (F64.ofInt 100))) (F64.div w h)
    else
      match Atoi widthStr with
      | none => .error ("invalid ratio width: " ++ widthStr)
      | some w =>
        match Atoi heightStr with
        | none => .error ("invalid ratio height: " ++ heightStr)
        | some h => finish w h (F64.div (F64.ofInt w) (F64.ofInt h))
  | _ => .error ("invalid ratio format: " ++ ratio ++ " (expected W:H)")

/-- The function `CalculateDimensions` of `config.go`. -/
def CalculateDimensions (ratioInfo : RatioInfo) (baseSize : Int) : Int × Int :=
  let wh : Int × Int :=
    if ratioInfo.Height > ratioInfo.Width then
      (F64.toInt (F64.div (F64.mul (F64.ofInt baseSize) (F64.ofInt ratioInfo.Width))
        (F64.ofInt ratioInfo.Height)), baseSize)
    else
      (baseSize, F64.toInt (F64.div (F64.mul (F64.ofInt baseSize) (F64.ofInt ratioInfo.Height))
        (F64.ofInt ratioInfo.Width)))
  let width := if wh.1 < 1 then 1 else wh.1
  let height := if wh.2 < 1 then 1 else wh.2
  (width, height)

/-! ## `config.go`: the configuration -/

/-- The struct `Preset`. -/
structure Preset where
  Description : String
  Ratios : List String
  deriving DecidableEq, Repr

/-- The struct `SizeConfig`. -/
structure SizeConfig where
  Description : String
  BaseSizes : List Int
  deriving DecidableEq, Repr

/-- The struct `Format`. -/
structure Format where
  Qualities : List Int
  MimeType : String
  Extension : String
  deriving DecidableEq, Repr

/-- The struct `Target`. -/
structure Target where
  Platform : String
  Dimensions : List Int
  Ratio : String
  Description : String
  deriving DecidableEq, Repr

/-- The struct `EdgeCase`. -/
structure EdgeCase where
  Name : String
  Dimensions : List Int
  Description : String
  deriving DecidableEq, Repr

/-- The struct `Config`; each map is the list of its entries in the order of
iteration. -/
structure Config where
  Version : String
  Presets : List (String × Preset)
  Sizes : List (String × SizeConfig)
  Formats : List (String × Format)
  Targets : List (String × Target)
  EdgeCases : List EdgeCase
  deriving DecidableEq, Repr

/-- The inner loop of `Validate` over the ratios of one preset. -/
def validateRatios (presetName : String) : List String → Except String Unit
  | [] => .ok ()
  | ratio :: rest =>
    match ParseRatio ratio with
    | .error err =>
      .error ("invalid ratio " ++ ratio ++ " in preset " ++ presetName ++ ": " ++ err)
    | .ok _ => validateRatios presetName rest

/-- The loop of `Validate` over the presets. -/
def validatePresets : List (String × Preset) → Except String Unit
  | [] => .ok ()
  | (presetName, preset) :: rest =>
    match validateRatios presetName preset.Ratios with
    | .error err => .error err
    | .ok _ => validatePresets rest

/-- The two checks that `Validate` makes on a list of dimensions; `what` is
the prefix of the message (`target NAME` or `edge case NAME`). -/
def validateDimensions (what : String) (dims : List Int) : Except String Unit :=
  match dims with
  | [d0, d1] =>
    if d0 ≤ 0 ∨ d1 ≤ 0 then .error (what ++ " dimensions must be positive")
    else .ok ()
  | _ => .error (what ++ " must have exactly 2 dimensions")

/-- The loop of `Validate` over the targets. -/
def validateTargets : List (String × Target) → Except String Unit
  | [] => .ok ()
  | (targetName, target) :: rest =>
    match validateDimensions ("target " ++ targetName) target.Dimensions with
    | .error err => .error err
    | .ok _ => validateTargets rest

/-- The loop of `Validate` over the edge cases. -/
def validateEdgeCases : List EdgeCase → Except String Unit
  | [] => .ok ()
  | edgeCase :: rest =>
    match validateDimensions ("edge case " ++ edgeCase.Name) edgeCase.Dimensions with
    | .error err => .error err
    | .ok _ => validateEdgeCases rest

/-- The method `Config.Validate`. -/
def Config.Validate (c : Config) : Except String Unit :=
  if c.Version = "" then .error "version is required"
  else if c.Presets.length = 0 then .error "at least one preset is required"
  else if c.Sizes.length = 0 then .error "at least one size category is required"
  else if c.Formats.length = 0 then .error "at least one format is required"
  else
    match validatePresets c.Presets with
    | .error err => .error err
    | .ok _ =>
      match validateTargets c.Targets with
      | .error err => .error err
      | .ok _ => validateEdgeCases c.EdgeCases

/-- The method `Config.GetCategoryForRatio`: the first preset, in iteration
order, whose ratio list holds the string; `edge` when there is none. -/
def Config.GetCategoryForRatio (c : Config) (ratio : String) : String :=
  match c.Presets.find? (fun p => p.2.Ratios.contains ratio) with
  | some p => p.1
  | none => "edge"

/-! ## `filters.go` -/

/-- The struct `Filters`. -/
structure Filters where
  Ratios : List String
  Sizes : List String
  Formats : List String
  deriving DecidableEq, Repr

/-- The function `normalizeStrings`: entries trimmed, empty ones dropped, the
others put in lower case. -/
def normalizeStrings [CaseTables] (strs : List String) : List String :=
  (strs.map TrimSpace).filterMap (fun s => if s = "" then none else some (ToLower s))

/-- The function `NewFilters`. -/
def NewFilters [CaseTables] (ratios sizes formats : List String) : Filters :=
  ⟨normalizeStrings ratios, normalizeStrings sizes, normalizeStrings formats⟩

/-- The membership test shared by the three `ShouldInclude` methods. -/
def shouldInclude [CaseTables] (allowed : List String) (name : String) : Bool :=
  if allowed.length = 0 then true
  else allowed.any (fun r => ToLower r = ToLower name)

/-- The method `Filters.ShouldIncludeRatioCategory`. -/
def Filters.ShouldIncludeRatioCategory [CaseTables] (f : Filters) (category : String) : Bool :=
  shouldInclude f.Ratios category

/-- The method `Filters.ShouldIncludeSizeCategory`. -/
def Filters.ShouldIncludeSizeCategory [CaseTables] (f : Filters) (category : String) : Bool :=
  shouldInclude f.Sizes category

/-- The method `Filters.ShouldIncludeFormat`. -/
def Filters.ShouldIncludeFormat [CaseTables] (f : Filters) (format : String) : Bool :=
  shouldInclude f.Formats format

/-- The inner loop of `Filters.Validate`: whether some key, put in lower case,
is `value`. -/
def foundKey [CaseTables] (value : String) : List String → Bool
  | [] => false
  | key :: rest => if ToLower key = value then true else foundKey value rest

/-- One of the three loops of `Filters.Validate` over the entries of a filter
list; `what` is the prefix of the message. -/
def validateEntries [CaseTables]
    (what : String) (keys : List String) : List String → Except String Unit
  | [] => .ok ()
  | entry :: rest =>
    let value := ToLower entry
    if foundKey value keys then validateEntries what keys rest
    else .error (what ++ value)

/-- The method `Filters.Validate`. -/
def Filters.Validate [CaseTables] (f : Filters) (cfg : Config) : Except String Unit :=
  match validateEntries "unknown ratio category: " (cfg.Presets.map (fun p => p.1)) f.Ratios with
  | .error err => .error err
  | .ok _ =>
    match validateEntries "unknown size category: " (cfg.Sizes.map (fun s => s.1)) f.Sizes with
    | .error err => .error err
    | .ok _ => validateEntries "unknown format: " (cfg.Formats.map (fun x => x.1)) f.Formats

end config

namespace generator

open Go

/-- The struct `ImageSpec` of `generator.go`. -/
structure ImageSpec where
  Width : Int
  Height : Int
  Ratio : String
  RatioDecimal : F64
  Format : String
  Quality : Int
  SizeCategory : String
  Category : String
  OutputPath : String
  Filename : String
  deriving DecidableEq, Repr

end generator

namespace config

open Go generator

/-! ## `builder.go` -/

/-- The struct `SpecBuilder`. -/
structure SpecBuilder where
  Config : Config
  Filters : Filters
  BaseDir : String
  deriving DecidableEq, Repr

/-- How a call of the builder fails: with a returned `error`, or with a
run-time panic (an index out of range). -/
inductive Failure where
  | error (msg : String) : Failure
  | panic (msg : String) : Failure
  deriving DecidableEq, Repr

/-- The result of adding 64-bit integers: the representative in the `int`
range. -/
def wrap64 (z : Int) : Int :=
  (z + twoPow63) % (2 * twoPow63) - twoPow63

/-- The function `abs` of `builder.go`. -/
def abs (x : Int) : Int :=
  if x < 0 then wrap64 (-x) else x

/-- The loop of `gcd`, run at most `fuel` times. -/
def gcdLoop : Nat → Int → Int → Int
  | 0, a, _ => a
  | fuel + 1, a, b => if b ≠ 0 then gcdLoop fuel b (a.tmod b) else a

/-- The function `gcd` of `builder.go`; the loop strictly decreases the
absolute value of `b`, so `|b|` rounds are enough. -/
def gcd (a b : Int) : Int :=
  gcdLoop b.natAbs a b

/-- The method `getSizeCategoryForDimension`. -/
def getSizeCategoryForDimension (dim : Int) : String :=
  if dim ≤ 200 then "tiny"
  else if dim ≤ 800 then "small"
  else if dim ≤ 1500 then "medium"
  else if dim ≤ 3000 then "large"
  else "xlarge"

/-- The file name pattern `%s_%dx%d_%s_q%d%s` shared by the three sweeps. -/
def fileName [CaseTables] (label : String) (width height : Int) (formatName : String)
    (quality : Int) (extension : String) : String :=
  label ++ "_" ++ Itoa width ++ "x" ++ Itoa height ++ "_" ++ ToLower formatName ++
    "_q" ++ Itoa quality ++ extension

/-- The body of the format loop of `buildRatioSpecs`, for one format. -/
def ratioFormatSpecs [CaseTables]
    (b : SpecBuilder) (presetName ratioStr : String) (ratioInfo : RatioInfo)
    (sizeName : String) (width height : Int) (entry : String × Format) : List ImageSpec :=
  if !b.Filters.ShouldIncludeFormat entry.1 then []
  else
    match entry.2.Qualities with
    | [] => []
    | quality :: _ =>
      let filename := fileName (ToLower sizeName) width height entry.1 quality entry.2.Extension
      let outputPath := Join [b.BaseDir, "ratios", ratioInfo.DisplayName, filename]
      [⟨width, height, ratioStr, ratioInfo.Decimal, ToUpper entry.1, quality,
        Title sizeName, presetName, outputPath, filename⟩]

/-- The body of the size loop of `buildRatioSpecs`, for one size category. -/
def ratioSizeSpecs [CaseTables]
    (b : SpecBuilder) (presetName ratioStr : String) (ratioInfo : RatioInfo)
    (entry : String × SizeConfig) : List ImageSpec :=
  if !b.Filters.ShouldIncludeSizeCategory entry.1 then []
  else
    match entry.2.BaseSizes with
    | [] => []
    | baseSize :: _ =>
      let wh := CalculateDimensions ratioInfo baseSize
      b.Config.Formats.flatMap
        (ratioFormatSpecs b presetName ratioStr ratioInfo entry.1 wh.1 wh.2)

/-- The jobs that `buildRatioSpecs` appends for one parsed ratio. -/
def ratioSpecs [CaseTables]
    (b : SpecBuilder) (presetName ratioStr : String) (ratioInfo : RatioInfo) :
    List ImageSpec :=
  b.Config.Sizes.flatMap (ratioSizeSpecs b presetName ratioStr ratioInfo)

/-- The loop of `buildRatioSpecs` over the ratios of one preset. -/
def buildPresetSpecs [CaseTables] (b : SpecBuilder) (presetName : String) :
    List String → Except Failure (List ImageSpec)
  | [] => .ok []
  | ratioStr :: rest =>
    match ParseRatio ratioStr with
    | .error err => .error (.error ("invalid ratio " ++ ratioStr ++ ": " ++ err))
    | .ok ratioInfo =>
      match buildPresetSpecs b presetName rest with
      | .error e => .error e
      | .ok specs => .ok (ratioSpecs b presetName ratioStr ratioInfo ++ specs)

/-- The loop of `buildRatioSpecs` over the presets. -/
def buildRatioLoop [CaseTables]
    (b : SpecBuilder) : List (String × Preset) → Except Failure (List ImageSpec)
  | [] => .ok []
  | (presetName, preset) :: rest =>
    if !b.Filters.ShouldIncludeRatioCategory presetName then buildRatioLoop b rest
    else
      match buildPresetSpecs b presetName preset.Ratios with
      | .error e => .error e
      | .ok specs =>
        match buildRatioLoop b rest with
        | .error e => .error e
        | .ok more => .ok (specs ++ more)

/-- The method `SpecBuilder.buildRatioSpecs`. -/
def SpecBuilder.buildRatioSpecs [CaseTables] (b : SpecBuilder) : Except Failure (List ImageSpec) :=
  buildRatioLoop b b.Config.Presets

/-- The quality that `buildTargetSpecs` picks for a format: 85 when the list
is empty, otherwise the first entry, replaced along the list by every entry
strictly closer to 85. -/
def targetQuality (qualities : List Int) : Int :=
  match qualities with
  | [] => 85
  | q0 :: _ =>
    qualities.foldl
      (fun quality q => if abs (wrap64 (q - 85)) < abs (wrap64 (quality - 85)) then q else quality)
      q0

/-- The body of the format loop of `buildTargetSpecs`, for one format. -/
def targetFormatSpecs [CaseTables] (b : SpecBuilder) (targetName : String) (target : Target)
    (ratioInfo : RatioInfo) (category sizeCategory : String) (width height : Int)
    (entry : String × Format) : List ImageSpec :=
  if !b.Filters.ShouldIncludeFormat entry.1 then []
  else
    let quality := targetQuality entry.2.Qualities
    let filename := fileName targetName width height entry.1 quality entry.2.Extension
    let outputPath := Join [b.BaseDir, "targets", filename]
    [⟨width, height, target.Ratio, ratioInfo.Decimal, ToUpper entry.1, quality,
      Title sizeCategory, category, outputPath, filename⟩]

/-- The body of the loop of `buildTargetSpecs`, for one target. -/
def targetSpecs [CaseTables] (b : SpecBuilder) (targetName : String) (target : Target) :
    Except Failure (List ImageSpec) :=
  match ParseRatio target.Ratio with
  | .error err =>
    .error (.error ("invalid ratio " ++ target.Ratio ++ " for target " ++ targetName ++
      ": " ++ err))
  | .ok ratioInfo =>
    let category := b.Config.GetCategoryForRatio target.Ratio
    if !b.Filters.ShouldIncludeRatioCategory category then .ok []
    else
      match target.Dimensions with
      | [] => .error (.panic "index out of range [0] with length 0")
      | [_] => .error (.panic "index out of range [1] with length 1")
      | width :: height :: _ =>
        let maxDim := if height > width then height else width
        let sizeCategory := getSizeCategoryForDimension maxDim
        if !b.Filters.ShouldIncludeSizeCategory sizeCategory then .ok []
        else
          .ok (b.Config.Formats.flatMap
            (targetFormatSpecs b targetName target ratioInfo category sizeCategory width height))

/-- The loop of `buildTargetSpecs` over the targets. -/
def buildTargetLoop [CaseTables]
    (b : SpecBuilder) : List (String × Target) → Except Failure (List ImageSpec)
  | [] => .ok []
  | (targetName, target) :: rest =>
    match targetSpecs b targetName target with
    | .error e => .error e
    | .ok specs =>
      match buildTargetLoop b rest with
      | .error e => .error e
      | .ok more => .ok (specs ++ more)

/-- The method `SpecBuilder.buildTargetSpecs`. -/
def SpecBuilder.buildTargetSpecs [CaseTables] (b : SpecBuilder) : Except Failure (List ImageSpec) :=
  buildTargetLoop b b.Config.Targets

/-- The body of the format loop of `buildEdgeCaseSpecs`, for one format. -/
def edgeFormatSpecs [CaseTables] (b : SpecBuilder) (edgeCase : EdgeCase) (ratioStr : String)
    (ratioDecimal : F64) (category sizeCategory : String) (width height : Int)
    (entry : String × Format) : List ImageSpec :=
  if !b.Filters.ShouldIncludeFormat entry.1 then []
  else
    match entry.2.Qualities with
    | [] => []
    | quality :: _ =>
      let filename := fileName edgeCase.Name width height entry.1 quality entry.2.Extension
      let outputPath := Join [b.BaseDir, "edge-cases", filename]
      [⟨width, height, ratioStr, ratioDecimal, ToUpper entry.1, quality,
        Title sizeCategory, category, outputPath, filename⟩]

/-- The ratio string of an edge case: `W:H`, divided through by the greatest
common divisor when that exceeds one. -/
def edgeRatioStr (width height : Int) : String :=
  let g := gcd width height
  if g > 1 then Itoa (width.tdiv g) ++ ":" ++ Itoa (height.tdiv g)
  else Itoa width ++ ":" ++ Itoa height

/-- The body of the loop of `buildEdgeCaseSpecs`, for one edge case. -/
def edgeCaseSpecs [CaseTables]
    (b : SpecBuilder) (edgeCase : EdgeCase) : Except Failure (List ImageSpec) :=
  match edgeCase.Dimensions with
  | [] => .error (.panic "index out of range [0] with length 0")
  | [_] => .error (.panic "index out of range [1] with length 1")
  | width :: height :: _ =>
    let ratioDecimal := F64.div (F64.ofInt width) (F64.ofInt height)
    let ratioStr := edgeRatioStr width height
    let category := "edge"
    if !b.Filters.ShouldIncludeRatioCategory category then .ok []
    else
      let maxDim := if height > width then height else width
      let sizeCategory := getSizeCategoryForDimension maxDim
      if !b.Filters.ShouldIncludeSizeCategory sizeCategory then .ok []
      else
        .ok (b.Config.Formats.flatMap
          (edgeFormatSpecs b edgeCase ratioStr ratioDecimal category sizeCategory width height))

/-- The loop of `buildEdgeCaseSpecs` over the edge cases. -/
def buildEdgeCaseLoop [CaseTables]
    (b : SpecBuilder) : List EdgeCase → Except Failure (List ImageSpec)
  | [] => .ok []
  | edgeCase :: rest =>
    match edgeCaseSpecs b edgeCase with
    | .error e => .error e
    | .ok specs =>
      match buildEdgeCaseLoop b rest with
      | .error e => .error e
      | .ok more => .ok (specs ++ more)

/-- The method `SpecBuilder.buildEdgeCaseSpecs`. -/
def SpecBuilder.buildEdgeCaseSpecs [CaseTables]
    (b : SpecBuilder) : Except Failure (List ImageSpec) :=
  buildEdgeCaseLoop b b.Config.EdgeCases

/-- The wrapping `fmt.Errorf(prefix + ": %w", err)` of a returned error; a
panic is not caught. -/
def wrapError (pre : String) : Failure → Failure
  | .error msg => .error (pre ++ ": " ++ msg)
  | .panic msg => .panic msg

/-- The method `SpecBuilder.BuildSpecs`. -/
def SpecBuilder.BuildSpecs [CaseTables] (b : SpecBuilder) : Except Failure (List ImageSpec) :=
  match b.buildRatioSpecs with
  | .error e => .error (wrapError "failed to build ratio specs" e)
  | .ok ratioSpecs =>
    match b.buildTargetSpecs with
    | .error e => .error (wrapError "failed to build target specs" e)
    | .ok targetSpecs =>
      match b.buildEdgeCaseSpecs with
      | .error e => .error (wrapError "failed to build edge case specs" e)
      | .ok edgeSpecs => .ok (ratioSpecs ++ targetSpecs ++ edgeSpecs)

end config

namespace config

open Go generator

/-! ## Vocabulary of the statements -/

/-- Whether a result is an error. -/
def failed {ε α : Type} (r : Except ε α) : Bool :=
  match r with
  | .error _ => true
  | .ok _ => false

/-- Exactly two dimensions, both positive. -/
def goodDimensions (dims : List Int) : Prop :=
  ∃ d0 d1 : Int, dims = [d0, d1] ∧ 0 < d0 ∧ 0 < d1

/-- The display token of a trimmed ratio string. -/
def displayToken (ratio : String) : String :=
  ReplaceAll (ReplaceAll (ReplaceAll ratio ':' "-") '.' "_") ' ' ""

/-- A configuration that is valid except for the ratio string of its one
platform target. -/
def badTargetRatioConfig : Config :=
  { Version := "1.0.0",
    Presets := [("test", ⟨"", ["1:1"]⟩)],
    Sizes := [("test", ⟨"", [100]⟩)],
    Formats := [("jpeg", ⟨[85], "image/jpeg", ".jpg"⟩)],
    Targets := [("bad", ⟨"web", [100, 100], "oops", ""⟩)],
    EdgeCases := [] }

/-- A component is numeric when `strconv` reads it, as an integer or as a
floating-point number. -/
def Numeric (s : String) : Prop :=
  (Atoi s).isSome = true ∨ (ParseFloat s).isSome = true

/-- A component that `strconv` reads as zero or as a negative number. -/
def ZeroOrNegative (s : String) : Prop :=
  (∃ z, Atoi s = some z ∧ z ≤ 0) ∨ (∃ v, ParseFloat s = some v ∧ F64.nonPositive v = true)

/-- The string `s` is an unsigned decimal numeral with integer digits `ip`
and fraction digits `fp`: one or more digits, followed by a point and one or
more digits unless `fp` is empty. -/
structure IsNumeral (s : String) (ip fp : List Char) : Prop where
  chars : s.data = numeralChars ip fp
  nonempty : ip ≠ []
  digits : ∀ c ∈ ip ++ fp, isDigitChar c = true

/-- The value of the numeral lies between 0.01 and 10^16. -/
def InScaledRange (ip fp : List Char) : Prop :=
  10 ^ fp.length ≤ 100 * digitsFrom 0 (ip ++ fp) ∧
    digitsFrom 0 (ip ++ fp) ≤ 10 ^ 16 * 10 ^ fp.length

/-- The shape shared by the loops of the builder: the lists that `f` returns
are appended in order, and the first failure ends the loop. -/
def collectSpecs {α : Type} (f : α → Except Failure (List ImageSpec)) :
    List α → Except Failure (List ImageSpec)
  | [] => .ok []
  | x :: xs =>
    match f x with
    | .error e => .error e
    | .ok specs =>
      match collectSpecs f xs with
      | .error e => .error e
      | .ok more => .ok (specs ++ more)

/-- The list that a result holds; empty for a failure. -/
def okList (r : Except Failure (List ImageSpec)) : List ImageSpec :=
  match r with
  | .ok l => l
  | .error _ => []

/-- The step of the loop of `buildRatioSpecs` over the ratios of a preset. -/
def ratioStep [CaseTables] (b : SpecBuilder) (presetName : String) (ratioStr : String) :
    Except Failure (List ImageSpec) :=
  match ParseRatio ratioStr with
  | .error err => .error (.error ("invalid ratio " ++ ratioStr ++ ": " ++ err))
  | .ok ratioInfo => .ok (ratioSpecs b presetName ratioStr ratioInfo)

/-- The step of the loop of `buildRatioSpecs` over the presets. -/
def presetStep [CaseTables]
    (b : SpecBuilder) (entry : String × Preset) : Except Failure (List ImageSpec) :=
  if !b.Filters.ShouldIncludeRatioCategory entry.1 then .ok []
  else collectSpecs (ratioStep b entry.1) entry.2.Ratios

/-- A configuration with an unparsable ratio string in the preset `broken`. -/
def filteredBadRatioConfig : Config :=
  { Version := "1.0.0",
    Presets := [("broken", ⟨"", ["bad"]⟩), ("good", ⟨"", ["1:1"]⟩)],
    Sizes := [("small", ⟨"", [100]⟩)],
    Formats := [("jpeg", ⟨[85], "image/jpeg", ".jpg"⟩)],
    Targets := [],
    EdgeCases := [] }

/-- The jobs of one target with parsed ratio and dimensions `w` and `h`. -/
def targetJobs [CaseTables] (b : SpecBuilder) (targetName : String) (target : Target)
    (ratioInfo : RatioInfo) (w h : Int) : List ImageSpec :=
  if !b.Filters.ShouldIncludeRatioCategory (b.Config.GetCategoryForRatio target.Ratio) then []
  else if !b.Filters.ShouldIncludeSizeCategory
      (getSizeCategoryForDimension (if h > w then h else w)) then []
  else
    b.Config.Formats.flatMap
      (targetFormatSpecs b targetName target ratioInfo
        (b.Config.GetCategoryForRatio target.Ratio)
        (getSizeCategoryForDimension (if h > w then h else w)) w h)

/-- The jobs of one edge case with dimensions `w` and `h`. -/
def edgeJobs [CaseTables] (b : SpecBuilder) (edgeCase : EdgeCase) (w h : Int) : List ImageSpec :=
  if !b.Filters.ShouldIncludeRatioCategory "edge" then []
  else if !b.Filters.ShouldIncludeSizeCategory
      (getSizeCategoryForDimension (if h > w then h else w)) then []
  else
    b.Config.Formats.flatMap
      (edgeFormatSpecs b edgeCase (edgeRatioStr w h) (F64.div (F64.ofInt w) (F64.ofInt h))
        "edge" (getSizeCategoryForDimension (if h > w then h else w)) w h)

/-- The total number of ratio strings over all presets. -/
def ratioCount (c : Config) : Nat :=
  (c.Presets.map (fun p => p.2.Ratios.length)).sum

/-- The number of size categories that list at least one base size. -/
def sizesWithBase (c : Config) : Nat :=
  (c.Sizes.filter (fun s => !s.2.BaseSizes.isEmpty)).length

/-- The number of formats that list at least one quality. -/
def formatsWithQuality (c : Config) : Nat :=
  (c.Formats.filter (fun f => !f.2.Qualities.isEmpty)).length

/-- The filters that restrict nothing. -/
def noFilters : Filters := ⟨[], [], []⟩

/-- A configuration whose ratio strings all parse and whose format `png`
lists no quality. -/
def emptyQualityConfig : Config :=
  { Version := "1.0.0",
    Presets := [("test", ⟨"", ["1:1"]⟩)],
    Sizes := [("small", ⟨"", [100]⟩)],
    Formats := [("jpeg", ⟨[85], "image/jpeg", ".jpg"⟩), ("png", ⟨[], "image/png", ".png"⟩)],
    Targets := [],
    EdgeCases := [] }

/-- Two listings of one configuration: the maps hold the same entries, visited
in a possibly different order; the version and the edge-case slice agree. -/
def sameMaps (c1 c2 : Config) : Prop :=
  c1.Version = c2.Version ∧ c1.Presets.Perm c2.Presets ∧ c1.Sizes.Perm c2.Sizes ∧
    c1.Formats.Perm c2.Formats ∧ c1.Targets.Perm c2.Targets ∧ c1.EdgeCases = c2.EdgeCases

/-- No ratio string of a target is declared by two presets. -/
def targetCategoriesUnique (c : Config) : Prop :=
  ∀ t ∈ c.Targets, c.Presets.Pairwise
    (fun p q => ¬ (p.2.Ratios.contains t.2.Ratio = true ∧ q.2.Ratios.contains t.2.Ratio = true))

/-! ## The iteration order of the maps -/

/-- The orders in which one run of `BuildSpecs` visits the maps of the
configuration. Go draws a new order at every execution of a `range` statement
over a map, so a run holds one order for each execution: of the preset loop
of `buildRatioSpecs`; of its size loop, executed once for every preset name
and every position in the ratio list of that preset; of its format loop,
executed once for every preset name, position and size name; of the target
loop of `buildTargetSpecs`; of the preset loop of `GetCategoryForRatio` and of
the format loop, executed once for every target name; and of the format loop
of `buildEdgeCaseSpecs`, executed once for every position in the slice of
edge cases. -/
structure MapOrders where
  presets : List (String × Preset)
  sizes : String → Nat → List (String × SizeConfig)
  ratioFormats : String → Nat → String → List (String × Format)
  targets : List (String × Target)
  categoryPresets : String → List (String × Preset)
  targetFormats : String → List (String × Format)
  edgeFormats : Nat → List (String × Format)

/-- Every order of a run lists the entries of the map that is visited. -/
structure MapOrders.Valid (o : MapOrders) (c : Config) : Prop where
  presets : o.presets.Perm c.Presets
  sizes : ∀ p i, (o.sizes p i).Perm c.Sizes
  ratioFormats : ∀ p i s, (o.ratioFormats p i s).Perm c.Formats
  targets : o.targets.Perm c.Targets
  categoryPresets : ∀ t, (o.categoryPresets t).Perm c.Presets
  targetFormats : ∀ t, (o.targetFormats t).Perm c.Formats
  edgeFormats : ∀ i, (o.edgeFormats i).Perm c.Formats

/-- The orders of the run that visits every map, every time, as the
configuration lists it. -/
def MapOrders.listed (c : Config) : MapOrders :=
  { presets := c.Presets,
    sizes := fun _ _ => c.Sizes,
    ratioFormats := fun _ _ _ => c.Formats,
    targets := c.Targets,
    categoryPresets := fun _ => c.Presets,
    targetFormats := fun _ => c.Formats,
    edgeFormats := fun _ => c.Formats }

/-- The builder as one execution of a loop sees it: the maps `Presets` and
`Formats` listed in the orders of this execution. -/
def SpecBuilder.visiting (b : SpecBuilder) (presets : List (String × Preset))
    (formats : List (String × Format)) : SpecBuilder :=
  { b with Config := { b.Config with Presets := presets, Formats := formats } }

/-- The jobs that `buildRatioSpecs` appends for the parsed ratio at position
`i` of a preset: the size loop in the order of this execution, each format
loop in its own order. -/
def ratioSpecsIn [CaseTables] (o : MapOrders) (b : SpecBuilder) (presetName : String) (i : Nat)
    (ratioStr : String) (ratioInfo : RatioInfo) : List ImageSpec :=
  (o.sizes presetName i).flatMap (fun entry =>
    ratioSizeSpecs (b.visiting b.Config.Presets (o.ratioFormats presetName i entry.1))
      presetName ratioStr ratioInfo entry)

/-- The loop of `buildRatioSpecs` over the ratios of one preset, from
position `i` on. -/
def buildPresetSpecsIn [CaseTables] (o : MapOrders) (b : SpecBuilder) (presetName : String) :
    Nat → List String → Except Failure (List ImageSpec)
  | _, [] => .ok []
  | i, ratioStr :: rest =>
    match ParseRatio ratioStr with
    | .error err => .error (.error ("invalid ratio " ++ ratioStr ++ ": " ++ err))
    | .ok ratioInfo =>
      match buildPresetSpecsIn o b presetName (i + 1) rest with
      | .error e => .error e
      | .ok specs => .ok (ratioSpecsIn o b presetName i ratioStr ratioInfo ++ specs)

/-- The loop of `buildRatioSpecs` over the presets. -/
def buildRatioLoopIn [CaseTables] (o : MapOrders) (b : SpecBuilder) :
    List (String × Preset) → Except Failure (List ImageSpec)
  | [] => .ok []
  | (presetName, preset) :: rest =>
    if !b.Filters.ShouldIncludeRatioCategory presetName then buildRatioLoopIn o b rest
    else
      match buildPresetSpecsIn o b presetName 0 preset.Ratios with
      | .error e => .error e
      | .ok specs =>
        match buildRatioLoopIn o b rest with
        | .error e => .error e
        | .ok more => .ok (specs ++ more)

/-- The method `SpecBuilder.buildRatioSpecs`, in a run with the orders `o`. -/
def SpecBuilder.buildRatioSpecsIn [CaseTables] (b : SpecBuilder) (o : MapOrders) :
    Except Failure (List ImageSpec) :=
  buildRatioLoopIn o b o.presets

/-- The loop of `buildTargetSpecs` over the targets; the call of
`GetCategoryForRatio` and the format loop of a target run in their own
orders. -/
def buildTargetLoopIn [CaseTables] (o : MapOrders) (b : SpecBuilder) :
    List (String × Target) → Except Failure (List ImageSpec)
  | [] => .ok []
  | (targetName, target) :: rest =>
    match targetSpecs (b.visiting (o.categoryPresets targetName) (o.targetFormats targetName))
        targetName target with
    | .error e => .error e
    | .ok specs =>
      match buildTargetLoopIn o b rest with
      | .error e => .error e
      | .ok more => .ok (specs ++ more)

/-- The method `SpecBuilder.buildTargetSpecs`, in a run with the orders `o`. -/
def SpecBuilder.buildTargetSpecsIn [CaseTables] (b : SpecBuilder) (o : MapOrders) :
    Except Failure (List ImageSpec) :=
  buildTargetLoopIn o b o.targets

/-- The loop of `buildEdgeCaseSpecs` over the slice of edge cases, from
position `i` on; the format loop of an edge case runs in its own order. -/
def buildEdgeCaseLoopIn [CaseTables] (o : MapOrders) (b : SpecBuilder) :
    Nat → List EdgeCase → Except Failure (List ImageSpec)
  | _, [] => .ok []
  | i, edgeCase :: rest =>
    match edgeCaseSpecs (b.visiting b.Config.Presets (o.edgeFormats i)) edgeCase with
    | .error e => .error e
    | .ok specs =>
      match buildEdgeCaseLoopIn o b (i + 1) rest with
      | .error e => .error e
      | .ok more => .ok (specs ++ more)

/-- The method `SpecBuilder.buildEdgeCaseSpecs`, in a run with the orders
`o`. -/
def SpecBuilder.buildEdgeCaseSpecsIn [CaseTables] (b : SpecBuilder) (o : MapOrders) :
    Except Failure (List ImageSpec) :=
  buildEdgeCaseLoopIn o b 0 b.Config.EdgeCases

/-- The method `SpecBuilder.BuildSpecs`, in a run with the orders `o`. -/
def SpecBuilder.BuildSpecsIn [CaseTables] (b : SpecBuilder) (o : MapOrders) :
    Except Failure (List ImageSpec) :=
  match b.buildRatioSpecsIn o with
  | .error e => .error (wrapError "failed to build ratio specs" e)
  | .ok ratioSpecs =>
    match b.buildTargetSpecsIn o with
    | .error e => .error (wrapError "failed to build target specs" e)
    | .ok targetSpecs =>
      match b.buildEdgeCaseSpecsIn o with
      | .error e => .error (wrapError "failed to build edge case specs" e)
      | .ok edgeSpecs => .ok (ratioSpecs ++ targetSpecs ++ edgeSpecs)

/-- One round of a loop of the builder: the jobs of the round, then the jobs
of the rounds that follow; the first failure is the result. -/
def thenAppend (x r : Except Failure (List ImageSpec)) : Except Failure (List ImageSpec) :=
  match x with
  | .error e => .error e
  | .ok specs =>
    match r with
    | .error e => .error e
    | .ok more => .ok (specs ++ more)

/-- Two results fail together or succeed together, then with the same jobs up
to their order. -/
def sameJobs (r1 r2 : Except Failure (List ImageSpec)) : Prop :=
  failed r1 = failed r2 ∧ (okList r1).Perm (okList r2)

/-- A configuration with one preset of two ratios and two size categories. -/
def twoRatioConfig : Config :=
  { Version := "1.0.0",
    Presets := [("test", ⟨"", ["1:1", "2:1"]⟩)],
    Sizes := [("small", ⟨"", [100]⟩), ("large", ⟨"", [2000]⟩)],
    Formats := [("jpeg", ⟨[85], "image/jpeg", ".jpg"⟩)],
    Targets := [],
    EdgeCases := [] }

/-- A run on `twoRatioConfig` that visits `small` first for the first ratio
and `large` first for the second. -/
def redrawnOrders : MapOrders :=
  { MapOrders.listed twoRatioConfig with
    sizes := fun _ i =>
      if i = 0 then [("small", ⟨"", [100]⟩), ("large", ⟨"", [2000]⟩)]
      else [("large", ⟨"", [2000]⟩), ("small", ⟨"", [100]⟩)] }

/-! ## Vocabulary on output paths -/

/-- The path of a job of the ratio sweep. -/
def ratioPath [CaseTables]
    (b : SpecBuilder) (token label : String) (f : String × Format) (w h q : Int) :
    String :=
  Join [b.BaseDir, "ratios", token, fileName label w h f.1 q f.2.Extension]

/-- The path of a job of the target sweep (`dir` is `targets`) or of the
edge-case sweep (`dir` is `edge-cases`). -/
def flatPath [CaseTables]
    (b : SpecBuilder) (dir label : String) (f : String × Format) (w h q : Int) :
    String :=
  Join [b.BaseDir, dir, fileName label w h f.1 q f.2.Extension]

/-- A format entry is plain when its name and its extension hold neither a
path separator nor an underscore. -/
def plainFormat (f : String × Format) : Prop :=
  freeOf '/' f.1.data ∧ freeOf '_' f.1.data ∧ freeOf '/' f.2.Extension.data ∧
    freeOf '_' f.2.Extension.data

/-- The names of a configuration hold no path separator, and the format
names and extensions no underscore. -/
structure PlainNames (c : Config) : Prop where
  ratios : ∀ p ∈ c.Presets, ∀ r ∈ p.2.Ratios, freeOf '/' r.data
  sizes : ∀ s ∈ c.Sizes, freeOf '/' s.1.data
  formats : ∀ f ∈ c.Formats, plainFormat f
  targets : ∀ t ∈ c.Targets, freeOf '/' t.1.data
  edgeCases : ∀ e ∈ c.EdgeCases, freeOf '/' e.Name.data

/-- The names of a configuration are distinct: the display tokens of the
ratio strings of all presets, the size and format names in lower case, the
target names and the edge-case names. -/
structure DistinctNames [CaseTables] (c : Config) : Prop where
  tokens : ((c.Presets.flatMap (fun p => p.2.Ratios)).map
    (fun r => displayToken (TrimSpace r))).Nodup
  sizes : (c.Sizes.map (fun s => ToLower s.1)).Nodup
  formats : (c.Formats.map (fun f => ToLower f.1)).Nodup
  targets : (c.Targets.map (fun t => t.1)).Nodup
  edgeCases : (c.EdgeCases.map (fun e => e.Name)).Nodup

/-- Two jobs write to different paths. -/
def apart (x y : ImageSpec) : Prop := x.OutputPath ≠ y.OutputPath

/-- The job writes to a path of the ratio sweep with the given display token
and label, for one of the formats of the configuration. -/
def RatioJob [CaseTables] (b : SpecBuilder) (token label : String) (x : ImageSpec) : Prop :=
  ∃ f ∈ b.Config.Formats, ∃ w h q, x.OutputPath = ratioPath b token label f w h q

/-- The job writes to a path of the target or edge-case sweep with the given
directory and label, for one of the formats of the configuration. -/
def FlatJob [CaseTables] (b : SpecBuilder) (dir label : String) (x : ImageSpec) : Prop :=
  ∃ f ∈ b.Config.Formats, ∃ w h q, x.OutputPath = flatPath b dir label f w h q

/-- A configuration in which the presets `platform` and `common` both list the
ratio `1:1`. -/
def sharedRatioConfig : Config :=
  { Version := "1.0.0",
    Presets := [("platform", ⟨"", ["1:1"]⟩), ("common", ⟨"", ["1:1"]⟩)],
    Sizes := [("small", ⟨"", [100]⟩)],
    Formats := [("jpeg", ⟨[85], "image/jpeg", ".jpg"⟩)],
    Targets := [],
    EdgeCases := [] }

/-- A configuration with plain and distinct names that feeds all three
sweeps. -/
def distinctNamesConfig : Config :=
  { Version := "1.0.0",
    Presets := [("platform", ⟨"", ["1:1", "2:3"]⟩)],
    Sizes := [("small", ⟨"", [100]⟩)],
    Formats := [("jpeg", ⟨[85], "image/jpeg", ".jpg"⟩)],
    Targets := [("IG_FEED_1_1", ⟨"Instagram", [1080, 1080], "1:1", ""⟩)],
    EdgeCases := [⟨"extreme_wide", [1000, 100], ""⟩] }

/-- What the display token keeps of one character of the trimmed ratio string:
a colon becomes a hyphen, a point an underscore, a space (U+0020) nothing, and
any other character stays. -/
def tokenChar (c : Char) : List Char :=
  if c = ':' then ['-'] else if c = '.' then ['_'] else if c = ' ' then [] else [c]

/-- The products that `CalculateDimensions` forms are exact in `float64`: the
base size times the larger component of the ratio is at most `2^51`. -/
def InExactRange (info : RatioInfo) (baseSize : Int) : Prop :=
  baseSize * max info.Width info.Height ≤ 2 ^ 51

/-- The ratio `W:H` with integer components, as `ParseRatio` returns it. -/
def intRatio (w h : Int) : RatioInfo :=
  ⟨Itoa w ++ ":" ++ Itoa h, w, h, F64.div (F64.ofInt w) (F64.ofInt h), false,
    Itoa w ++ "-" ++ Itoa h⟩

/-- Two runes are the same letter up to its case: they are equal, or they
have the same lower case, or they have the same upper case. -/
def sameLetter [CaseTables] (x y : Char) : Bool :=
  x = y || unicodeToLower x = unicodeToLower y || unicodeToUpper x = unicodeToUpper y

/-- Two strings are equal ignoring letter case: they have the same length and
at every position the same letter up to its case. -/
def equalFold [CaseTables] (a b : String) : Prop :=
  List.Forall₂ (fun x y => sameLetter x y = true) a.data b.data

/-- A configuration that `Validate` accepts, with a platform target of `2^32`
by `2^32` pixels. -/
def hugeTargetConfig : Config :=
  { Version := "1.0.0",
    Presets := [("platform", ⟨"", ["1:1"]⟩)],
    Sizes := [("small", ⟨"", [100]⟩)],
    Formats := [("jpeg", ⟨[85], "image/jpeg", ".jpg"⟩)],
    Targets := [("huge", ⟨"Huge", [4294967296, 4294967296], "1:1", ""⟩)],
    EdgeCases := [] }

/-- A configuration whose only format is named `S`. -/
def capitalSConfig : Config :=
  { Version := "1.0.0",
    Presets := [("platform", ⟨"", ["1:1"]⟩)],
    Sizes := [("small", ⟨"", [100]⟩)],
    Formats := [("S", ⟨[85], "image/jpeg", ".jpg"⟩)],
    Targets := [],
    EdgeCases := [] }

/-- A configuration whose only format is named with the dotless `ı`
(`U+0131`), whose upper case is `I`. -/
def dotlessConfig : Config :=
  { Version := "1.0.0",
    Presets := [("platform", ⟨"", ["1:1"]⟩)],
    Sizes := [("small", ⟨"", [100]⟩)],
    Formats := [("ı", ⟨[85], "image/jpeg", ".jpg"⟩)],
    Targets := [],
    EdgeCases := [] }

/-- The size and format names of a configuration are ASCII strings. -/
def asciiNames (c : Config) : Prop :=
  (∀ s ∈ c.Sizes, isASCII s.1 = true) ∧ (∀ f ∈ c.Formats, isASCII f.1 = true)

/-- The case mappings that the builder applies to the size and format names of
a configuration keep the lower-case form of the names. -/
def caseStable [CaseTables] (c : Config) : Prop :=
  (∀ s ∈ c.Sizes, ToLower (Title s.1) = ToLower s.1) ∧
    (∀ f ∈ c.Formats, ToLower (ToUpper f.1) = ToLower f.1)

/-- The entries of the filters and the keys of the configuration that
`Filters.Validate` compares are ASCII strings. -/
def asciiKeys (f : Filters) (c : Config) : Prop :=
  (∀ e ∈ f.Ratios, isASCII e = true) ∧ (∀ e ∈ f.Sizes, isASCII e = true) ∧
    (∀ e ∈ f.Formats, isASCII e = true) ∧ (∀ p ∈ c.Presets, isASCII p.1 = true) ∧
    (∀ s ∈ c.Sizes, isASCII s.1 = true) ∧ (∀ x ∈ c.Formats, isASCII x.1 = true)

/-- The configuration of `TestGetCategoryForRatio`, completed with a size
category and a format. -/
def twoPresetConfig : Config :=
  { Version := "1.0.0",
    Presets := [("platform", ⟨"", ["2:3", "4:5", "1:1"]⟩), ("common", ⟨"", ["3:2", "16:9"]⟩)],
    Sizes := [("small", ⟨"", [100]⟩)],
    Formats := [("jpeg", ⟨[85], "image/jpeg", ".jpg"⟩)],
    Targets := [],
    EdgeCases := [] }

/-- A configuration with a target of 1200 by 628 pixels and an edge case of
1024 by 768 pixels. -/
def sizedConfig : Config :=
  { Version := "1.0.0",
    Presets := [("platform", ⟨"", ["1.91:1"]⟩)],
    Sizes := [("small", ⟨"", [100]⟩)],
    Formats := [("jpeg", ⟨[60, 82, 95], "image/jpeg", ".jpg"⟩)],
    Targets := [("LI_1_91_1", ⟨"LinkedIn", [1200, 628], "1.91:1", ""⟩)],
    EdgeCases := [⟨"xga", [1024, 768], ""⟩] }

/-- The distance of a quality from 85. -/
def distance85 (q : Int) : Nat := (q - 85).natAbs

/-- The qualities `q` for which `q - 85` and its absolute value are `int`
values: `-2^63 + 85 < q < 2^63`. -/
def qualitiesInRange (qs : List Int) : Prop :=
  ∀ q ∈ qs, -twoPow63 + 85 < q ∧ q < twoPow63

/-- The job that the ratio sweep builds from a parsed ratio, a size category
with a base size and a format with a quality. -/
def ratioJob [CaseTables] (b : SpecBuilder) (presetName ratioStr : String) (info : RatioInfo)
    (s : String × SizeConfig) (f : String × Format) (baseSize quality : Int) : ImageSpec :=
  { Width := (CalculateDimensions info baseSize).1,
    Height := (CalculateDimensions info baseSize).2,
    Ratio := ratioStr,
    RatioDecimal := info.Decimal,
    Format := ToUpper f.1,
    Quality := quality,
    SizeCategory := Title s.1,
    Category := presetName,
    OutputPath := Join [b.BaseDir, "ratios", info.DisplayName,
      fileName (ToLower s.1) (CalculateDimensions info baseSize).1
        (CalculateDimensions info baseSize).2 f.1 quality f.2.Extension],
    Filename := fileName (ToLower s.1) (CalculateDimensions info baseSize).1
      (CalculateDimensions info baseSize).2 f.1 quality f.2.Extension }

/-- The jobs of one triple of a ratio string, a size category and a format:
one job, built on the first base size and the first quality, when the ratio
parses, both lists are non-empty and the size and the format pass their
filters; none otherwise. -/
def tripleJobs [CaseTables]
    (b : SpecBuilder) (presetName ratioStr : String) (s : String × SizeConfig)
    (f : String × Format) : List ImageSpec :=
  match ParseRatio ratioStr, s.2.BaseSizes, f.2.Qualities with
  | .ok info, baseSize :: _, quality :: _ =>
    if b.Filters.ShouldIncludeSizeCategory s.1 = true ∧
        b.Filters.ShouldIncludeFormat f.1 = true
    then [ratioJob b presetName ratioStr info s f baseSize quality]
    else []
  | _, _, _ => []

end config

namespace manifest

open Go

/-! ## `manifest.go` -/

/-- The test `part == "ratios" || part == "targets" || part == "edge-cases"`. -/
def isCategory (part : String) : Bool :=
  part = "ratios" || part = "targets" || part = "edge-cases"

/-- The loop of `extractCategoryFromPath`, which walks the parts from the last
one down: the list holds the parts still to visit, the one with the highest
index first, and `next` is the part after the current one, if there is one. -/
def extractLoop : List String → Option String → String × String
  | [], _ => ("", "")
  | part :: rest, next =>
    if isCategory part then (part, next.getD "") else extractLoop rest (some part)

/-- The function `extractCategoryFromPath`; `filepath.ToSlash` is the identity
where the separator is `/`. -/
def extractCategoryFromPath (path : String) : String × String :=
  let dir := Dir path
  let parts := Split dir '/'
  extractLoop parts.reverse none

/-- The loop of `getRelativePath`, from the first part on. -/
def relativeLoop : List String → Option String
  | [] => none
  | part :: rest =>
    if isCategory part then some (stringsJoin (part :: rest) "/") else relativeLoop rest

/-- The function `getRelativePath`. -/
def getRelativePath (path : String) : String :=
  match relativeLoop (Split path '/') with
  | some rel => rel
  | none => Base path

end manifest

namespace generator

open Go

/-! ## `orchestrator.go`: statistics -/

/-- The value of an `int32` after an arithmetic operation (two's complement). -/
def wrap32 (z : Int) : Int :=
  (z + 2147483648) % 4294967296 - 2147483648

/-- The struct `GenerationStats`; `Completed` and `Failed` are `int32`. -/
structure GenerationStats where
  Total : Int
  Completed : Int
  Failed : Int
  StartTime : Time
  EndTime : Time
  deriving DecidableEq, Repr

/-- The method `GenerationStats.Duration`; `now` is the reading of the clock
that `time.Since` takes. -/
def GenerationStats.Duration (s : GenerationStats) (now : Time) : Int :=
  if s.EndTime.IsZero then now.Sub s.StartTime
  else s.EndTime.Sub s.StartTime

/-- The method `GenerationStats.ImagesPerSecond`. -/
def GenerationStats.ImagesPerSecond (s : GenerationStats) (now : Time) : F64 :=
  let duration := s.Duration now
  if duration = 0 then F64.fin false 0 0
  else F64.div (F64.ofInt s.Completed) (Seconds duration)

/-- Statistics of a run of ten images that took two seconds. -/
def tenInTwoSeconds : GenerationStats :=
  { Total := 10, Completed := 10, Failed := 0,
    StartTime := ⟨1000000000⟩, EndTime := ⟨3000000000⟩ }

end generator

namespace generator

open Go

/-! ## `orchestrator.go`: `GenerateAll`

The goroutines of `GenerateAll` are modelled as a transition system: a state
holds the statement each goroutine executes next and the shared objects (the
semaphore channel, the results channel, the wait group and `o.Stats`); an action
lets one goroutine execute its next statement, if that statement is not
blocked. The calls `Generate(spec)` and `getFileSize(path)` are external; their
outcomes come with the action: the values they return, or the panic of
`Generate`, which allocates the image with `image.NewRGBA` and panics there for
a rectangle of huge dimensions. No goroutine recovers from a panic, so a panic
ends the program. The progress reporter only reads `o.Stats` and is left
out. -/

/-- The struct `GenerationResult`; `Error` is `none` for `nil`. -/
structure GenerationResult where
  Spec : ImageSpec
  FileSize : Int
  Error : Option String
  deriving DecidableEq, Repr

/-- The struct `Orchestrator` (without the progress callback). -/
structure Orchestrator where
  MaxConcurrency : Int
  Stats : GenerationStats
  deriving DecidableEq, Repr

/-- The function `NewOrchestrator`. -/
def NewOrchestrator (maxConcurrency : Int) : Orchestrator :=
  { MaxConcurrency := if maxConcurrency ≤ 0 then 10 else maxConcurrency,
    Stats := ⟨0, 0, 0, ⟨0⟩, ⟨0⟩⟩ }

/-- The method `generateOne`; `generate` is the error that `Generate(spec)`
returns (`none` for `nil`) and `fileSize` the outcome of
`getFileSize(spec.OutputPath)`. -/
def generateOne (spec : ImageSpec) (generate : Option String)
    (fileSize : Except String Int) : GenerationResult :=
  match generate with
  | some err =>
    { Spec := spec, FileSize := 0,
      Error := some ("failed to generate " ++ spec.Filename ++ ": " ++ err) }
  | none =>
    match fileSize with
    | .error err =>
      { Spec := spec, FileSize := 0,
        Error := some ("failed to get file size for " ++ spec.Filename ++ ": " ++ err) }
    | .ok size => { Spec := spec, FileSize := size, Error := none }

/-- The statement that a task goroutine of `GenerateAll` executes next:
`sem <- struct{}{}`, the call of `generateOne` (in progress), `resultsChan <- result`,
the update of the counters, the deferred `<-sem`, the deferred `wg.Done()`; or
the goroutine has exited. -/
inductive TaskPc
  | acquire
  | render
  | send (result : GenerationResult)
  | count (result : GenerationResult)
  | release (result : GenerationResult)
  | done (result : GenerationResult)
  | exited (result : GenerationResult)
  deriving DecidableEq, Repr

/-- The position of the goroutine that called `GenerateAll`: in the launch loop
with the specs still to launch, at `wg.Wait()`, or returned. -/
inductive MainPc
  | launch (rest : List ImageSpec)
  | wait
  | returned (results : List GenerationResult) (err : Option String)
  deriving DecidableEq, Repr

/-- A state of a run of `GenerateAll`: `sem` counts the elements in the semaphore
channel, `resultsChan` is the buffer of the results channel, `wg` the counter of
the wait group (an `int32`), `stats` the field `o.Stats`; `panicked` is set when a
goroutine has panicked, which ends the program. -/
structure RunState where
  main : MainPc
  tasks : List (ImageSpec × TaskPc)
  sem : Nat
  resultsChan : List GenerationResult
  wg : Int
  panicked : Bool
  stats : GenerationStats
  deriving DecidableEq, Repr

/-- One step of a run: the calling goroutine executes its next statement (`now`
is the reading of the clock, used when it sets `EndTime`), or task goroutine `i`
does (`generate` and `fileSize` are the outcomes of the external calls, used
when the statement is the call of `generateOne`), or the call of
`Generate(spec)` that task goroutine `i` is in panics. -/
inductive Action
  | main (now : Time)
  | task (i : Nat) (generate : Option String) (fileSize : Except String Int)
  | crash (i : Nat)
  deriving Repr

/-- The action is the panic of a call of `Generate`. -/
def Action.isCrash : Action → Bool
  | .crash _ => true
  | _ => false

/-- The state in which `GenerateAll` starts the launch loop, or in which it has
returned at once for an empty list. `make(chan struct{}, n)` panics for a
negative `n`. -/
def start (o : Orchestrator) (specs : List ImageSpec) (now : Time) : RunState :=
  let stats : GenerationStats :=
    { Total := specs.length, Completed := 0, Failed := 0, StartTime := now, EndTime := ⟨0⟩ }
  if specs.length = 0 then
    { main := .returned [] (some "no specs to generate"), tasks := [], sem := 0,
      resultsChan := [], wg := 0, panicked := false, stats := stats }
  else
    { main := .launch specs, tasks := [], sem := 0, resultsChan := [], wg := 0,
      panicked := decide (o.MaxConcurrency < 0), stats := stats }

/-- The next statement of a task goroutine with spec `s`: the new position and
the new shared state, or `none` when the statement blocks. The call of
`generateOne` is taken here when `Generate` returns; its panic is the action
`crash` of `step`. `wg.Done()` is `wg.Add(-1)`; `Add` panics when the counter,
an `int32`, becomes negative. -/
def taskStep (o : Orchestrator) (specs : List ImageSpec) (st : RunState) (s : ImageSpec)
    (generate : Option String) (fileSize : Except String Int) :
    TaskPc → Option (TaskPc × RunState)
  | .acquire =>
    if (st.sem : Int) < o.MaxConcurrency then some (.render, { st with sem := st.sem + 1 })
    else none
  | .render => some (.send (generateOne s generate fileSize), st)
  | .send result =>
    if st.resultsChan.length < specs.length then
      some (.count result, { st with resultsChan := st.resultsChan ++ [result] })
    else none
  | .count result =>
    if result.Error = none then
      some (.release result,
        { st with stats := { st.stats with Completed := wrap32 (st.stats.Completed + 1) } })
    else
      some (.release result,
        { st with stats := { st.stats with Failed := wrap32 (st.stats.Failed + 1) } })
  | .release result =>
    if 0 < st.sem then some (.done result, { st with sem := st.sem - 1 }) else none
  | .done result =>
    some (.exited result,
      { st with wg := wrap32 (st.wg - 1),
                panicked := st.panicked || decide (wrap32 (st.wg - 1) < 0) })
  | .exited _ => none

/-- One step of a run of `GenerateAll`, or `none` when the action is not
enabled: the statement blocks, the goroutine has exited, or the program has
panicked. An iteration of the launch loop is `wg.Add(1)`, which panics when the
`int32` counter of the wait group becomes negative, and the `go` statement. The
statements after `wg.Wait()` are one step: no task goroutine is left to
interleave with them. A panic of `Generate` is possible while a task is in the
call of `generateOne`, and ends the program. -/
def step (o : Orchestrator) (specs : List ImageSpec) (a : Action) (st : RunState) :
    Option RunState :=
  if st.panicked then none
  else
    match a with
    | .main now =>
      match st.main with
      | .launch (s :: rest) =>
        if wrap32 (st.wg + 1) < 0 then some { st with panicked := true }
        else
          some { st with main := .launch rest, wg := wrap32 (st.wg + 1),
                         tasks := st.tasks ++ [(s, .acquire)] }
      | .launch [] => some { st with main := .wait }
      | .wait =>
        if st.wg = 0 then
          let stats : GenerationStats := { st.stats with EndTime := now }
          some { st with
            stats := stats
            resultsChan := []
            main := .returned st.resultsChan
              (if stats.Failed > 0 then
                some (Itoa stats.Failed ++ " image(s) failed to generate")
              else none) }
        else none
      | .returned _ _ => none
    | .task i generate fileSize =>
      match st.tasks[i]? with
      | none => none
      | some (s, pc) =>
        match taskStep o specs st s generate fileSize pc with
        | none => none
        | some (pc', st') => some { st' with tasks := st.tasks.set i (s, pc') }
    | .crash i =>
      match st.tasks[i]? with
      | some (_, .render) => some { st with panicked := true }
      | _ => none

/-- A schedule, executed from a state; `none` when one of its actions is not
enabled. -/
def runSchedule (o : Orchestrator) (specs : List ImageSpec) :
    List Action → RunState → Option RunState
  | [], st => some st
  | a :: rest, st =>
    match step o specs a st with
    | none => none
    | some st' => runSchedule o specs rest st'

/-- The method `GenerateAll` under a schedule: the returned results and error
and the final `o.Stats`, when the schedule leads to the return. -/
def GenerateAll (o : Orchestrator) (specs : List ImageSpec) (now : Time)
    (schedule : List Action) :
    Option (List GenerationResult × Option String × GenerationStats) :=
  match runSchedule o specs schedule (start o specs now) with
  | none => none
  | some st =>
    match st.main with
    | .returned results err => some (results, err, st.stats)
    | _ => none

/-! ### Vocabulary of the statements on runs -/

/-- The task holds a slot of the semaphore. -/
@[simp] def TaskPc.holding : TaskPc → Bool
  | .render | .send _ | .count _ | .release _ => true
  | _ => false

/-- The task is inside the call of `generateOne`. -/
@[simp] def TaskPc.rendering : TaskPc → Bool
  | .render => true
  | _ => false

/-- The task has not yet called `wg.Done()`. -/
@[simp] def TaskPc.running : TaskPc → Bool
  | .exited _ => false
  | _ => true

/-- The result of the task, once `generateOne` has returned. -/
@[simp] def TaskPc.result : TaskPc → Option GenerationResult
  | .acquire | .render => none
  | .send r | .count r | .release r | .done r | .exited r => some r

/-- The result of the task, once it is sent to the results channel. -/
@[simp] def TaskPc.sent : TaskPc → Option GenerationResult
  | .count r | .release r | .done r | .exited r => some r
  | _ => none

/-- The task has updated a counter, for a result without error. -/
@[simp] def TaskPc.countedOk : TaskPc → Bool
  | .release r | .done r | .exited r => decide (r.Error = none)
  | _ => false

/-- The task has updated a counter, for a result with an error. -/
@[simp] def TaskPc.countedFailed : TaskPc → Bool
  | .release r | .done r | .exited r => decide (r.Error ≠ none)
  | _ => false

/-- The number of statements the task has still to execute. -/
@[simp] def TaskPc.weight : TaskPc → Nat
  | .acquire => 6
  | .render => 5
  | .send _ => 4
  | .count _ => 3
  | .release _ => 2
  | .done _ => 1
  | .exited _ => 0

/-- The specs that the launch loop has still to launch. -/
@[simp] def MainPc.pending : MainPc → List ImageSpec
  | .launch rest => rest
  | _ => []

/-- The number of steps the calling goroutine and the tasks it has still to
launch will take. -/
@[simp] def MainPc.weight : MainPc → Nat
  | .launch rest => 7 * rest.length + 2
  | .wait => 1
  | .returned _ _ => 0

/-- The number of steps left in a run. -/
def remaining (st : RunState) : Nat :=
  st.main.weight + (st.tasks.map (fun t => t.2.weight)).sum

/-- The results that `GenerateAll` has returned. -/
@[simp] def MainPc.results : MainPc → List GenerationResult
  | .returned results _ => results
  | _ => []

/-- The results delivered so far: the returned list, or the buffer of the results
channel. -/
def delivered (st : RunState) : List GenerationResult :=
  st.main.results ++ st.resultsChan

/-- The error that `GenerateAll` returns for a final value of `Failed`. -/
def failureError (specs : List ImageSpec) (failed : Int) : Option String :=
  if specs.length = 0 then some "no specs to generate"
  else if failed > 0 then some (Itoa failed ++ " image(s) failed to generate")
  else none

/-- The invariant of the runs of `GenerateAll`. -/
structure Inv (o : Orchestrator) (specs : List ImageSpec) (st : RunState) : Prop where
  notPanicked : st.panicked = false
  launched : st.tasks.map Prod.fst ++ st.main.pending = specs
  semHeld : st.sem = st.tasks.countP (fun t => t.2.holding)
  semCap : (st.sem : Int) ≤ o.MaxConcurrency
  wgRunning : st.wg = ((st.tasks.countP (fun t => t.2.running) : Nat) : Int)
  deliveredSent : (delivered st).Perm (st.tasks.filterMap (fun t => t.2.sent))
  owns : ∀ t ∈ st.tasks, ∀ r, t.2.result = some r → r.Spec = t.1
  completed :
    st.stats.Completed = wrap32 ((st.tasks.countP (fun t => t.2.countedOk) : Nat) : Int)
  failed :
    st.stats.Failed = wrap32 ((st.tasks.countP (fun t => t.2.countedFailed) : Nat) : Int)
  total : st.stats.Total = specs.length
  finished : ∀ rs err, st.main = .returned rs err →
    (∀ t ∈ st.tasks, t.2.running = false) ∧ st.resultsChan = [] ∧
      err = failureError specs st.stats.Failed
  nonempty : specs.length = 0 → ∃ err, st.main = .returned [] err
  wgBound : st.wg < 2147483648

/-- Every result in the state is the one that `generateOne` gives when the
external calls behave as `outcome` says for each spec. -/
def Follows (outcome : ImageSpec → Option String × Except String Int) (st : RunState) :
    Prop :=
  ∀ t ∈ st.tasks, ∀ r, t.2.result = some r →
    r = generateOne t.1 (outcome t.1).1 (outcome t.1).2

/-- The number of results with an error. -/
def failures (results : List GenerationResult) : Nat :=
  results.countP (fun r => decide (r.Error ≠ none))

/-- A spec for the examples. -/
def sampleSpec (name : String) : ImageSpec :=
  { Width := 4, Height := 3, Ratio := "4:3", RatioDecimal := F64.nan, Format := "jpeg",
    Quality := 85, SizeCategory := "small", Category := "ratios",
    OutputPath := "out/" ++ name, Filename := name }

/-- A schedule for two jobs with one slot: both tasks are launched, the second
one renders first and fails, then the first one renders. -/
def twoJobSchedule : List Action :=
  [.main ⟨5⟩, .main ⟨5⟩, .main ⟨5⟩,
   .task 1 none (.ok 0), .task 1 (some "disk full") (.ok 0), .task 1 none (.ok 0),
   .task 1 none (.ok 0), .task 1 none (.ok 0), .task 1 none (.ok 0),
   .task 0 none (.ok 0), .task 0 none (.ok 120), .task 0 none (.ok 0),
   .task 0 none (.ok 0), .task 0 none (.ok 0), .task 0 none (.ok 0),
   .main ⟨9⟩]

/-- The two jobs of the examples. -/
def twoJobs : List ImageSpec :=
  [sampleSpec "a.jpg", sampleSpec "b.jpg"]

/-- The results of the two jobs under `twoJobSchedule`. -/
def twoJobResults : List GenerationResult :=
  [⟨sampleSpec "b.jpg", 0, some "failed to generate b.jpg: disk full"⟩,
   ⟨sampleSpec "a.jpg", 120, none⟩]

/-- The state of the two jobs after the first four steps of `twoJobSchedule`:
the second task is inside the call of `generateOne`, the first one waits for
the slot. -/
def twoJobsRendering : RunState :=
  { main := .wait,
    tasks := [(sampleSpec "a.jpg", .acquire), (sampleSpec "b.jpg", .render)],
    sem := 1, resultsChan := [], wg := 2, panicked := false,
    stats := ⟨2, 0, 0, ⟨1⟩, ⟨0⟩⟩ }

/-- A job of `2^32` by `2^32` pixels, for which `image.NewRGBA` panics: the
length of the pixel buffer, `4 * 2^32 * 2^32`, is not an `int`. -/
def hugeSpec : ImageSpec :=
  { Width := 4294967296, Height := 4294967296, Ratio := "1:1",
    RatioDecimal := F64.fin false 1 0, Format := "JPEG", Quality := 85,
    SizeCategory := "Xlarge", Category := "platform",
    OutputPath := "out/targets/huge_4294967296x4294967296_jpeg_q85.jpg",
    Filename := "huge_4294967296x4294967296_jpeg_q85.jpg" }

/-- A list of `2^31` equal jobs. -/
def manyJobs : List ImageSpec :=
  List.replicate 2147483648 (sampleSpec "a.jpg")

/-- The state of a run on `n` equal jobs in which the first `j` tasks are
launched and none of them has taken a step. -/
def launchedState (now : Time) (s : ImageSpec) (n j : Nat) : RunState :=
  { main := .launch (List.replicate (n - j) s),
    tasks := List.replicate j (s, .acquire),
    sem := 0, resultsChan := [], wg := j, panicked := false,
    stats := { Total := n, Completed := 0, Failed := 0, StartTime := now, EndTime := ⟨0⟩ } }

/-- The start of a run of a new orchestrator. -/
def newRun (m : Int) (specs : List ImageSpec) (now : Time) : RunState :=
  start (NewOrchestrator m) specs now

end generator

/-! # Theorems -/

namespace Go

namespace F64

/-! ## Lemmas on binary64 rounding -/

theorem bitLenAux_spec (fuel n : Nat) (h : n ≤ fuel) (hn : 0 < n) :
    2 ^ bitLenAux fuel n ≤ 2 * n ∧ n < 2 ^ bitLenAux fuel n := by
  induction fuel generalizing n with
  | zero => omega
  | succ f ih =>
    have hn0 : n ≠ 0 := by omega
    simp only [bitLenAux, hn0, if_false]
    by_cases h2 : n / 2 = 0
    · have h1 : n = 1 := by omega
      subst h1
      have : bitLenAux f (1 / 2) = 0 := by
        cases f <;> simp [bitLenAux]
      rw [this]
      simp
    · have hle : n / 2 ≤ f := by omega
      have hpos : 0 < n / 2 := by omega
      obtain ⟨a, b⟩ := ih (n / 2) hle hpos
      rw [pow_succ]
      constructor <;> omega

theorem bitLen_spec (n : Nat) (hn : 0 < n) : 2 ^ bitLen n ≤ 2 * n ∧ n < 2 ^ bitLen n :=
  bitLenAux_spec n n le_rfl hn

theorem bitLen_zero : bitLen 0 = 0 := rfl

theorem bitLen_pos (n : Nat) (hn : 0 < n) : 0 < bitLen n := by
  have := (bitLen_spec n hn).2
  by_contra h
  have h0 : bitLen n = 0 := by omega
  rw [h0] at this
  simp at this
  omega

/-- A power of two with an integer exponent, as a quotient of natural powers. -/
theorem zpow_two_eq (k : Int) :
    (2 : ℚ) ^ k = (2 ^ k.toNat : ℚ) / (2 ^ (-k).toNat : ℚ) := by
  rcases le_total 0 k with h | h
  · have h1 : (-k).toNat = 0 := by omega
    rw [h1, pow_zero, div_one]
    conv_lhs => rw [← Int.toNat_of_nonneg h]
    rw [zpow_natCast]
  · have h1 : k.toNat = 0 := by omega
    rw [h1, pow_zero, one_div]
    have h2 : k = -((-k).toNat : Int) := by omega
    conv_lhs => rw [h2]
    rw [zpow_neg, zpow_natCast]

theorem scaled_eq (n d : Nat) (e : Int) :
    ((n * 2 ^ (-e).toNat : Nat) : ℚ) / ((d * 2 ^ e.toNat : Nat) : ℚ) = (n : ℚ) / d / 2 ^ e := by
  rw [zpow_two_eq e]
  push_cast
  have h1 : (2 : ℚ) ^ e.toNat ≠ 0 := by positivity
  have h2 : (2 : ℚ) ^ (-e).toNat ≠ 0 := by positivity
  by_cases hd : (d : ℚ) = 0
  · simp [hd]
  field_simp

theorem floorLog2_spec (n d : Nat) (hn : 0 < n) (hd : 0 < d) :
    (2 : ℚ) ^ floorLog2 n d ≤ (n : ℚ) / d ∧ (n : ℚ) / d < (2 : ℚ) ^ (floorLog2 n d + 1) := by
  obtain ⟨n1, n2⟩ := bitLen_spec n hn
  obtain ⟨d1, d2⟩ := bitLen_spec d hd
  have hdq : (0 : ℚ) < d := by exact_mod_cast hd
  have hnq : (0 : ℚ) < n := by exact_mod_cast hn
  have n1q : (2 : ℚ) ^ (bitLen n : Int) ≤ 2 * n := by
    rw [zpow_natCast]; exact_mod_cast n1
  have n2q : (n : ℚ) < (2 : ℚ) ^ (bitLen n : Int) := by
    rw [zpow_natCast]; exact_mod_cast n2
  have d1q : (2 : ℚ) ^ (bitLen d : Int) ≤ 2 * d := by
    rw [zpow_natCast]; exact_mod_cast d1
  have d2q : (d : ℚ) < (2 : ℚ) ^ (bitLen d : Int) := by
    rw [zpow_natCast]; exact_mod_cast d2
  have hbd : (0 : ℚ) < (2 : ℚ) ^ (bitLen d : Int) := by positivity
  set k : Int := (bitLen n : Int) - (bitLen d : Int) with hk
  have hkpow : (2 : ℚ) ^ k = (2 : ℚ) ^ (bitLen n : Int) / (2 : ℚ) ^ (bitLen d : Int) := by
    rw [hk, zpow_sub₀ (by norm_num)]
  -- the quotient lies strictly between 2^(k-1) and 2^(k+1)
  have lo : (2 : ℚ) ^ (k - 1) < (n : ℚ) / d := by
    rw [zpow_sub₀ (by norm_num), zpow_one, hkpow, div_div, div_lt_div_iff₀ (by positivity) hdq]
    nlinarith
  have hi : (n : ℚ) / d < (2 : ℚ) ^ (k + 1) := by
    rw [zpow_add₀ (by norm_num), zpow_one, hkpow, div_lt_iff₀ hdq]
    rw [div_mul_eq_mul_div, div_mul_eq_mul_div, lt_div_iff₀ hbd]
    nlinarith
  have hcond : (d * 2 ^ k.toNat ≤ n * 2 ^ (-k).toNat) ↔ (2 : ℚ) ^ k ≤ (n : ℚ) / d := by
    rw [zpow_two_eq k, div_le_div_iff₀ (by positivity) hdq]
    constructor
    · intro h
      have : ((d * 2 ^ k.toNat : Nat) : ℚ) ≤ ((n * 2 ^ (-k).toNat : Nat) : ℚ) := by exact_mod_cast h
      push_cast at this
      linarith
    · intro h
      have : ((d * 2 ^ k.toNat : Nat) : ℚ) ≤ ((n * 2 ^ (-k).toNat : Nat) : ℚ) := by
        push_cast
        linarith
      exact_mod_cast this
  unfold floorLog2
  simp only [← hk]
  by_cases hc : d * 2 ^ k.toNat ≤ n * 2 ^ (-k).toNat
  · simp only [hc, if_true]
    exact ⟨hcond.mp hc, hi⟩
  · simp only [hc, if_false]
    refine ⟨le_of_lt lo, ?_⟩
    rw [sub_add_cancel]
    exact lt_of_not_le (fun h => hc (hcond.mpr h))

theorem roundHalfEven_spec (n d : Nat) (hd : 0 < d) :
    2 * n ≤ (2 * roundHalfEven n d + 1) * d ∧ 2 * roundHalfEven n d * d ≤ 2 * n + d ∧
      (2 * n = (2 * roundHalfEven n d + 1) * d → roundHalfEven n d % 2 = 0) ∧
      (2 * roundHalfEven n d * d = 2 * n + d → roundHalfEven n d % 2 = 0) := by
  have hdm := Nat.div_add_mod n d
  have hlt := Nat.mod_lt n hd
  set q := n / d with hq
  set r := n % d with hr
  have hn : n = d * q + r := hdm.symm
  have e1 : (2 * q + 1) * d = 2 * (d * q) + d := by ring
  have e2 : 2 * q * d = 2 * (d * q) := by ring
  have e3 : (2 * (q + 1) + 1) * d = 2 * (d * q) + 3 * d := by ring
  have e4 : 2 * (q + 1) * d = 2 * (d * q) + 2 * d := by ring
  unfold roundHalfEven
  simp only [← hq, ← hr]
  by_cases c1 : 2 * r < d
  · simp only [c1, if_true]
    rw [e1, e2]
    refine ⟨by omega, by omega, fun h => by omega, fun h => by omega⟩
  · simp only [c1, if_false]
    by_cases c2 : d < 2 * r
    · simp only [c2, if_true]
      rw [e3, e4]
      refine ⟨by omega, by omega, fun h => by omega, fun h => by omega⟩
    · simp only [c2, if_false]
      by_cases c3 : q % 2 = 0
      · simp only [c3, if_true]
        rw [e1, e2]
        refine ⟨by omega, by omega, fun _ => trivial, fun _ => trivial⟩
      · simp only [c3, if_false]
        rw [e3, e4]
        refine ⟨by omega, by omega, fun _ => by omega, fun _ => by omega⟩

theorem roundHalfEven_mono (n d n' d' : Nat) (hd : 0 < d) (hd' : 0 < d')
    (h : n * d' ≤ n' * d) : roundHalfEven n d ≤ roundHalfEven n' d' := by
  obtain ⟨-, a2, -, a4⟩ := roundHalfEven_spec n d hd
  obtain ⟨b1, -, b3, -⟩ := roundHalfEven_spec n' d' hd'
  set m := roundHalfEven n d
  set m' := roundHalfEven n' d'
  by_contra hlt
  have hm : m' + 1 ≤ m := by omega
  -- (2m - 1) d ≤ 2n and 2n' ≤ (2m' + 1) d'
  have k1 : 2 * (m' + 1) * d ≤ 2 * n + d := le_trans (by gcongr) a2
  have k2 : (2 * (m' + 1) * d) * d' ≤ (2 * n + d) * d' := Nat.mul_le_mul_right _ k1
  have k3 : (2 * n') * d ≤ ((2 * m' + 1) * d') * d := Nat.mul_le_mul_right _ b1
  have k4 : (2 * n + d) * d' = 2 * (n * d') + d * d' := by ring
  have k5 : (2 * (m' + 1) * d) * d' = (2 * m' + 1) * d' * d + d * d' := by ring
  have k6 : (2 * n') * d = 2 * (n' * d) := by ring
  -- all the inequalities are equalities
  have k7 : 2 * (n * d') = 2 * (n' * d) := by omega
  have k8 : 2 * (n' * d) = (2 * m' + 1) * d' * d := by omega
  have t1 : 2 * n' = (2 * m' + 1) * d' := by
    have : (2 * n') * d = ((2 * m' + 1) * d') * d := by rw [k6, k8]
    exact Nat.eq_of_mul_eq_mul_right hd this
  have hm' := b3 t1
  have k9 : (2 * m * d) * d' ≤ (2 * n + d) * d' := Nat.mul_le_mul_right _ a2
  have k10 : (2 * m * d) * d' = 2 * m * (d * d') := by ring
  have k11 : (2 * m' + 1) * d' * d + d * d' = 2 * (m' + 1) * (d * d') := by ring
  have hdd : 0 < d * d' := Nat.mul_pos hd hd'
  have k12 : 2 * m * (d * d') ≤ 2 * (m' + 1) * (d * d') := by
    rw [← k10, ← k11]; omega
  have k13 : 2 * m ≤ 2 * (m' + 1) := Nat.le_of_mul_le_mul_right k12 hdd
  have hmeq : m = m' + 1 := by omega
  have t2 : 2 * m * d = 2 * n + d := by
    have : (2 * m * d) * d' = (2 * n + d) * d' := by
      rw [k4, k10, hmeq, ← k11]; omega
    exact Nat.eq_of_mul_eq_mul_right hd' this
  have := a4 t2
  omega

theorem roundHalfEven_exact (m d : Nat) (hd : 0 < d) : roundHalfEven (m * d) d = m := by
  unfold roundHalfEven
  simp [Nat.mul_div_cancel _ hd, hd]

theorem reduce_value (fuel m : Nat) (e : Int) :
    ((reduce fuel m e).1 : ℚ) * 2 ^ (reduce fuel m e).2 = (m : ℚ) * 2 ^ e := by
  induction fuel generalizing m e with
  | zero => simp [reduce]
  | succ f ih =>
    unfold reduce
    by_cases h : m % 2 = 0 ∧ m ≠ 0
    · rw [if_pos h, ih]
      have h2 : m = 2 * (m / 2) := by omega
      conv_rhs => rw [h2]
      rw [zpow_add₀ (by norm_num), zpow_one]
      push_cast
      ring
    · rw [if_neg h]

theorem reduce_ne_zero (fuel m : Nat) (e : Int) (hm : m ≠ 0) : (reduce fuel m e).1 ≠ 0 := by
  induction fuel generalizing m e with
  | zero => simpa [reduce] using hm
  | succ f ih =>
    unfold reduce
    by_cases h : m % 2 = 0 ∧ m ≠ 0
    · rw [if_pos h]
      exact ih _ _ (by omega)
    · rw [if_neg h]
      exact hm

theorem absRat_mk (neg : Bool) (m : Nat) (e : Int) : absRat (mk neg m e) = (m : ℚ) * 2 ^ e := by
  unfold mk
  by_cases h : m = 0
  · simp [h, absRat]
  · simp only [h, if_false, absRat]
    exact reduce_value m m e

theorem absRat_nonneg (x : F64) : 0 ≤ absRat x := by
  cases x <;> simp only [absRat] <;> positivity

theorem round_eq (neg : Bool) (n d : Nat) (hn : n ≠ 0) :
    round neg n d =
      if (bitLen (roundMant n d) : Int) + roundExp n d > 1024 then inf neg
      else mk neg (roundMant n d) (roundExp n d) := by
  unfold round roundMant roundExp
  simp only [hn, if_false]

theorem roundExp_mono (n1 d1 n2 d2 : Nat) (h1 : 0 < n1) (hd1 : 0 < d1) (hd2 : 0 < d2)
    (h : n1 * d2 ≤ n2 * d1) : roundExp n1 d1 ≤ roundExp n2 d2 := by
  have h2 : 0 < n2 := by
    rcases Nat.eq_zero_or_pos n2 with h0 | h0
    · subst h0
      have : 0 < n1 * d2 := Nat.mul_pos h1 hd2
      omega
    · exact h0
  obtain ⟨a1, -⟩ := floorLog2_spec n1 d1 h1 hd1
  obtain ⟨-, b2⟩ := floorLog2_spec n2 d2 h2 hd2
  have hq : (n1 : ℚ) / d1 ≤ (n2 : ℚ) / d2 := by
    rw [div_le_div_iff₀ (by exact_mod_cast hd1) (by exact_mod_cast hd2)]
    exact_mod_cast h
  have hlt : (2 : ℚ) ^ floorLog2 n1 d1 < (2 : ℚ) ^ (floorLog2 n2 d2 + 1) :=
    lt_of_le_of_lt (le_trans a1 hq) b2
  have hk : floorLog2 n1 d1 < floorLog2 n2 d2 + 1 :=
    (zpow_lt_zpow_iff_right₀ (by norm_num : (1 : ℚ) < 2)).mp hlt
  unfold roundExp
  omega

theorem scaled_cross (n1 d1 n2 d2 : Nat) (e : Int) (h : n1 * d2 ≤ n2 * d1) :
    (n1 * 2 ^ (-e).toNat) * (d2 * 2 ^ e.toNat) ≤ (n2 * 2 ^ (-e).toNat) * (d1 * 2 ^ e.toNat) := by
  have e1 : (n1 * 2 ^ (-e).toNat) * (d2 * 2 ^ e.toNat) =
      (n1 * d2) * (2 ^ (-e).toNat * 2 ^ e.toNat) := by ring
  have e2 : (n2 * 2 ^ (-e).toNat) * (d1 * 2 ^ e.toNat) =
      (n2 * d1) * (2 ^ (-e).toNat * 2 ^ e.toNat) := by ring
  rw [e1, e2]
  exact Nat.mul_le_mul_right _ h

/-- The rounded mantissa stays below `2^53`. -/
theorem roundMant_le (n d : Nat) (hn : 0 < n) (hd : 0 < d) : roundMant n d ≤ 2 ^ 53 := by
  obtain ⟨-, b⟩ := floorLog2_spec n d hn hd
  have he : floorLog2 n d - 52 ≤ roundExp n d := le_max_left _ _
  set e := roundExp n d with hedef
  have hs := scaled_eq n d e
  have hdpos : (0 : ℚ) < ((d * 2 ^ e.toNat : Nat) : ℚ) := by
    have : 0 < d * 2 ^ e.toNat := Nat.mul_pos hd (by positivity)
    exact_mod_cast this
  have hlt : (n : ℚ) / d / 2 ^ e < 2 ^ (53 : Int) := by
    rw [div_lt_iff₀ (by positivity), ← zpow_add₀ (by norm_num)]
    refine lt_of_lt_of_le b ?_
    exact (zpow_le_zpow_iff_right₀ (by norm_num : (1 : ℚ) < 2)).mpr (by omega)
  rw [← hs, div_lt_iff₀ hdpos] at hlt
  have hnat : (n * 2 ^ (-e).toNat) * 1 ≤ (2 ^ 53 * 1) * (d * 2 ^ e.toNat) := by
    have : ((n * 2 ^ (-e).toNat : Nat) : ℚ) ≤ ((2 ^ 53 * (d * 2 ^ e.toNat) : Nat) : ℚ) := by
      push_cast
      push_cast at hlt
      have h53 : (2 : ℚ) ^ (53 : Int) = 2 ^ (53 : Nat) := by norm_cast
      rw [h53] at hlt
      linarith
    have := Nat.cast_le.mp this
    omega
  have := roundHalfEven_mono _ _ (2 ^ 53 * 1) 1 (Nat.mul_pos hd (by positivity)) Nat.one_pos hnat
  rw [roundHalfEven_exact _ 1 Nat.one_pos] at this
  exact this

/-- Above the least exponent the rounded mantissa is at least `2^52`. -/
theorem roundMant_ge (n d : Nat) (hn : 0 < n) (hd : 0 < d) (he : -1074 < roundExp n d) :
    2 ^ 52 ≤ roundMant n d := by
  obtain ⟨a, -⟩ := floorLog2_spec n d hn hd
  have hee : roundExp n d = floorLog2 n d - 52 := by
    unfold roundExp at he ⊢
    omega
  set e := roundExp n d with hedef
  have hs := scaled_eq n d e
  have hdpos : (0 : ℚ) < ((d * 2 ^ e.toNat : Nat) : ℚ) := by
    have : 0 < d * 2 ^ e.toNat := Nat.mul_pos hd (by positivity)
    exact_mod_cast this
  have hge : (2 : ℚ) ^ (52 : Int) ≤ (n : ℚ) / d / 2 ^ e := by
    rw [le_div_iff₀ (by positivity), ← zpow_add₀ (by norm_num)]
    refine le_trans ?_ a
    exact (zpow_le_zpow_iff_right₀ (by norm_num : (1 : ℚ) < 2)).mpr (by omega)
  rw [← hs, le_div_iff₀ hdpos] at hge
  have hnat : (2 ^ 52 * 1) * (d * 2 ^ e.toNat) ≤ (n * 2 ^ (-e).toNat) * 1 := by
    have : ((2 ^ 52 * (d * 2 ^ e.toNat) : Nat) : ℚ) ≤ ((n * 2 ^ (-e).toNat : Nat) : ℚ) := by
      push_cast
      push_cast at hge
      have h52 : (2 : ℚ) ^ (52 : Int) = 2 ^ (52 : Nat) := by norm_cast
      rw [h52] at hge
      linarith
    have := Nat.cast_le.mp this
    omega
  have := roundHalfEven_mono (2 ^ 52 * 1) 1 _ _ Nat.one_pos (Nat.mul_pos hd (by positivity)) hnat
  rw [roundHalfEven_exact _ 1 Nat.one_pos] at this
  exact this

/-- The value before the overflow test grows with the rational rounded. -/
theorem preRound_mono (n1 d1 n2 d2 : Nat) (h1 : 0 < n1) (hd1 : 0 < d1) (hd2 : 0 < d2)
    (h : n1 * d2 ≤ n2 * d1) :
    (roundMant n1 d1 : ℚ) * 2 ^ roundExp n1 d1 ≤ (roundMant n2 d2 : ℚ) * 2 ^ roundExp n2 d2 := by
  have h2 : 0 < n2 := by
    rcases Nat.eq_zero_or_pos n2 with h0 | h0
    · subst h0
      have : 0 < n1 * d2 := Nat.mul_pos h1 hd2
      omega
    · exact h0
  have hexp := roundExp_mono n1 d1 n2 d2 h1 hd1 hd2 h
  rcases eq_or_lt_of_le hexp with heq | hlt
  · have hm : roundMant n1 d1 ≤ roundMant n2 d2 := by
      unfold roundMant
      rw [← heq]
      exact roundHalfEven_mono _ _ _ _ (Nat.mul_pos hd1 (by positivity))
        (Nat.mul_pos hd2 (by positivity)) (scaled_cross n1 d1 n2 d2 _ h)
    rw [← heq]
    have : (roundMant n1 d1 : ℚ) ≤ roundMant n2 d2 := by exact_mod_cast hm
    exact mul_le_mul_of_nonneg_right this (by positivity)
  · have hm1 := roundMant_le n1 d1 h1 hd1
    have he2 : -1074 < roundExp n2 d2 := by
      have : -1074 ≤ roundExp n1 d1 := le_max_right _ _
      omega
    have hm2 := roundMant_ge n2 d2 h2 hd2 he2
    have q1 : (roundMant n1 d1 : ℚ) ≤ 2 ^ (53 : Int) := by
      have : (roundMant n1 d1 : ℚ) ≤ ((2 ^ 53 : Nat) : ℚ) := by exact_mod_cast hm1
      have h53 : (2 : ℚ) ^ (53 : Int) = ((2 ^ 53 : Nat) : ℚ) := by norm_cast
      rw [h53]; exact this
    have q2 : (2 : ℚ) ^ (52 : Int) ≤ (roundMant n2 d2 : ℚ) := by
      have : ((2 ^ 52 : Nat) : ℚ) ≤ (roundMant n2 d2 : ℚ) := by exact_mod_cast hm2
      have h52 : (2 : ℚ) ^ (52 : Int) = ((2 ^ 52 : Nat) : ℚ) := by norm_cast
      rw [h52]; exact this
    calc (roundMant n1 d1 : ℚ) * 2 ^ roundExp n1 d1
        ≤ 2 ^ (53 : Int) * 2 ^ roundExp n1 d1 := mul_le_mul_of_nonneg_right q1 (by positivity)
      _ = 2 ^ (53 + roundExp n1 d1) := by rw [zpow_add₀ (by norm_num)]
      _ ≤ 2 ^ (52 + roundExp n2 d2) :=
          (zpow_le_zpow_iff_right₀ (by norm_num : (1 : ℚ) < 2)).mpr (by omega)
      _ = 2 ^ (52 : Int) * 2 ^ roundExp n2 d2 := by rw [zpow_add₀ (by norm_num)]
      _ ≤ (roundMant n2 d2 : ℚ) * 2 ^ roundExp n2 d2 :=
          mul_le_mul_of_nonneg_right q2 (by positivity)

theorem overflow_iff (n d : Nat) (hn : 0 < n) (hd : 0 < d) :
    ((bitLen (roundMant n d) : Int) + roundExp n d > 1024) ↔
      (2 : ℚ) ^ (1024 : Int) ≤ (roundMant n d : ℚ) * 2 ^ roundExp n d := by
  have hE : -1074 ≤ roundExp n d := le_max_right _ _
  rcases Nat.eq_zero_or_pos (roundMant n d) with h0 | hpos
  · have hE2 : roundExp n d = -1074 := by
      by_contra hne
      have := roundMant_ge n d hn hd (by omega)
      omega
    rw [h0, bitLen_zero, hE2]
    simp only [Nat.cast_zero, zero_mul]
    constructor
    · intro h; omega
    · intro h
      have : (0 : ℚ) < 2 ^ (1024 : Int) := by positivity
      linarith
  · obtain ⟨b1, b2⟩ := bitLen_spec _ hpos
    have hb := bitLen_pos _ hpos
    set M := roundMant n d
    set E := roundExp n d
    set b := bitLen M
    have q1 : (2 : ℚ) ^ ((b : Int) - 1) ≤ (M : ℚ) := by
      have h' : ((2 ^ b : Nat) : ℚ) ≤ ((2 * M : Nat) : ℚ) := by exact_mod_cast b1
      push_cast at h'
      rw [zpow_sub₀ (by norm_num), zpow_one, zpow_natCast, div_le_iff₀ (by norm_num)]
      linarith
    have q2 : (M : ℚ) < (2 : ℚ) ^ (b : Int) := by
      have h' : ((M : Nat) : ℚ) < ((2 ^ b : Nat) : ℚ) := by exact_mod_cast b2
      push_cast at h'
      rw [zpow_natCast]
      exact h'
    constructor
    · intro h
      calc (2 : ℚ) ^ (1024 : Int) ≤ 2 ^ ((b : Int) - 1 + E) :=
            (zpow_le_zpow_iff_right₀ (by norm_num : (1 : ℚ) < 2)).mpr (by omega)
        _ = 2 ^ ((b : Int) - 1) * 2 ^ E := by rw [zpow_add₀ (by norm_num)]
        _ ≤ (M : ℚ) * 2 ^ E := mul_le_mul_of_nonneg_right q1 (by positivity)
    · intro h
      by_contra hc
      have hle : (b : Int) + E ≤ 1024 := by omega
      have : (M : ℚ) * 2 ^ E < 2 ^ (1024 : Int) :=
        calc (M : ℚ) * 2 ^ E < 2 ^ (b : Int) * 2 ^ E :=
              mul_lt_mul_of_pos_right q2 (by positivity)
          _ = 2 ^ ((b : Int) + E) := by rw [zpow_add₀ (by norm_num)]
          _ ≤ 2 ^ (1024 : Int) :=
              (zpow_le_zpow_iff_right₀ (by norm_num : (1 : ℚ) < 2)).mpr hle
      linarith

/-- The magnitude of a rounded positive rational: the value before the
overflow test, capped at `2^1024`. -/
theorem absRat_round (neg : Bool) (n d : Nat) (hn : 0 < n) (hd : 0 < d) :
    absRat (round neg n d) = min ((roundMant n d : ℚ) * 2 ^ roundExp n d) (2 ^ (1024 : Int)) := by
  rw [round_eq neg n d (by omega)]
  by_cases h : (bitLen (roundMant n d) : Int) + roundExp n d > 1024
  · rw [if_pos h]
    have := (overflow_iff n d hn hd).mp h
    rw [min_eq_right this]
    rfl
  · rw [if_neg h, absRat_mk]
    have : ¬ (2 : ℚ) ^ (1024 : Int) ≤ (roundMant n d : ℚ) * 2 ^ roundExp n d :=
      fun hx => h ((overflow_iff n d hn hd).mpr hx)
    rw [min_eq_left (le_of_lt (lt_of_not_le this))]

theorem absRat_round_zero (neg : Bool) (d : Nat) : absRat (round neg 0 d) = 0 := by
  simp [round, absRat]

/-- Rounding is monotone: a larger rational rounds to a larger magnitude. -/
theorem round_mono (s t : Bool) (n1 d1 n2 d2 : Nat) (hd1 : 0 < d1) (hd2 : 0 < d2)
    (h : n1 * d2 ≤ n2 * d1) : absRat (round s n1 d1) ≤ absRat (round t n2 d2) := by
  rcases Nat.eq_zero_or_pos n1 with h0 | h1
  · subst h0
    rw [absRat_round_zero]
    exact absRat_nonneg _
  · have h2 : 0 < n2 := by
      rcases Nat.eq_zero_or_pos n2 with h0 | h0
      · subst h0
        have : 0 < n1 * d2 := Nat.mul_pos h1 hd2
        omega
      · exact h0
    rw [absRat_round s n1 d1 h1 hd1, absRat_round t n2 d2 h2 hd2]
    exact min_le_min (preRound_mono n1 d1 n2 d2 h1 hd1 hd2 h) le_rfl

/-- The shape of a rounded value: the sign is the one given. -/
theorem round_shape (neg : Bool) (n d : Nat) :
    round neg n d = inf neg ∨ ∃ m e, round neg n d = fin neg m e := by
  unfold round
  by_cases hn : n = 0
  · exact Or.inr ⟨0, 0, by simp [hn]⟩
  · simp only [hn, if_false]
    split
    · exact Or.inl rfl
    · right
      unfold mk
      split
      · exact ⟨_, _, rfl⟩
      · exact ⟨_, _, rfl⟩

theorem round_mono_rat (s t : Bool) (n1 d1 n2 d2 : Nat) (hd1 : 0 < d1) (hd2 : 0 < d2)
    (h : (n1 : ℚ) / d1 ≤ (n2 : ℚ) / d2) : absRat (round s n1 d1) ≤ absRat (round t n2 d2) := by
  apply round_mono s t n1 d1 n2 d2 hd1 hd2
  rw [div_le_div_iff₀ (by exact_mod_cast hd1) (by exact_mod_cast hd2)] at h
  exact_mod_cast h

/-- A power with an integer exponent, as a quotient of natural powers. -/
theorem zpow_nat_eq (b : Nat) (hb : 0 < b) (k : Int) :
    (b : ℚ) ^ k = ((b ^ k.toNat : Nat) : ℚ) / ((b ^ (-k).toNat : Nat) : ℚ) := by
  have hb0 : (b : ℚ) ≠ 0 := by exact_mod_cast hb.ne'
  rcases le_total 0 k with h | h
  · have h1 : (-k).toNat = 0 := by omega
    rw [h1, pow_zero, Nat.cast_one, div_one]
    conv_lhs => rw [← Int.toNat_of_nonneg h]
    rw [zpow_natCast]
    push_cast
    rfl
  · have h1 : k.toNat = 0 := by omega
    rw [h1, pow_zero, Nat.cast_one, one_div]
    have h2 : k = -((-k).toNat : Int) := by omega
    conv_lhs => rw [h2]
    rw [zpow_neg, zpow_natCast]
    push_cast
    rfl

theorem scaledArg_eq (n d b : Nat) (hb : 0 < b) (hd : 0 < d) (p : Int) :
    ((n * b ^ p.toNat : Nat) : ℚ) / ((d * b ^ (-p).toNat : Nat) : ℚ) =
      (n : ℚ) / d * (b : ℚ) ^ p := by
  rw [zpow_nat_eq b hb p]
  have h1 : ((b ^ (-p).toNat : Nat) : ℚ) ≠ 0 := by
    have : 0 < b ^ (-p).toNat := by positivity
    exact_mod_cast this.ne'
  have h2 : (d : ℚ) ≠ 0 := by exact_mod_cast hd.ne'
  push_cast
  push_cast at h1
  field_simp

theorem roundScaled_mono (s t : Bool) (n1 d1 n2 d2 b : Nat) (p1 p2 : Int) (hb : 0 < b)
    (hd1 : 0 < d1) (hd2 : 0 < d2)
    (h : (n1 : ℚ) / d1 * (b : ℚ) ^ p1 ≤ (n2 : ℚ) / d2 * (b : ℚ) ^ p2) :
    absRat (roundScaled s n1 d1 b p1) ≤ absRat (roundScaled t n2 d2 b p2) := by
  unfold roundScaled
  apply round_mono_rat
  · exact Nat.mul_pos hd1 (by positivity)
  · exact Nat.mul_pos hd2 (by positivity)
  · rw [scaledArg_eq n1 d1 b hb hd1, scaledArg_eq n2 d2 b hb hd2]
    exact h

/-- Multiplication by a fixed finite factor is monotone in the magnitude. -/
theorem mul_mono (s s' t t' : Bool) (m m' n : Nat) (e e' f : Int)
    (h : absRat (fin s m e) ≤ absRat (fin s' m' e')) :
    absRat (mul (fin s m e) (fin t n f)) ≤ absRat (mul (fin s' m' e') (fin t' n f)) := by
  simp only [mul]
  apply roundScaled_mono _ _ _ _ _ _ 2 _ _ (by norm_num) Nat.one_pos Nat.one_pos
  simp only [absRat] at h
  push_cast
  rw [zpow_add₀ (by norm_num), zpow_add₀ (by norm_num)]
  have hn : (0 : ℚ) ≤ (n : ℚ) * 2 ^ f := by positivity
  calc (m : ℚ) * n / 1 * (2 ^ e * 2 ^ f) = ((m : ℚ) * 2 ^ e) * ((n : ℚ) * 2 ^ f) := by ring
    _ ≤ ((m' : ℚ) * 2 ^ e') * ((n : ℚ) * 2 ^ f) := mul_le_mul_of_nonneg_right h hn
    _ = (m' : ℚ) * n / 1 * (2 ^ e' * 2 ^ f) := by ring

theorem mul_fin_shape (s t : Bool) (m n : Nat) (e f : Int) :
    mul (fin s m e) (fin t n f) = inf (xor s t) ∨
      ∃ m' e', mul (fin s m e) (fin t n f) = fin (xor s t) m' e' := by
  simp only [mul, roundScaled]
  exact round_shape _ _ _

/-- The conversion to `int` of a non-negative value in `[1, 2^63)` is positive. -/
theorem toInt_pos (m : Nat) (e : Int) (h1 : 1 ≤ absRat (fin false m e))
    (h2 : absRat (fin false m e) < 2 ^ (63 : Int)) : 0 < toInt (fin false m e) := by
  simp only [absRat] at h1 h2
  rw [zpow_two_eq e] at h1 h2
  have hD : (0 : ℚ) < (2 : ℚ) ^ (-e).toNat := by positivity
  rw [← mul_div_assoc, le_div_iff₀ hD] at h1
  rw [← mul_div_assoc, div_lt_iff₀ hD] at h2
  have n1 : 2 ^ (-e).toNat ≤ m * 2 ^ e.toNat := by
    have : ((2 ^ (-e).toNat : Nat) : ℚ) ≤ ((m * 2 ^ e.toNat : Nat) : ℚ) := by
      push_cast; linarith
    exact_mod_cast this
  have n2 : m * 2 ^ e.toNat < 2 ^ 63 * 2 ^ (-e).toNat := by
    have : ((m * 2 ^ e.toNat : Nat) : ℚ) < ((2 ^ 63 * 2 ^ (-e).toNat : Nat) : ℚ) := by
      push_cast
      have h63 : (2 : ℚ) ^ (63 : Int) = 2 ^ (63 : Nat) := by norm_cast
      rw [h63] at h2
      linarith
    exact_mod_cast this
  have hDn : 0 < 2 ^ (-e).toNat := by positivity
  have a1 : 1 ≤ m * 2 ^ e.toNat / 2 ^ (-e).toNat := (Nat.one_le_div_iff hDn).mpr n1
  have a2 : m * 2 ^ e.toNat / 2 ^ (-e).toNat < 2 ^ 63 := (Nat.div_lt_iff_lt_mul hDn).mpr n2
  unfold toInt
  simp only [Bool.false_eq_true, if_false, twoPow63]
  have c1 : (1 : Int) ≤ ((m * 2 ^ e.toNat / 2 ^ (-e).toNat : Nat) : Int) := by exact_mod_cast a1
  have c2 : ((m * 2 ^ e.toNat / 2 ^ (-e).toNat : Nat) : Int) < 9223372036854775808 := by
    have : ((m * 2 ^ e.toNat / 2 ^ (-e).toNat : Nat) : Int) < ((2 ^ 63 : Nat) : Int) := by
      exact_mod_cast a2
    simpa using this
  rw [if_pos ⟨by omega, c2⟩]
  omega

/-- The conversion to `int` of a zero or negative value is not positive. -/
theorem toInt_nonPositive (x : F64) (h : nonPositive x = true) : toInt x ≤ 0 := by
  cases x with
  | nan => simp [nonPositive] at h
  | inf s => simp [toInt, twoPow63]
  | fin s m e =>
    simp only [nonPositive, Bool.or_eq_true, beq_iff_eq] at h
    unfold toInt
    simp only [twoPow63]
    rcases h with h | h
    · subst h
      simp only [if_true]
      generalize m * 2 ^ e.toNat / 2 ^ (-e).toNat = a
      split <;> omega
    · subst h
      simp only [zero_mul, Nat.zero_div, Nat.cast_zero, neg_zero, ite_self]
      split <;> omega

/-! ## Exact results -/

/-- Rounding depends on the rational only, not on the fraction that names it. -/
theorem absRat_round_congr (s t : Bool) (n1 d1 n2 d2 : Nat) (hd1 : 0 < d1) (hd2 : 0 < d2)
    (h : (n1 : ℚ) / d1 = (n2 : ℚ) / d2) :
    absRat (round s n1 d1) = absRat (round t n2 d2) :=
  le_antisymm (round_mono_rat s t n1 d1 n2 d2 hd1 hd2 (le_of_eq h))
    (round_mono_rat t s n2 d2 n1 d1 hd2 hd1 (le_of_eq h.symm))

/-- Below `2^53` is below the overflow threshold. -/
theorem lt_overflow_of_lt (x : ℚ) (N : Nat) (hx : x ≤ (N : ℚ)) (hN : N < 2 ^ 53) :
    x < 2 ^ (1024 : Int) := by
  have h1 : (N : ℚ) < ((2 ^ 53 : Nat) : ℚ) := by exact_mod_cast hN
  have h2 : ((2 ^ 53 : Nat) : ℚ) = (2 : ℚ) ^ (53 : Int) := by norm_cast
  have h3 : (2 : ℚ) ^ (53 : Int) ≤ 2 ^ (1024 : Int) :=
    (zpow_le_zpow_iff_right₀ (by norm_num)).2 (by norm_num)
  rw [h2] at h1
  linarith

/-- A value `N / 2^s` with `N < 2^53` is a `float64`: rounding keeps it. -/
theorem absRat_round_dyadic (neg : Bool) (N s : Nat) (hN : N < 2 ^ 53) (hs : s ≤ 1022) :
    absRat (round neg N (2 ^ s)) = (N : ℚ) / 2 ^ s := by
  rcases Nat.eq_zero_or_pos N with h0 | hpos
  · subst h0
    rw [absRat_round_zero]
    simp
  have hd : 0 < 2 ^ s := by positivity
  rw [absRat_round neg N (2 ^ s) hpos hd]
  obtain ⟨hlo, hhi⟩ := floorLog2_spec N (2 ^ s) hpos hd
  push_cast at hlo hhi
  have h2s : (0 : ℚ) < 2 ^ s := by positivity
  have hNq : (N : ℚ) < 2 ^ (53 : Nat) := by exact_mod_cast hN
  have hN1 : (1 : ℚ) ≤ N := by exact_mod_cast hpos
  -- the bounds on the logarithm
  have hfl_hi : floorLog2 N (2 ^ s) < 53 - (s : Int) := by
    have h1 : (2 : ℚ) ^ floorLog2 N (2 ^ s) < 2 ^ ((53 : Int) - (s : Int)) := by
      refine lt_of_le_of_lt hlo ?_
      rw [zpow_sub₀ (by norm_num), zpow_natCast]
      have : (2 : ℚ) ^ (53 : Int) = 2 ^ (53 : Nat) := by norm_cast
      rw [this]
      exact div_lt_div_of_pos_right hNq h2s
    exact (zpow_lt_zpow_iff_right₀ (by norm_num)).1 h1
  have hfl_lo : -(s : Int) < floorLog2 N (2 ^ s) + 1 := by
    have h1 : (2 : ℚ) ^ (-(s : Int)) < 2 ^ (floorLog2 N (2 ^ s) + 1) := by
      refine lt_of_le_of_lt ?_ hhi
      rw [zpow_neg, zpow_natCast, ← one_div]
      exact div_le_div_of_nonneg_right hN1 (le_of_lt h2s)
    exact (zpow_lt_zpow_iff_right₀ (by norm_num)).1 h1
  have he : roundExp N (2 ^ s) = floorLog2 N (2 ^ s) - 52 := by
    unfold roundExp
    apply max_eq_left
    omega
  obtain ⟨t, ht⟩ : ∃ t : Nat, (t : Int) = 52 - floorLog2 N (2 ^ s) := ⟨(52 - floorLog2 N (2 ^ s)).toNat, by omega⟩
  have hts : s ≤ t := by omega
  have hE : roundExp N (2 ^ s) = -(t : Int) := by omega
  have hm : roundMant N (2 ^ s) = N * 2 ^ (t - s) := by
    unfold roundMant
    rw [hE]
    have e1 : (- -(t : Int)).toNat = t := by omega
    have e2 : (-(t : Int)).toNat = 0 := by omega
    rw [e1, e2, pow_zero, Nat.mul_one]
    have : N * 2 ^ t = (N * 2 ^ (t - s)) * 2 ^ s := by
      rw [Nat.mul_assoc, ← pow_add]
      congr 2
      omega
    rw [this]
    exact roundHalfEven_exact _ _ hd
  have hval : (roundMant N (2 ^ s) : ℚ) * 2 ^ roundExp N (2 ^ s) = (N : ℚ) / 2 ^ s := by
    rw [hm, hE, zpow_neg, zpow_natCast]
    push_cast
    have : (2 : ℚ) ^ t = 2 ^ (t - s) * 2 ^ s := by
      rw [← pow_add]
      congr 1
      omega
    rw [this]
    field_simp
    ring
  rw [hval]
  apply min_eq_left
  have hle : (N : ℚ) / 2 ^ s ≤ N := div_le_self (by positivity) (one_le_pow₀ (by norm_num))
  exact le_of_lt (lt_overflow_of_lt _ N hle hN)

/-- A rounded value below `2^1024` is finite, with the sign given. -/
theorem round_fin_of_lt (neg : Bool) (n d : Nat)
    (h : absRat (round neg n d) < 2 ^ (1024 : Int)) : ∃ m e, round neg n d = fin neg m e := by
  rcases round_shape neg n d with hi | hf
  · rw [hi] at h
    simp [absRat] at h
  · exact hf

/-- The conversion of an `int` in `[0, 2^53)` is exact. -/
theorem ofInt_exact (z : Int) (h0 : 0 ≤ z) (h : z < 2 ^ 53) :
    ∃ m e, ofInt z = fin false m e ∧ absRat (fin false m e) = (z : ℚ) := by
  have hn : z.natAbs < 2 ^ 53 := by omega
  have hneg : decide (z < 0) = false := by
    simp only [decide_eq_false_iff_not, not_lt]
    exact h0
  have hcast : ((z.natAbs : Nat) : ℚ) = (z : ℚ) := by
    rw [Nat.cast_natAbs, abs_of_nonneg h0]
  have hv : absRat (round false z.natAbs 1) = (z : ℚ) := by
    have := absRat_round_dyadic false z.natAbs 0 hn (by norm_num)
    rw [pow_zero] at this
    rw [this, pow_zero, div_one, hcast]
  have hlt : absRat (round false z.natAbs 1) < 2 ^ (1024 : Int) := by
    rw [hv, ← hcast]
    exact lt_overflow_of_lt _ z.natAbs le_rfl hn
  obtain ⟨m, e, hme⟩ := round_fin_of_lt false z.natAbs 1 hlt
  refine ⟨m, e, ?_, ?_⟩
  · unfold ofInt
    rw [hneg, hme]
  · rw [← hme]
    exact hv

/-- The value that `mul` rounds. -/
theorem mul_fin_eq (s t : Bool) (m n : Nat) (e f : Int) (N : Nat)
    (hv : absRat (fin s m e) * absRat (fin t n f) = (N : ℚ)) (hN : N < 2 ^ 53) :
    ∃ m' e', mul (fin s m e) (fin t n f) = fin (xor s t) m' e' ∧
      absRat (fin (xor s t) m' e') = (N : ℚ) := by
  have hval : absRat (mul (fin s m e) (fin t n f)) = (N : ℚ) := by
    simp only [mul, roundScaled]
    have hd : 0 < 1 * 2 ^ (-(e + f)).toNat := by positivity
    rw [absRat_round_congr (xor s t) (xor s t) _ _ N (2 ^ 0) hd (by norm_num) ?_]
    · rw [absRat_round_dyadic _ N 0 hN (by norm_num)]
      simp
    · rw [scaledArg_eq (m * n) 1 2 (by norm_num) (by norm_num)]
      simp only [absRat] at hv
      push_cast
      rw [zpow_add₀ (by norm_num)]
      simp only [pow_zero, div_one]
      rw [← hv]
      ring
  have hlt : absRat (mul (fin s m e) (fin t n f)) < 2 ^ (1024 : Int) := by
    rw [hval]
    exact lt_overflow_of_lt _ N le_rfl hN
  rcases mul_fin_shape s t m n e f with hi | ⟨m', e', hf⟩
  · rw [hi] at hlt
    simp [absRat] at hlt
  · exact ⟨m', e', hf, by rw [← hf]; exact hval⟩

/-- The quotient that `div` rounds, between a natural number and a dyadic
value that are both `float64` values. -/
theorem div_fin_bounds (s t : Bool) (m n : Nat) (e f : Int) (hn : n ≠ 0) (k N u : Nat)
    (hk : k < 2 ^ 53) (hN : N < 2 ^ 53) (hu : u ≤ 1022)
    (hlo : (k : ℚ) ≤ absRat (fin s m e) / absRat (fin t n f))
    (hhi : absRat (fin s m e) / absRat (fin t n f) ≤ (N : ℚ) / 2 ^ u) :
    ∃ m' e', div (fin s m e) (fin t n f) = fin (xor s t) m' e' ∧
      (k : ℚ) ≤ absRat (fin (xor s t) m' e') ∧
      absRat (fin (xor s t) m' e') ≤ (N : ℚ) / 2 ^ u := by
  have hdiv : div (fin s m e) (fin t n f) = roundScaled (xor s t) m n 2 (e - f) := by
    simp only [div, hn, if_false]
  have hnpos : 0 < n := Nat.pos_of_ne_zero hn
  have hd : 0 < n * 2 ^ (-(e - f)).toNat := Nat.mul_pos hnpos (by positivity)
  have hval : ((m * 2 ^ (e - f).toNat : Nat) : ℚ) / ((n * 2 ^ (-(e - f)).toNat : Nat) : ℚ) =
      absRat (fin s m e) / absRat (fin t n f) := by
    rw [scaledArg_eq m n 2 (by norm_num) hnpos]
    simp only [absRat]
    rw [zpow_sub₀ (by norm_num)]
    have h1 : (n : ℚ) ≠ 0 := by exact_mod_cast hn
    have h2 : (2 : ℚ) ^ f ≠ 0 := by positivity
    push_cast
    field_simp
  have hlo' : (k : ℚ) ≤ absRat (roundScaled (xor s t) m n 2 (e - f)) := by
    have h1 := absRat_round_dyadic (xor s t) k 0 hk (by norm_num)
    rw [pow_zero] at h1
    simp only [pow_zero, div_one] at h1
    rw [← h1]
    unfold roundScaled
    apply round_mono_rat _ _ _ _ _ _ Nat.one_pos hd
    rw [hval]
    simpa using hlo
  have hhi' : absRat (roundScaled (xor s t) m n 2 (e - f)) ≤ (N : ℚ) / 2 ^ u := by
    have h1 := absRat_round_dyadic (xor s t) N u hN hu
    rw [← h1]
    unfold roundScaled
    apply round_mono_rat _ _ _ _ _ _ hd (by positivity)
    rw [hval]
    push_cast
    exact hhi
  have hlt : absRat (round (xor s t) (m * 2 ^ (e - f).toNat) (n * 2 ^ (-(e - f)).toNat)) <
      2 ^ (1024 : Int) := by
    have hle : (N : ℚ) / 2 ^ u ≤ N := div_le_self (by positivity) (one_le_pow₀ (by norm_num))
    unfold roundScaled at hhi'
    exact lt_overflow_of_lt _ N (le_trans hhi' hle) hN
  obtain ⟨m', e', hme⟩ := round_fin_of_lt _ _ _ hlt
  refine ⟨m', e', ?_, ?_, ?_⟩
  · rw [hdiv]
    unfold roundScaled
    exact hme
  · rw [← hme]
    exact hlo'
  · rw [← hme]
    exact hhi'

/-- The conversion to `int` of a non-negative value is its integer part. -/
theorem toInt_floor (m : Nat) (e : Int) (k : Nat) (h1 : (k : ℚ) ≤ absRat (fin false m e))
    (h2 : absRat (fin false m e) < (k : ℚ) + 1) (hk : k < 2 ^ 63) :
    toInt (fin false m e) = (k : Int) := by
  simp only [absRat] at h1 h2
  rw [zpow_two_eq e] at h1 h2
  have hD : (0 : ℚ) < (2 : ℚ) ^ (-e).toNat := by positivity
  rw [← mul_div_assoc, le_div_iff₀ hD] at h1
  rw [← mul_div_assoc, div_lt_iff₀ hD] at h2
  have n1 : k * 2 ^ (-e).toNat ≤ m * 2 ^ e.toNat := by
    have : ((k * 2 ^ (-e).toNat : Nat) : ℚ) ≤ ((m * 2 ^ e.toNat : Nat) : ℚ) := by
      push_cast; linarith
    exact_mod_cast this
  have n2 : m * 2 ^ e.toNat < (k + 1) * 2 ^ (-e).toNat := by
    have : ((m * 2 ^ e.toNat : Nat) : ℚ) < (((k + 1) * 2 ^ (-e).toNat : Nat) : ℚ) := by
      push_cast; linarith
    exact_mod_cast this
  have hDn : 0 < 2 ^ (-e).toNat := by positivity
  have a1 : k ≤ m * 2 ^ e.toNat / 2 ^ (-e).toNat := (Nat.le_div_iff_mul_le hDn).mpr n1
  have a2 : m * 2 ^ e.toNat / 2 ^ (-e).toNat < k + 1 := (Nat.div_lt_iff_lt_mul hDn).mpr n2
  have a3 : m * 2 ^ e.toNat / 2 ^ (-e).toNat = k := by omega
  unfold toInt
  simp only [Bool.false_eq_true, if_false, twoPow63, a3]
  have c2 : (k : Int) < 9223372036854775808 := by
    have : (k : Int) < ((2 ^ 63 : Nat) : Int) := by exact_mod_cast hk
    simpa using this
  rw [if_pos ⟨by omega, c2⟩]

/-- The expression `int(float64(b) * float64(w) / float64(h))` of
`CalculateDimensions` is the integer quotient `b * w / h`, when `b * w + h`
does not exceed `2^52`. -/
theorem toInt_div_mul_ofNat (b w h : Nat) (hb : 0 < b) (hw : 0 < w) (hh : 0 < h)
    (hr : b * w + h ≤ 2 ^ 52) :
    toInt (div (mul (ofInt (b : Int)) (ofInt (w : Int))) (ofInt (h : Int))) =
      ((b * w / h : Nat) : Int) := by
  have hbw : b ≤ b * w := Nat.le_mul_of_pos_right b hw
  have hwb : w ≤ b * w := Nat.le_mul_of_pos_left w hb
  have h53 : (2 : Nat) ^ 52 < 2 ^ 53 := by norm_num
  obtain ⟨mb, eb, hb1, hb2⟩ := ofInt_exact (b : Int) (by omega) (by exact_mod_cast (by omega : b < 2 ^ 53))
  obtain ⟨mw, ew, hw1, hw2⟩ := ofInt_exact (w : Int) (by omega) (by exact_mod_cast (by omega : w < 2 ^ 53))
  obtain ⟨mh, eh, hh1, hh2⟩ := ofInt_exact (h : Int) (by omega) (by exact_mod_cast (by omega : h < 2 ^ 53))
  rw [hb1, hw1, hh1]
  have hv : absRat (fin false mb eb) * absRat (fin false mw ew) = ((b * w : Nat) : ℚ) := by
    rw [hb2, hw2]
    push_cast
    ring
  obtain ⟨mp, ep, hp1, hp2⟩ := mul_fin_eq false false mb mw eb ew (b * w) hv (by omega)
  simp only [Bool.xor_false] at hp1 hp2
  rw [hp1]
  have hmh : mh ≠ 0 := by
    intro h0
    rw [h0] at hh2
    simp only [absRat, Nat.cast_zero, zero_mul] at hh2
    have : (0 : ℚ) < ((h : Int) : ℚ) := by exact_mod_cast hh
    linarith
  -- the integer quotient and the dyadic bound above the exact quotient
  obtain ⟨hu1, hu2⟩ := bitLen_spec h hh
  have hkH : b * w / h * h ≤ b * w := Nat.div_mul_le_self _ _
  have hkle : b * w / h ≤ b * w := Nat.div_le_self _ _
  have hlt : b * w < (b * w / h + 1) * h := by
    have := Nat.div_add_mod (b * w) h
    have hm := Nat.mod_lt (b * w) hh
    nlinarith
  have hA : (b * w / h + 1) * 2 ^ bitLen h ≤ 2 ^ 53 := by
    have : (b * w / h + 1) * 2 ^ bitLen h ≤ (b * w / h + 1) * (2 * h) :=
      Nat.mul_le_mul_left _ hu1
    have e2 : (b * w / h + 1) * (2 * h) = 2 * (b * w / h * h + h) := by ring
    have e3 : (2 : Nat) ^ 53 = 2 * 2 ^ 52 := by norm_num
    omega
  have hApos : 0 < (b * w / h + 1) * 2 ^ bitLen h := by positivity
  have hu : bitLen h ≤ 1022 := by
    have h1 : 2 ^ bitLen h ≤ 2 ^ 53 := by
      have : 2 ^ bitLen h ≤ (b * w / h + 1) * 2 ^ bitLen h := Nat.le_mul_of_pos_left _ (Nat.succ_pos _)
      exact le_trans this hA
    have := (Nat.pow_le_pow_iff_right (by norm_num : 1 < 2)).1 h1
    omega
  have hhq : (0 : ℚ) < (h : ℚ) := by exact_mod_cast hh
  have hpq : (0 : ℚ) < (2 : ℚ) ^ bitLen h := by positivity
  have hNcast : (((b * w / h + 1) * 2 ^ bitLen h - 1 : Nat) : ℚ) =
      ((b * w / h : Nat) : ℚ) * 2 ^ bitLen h + 2 ^ bitLen h - 1 := by
    rw [Nat.cast_sub hApos]
    push_cast
    ring
  have hq : absRat (fin false mp ep) / absRat (fin false mh eh) = ((b * w : Nat) : ℚ) / (h : ℚ) := by
    rw [hp2, hh2]
    push_cast
    rfl
  have hbw53 : b * w < 2 ^ 53 := by omega
  have hk53 : b * w / h < 2 ^ 53 := lt_of_le_of_lt hkle hbw53
  have hN53 : (b * w / h + 1) * 2 ^ bitLen h - 1 < 2 ^ 53 :=
    lt_of_lt_of_le (Nat.sub_lt hApos Nat.one_pos) hA
  obtain ⟨m', e', hd1, hd2, hd3⟩ := div_fin_bounds false false mp mh ep eh hmh (b * w / h)
    ((b * w / h + 1) * 2 ^ bitLen h - 1) (bitLen h) hk53 hN53 hu
    (by
      rw [hq, le_div_iff₀ hhq]
      exact_mod_cast hkH)
    (by
      rw [hq, div_le_div_iff₀ hhq hpq, hNcast]
      have k1 : ((b * w : Nat) : ℚ) + 1 ≤ (((b * w / h : Nat) : ℚ) + 1) * (h : ℚ) := by
        exact_mod_cast hlt
      have k2 : (h : ℚ) ≤ 2 ^ bitLen h := by exact_mod_cast le_of_lt hu2
      nlinarith)
  simp only [Bool.xor_false] at hd1 hd2 hd3
  rw [hd1]
  apply toInt_floor m' e' (b * w / h) hd2
  · refine lt_of_le_of_lt hd3 ?_
    rw [hNcast, div_lt_iff₀ hpq]
    nlinarith
  · have h63 : (2 : Nat) ^ 53 < 2 ^ 63 := by norm_num
    exact lt_trans hk53 h63

/-! ## Bounds on sums and quotients -/

/-- A rational below `2^k` rounds to at most `2^k`. -/
theorem absRat_round_le_pow (neg : Bool) (n d : Nat) (hn : 0 < n) (hd : 0 < d) (k : Int)
    (hk : -1021 ≤ k) (h : (n : ℚ) / d < 2 ^ k) : absRat (round neg n d) ≤ 2 ^ k := by
  rw [absRat_round neg n d hn hd]
  refine le_trans (min_le_left _ _) ?_
  obtain ⟨hlo, -⟩ := floorLog2_spec n d hn hd
  have hfl : floorLog2 n d < k :=
    (zpow_lt_zpow_iff_right₀ (by norm_num : (1 : ℚ) < 2)).1 (lt_of_le_of_lt hlo h)
  have he : roundExp n d ≤ k - 53 := by
    unfold roundExp
    exact max_le (by omega) (by omega)
  have hm : (roundMant n d : ℚ) ≤ 2 ^ (53 : Int) := by
    have := roundMant_le n d hn hd
    have h2 : ((roundMant n d : Nat) : ℚ) ≤ ((2 ^ 53 : Nat) : ℚ) := by exact_mod_cast this
    have h3 : ((2 ^ 53 : Nat) : ℚ) = (2 : ℚ) ^ (53 : Int) := by norm_cast
    rw [h3] at h2
    exact h2
  have hp : (2 : ℚ) ^ roundExp n d ≤ 2 ^ (k - 53) :=
    (zpow_le_zpow_iff_right₀ (by norm_num : (1 : ℚ) < 2)).2 he
  calc (roundMant n d : ℚ) * 2 ^ roundExp n d
      ≤ 2 ^ (53 : Int) * 2 ^ (k - 53) :=
        mul_le_mul hm hp (by positivity) (by positivity)
    _ = 2 ^ k := by
        rw [← zpow_add₀ (by norm_num : (2 : ℚ) ≠ 0)]
        congr 1
        omega

/-- A rational below `2^k`, with `k ≤ 1023`, rounds to a finite value. -/
theorem round_fin_of_rat_lt (neg : Bool) (n d : Nat) (hd : 0 < d) (k : Int)
    (hk : -1021 ≤ k) (hk2 : k ≤ 1023) (h : (n : ℚ) / d < 2 ^ k) :
    ∃ m e, round neg n d = fin neg m e ∧ absRat (fin neg m e) ≤ 2 ^ k := by
  rcases Nat.eq_zero_or_pos n with h0 | hn
  · subst h0
    refine ⟨0, 0, by simp [round], ?_⟩
    simp only [absRat, Nat.cast_zero, zero_mul]
    positivity
  · have hle := absRat_round_le_pow neg n d hn hd k hk h
    have hlt : absRat (round neg n d) < 2 ^ (1024 : Int) := by
      refine lt_of_le_of_lt hle ?_
      exact (zpow_lt_zpow_iff_right₀ (by norm_num : (1 : ℚ) < 2)).2 (by omega)
    obtain ⟨m, e, hme⟩ := round_fin_of_lt neg n d hlt
    exact ⟨m, e, hme, by rw [← hme]; exact hle⟩

/-- The quotient that `div` rounds, between a dyadic value that is a `float64`
and a power of two. -/
theorem div_fin_between (s t : Bool) (m n : Nat) (e f : Int) (hn : n ≠ 0) (N u : Nat)
    (k : Int) (hN : N < 2 ^ 53) (hu : u ≤ 1022) (hk : -1021 ≤ k) (hk2 : k ≤ 1023)
    (hlo : (N : ℚ) / 2 ^ u ≤ absRat (fin s m e) / absRat (fin t n f))
    (hhi : absRat (fin s m e) / absRat (fin t n f) < 2 ^ k) :
    ∃ m' e', div (fin s m e) (fin t n f) = fin (xor s t) m' e' ∧
      (N : ℚ) / 2 ^ u ≤ absRat (fin (xor s t) m' e') ∧
      absRat (fin (xor s t) m' e') ≤ 2 ^ k := by
  have hdiv : div (fin s m e) (fin t n f) = roundScaled (xor s t) m n 2 (e - f) := by
    simp only [div, hn, if_false]
  have hnpos : 0 < n := Nat.pos_of_ne_zero hn
  have hd : 0 < n * 2 ^ (-(e - f)).toNat := Nat.mul_pos hnpos (by positivity)
  have hval : ((m * 2 ^ (e - f).toNat : Nat) : ℚ) / ((n * 2 ^ (-(e - f)).toNat : Nat) : ℚ) =
      absRat (fin s m e) / absRat (fin t n f) := by
    rw [scaledArg_eq m n 2 (by norm_num) hnpos]
    simp only [absRat]
    rw [zpow_sub₀ (by norm_num)]
    have h1 : (n : ℚ) ≠ 0 := by exact_mod_cast hn
    have h2 : (2 : ℚ) ^ f ≠ 0 := by positivity
    push_cast
    field_simp
  obtain ⟨m', e', hme, hle⟩ := round_fin_of_rat_lt (xor s t) (m * 2 ^ (e - f).toNat)
    (n * 2 ^ (-(e - f)).toNat) hd k hk hk2 (by rw [hval]; exact hhi)
  refine ⟨m', e', ?_, ?_, hle⟩
  · rw [hdiv]
    unfold roundScaled
    exact hme
  · rw [← hme]
    have h1 := absRat_round_dyadic (xor s t) N u hN hu
    rw [← h1]
    apply round_mono_rat _ _ _ _ _ _ (by positivity) hd
    rw [hval]
    push_cast
    exact hlo

/-- The sum of two non-negative finite values, between a positive dyadic value
that is a `float64` and a power of two. -/
theorem add_fin_between (m n : Nat) (e f : Int) (N u : Nat) (k : Int) (hN0 : 0 < N)
    (hN : N < 2 ^ 53) (hu : u ≤ 1022) (hk : -1021 ≤ k) (hk2 : k ≤ 1023)
    (hlo : (N : ℚ) / 2 ^ u ≤ absRat (fin false m e) + absRat (fin false n f))
    (hhi : absRat (fin false m e) + absRat (fin false n f) < 2 ^ k) :
    ∃ m' e', add (fin false m e) (fin false n f) = fin false m' e' ∧
      (N : ℚ) / 2 ^ u ≤ absRat (fin false m' e') ∧ absRat (fin false m' e') ≤ 2 ^ k := by
  have hpos : (0 : ℚ) < (N : ℚ) / 2 ^ u := by positivity
  have hg1 : min e f ≤ e := min_le_left e f
  have hg2 : min e f ≤ f := min_le_right e f
  -- the exact sum over the common exponent
  have hsum : (((m * 2 ^ (e - min e f).toNat + n * 2 ^ (f - min e f).toNat : Nat) : ℚ)) *
      2 ^ min e f = absRat (fin false m e) + absRat (fin false n f) := by
    simp only [absRat]
    push_cast
    have e1 : (2 : ℚ) ^ (e - min e f).toNat * 2 ^ min e f = 2 ^ e := by
      rw [← zpow_natCast, ← zpow_add₀ (by norm_num : (2 : ℚ) ≠ 0)]
      congr 1
      omega
    have e2 : (2 : ℚ) ^ (f - min e f).toNat * 2 ^ min e f = 2 ^ f := by
      rw [← zpow_natCast, ← zpow_add₀ (by norm_num : (2 : ℚ) ≠ 0)]
      congr 1
      omega
    calc ((m : ℚ) * 2 ^ (e - min e f).toNat + (n : ℚ) * 2 ^ (f - min e f).toNat) * 2 ^ min e f
        = (m : ℚ) * (2 ^ (e - min e f).toNat * 2 ^ min e f) +
            (n : ℚ) * (2 ^ (f - min e f).toNat * 2 ^ min e f) := by ring
      _ = (m : ℚ) * 2 ^ e + (n : ℚ) * 2 ^ f := by rw [e1, e2]
  have hcpos : 0 < m * 2 ^ (e - min e f).toNat + n * 2 ^ (f - min e f).toNat := by
    rcases Nat.eq_zero_or_pos (m * 2 ^ (e - min e f).toNat + n * 2 ^ (f - min e f).toNat)
      with h0 | h0
    · rw [h0] at hsum
      simp only [Nat.cast_zero, zero_mul] at hsum
      rw [← hsum] at hlo
      linarith
    · exact h0
  have hadd : add (fin false m e) (fin false n f) =
      roundScaled false (m * 2 ^ (e - min e f).toNat + n * 2 ^ (f - min e f).toNat) 1 2
        (min e f) := by
    simp only [add, Bool.false_eq_true, if_false, one_mul, Bool.and_self]
    have hc : ((m * 2 ^ (e - min e f).toNat : Nat) : Int) +
        ((n * 2 ^ (f - min e f).toNat : Nat) : Int) =
        ((m * 2 ^ (e - min e f).toNat + n * 2 ^ (f - min e f).toNat : Nat) : Int) := by
      push_cast
      rfl
    rw [hc]
    have hne : ((m * 2 ^ (e - min e f).toNat + n * 2 ^ (f - min e f).toNat : Nat) : Int) ≠ 0 := by
      exact_mod_cast hcpos.ne'
    rw [if_neg hne]
    have hnn : ¬ ((m * 2 ^ (e - min e f).toNat + n * 2 ^ (f - min e f).toNat : Nat) : Int) < 0 := by
      have := Int.natCast_nonneg (m * 2 ^ (e - min e f).toNat + n * 2 ^ (f - min e f).toNat)
      omega
    simp only [hnn, decide_False, Int.natAbs_ofNat]
  have hd : 0 < 1 * 2 ^ (-(min e f)).toNat := by positivity
  have hval : (((m * 2 ^ (e - min e f).toNat + n * 2 ^ (f - min e f).toNat) *
      2 ^ (min e f).toNat : Nat) : ℚ) / ((1 * 2 ^ (-(min e f)).toNat : Nat) : ℚ) =
      absRat (fin false m e) + absRat (fin false n f) := by
    rw [scaledArg_eq _ 1 2 (by norm_num) (by norm_num), ← hsum]
    push_cast
    ring
  obtain ⟨m', e', hme, hle⟩ := round_fin_of_rat_lt false
    ((m * 2 ^ (e - min e f).toNat + n * 2 ^ (f - min e f).toNat) * 2 ^ (min e f).toNat)
    (1 * 2 ^ (-(min e f)).toNat) hd k hk hk2 (by rw [hval]; exact hhi)
  refine ⟨m', e', ?_, ?_, hle⟩
  · rw [hadd]
    unfold roundScaled
    exact hme
  · rw [← hme]
    have h1 := absRat_round_dyadic false N u hN hu
    rw [← h1]
    apply round_mono_rat _ _ _ _ _ _ (by positivity) hd
    rw [hval]
    push_cast
    exact hlo

/-- The sum of two non-negative finite values, not both zero, is the rounding of
their exact sum. -/
theorem add_fin_round (m n : Nat) (e f : Int)
    (hpos : 0 < absRat (fin false m e) + absRat (fin false n f)) :
    ∃ a b : Nat, 0 < b ∧ add (fin false m e) (fin false n f) = round false a b ∧
      (a : ℚ) / b = absRat (fin false m e) + absRat (fin false n f) := by
  have hg1 : min e f ≤ e := min_le_left e f
  have hg2 : min e f ≤ f := min_le_right e f
  have hsum : (((m * 2 ^ (e - min e f).toNat + n * 2 ^ (f - min e f).toNat : Nat) : ℚ)) *
      2 ^ min e f = absRat (fin false m e) + absRat (fin false n f) := by
    simp only [absRat]
    push_cast
    have e1 : (2 : ℚ) ^ (e - min e f).toNat * 2 ^ min e f = 2 ^ e := by
      rw [← zpow_natCast, ← zpow_add₀ (by norm_num : (2 : ℚ) ≠ 0)]
      congr 1
      omega
    have e2 : (2 : ℚ) ^ (f - min e f).toNat * 2 ^ min e f = 2 ^ f := by
      rw [← zpow_natCast, ← zpow_add₀ (by norm_num : (2 : ℚ) ≠ 0)]
      congr 1
      omega
    calc ((m : ℚ) * 2 ^ (e - min e f).toNat + (n : ℚ) * 2 ^ (f - min e f).toNat) * 2 ^ min e f
        = (m : ℚ) * (2 ^ (e - min e f).toNat * 2 ^ min e f) +
            (n : ℚ) * (2 ^ (f - min e f).toNat * 2 ^ min e f) := by ring
      _ = (m : ℚ) * 2 ^ e + (n : ℚ) * 2 ^ f := by rw [e1, e2]
  have hcpos : 0 < m * 2 ^ (e - min e f).toNat + n * 2 ^ (f - min e f).toNat := by
    rcases Nat.eq_zero_or_pos (m * 2 ^ (e - min e f).toNat + n * 2 ^ (f - min e f).toNat)
      with h0 | h0
    · rw [h0] at hsum
      simp only [Nat.cast_zero, zero_mul] at hsum
      rw [← hsum] at hpos
      exact absurd hpos (lt_irrefl _)
    · exact h0
  have hadd : add (fin false m e) (fin false n f) =
      roundScaled false (m * 2 ^ (e - min e f).toNat + n * 2 ^ (f - min e f).toNat) 1 2
        (min e f) := by
    simp only [add, Bool.false_eq_true, if_false, one_mul, Bool.and_self]
    have hc : ((m * 2 ^ (e - min e f).toNat : Nat) : Int) +
        ((n * 2 ^ (f - min e f).toNat : Nat) : Int) =
        ((m * 2 ^ (e - min e f).toNat + n * 2 ^ (f - min e f).toNat : Nat) : Int) := by
      push_cast
      rfl
    rw [hc]
    have hne : ((m * 2 ^ (e - min e f).toNat + n * 2 ^ (f - min e f).toNat : Nat) : Int) ≠ 0 := by
      exact_mod_cast hcpos.ne'
    rw [if_neg hne]
    have hnn : ¬ ((m * 2 ^ (e - min e f).toNat + n * 2 ^ (f - min e f).toNat : Nat) : Int) < 0 := by
      have := Int.natCast_nonneg (m * 2 ^ (e - min e f).toNat + n * 2 ^ (f - min e f).toNat)
      omega
    simp only [hnn, decide_False, Int.natAbs_ofNat]
  refine ⟨(m * 2 ^ (e - min e f).toNat + n * 2 ^ (f - min e f).toNat) * 2 ^ (min e f).toNat,
    1 * 2 ^ (-(min e f)).toNat, by positivity, ?_, ?_⟩
  · rw [hadd]
    rfl
  · rw [scaledArg_eq _ 1 2 (by norm_num) (by norm_num), ← hsum]
    push_cast
    ring

/-- The sum of two non-negative finite values whose exact sum is a natural
number below `2^53` is that number. -/
theorem add_fin_exact (m n : Nat) (e f : Int) (N : Nat) (hpos : 0 < N) (hN : N < 2 ^ 53)
    (hv : absRat (fin false m e) + absRat (fin false n f) = (N : ℚ)) :
    ∃ m' e', add (fin false m e) (fin false n f) = fin false m' e' ∧
      absRat (fin false m' e') = (N : ℚ) := by
  have hNq : (0 : ℚ) < (N : ℚ) := by exact_mod_cast hpos
  obtain ⟨a, b, hb, hadd, hab⟩ := add_fin_round m n e f (by rw [hv]; exact hNq)
  have hval : absRat (round false a b) = (N : ℚ) := by
    rw [absRat_round_congr false false a b N (2 ^ 0) hb (by norm_num)
      (by rw [hab, hv]; simp)]
    rw [absRat_round_dyadic false N 0 hN (by norm_num)]
    simp
  obtain ⟨m', e', hme⟩ := round_fin_of_lt false a b
    (by rw [hval]; exact lt_overflow_of_lt _ N (le_refl _) hN)
  exact ⟨m', e', by rw [hadd, hme], by rw [← hme]; exact hval⟩

/-- The quotient of two finite values with a divisor that is not zero has the
value of their exact quotient, rounded. -/
theorem div_fin_value (s t : Bool) (m n : Nat) (e f : Int) (hn : n ≠ 0) (a b : Nat)
    (hb : 0 < b) (h : absRat (fin s m e) / absRat (fin t n f) = (a : ℚ) / b) :
    absRat (div (fin s m e) (fin t n f)) = absRat (round false a b) := by
  have hdiv : div (fin s m e) (fin t n f) = roundScaled (xor s t) m n 2 (e - f) := by
    simp only [div, hn, if_false]
  have hnpos : 0 < n := Nat.pos_of_ne_zero hn
  have hd : 0 < n * 2 ^ (-(e - f)).toNat := Nat.mul_pos hnpos (by positivity)
  have hval : ((m * 2 ^ (e - f).toNat : Nat) : ℚ) / ((n * 2 ^ (-(e - f)).toNat : Nat) : ℚ) =
      absRat (fin s m e) / absRat (fin t n f) := by
    rw [scaledArg_eq m n 2 (by norm_num) hnpos]
    simp only [absRat]
    rw [zpow_sub₀ (by norm_num)]
    have h1 : (n : ℚ) ≠ 0 := by exact_mod_cast hn
    have h2 : (2 : ℚ) ^ f ≠ 0 := by positivity
    push_cast
    field_simp
  rw [hdiv]
  unfold roundScaled
  exact absRat_round_congr _ _ _ _ _ _ hd hb (by rw [hval, h])

end F64

/-! ## Lemmas on `strconv` -/

theorem isDigitChar_iff (c : Char) : isDigitChar c = true ↔ 48 ≤ c.toNat ∧ c.toNat ≤ 57 := by
  simp [isDigitChar]

theorem digitVal_of_digit (c : Char) (h : isDigitChar c = true) :
    digitVal c = some (c.toNat - 48) := by
  rw [isDigitChar_iff] at h
  simp [digitVal, h]

theorem digitVal_some (c : Char) (d : Nat) (h : digitVal c = some d) :
    isDigitChar c = true ∧ d = c.toNat - 48 := by
  unfold digitVal at h
  split at h
  · rename_i hc
    simp only [Option.some.injEq] at h
    exact ⟨(isDigitChar_iff c).mpr hc, h.symm⟩
  · exact absurd h (by simp)

theorem digit_ne_of_toNat (c x : Char) (h : isDigitChar c = true)
    (hx : x.toNat < 48 ∨ 57 < x.toNat) : c ≠ x := by
  rw [isDigitChar_iff] at h
  intro hc
  subst hc
  omega

theorem digit_toLower (c : Char) (h : isDigitChar c = true) : c.toLower = c := by
  rw [isDigitChar_iff] at h
  unfold Char.toLower
  simp only
  rw [if_neg (by omega)]

theorem digit_not_space (c : Char) (h : isDigitChar c = true) : isSpace c = false := by
  rw [isDigitChar_iff] at h
  unfold isSpace
  simp only [Bool.or_eq_false_iff, Bool.and_eq_false_iff, decide_eq_false_iff_not, not_le,
    beq_eq_false_iff_ne, ne_eq]
  omega

theorem digitsFrom_append (acc : Nat) (a b : List Char) :
    digitsFrom acc (a ++ b) = digitsFrom (digitsFrom acc a) b := by
  simp [digitsFrom, List.foldl_append]

theorem digitsFrom_mono (acc acc' : Nat) (ds : List Char) (h : acc ≤ acc') :
    digitsFrom acc ds ≤ digitsFrom acc' ds := by
  induction ds generalizing acc acc' with
  | nil => simpa [digitsFrom] using h
  | cons c cs ih =>
    simp only [digitsFrom, List.foldl_cons]
    exact ih _ _ (by omega)

theorem readDigits_some (ds : List Char) (acc n : Nat) (seen : Bool)
    (h : readDigits ds acc seen = some n) :
    (∀ c ∈ ds, isDigitChar c = true) ∧ n = digitsFrom acc ds ∧ (ds ≠ [] ∨ seen = true) := by
  induction ds generalizing acc seen with
  | nil =>
    simp only [readDigits] at h
    split at h
    · rename_i hs
      simp only [Option.some.injEq] at h
      exact ⟨by simp, by simp [digitsFrom, h], Or.inr hs⟩
    · exact absurd h (by simp)
  | cons c cs ih =>
    simp only [readDigits] at h
    split at h
    · rename_i d hd
      obtain ⟨hc, hdv⟩ := digitVal_some c d hd
      obtain ⟨h1, h2, -⟩ := ih _ _ h
      refine ⟨?_, ?_, Or.inl (by simp)⟩
      · intro x hx
        rcases List.mem_cons.mp hx with rfl | hx
        · exact hc
        · exact h1 x hx
      · rw [h2, hdv]
        rfl
    · exact absurd h (by simp)

theorem readDigits_of_digits (ds : List Char) (acc : Nat) (seen : Bool)
    (hd : ∀ c ∈ ds, isDigitChar c = true) (hne : ds ≠ [] ∨ seen = true) :
    readDigits ds acc seen = some (digitsFrom acc ds) := by
  induction ds generalizing acc seen with
  | nil =>
    rcases hne with h | h
    · exact absurd rfl h
    · simp [readDigits, h, digitsFrom]
  | cons c cs ih =>
    have hc := hd c (by simp)
    simp only [readDigits, digitVal_of_digit c hc]
    rw [ih _ _ (fun x hx => hd x (by simp [hx])) (Or.inr rfl)]
    rfl

theorem scanMantissa_digits (ds rest : List Char) (st : Mantissa)
    (hd : ∀ c ∈ ds, isDigitChar c = true) (hne : ds ≠ []) :
    scanMantissa false (ds ++ rest) st =
      scanMantissa false rest
        ⟨digitsFrom st.val ds, if st.sawdot then st.frac + ds.length else st.frac,
          st.sawdot, true⟩ := by
  induction ds generalizing st with
  | nil => exact absurd rfl hne
  | cons c cs ih =>
    have hc := hd c (by simp)
    have h1 : c ≠ '_' := digit_ne_of_toNat c _ hc (by decide)
    have h2 : c ≠ '.' := digit_ne_of_toNat c _ hc (by decide)
    simp only [List.cons_append, scanMantissa, h1, h2, if_false, Bool.false_eq_true,
      digitVal_of_digit c hc]
    by_cases hcs : cs = []
    · subst hcs
      simp only [List.append_eq, List.nil_append, digitsFrom, List.foldl_cons, List.foldl_nil,
        List.length_singleton]
    · simp only [List.append_eq]
      rw [ih _ (fun x hx => hd x (by simp [hx])) hcs]
      congr 1
      simp only [digitsFrom, List.foldl_cons, List.length_cons, Mantissa.mk.injEq, true_and,
        and_true]
      split <;> omega

theorem underscoreLoop_true (hex : Bool) (l : List Char) (saw : Nat)
    (hl : ∀ c ∈ l, c ≠ '_') (hs : saw ≠ 1) : underscoreLoop hex l saw = true := by
  induction l generalizing saw with
  | nil => simp [underscoreLoop, hs]
  | cons c cs ih =>
    have hc : c ≠ '_' := hl c (by simp)
    have hcs : ∀ x ∈ cs, x ≠ '_' := fun x hx => hl x (by simp [hx])
    unfold underscoreLoop
    split
    · exact ih 0 hcs (by decide)
    · have : (saw == 1) = false := by simpa using hs
      simp only [this, Bool.false_eq_true, if_false]
      exact ih 2 hcs (by decide)

theorem underscoreOK_true (s : List Char) (hl : ∀ c ∈ s, c ≠ '_') : underscoreOK s = true := by
  unfold underscoreOK
  have key : ∀ body : List Char, (∀ c ∈ body, c ≠ '_') →
      (match body with
        | a :: b :: rest =>
          if a = '0' ∧ (b.toLower = 'b' ∨ b.toLower = 'o' ∨ b.toLower = 'x') then
            underscoreLoop (b.toLower = 'x') rest 0
          else underscoreLoop false body 2
        | _ => underscoreLoop false body 2) = true := by
    intro body hb
    split
    · rename_i a b rest
      split
      · exact underscoreLoop_true _ _ _ (fun x hx => hb x (by simp [hx])) (by decide)
      · exact underscoreLoop_true _ _ _ hb (by decide)
    · exact underscoreLoop_true _ _ _ hb (by decide)
  apply key
  split
  · rename_i c cs
    split
    · exact fun x hx => hl x (by simp [hx])
    · exact hl
  · exact hl

theorem numeralChars_mem (ip fp : List Char) (hd : ∀ c ∈ ip ++ fp, isDigitChar c = true)
    (c : Char) (hc : c ∈ numeralChars ip fp) : isDigitChar c = true ∨ c = '.' := by
  unfold numeralChars at hc
  split at hc
  · exact Or.inl (hd c (by simp [hc]))
  · rcases List.mem_append.mp hc with h | h
    · exact Or.inl (hd c (by simp [h]))
    · rcases List.mem_cons.mp h with h | h
      · exact Or.inr h
      · exact Or.inl (hd c (by simp [h]))

theorem numeralChars_ne (ip fp : List Char) (hd : ∀ c ∈ ip ++ fp, isDigitChar c = true)
    (x : Char) (hx : x.toNat < 46 ∨ 57 < x.toNat ∨ x.toNat = 47) :
    ∀ c ∈ numeralChars ip fp, c ≠ x := by
  intro c hc
  rcases numeralChars_mem ip fp hd c hc with h | h
  · exact digit_ne_of_toNat c x h (by omega)
  · subst h
    intro hx'
    subst hx'
    revert hx
    decide

theorem numeralChars_toLower (ip fp : List Char) (hd : ∀ c ∈ ip ++ fp, isDigitChar c = true) :
    ∀ c ∈ numeralChars ip fp, c.toLower = c := by
  intro c hc
  rcases numeralChars_mem ip fp hd c hc with h | h
  · exact digit_toLower c h
  · subst h
    decide

theorem scanMantissa_numeral (ip fp : List Char) (hip : ip ≠ [])
    (hd : ∀ c ∈ ip ++ fp, isDigitChar c = true) :
    scanMantissa false (numeralChars ip fp) ⟨0, 0, false, false⟩ =
      (⟨digitsFrom 0 (ip ++ fp), fp.length, !(fp.isEmpty), true⟩, []) := by
  have hdi : ∀ c ∈ ip, isDigitChar c = true := fun c hc => hd c (by simp [hc])
  have hdf : ∀ c ∈ fp, isDigitChar c = true := fun c hc => hd c (by simp [hc])
  unfold numeralChars
  by_cases hf : fp = []
  · subst hf
    rw [if_pos rfl]
    have := scanMantissa_digits ip [] ⟨0, 0, false, false⟩ hdi hip
    rw [List.append_nil] at this ⊢
    rw [this]
    simp [scanMantissa]
  · rw [if_neg hf, scanMantissa_digits ip _ _ hdi hip]
    have h1 : ('.' : Char) ≠ '_' := by decide
    simp only [scanMantissa, h1, if_false, if_true, Bool.false_eq_true]
    have := scanMantissa_digits fp [] ⟨digitsFrom 0 ip, 0, true, true⟩ hdf hf
    rw [List.append_nil] at this
    rw [this, digitsFrom_append]
    cases fp with
    | nil => exact absurd rfl hf
    | cons a b => simp [scanMantissa]

theorem parseNumber_numeral (neg : Bool) (whole ip fp : List Char) (hip : ip ≠ [])
    (hd : ∀ c ∈ ip ++ fp, isDigitChar c = true) :
    parseNumber neg whole (numeralChars ip fp) =
      if underscoreOK whole then rangeChecked (F64.round neg (digitsFrom 0 (ip ++ fp)) (10 ^ fp.length))
      else none := by
  have hx : ∀ c ∈ numeralChars ip fp, c.toLower ≠ 'x' := by
    intro c hc
    rw [numeralChars_toLower ip fp hd c hc]
    exact numeralChars_ne ip fp hd 'x' (by decide) c hc
  have hhex : hasHexPrefix (numeralChars ip fp) = false := by
    unfold hasHexPrefix
    split
    · rename_i a b c r heq
      have := hx b (by rw [heq]; simp)
      simp [this]
    · rfl
  unfold parseNumber
  simp only [hhex, Bool.false_eq_true, if_false, scanMantissa_numeral ip fp hip hd, if_true,
    readExponent]
  split
  · simp only [F64.roundScaled]
    have e1 : ((0 : Int) - (fp.length : Int)).toNat = 0 := by omega
    have e2 : (-((0 : Int) - (fp.length : Int))).toNat = fp.length := by omega
    rw [e1, e2, pow_zero, mul_one, one_mul]
  · rfl

theorem special_some_head (s : List Char) (v : F64) (h : special s = some v) :
    ∃ c cs, s = c :: cs ∧ (c.toLower = 'n' ∨ c.toLower = 'i' ∨
      ((c = '+' ∨ c = '-') ∧ ∃ d ds, cs = d :: ds ∧ d.toLower = 'i')) := by
  have k1 : "nan".data = ['n', 'a', 'n'] := rfl
  have k2 : "inf".data = ['i', 'n', 'f'] := rfl
  have k3 : "infinity".data = ['i', 'n', 'f', 'i', 'n', 'i', 't', 'y'] := rfl
  have k4 : "+inf".data = ['+', 'i', 'n', 'f'] := rfl
  have k5 : "+infinity".data = ['+', 'i', 'n', 'f', 'i', 'n', 'i', 't', 'y'] := rfl
  have k6 : "-inf".data = ['-', 'i', 'n', 'f'] := rfl
  have k7 : "-infinity".data = ['-', 'i', 'n', 'f', 'i', 'n', 'i', 't', 'y'] := rfl
  have sgn : ∀ c : Char, c.toLower = '+' → c = '+' := by
    intro c hc
    unfold Char.toLower at hc
    simp only at hc
    split at hc
    · rename_i hr
      generalize c.toNat = n at hr hc
      obtain ⟨r1, r2⟩ := hr
      interval_cases n <;> exact absurd hc (by decide)
    · exact hc
  have sgn' : ∀ c : Char, c.toLower = '-' → c = '-' := by
    intro c hc
    unfold Char.toLower at hc
    simp only at hc
    split at hc
    · rename_i hr
      generalize c.toNat = n at hr hc
      obtain ⟨r1, r2⟩ := hr
      interval_cases n <;> exact absurd hc (by decide)
    · exact hc
  cases s with
  | nil =>
    unfold special at h
    rw [k1, k2, k3, k4, k5, k6, k7] at h
    simp at h
  | cons c cs =>
    refine ⟨c, cs, rfl, ?_⟩
    unfold special at h
    rw [k1, k2, k3, k4, k5, k6, k7] at h
    simp only [List.map_cons] at h
    split at h
    · rename_i hh
      exact Or.inl (List.cons.inj hh).1
    · split at h
      · rename_i hh
        rcases hh with hh | hh
        · exact Or.inr (Or.inl (List.cons.inj hh).1)
        · exact Or.inr (Or.inl (List.cons.inj hh).1)
      · split at h
        · rename_i hh
          right; right
          have key : c.toLower = '+' ∧ ∃ d ds, cs = d :: ds ∧ d.toLower = 'i' := by
            rcases hh with hh | hh
            · obtain ⟨a, b⟩ := List.cons.inj hh
              cases cs with
              | nil => simp at b
              | cons d ds =>
                simp only [List.map_cons] at b
                exact ⟨a, d, ds, rfl, (List.cons.inj b).1⟩
            · obtain ⟨a, b⟩ := List.cons.inj hh
              cases cs with
              | nil => simp at b
              | cons d ds =>
                simp only [List.map_cons] at b
                exact ⟨a, d, ds, rfl, (List.cons.inj b).1⟩
          exact ⟨Or.inl (sgn c key.1), key.2⟩
        · split at h
          · rename_i hh
            right; right
            have key : c.toLower = '-' ∧ ∃ d ds, cs = d :: ds ∧ d.toLower = 'i' := by
              rcases hh with hh | hh
              · obtain ⟨a, b⟩ := List.cons.inj hh
                cases cs with
                | nil => simp at b
                | cons d ds =>
                  simp only [List.map_cons] at b
                  exact ⟨a, d, ds, rfl, (List.cons.inj b).1⟩
              · obtain ⟨a, b⟩ := List.cons.inj hh
                cases cs with
                | nil => simp at b
                | cons d ds =>
                  simp only [List.map_cons] at b
                  exact ⟨a, d, ds, rfl, (List.cons.inj b).1⟩
            exact ⟨Or.inr (sgn' c key.1), key.2⟩
          · exact absurd h (by simp)

theorem special_numeral (ip fp : List Char) (hip : ip ≠ [])
    (hd : ∀ c ∈ ip ++ fp, isDigitChar c = true) : special (numeralChars ip fp) = none := by
  cases hs : special (numeralChars ip fp) with
  | none => rfl
  | some v =>
    exfalso
    obtain ⟨c, cs, hcs, hc⟩ := special_some_head _ v hs
    cases ip with
    | nil => exact hip rfl
    | cons a r =>
      have hca : c = a := by
        unfold numeralChars at hcs
        split at hcs
        · exact (List.cons.inj hcs).1.symm
        · exact (List.cons.inj hcs).1.symm
      have hda : isDigitChar a = true := hd a (by simp)
      rw [hca, digit_toLower a hda] at hc
      rcases hc with h | h | ⟨h | h, -⟩
      · exact digit_ne_of_toNat a _ hda (by decide) h
      · exact digit_ne_of_toNat a _ hda (by decide) h
      · exact digit_ne_of_toNat a _ hda (by decide) h
      · exact digit_ne_of_toNat a _ hda (by decide) h

theorem special_signed (sign : Char) (ds : List Char) (hsign : sign = '+' ∨ sign = '-')
    (hne : ds ≠ []) (hd : ∀ c ∈ ds, isDigitChar c = true) : special (sign :: ds) = none := by
  cases hs : special (sign :: ds) with
  | none => rfl
  | some v =>
    exfalso
    obtain ⟨c, cs, hcs, hc⟩ := special_some_head _ v hs
    obtain ⟨h1, h2⟩ := List.cons.inj hcs
    subst h1 h2
    rcases hc with h | h | ⟨-, d, r, hr, hi⟩
    · rcases hsign with rfl | rfl <;> exact absurd h (by decide)
    · rcases hsign with rfl | rfl <;> exact absurd h (by decide)
    · subst hr
      have hdd : isDigitChar d = true := hd d (by simp)
      rw [digit_toLower d hdd] at hi
      exact digit_ne_of_toNat d _ hdd (by decide) hi

/-- The result of `ParseFloat` on an unsigned decimal numeral: the rounding of its value. -/
theorem ParseFloat_numeral (ip fp : List Char) (hip : ip ≠ [])
    (hd : ∀ c ∈ ip ++ fp, isDigitChar c = true) :
    ParseFloat ⟨numeralChars ip fp⟩ =
      rangeChecked (F64.round false (digitsFrom 0 (ip ++ fp)) (10 ^ fp.length)) := by
  unfold ParseFloat
  simp only [special_numeral ip fp hip hd]
  have hu : underscoreOK (numeralChars ip fp) = true :=
    underscoreOK_true _ (numeralChars_ne ip fp hd '_' (by decide))
  have hkey := parseNumber_numeral false (numeralChars ip fp) ip fp hip hd
  rw [hu, if_pos rfl] at hkey
  cases hn : numeralChars ip fp with
  | nil =>
    exfalso
    unfold numeralChars at hn
    split at hn
    · exact hip hn
    · simp at hn
  | cons c cs =>
    have hc1 : c ≠ '+' := numeralChars_ne ip fp hd '+' (by decide) c (by rw [hn]; simp)
    have hc2 : c ≠ '-' := numeralChars_ne ip fp hd '-' (by decide) c (by rw [hn]; simp)
    simp only [hc1, hc2, if_false]
    rw [← hn]
    exact hkey

/-- The result of `ParseFloat` on a signed run of digits: the rounding of its value. -/
theorem ParseFloat_signed (sign : Char) (ds : List Char) (hsign : sign = '+' ∨ sign = '-')
    (hne : ds ≠ []) (hd : ∀ c ∈ ds, isDigitChar c = true) :
    ParseFloat ⟨sign :: ds⟩ =
      rangeChecked (F64.round (decide (sign = '-')) (digitsFrom 0 ds) 1) := by
  unfold ParseFloat
  simp only [special_signed sign ds hsign hne hd]
  have hd' : ∀ c ∈ ds ++ [], isDigitChar c = true := by simpa using hd
  have hnum : numeralChars ds [] = ds := by simp [numeralChars]
  have hu : underscoreOK (sign :: ds) = true := by
    apply underscoreOK_true
    intro c hc
    rcases List.mem_cons.mp hc with h | h
    · rw [h]
      rcases hsign with rfl | rfl <;> decide
    · exact digit_ne_of_toNat c _ (hd c h) (by decide)
  have hkey := fun neg => parseNumber_numeral neg (sign :: ds) ds [] hne hd'
  simp only [hnum, hu, if_true, List.append_nil, List.length_nil, pow_zero] at hkey
  rcases hsign with rfl | rfl
  · simp only [if_true, hkey]
    rfl
  · have : ('-' : Char) ≠ '+' := by decide
    simp only [this, if_false, if_true, hkey]
    rfl

theorem Atoi_some (s : String) (z : Int) (h : Atoi s = some z) :
    ∃ ds : List Char, ds ≠ [] ∧ (∀ c ∈ ds, isDigitChar c = true) ∧
      ((s.data = ds ∧ z = (digitsFrom 0 ds : Int)) ∨
       (s.data = '+' :: ds ∧ z = (digitsFrom 0 ds : Int)) ∨
       (s.data = '-' :: ds ∧ z = -(digitsFrom 0 ds : Int))) := by
  have body : ∀ (neg : Bool) (ds : List Char),
      (match readDigits ds 0 false with
        | none => none
        | some n =>
          if -twoPow63 ≤ (if neg = true then -(n : Int) else (n : Int)) ∧
            (if neg = true then -(n : Int) else (n : Int)) < twoPow63
          then some (if neg = true then -(n : Int) else (n : Int)) else none) = some z →
      ds ≠ [] ∧ (∀ c ∈ ds, isDigitChar c = true) ∧
        z = (if neg = true then -(digitsFrom 0 ds : Int) else (digitsFrom 0 ds : Int)) := by
    intro neg ds hb
    split at hb
    · exact absurd hb (by simp)
    · rename_i n hn
      obtain ⟨h1, h2, h3⟩ := readDigits_some ds 0 n false hn
      have hne : ds ≠ [] := by
        rcases h3 with h3 | h3
        · exact h3
        · exact absurd h3 (by simp)
      refine ⟨hne, h1, ?_⟩
      by_cases hr : -twoPow63 ≤ (if neg = true then -(n : Int) else (n : Int)) ∧
          (if neg = true then -(n : Int) else (n : Int)) < twoPow63
      · rw [if_pos hr] at hb
        simp only [Option.some.injEq] at hb
        rw [← hb, h2]
      · rw [if_neg hr] at hb
        exact absurd hb (by simp)
  unfold Atoi at h
  split at h
  · exact absurd h (by simp)
  · rename_i c cs hdata
    split at h
    · rename_i hc
      obtain ⟨a, b, e⟩ := body true cs h
      exact ⟨cs, a, b, Or.inr (Or.inr ⟨by rw [hdata, hc], by simpa using e⟩)⟩
    · split at h
      · rename_i hc
        obtain ⟨a, b, e⟩ := body false cs h
        exact ⟨cs, a, b, Or.inr (Or.inl ⟨by rw [hdata, hc], by simpa using e⟩)⟩
      · obtain ⟨a, b, e⟩ := body false (c :: cs) h
        exact ⟨c :: cs, a, b, Or.inl ⟨hdata, by simpa using e⟩⟩

theorem Atoi_digits (ds : List Char) (hne : ds ≠ []) (hd : ∀ c ∈ ds, isDigitChar c = true)
    (hr : (digitsFrom 0 ds : Int) < twoPow63) : Atoi ⟨ds⟩ = some (digitsFrom 0 ds : Int) := by
  unfold Atoi
  cases ds with
  | nil => exact absurd rfl hne
  | cons c cs =>
    have hc := hd c (by simp)
    have h1 : c ≠ '-' := digit_ne_of_toNat c _ hc (by decide)
    have h2 : c ≠ '+' := digit_ne_of_toNat c _ hc (by decide)
    simp only [h1, h2, if_false, readDigits_of_digits (c :: cs) 0 false hd (Or.inl hne),
      Bool.false_eq_true]
    have : -twoPow63 ≤ (digitsFrom 0 (c :: cs) : Int) := by
      unfold twoPow63
      omega
    rw [if_pos ⟨this, hr⟩]

/-- The magnitude of a rounded positive integer is at least one. -/
theorem round_nat_ge_one (neg : Bool) (n : Nat) (hn : 0 < n) :
    1 ≤ F64.absRat (F64.round neg n 1) := by
  have h1 : F64.absRat (F64.round false 1 1) = 1 := by
    have : F64.round false 1 1 = F64.fin false 1 0 := by decide
    rw [this]
    simp [F64.absRat]
  rw [← h1]
  exact F64.round_mono _ _ 1 1 n 1 Nat.one_pos Nat.one_pos (by omega)

theorem rangeChecked_some (x v : F64) (h : rangeChecked x = some v) : v = x := by
  unfold rangeChecked at h
  split at h
  · exact absurd h (by simp)
  · simp only [Option.some.injEq] at h
    exact h.symm

theorem nonPositive_round (neg : Bool) (n : Nat) :
    F64.nonPositive (F64.round neg n 1) = true ↔ (neg = true ∨ n = 0) := by
  rcases F64.round_shape neg n 1 with h | ⟨m, e, h⟩
  · rw [h]
    simp only [F64.nonPositive]
    constructor
    · intro hx; exact Or.inl hx
    · rintro (hx | hx)
      · exact hx
      · subst hx
        have : F64.round neg 0 1 = F64.fin neg 0 0 := by simp [F64.round]
        rw [this] at h
        exact absurd h (by simp)
  · rw [h]
    simp only [F64.nonPositive, Bool.or_eq_true, beq_iff_eq]
    constructor
    · rintro (hx | hx)
      · exact Or.inl hx
      · right
        by_contra hn
        have := round_nat_ge_one neg n (by omega)
        rw [h, hx] at this
        simp [F64.absRat] at this
        linarith
    · rintro (hx | hx)
      · exact Or.inl hx
      · subst hx
        have : F64.round neg 0 1 = F64.fin neg 0 0 := by simp [F64.round]
        rw [this] at h
        simp only [F64.fin.injEq] at h
        exact Or.inr h.2.1.symm

/-- The two parsers agree on the sign of what both accept. -/
theorem Atoi_ParseFloat_sign (s : String) (z : Int) (v : F64) (hA : Atoi s = some z)
    (hP : ParseFloat s = some v) : z ≤ 0 ↔ F64.nonPositive v = true := by
  obtain ⟨ds, hne, hd, hcase⟩ := Atoi_some s z hA
  have hs : ∀ l : List Char, s.data = l → s = ⟨l⟩ := by
    intro l hl
    cases s
    simp only at hl
    rw [hl]
  rcases hcase with ⟨h1, h2⟩ | ⟨h1, h2⟩ | ⟨h1, h2⟩
  · have hd' : ∀ c ∈ ds ++ [], isDigitChar c = true := by simpa using hd
    have hnum : numeralChars ds [] = ds := by simp [numeralChars]
    have := ParseFloat_numeral ds [] hne hd'
    rw [hnum, ← hs ds h1, hP] at this
    simp only [List.append_nil, List.length_nil, pow_zero] at this
    rw [rangeChecked_some _ _ this.symm, nonPositive_round, h2]
    simp only [Bool.false_eq_true, false_or]
    omega
  · have := ParseFloat_signed '+' ds (Or.inl rfl) hne hd
    rw [← hs _ h1, hP] at this
    rw [rangeChecked_some _ _ this.symm, nonPositive_round, h2]
    have : decide (('+' : Char) = '-') = false := by decide
    simp only [this, Bool.false_eq_true, false_or]
    omega
  · have := ParseFloat_signed '-' ds (Or.inr rfl) hne hd
    rw [← hs _ h1, hP] at this
    rw [rangeChecked_some _ _ this.symm, nonPositive_round, h2]
    simp only [decide_True, true_or, iff_true]
    omega

theorem dropWhile_head_false (p : Char → Bool) (a : Char) (l : List Char) (h : p a = false) :
    (a :: l).dropWhile p = a :: l := by
  simp [List.dropWhile, h]

theorem dropWhileEnd_last_false (p : Char → Bool) (l : List Char) (a : Char)
    (h : p a = false) : dropWhileEnd p (l ++ [a]) = l ++ [a] := by
  unfold dropWhileEnd
  rw [List.reverse_append, List.reverse_singleton, List.singleton_append,
    dropWhile_head_false p a _ h, List.reverse_cons, List.reverse_reverse]

/-- The function `TrimSpace` leaves a string unchanged when neither its first nor its last
character is white space. -/
theorem TrimSpace_id (a b : Char) (l : List Char) (ha : isSpace a = false)
    (hb : isSpace b = false) (hl : ∃ m, a :: m = l ∧ ∃ m', l = m' ++ [b]) :
    TrimSpace ⟨l⟩ = ⟨l⟩ := by
  obtain ⟨m, hm, m', hm'⟩ := hl
  unfold TrimSpace
  simp only
  rw [← hm, dropWhile_head_false _ a m ha, hm, hm', dropWhileEnd_last_false _ m' b hb]

theorem splitOnChar_no_sep (c : Char) (l : List Char) (h : ∀ x ∈ l, x ≠ c) :
    splitOnChar c l = [l] := by
  induction l with
  | nil => rfl
  | cons x xs ih =>
    have hx : x ≠ c := h x (by simp)
    simp only [splitOnChar, ih (fun y hy => h y (by simp [hy])), hx, if_false]

theorem splitOnChar_append (c : Char) (l r : List Char) (h : ∀ x ∈ l, x ≠ c) :
    splitOnChar c (l ++ c :: r) = l :: splitOnChar c r := by
  induction l with
  | nil =>
    simp only [List.nil_append, splitOnChar]
    cases hr : splitOnChar c r with
    | nil =>
      exfalso
      cases r with
      | nil => simp [splitOnChar] at hr
      | cons y ys =>
        simp only [splitOnChar] at hr
        split at hr
        · simp at hr
        · split at hr <;> simp at hr
    | cons p ps => simp
  | cons x xs ih =>
    have hx : x ≠ c := h x (by simp)
    simp only [List.cons_append, splitOnChar, List.append_eq,
      ih (fun y hy => h y (by simp [hy])), hx, if_false]

theorem numeralChars_head (ip fp : List Char) (hip : ip ≠ []) :
    ∃ a m, a ∈ ip ∧ numeralChars ip fp = a :: m := by
  cases ip with
  | nil => exact absurd rfl hip
  | cons a r =>
    unfold numeralChars
    split
    · exact ⟨a, r, by simp, rfl⟩
    · exact ⟨a, r ++ '.' :: fp, by simp, rfl⟩

theorem numeralChars_last (ip fp : List Char) (hip : ip ≠ []) :
    ∃ b m, b ∈ ip ++ fp ∧ numeralChars ip fp = m ++ [b] := by
  unfold numeralChars
  split
  · rename_i hf
    subst hf
    refine ⟨ip.getLast hip, ip.dropLast, by simp, ?_⟩
    exact (List.dropLast_append_getLast hip).symm
  · rename_i hf
    refine ⟨fp.getLast hf, ip ++ '.' :: fp.dropLast, by simp [List.getLast_mem], ?_⟩
    rw [List.append_assoc, List.cons_append, List.dropLast_append_getLast hf]

theorem TrimSpace_numeral (ip fp : List Char) (hip : ip ≠ [])
    (hd : ∀ c ∈ ip ++ fp, isDigitChar c = true) :
    TrimSpace ⟨numeralChars ip fp⟩ = ⟨numeralChars ip fp⟩ := by
  obtain ⟨a, m, ha, hm⟩ := numeralChars_head ip fp hip
  obtain ⟨b, m', hb, hm'⟩ := numeralChars_last ip fp hip
  exact TrimSpace_id a b _ (digit_not_space a (hd a (by simp [ha])))
    (digit_not_space b (hd b hb)) ⟨m, hm.symm, m', hm'⟩

theorem Contains_numeral (ip fp : List Char) (hd : ∀ c ∈ ip ++ fp, isDigitChar c = true) :
    Contains ⟨numeralChars ip fp⟩ '.' = !fp.isEmpty := by
  unfold Contains numeralChars
  cases fp with
  | nil =>
    simp only [if_true, List.isEmpty_nil, Bool.not_true]
    rw [Bool.eq_false_iff]
    intro hc
    have hmem : '.' ∈ ip := by simpa using hc
    exact digit_ne_of_toNat '.' '.' (hd _ (by simp [hmem])) (by decide) rfl
  | cons x xs =>
    simp

/-! ## Lemmas on paths -/

theorem splitOnChar_ne_nil (c : Char) (l : List Char) : splitOnChar c l ≠ [] := by
  cases l with
  | nil => simp [splitOnChar]
  | cons x xs =>
    simp only [splitOnChar]
    split
    · simp
    · split <;> simp

theorem splitOnChar_cons_sep (c : Char) (l : List Char) :
    splitOnChar c (c :: l) = [] :: splitOnChar c l := by
  simp only [splitOnChar]
  cases h : splitOnChar c l with
  | nil => exact absurd h (splitOnChar_ne_nil c l)
  | cons p ps => simp

theorem splitOnChar_cons_other (c x : Char) (l : List Char) (hx : x ≠ c) :
    ∃ p ps, splitOnChar c l = p :: ps ∧ splitOnChar c (x :: l) = (x :: p) :: ps := by
  cases h : splitOnChar c l with
  | nil => exact absurd h (splitOnChar_ne_nil c l)
  | cons p ps =>
    refine ⟨p, ps, rfl, ?_⟩
    simp only [splitOnChar, h, hx, if_false]

/-- Splitting what is written before and after a separator. -/
theorem splitOnChar_append_sep (c : Char) (a b : List Char) :
    splitOnChar c (a ++ c :: b) = splitOnChar c a ++ splitOnChar c b := by
  induction a with
  | nil =>
    rw [List.nil_append, splitOnChar_cons_sep]
    rfl
  | cons x xs ih =>
    by_cases hx : x = c
    · subst hx
      rw [List.cons_append, splitOnChar_cons_sep, splitOnChar_cons_sep, ih, List.cons_append]
    · obtain ⟨p, ps, h1, h2⟩ := splitOnChar_cons_other c x xs hx
      obtain ⟨q, qs, h3, h4⟩ := splitOnChar_cons_other c x (xs ++ c :: b) hx
      rw [List.cons_append, h4, h2]
      rw [ih, h1, List.cons_append] at h3
      obtain ⟨e1, e2⟩ := List.cons.inj h3
      rw [← e1, ← e2, List.cons_append]

theorem splitOnChar_mem_free (c : Char) (l : List Char) :
    ∀ p ∈ splitOnChar c l, ∀ x ∈ p, x ≠ c := by
  induction l with
  | nil => simp [splitOnChar]
  | cons y ys ih =>
    by_cases hy : y = c
    · subst hy
      rw [splitOnChar_cons_sep]
      intro p hp
      rcases List.mem_cons.mp hp with h | h
      · subst h; simp
      · exact ih p h
    · obtain ⟨q, qs, h1, h2⟩ := splitOnChar_cons_other c y ys hy
      rw [h2]
      rw [h1] at ih
      intro p hp
      rcases List.mem_cons.mp hp with h | h
      · subst h
        intro x hx
        rcases List.mem_cons.mp hx with h' | h'
        · rw [h']; exact hy
        · exact ih q (by simp) x h'
      · exact ih p (by simp [h])

/-- Splitting undoes joining, for components without the separator. -/
theorem splitOnChar_intercalate (c : Char) (l : List (List Char)) (hne : l ≠ [])
    (hfree : ∀ p ∈ l, ∀ x ∈ p, x ≠ c) : splitOnChar c (List.intercalate [c] l) = l := by
  induction l with
  | nil => exact absurd rfl hne
  | cons p ps ih =>
    cases ps with
    | nil =>
      simp only [List.intercalate, List.intersperse_singleton, List.flatten_cons,
        List.flatten_nil, List.append_nil]
      exact splitOnChar_no_sep c p (hfree p (by simp))
    | cons q qs =>
      have hcons : List.intercalate [c] (p :: q :: qs) =
          p ++ c :: List.intercalate [c] (q :: qs) := by
        simp [List.intercalate]
      rw [hcons, splitOnChar_append_sep, splitOnChar_no_sep c p (hfree p (by simp)),
        ih (by simp) (fun r hr => hfree r (by simp [hr]))]
      rfl

theorem cleanComponents_normal (rooted : Bool) (stack ts : List (List Char))
    (hn : ∀ t ∈ ts, normalComp t) :
    cleanComponents rooted stack ts = stack.reverse ++ ts := by
  induction ts generalizing stack with
  | nil => simp [cleanComponents]
  | cons t rest ih =>
    obtain ⟨h1, -, h3, h4⟩ := hn t (by simp)
    have h5 : ¬ (t = [] ∨ t = ['.']) := by
      rintro (h | h)
      · exact h1 h
      · exact h3 h
    simp only [cleanComponents, h5, h4, if_false]
    rw [ih _ (fun x hx => hn x (by simp [hx]))]
    simp

theorem cleanComponents_append_normal (rooted : Bool) (stack xs ts : List (List Char))
    (hn : ∀ t ∈ ts, normalComp t) :
    cleanComponents rooted stack (xs ++ ts) = cleanComponents rooted stack xs ++ ts := by
  induction xs generalizing stack with
  | nil =>
    rw [List.nil_append, cleanComponents_normal rooted stack ts hn]
    simp [cleanComponents]
  | cons x rest ih =>
    simp only [List.cons_append, cleanComponents]
    split
    · exact ih _
    · split
      · split
        · split
          · exact ih _
          · exact ih _
        · split
          · exact ih _
          · exact ih _
      · exact ih _

theorem cleanComponents_mem (rooted : Bool) (stack xs : List (List Char)) :
    ∀ y ∈ cleanComponents rooted stack xs, y ∈ stack ∨ y ∈ xs := by
  induction xs generalizing stack with
  | nil =>
    intro y hy
    simp only [cleanComponents, List.mem_reverse] at hy
    exact Or.inl hy
  | cons x rest ih =>
    intro y hy
    simp only [cleanComponents] at hy
    have lift : ∀ st : List (List Char), (∀ z ∈ st, z ∈ stack ∨ z = x) →
        y ∈ cleanComponents rooted st rest → y ∈ stack ∨ y ∈ x :: rest := by
      intro st hst hmem
      rcases ih st y hmem with h | h
      · rcases hst y h with h' | h'
        · exact Or.inl h'
        · exact Or.inr (by simp [h'])
      · exact Or.inr (by simp [h])
    split at hy
    · exact lift stack (fun z hz => Or.inl hz) hy
    · split at hy
      · split at hy
        · rename_i top tl
          split at hy
          · refine lift _ ?_ hy
            intro z hz
            rcases List.mem_cons.mp hz with h | h
            · exact Or.inr h
            · exact Or.inl h
          · refine lift _ ?_ hy
            intro z hz
            exact Or.inl (by simp [hz])
        · split at hy
          · exact lift [] (fun z hz => by simp at hz) hy
          · refine lift [x] ?_ hy
            intro z hz
            exact Or.inr (by simpa using hz)
      · refine lift _ ?_ hy
        intro z hz
        rcases List.mem_cons.mp hz with h | h
        · exact Or.inr h
        · exact Or.inl h

theorem mem_intersperse_of_mem {α : Type} (sep p : α) (l : List α) (hp : p ∈ l) :
    p ∈ l.intersperse sep := by
  induction l with
  | nil => simp at hp
  | cons q qs ih =>
    cases qs with
    | nil => simpa using hp
    | cons r rs =>
      simp only [List.intersperse_cons₂, List.mem_cons]
      rcases List.mem_cons.mp hp with h | h
      · exact Or.inl h
      · exact Or.inr (Or.inr (ih h))

theorem intercalate_ne_nil (c : Char) (l : List (List Char)) (h : ∃ p ∈ l, p ≠ []) :
    List.intercalate [c] l ≠ [] := by
  obtain ⟨p, hp, hne⟩ := h
  intro hnil
  cases p with
  | nil => exact hne rfl
  | cons a as =>
    have : a ∈ List.intercalate [c] l := by
      simp only [List.intercalate, List.mem_flatten]
      exact ⟨a :: as, mem_intersperse_of_mem _ _ _ hp, by simp⟩
    rw [hnil] at this
    simp at this

theorem String_data_ne_nil (t : String) (h : t.data ≠ []) : t ≠ "" := by
  intro ht
  rw [ht] at h
  exact h rfl

theorem intercalate_cons_cons (c : Char) (p q : List Char) (qs : List (List Char)) :
    List.intercalate [c] (p :: q :: qs) = p ++ c :: List.intercalate [c] (q :: qs) := by
  simp [List.intercalate]

/-- The result of `Clean` on a path whose split components clean to the
non-empty list `comps` of components without separator. -/
theorem Clean_split (path : String) (comps : List (List Char))
    (hc : cleanComponents (path.data.head? = some '/') [] (splitOnChar '/' path.data) = comps)
    (hfree : ∀ p ∈ comps, ∀ x ∈ p, x ≠ '/') (hne : ∃ p ∈ comps, p ≠ []) :
    splitOnChar '/' (Clean path).data =
      (if path.data.head? = some '/' then [[]] else []) ++ comps := by
  have hcne : comps ≠ [] := by
    obtain ⟨p, hp, -⟩ := hne
    intro h
    rw [h] at hp
    simp at hp
  have hbody := intercalate_ne_nil '/' comps hne
  unfold Clean
  simp only [hc]
  by_cases hr : path.data.head? = some '/'
  · simp only [hr, decide_True, if_true]
    rw [splitOnChar_cons_sep, splitOnChar_intercalate '/' comps hcne hfree]
    rfl
  · simp only [hr, decide_False, Bool.false_eq_true, if_false, hbody]
    rw [splitOnChar_intercalate '/' comps hcne hfree]
    rfl

/-- The components of a joined path: those left of the base directory, then
the normal components appended to it. -/
theorem Join_split (base : String) (ts : List String) (hne : ts ≠ [])
    (hn : ∀ t ∈ ts, normalComp t.data) :
    splitOnChar '/' (Join (base :: ts)).data = pathPrefix base ++ ts.map String.data := by
  have hT : ∀ p ∈ ts.map String.data, normalComp p := by
    intro p hp
    obtain ⟨t, ht, rfl⟩ := List.mem_map.mp hp
    exact hn t ht
  have hTfree : ∀ p ∈ ts.map String.data, ∀ x ∈ p, x ≠ '/' := fun p hp => (hT p hp).2.1
  have hTne : ts.map String.data ≠ [] := by simpa using hne
  obtain ⟨t0, rest, hts⟩ : ∃ t0 rest, ts = t0 :: rest := by
    cases ts with
    | nil => exact absurd rfl hne
    | cons a r => exact ⟨a, r, rfl⟩
  have ht0 : normalComp t0.data := hn t0 (by rw [hts]; simp)
  have hTex : ∃ p ∈ ts.map String.data, p ≠ [] :=
    ⟨t0.data, by rw [hts]; simp, ht0.1⟩
  by_cases hb : base.data = []
  · -- an empty base directory is dropped by `Join`
    have hbase : base = "" := by
      cases base
      simp only at hb
      rw [hb]
    have hdrop : (base :: ts).dropWhile (fun e => decide (e = "")) = ts := by
      rw [hbase, hts]
      have h0 : t0 ≠ "" := String_data_ne_nil t0 ht0.1
      simp [List.dropWhile, h0]
    have hjoin : Join (base :: ts) = Clean ⟨List.intercalate ['/'] (ts.map String.data)⟩ := by
      unfold Join
      rw [hdrop, hts]
    obtain ⟨a, as, ha⟩ : ∃ a as, t0.data = a :: as := by
      cases h : t0.data with
      | nil => exact absurd h ht0.1
      | cons a as => exact ⟨a, as, rfl⟩
    have hhead : (List.intercalate ['/'] (ts.map String.data)).head? ≠ some '/' := by
      have : ∃ tl, List.intercalate ['/'] (ts.map String.data) = a :: tl := by
        rw [hts, List.map_cons, ha]
        cases rest with
        | nil => exact ⟨as, by simp [List.intercalate]⟩
        | cons r rs =>
          rw [List.map_cons, intercalate_cons_cons]
          exact ⟨_, rfl⟩
      obtain ⟨tl, htl⟩ := this
      rw [htl]
      simp only [List.head?_cons, ne_eq, Option.some.injEq]
      exact ht0.2.1 a (by rw [ha]; simp)
    rw [hjoin, Clean_split _ (ts.map String.data) ?_ hTfree hTex]
    · simp only [hhead, if_false, List.nil_append]
      unfold pathPrefix
      rw [hb]
      simp [splitOnChar, cleanComponents]
    · simp only [hhead, decide_False]
      rw [splitOnChar_intercalate '/' _ hTne hTfree, cleanComponents_normal _ _ _ hT]
      rfl
  · -- a non-empty base directory is kept
    have hbase : base ≠ "" := String_data_ne_nil base hb
    have hjoin : Join (base :: ts) =
        Clean ⟨List.intercalate ['/'] (base.data :: ts.map String.data)⟩ := by
      unfold Join
      simp [List.dropWhile, hbase]
    have hinter : List.intercalate ['/'] (base.data :: ts.map String.data) =
        base.data ++ '/' :: List.intercalate ['/'] (ts.map String.data) := by
      rw [hts, List.map_cons, intercalate_cons_cons]
    have hhead : (base.data ++ '/' :: List.intercalate ['/'] (ts.map String.data)).head? =
        base.data.head? := by
      cases h : base.data with
      | nil => exact absurd h hb
      | cons x xs => rfl
    have hSfree : ∀ p ∈ cleanComponents (base.data.head? = some '/') []
        (splitOnChar '/' base.data), ∀ x ∈ p, x ≠ '/' := by
      intro p hp
      rcases cleanComponents_mem _ _ _ p hp with h | h
      · simp at h
      · exact splitOnChar_mem_free '/' base.data p h
    rw [hjoin, hinter, Clean_split _
      (cleanComponents (base.data.head? = some '/') [] (splitOnChar '/' base.data) ++
        ts.map String.data) ?_ ?_ ?_]
    · simp only [hhead]
      unfold pathPrefix
      rw [List.append_assoc]
    · simp only [hhead]
      rw [splitOnChar_append_sep, splitOnChar_intercalate '/' _ hTne hTfree,
        cleanComponents_append_normal _ _ _ _ hT]
    · intro p hp
      rcases List.mem_append.mp hp with h | h
      · exact hSfree p h
      · exact hTfree p h
    · obtain ⟨p, hp, hpne⟩ := hTex
      exact ⟨p, List.mem_append.mpr (Or.inr hp), hpne⟩

theorem freeOf_append (c : Char) (a b : List Char) :
    freeOf c (a ++ b) ↔ freeOf c a ∧ freeOf c b := by
  unfold freeOf
  constructor
  · intro h
    exact ⟨fun x hx => h x (by simp [hx]), fun x hx => h x (by simp [hx])⟩
  · rintro ⟨h1, h2⟩ x hx
    rcases List.mem_append.mp hx with h | h
    · exact h1 x h
    · exact h2 x h

theorem freeOf_cons (c y : Char) (a : List Char) :
    freeOf c (y :: a) ↔ y ≠ c ∧ freeOf c a := by
  unfold freeOf
  simp

/-- What stands after the last separator of a list is determined by the list. -/
theorem append_sep_inj (c : Char) (a a' b b' : List Char) (hb : freeOf c b)
    (hb' : freeOf c b') (h : a ++ c :: b = a' ++ c :: b') : a = a' ∧ b = b' := by
  have hs := congrArg (splitOnChar c) h
  rw [splitOnChar_append_sep, splitOnChar_append_sep, splitOnChar_no_sep c b hb,
    splitOnChar_no_sep c b' hb'] at hs
  have hlast := congrArg List.getLast? hs
  have hbb : b = b' := by simpa using hlast
  subst hbb
  exact ⟨List.append_cancel_right h, rfl⟩

theorem digitChar_isDigit (d : Nat) (h : d < 10) : isDigitChar (Char.ofNat (48 + d)) = true := by
  interval_cases d <;> decide

theorem natDigitsRev_digits (fuel n : Nat) :
    ∀ x ∈ natDigitsRev fuel n, isDigitChar x = true := by
  induction fuel generalizing n with
  | zero => simp [natDigitsRev]
  | succ f ih =>
    intro x hx
    simp only [natDigitsRev] at hx
    split at hx
    · rename_i hlt
      simp only [List.mem_singleton] at hx
      rw [hx]
      exact digitChar_isDigit n hlt
    · rcases List.mem_cons.mp hx with h | h
      · rw [h]
        exact digitChar_isDigit (n % 10) (Nat.mod_lt _ (by norm_num))
      · exact ih _ x h

/-- A decimal rendering holds digits and possibly a minus sign. -/
theorem Itoa_chars (z : Int) : ∀ x ∈ (Itoa z).data, isDigitChar x = true ∨ x = '-' := by
  intro x hx
  unfold Itoa at hx
  simp only at hx
  split at hx
  · rcases List.mem_cons.mp hx with h | h
    · exact Or.inr h
    · exact Or.inl (natDigitsRev_digits _ _ x (List.mem_reverse.mp h))
  · exact Or.inl (natDigitsRev_digits _ _ x (List.mem_reverse.mp hx))

theorem Itoa_freeOf (z : Int) (c : Char) (hc : c.toNat < 45 ∨ 57 < c.toNat ∨ c.toNat = 47 ∨
    c.toNat = 46) : freeOf c (Itoa z).data := by
  intro x hx
  rcases Itoa_chars z x hx with h | h
  · exact digit_ne_of_toNat x c h (by omega)
  · subst h
    intro hcx
    rw [← hcx] at hc
    revert hc
    decide

/-- Lower-casing yields a character outside `a`..`z` only from itself. -/
theorem toLower_eq_nonletter (c x : Char) (hx : x.toNat < 97 ∨ 122 < x.toNat)
    (h : c.toLower = x) : c = x := by
  unfold Char.toLower at h
  simp only at h
  split at h
  · rename_i hr
    exfalso
    generalize c.toNat = n at hr h
    obtain ⟨r1, r2⟩ := hr
    subst h
    interval_cases n <;> revert hx <;> decide
  · exact h

/-- The function `unicode.ToLower` yields an ASCII character outside `a`..`z`
only from itself. -/
theorem unicodeToLower_eq_nonletter [CaseTables] (c x : Char)
    (hx : x.toNat < 97 ∨ (122 < x.toNat ∧ x.toNat < 128))
    (h : unicodeToLower c = x) : c = x := by
  unfold unicodeToLower at h
  split at h
  · exact toLower_eq_nonletter c x (by omega) h
  · rename_i hc
    exfalso
    have hl := CaseTables.lower_ascii c (by omega) (by rw [h]; omega)
    rw [h] at hl
    omega

theorem ToLower_freeOf [CaseTables] (s : String) (c : Char)
    (hc : c.toNat < 97 ∨ (122 < c.toNat ∧ c.toNat < 128))
    (h : freeOf c s.data) : freeOf c (ToLower s).data := by
  intro x hx
  unfold ToLower at hx
  simp only [List.mem_map] at hx
  obtain ⟨y, hy, hyx⟩ := hx
  intro hxc
  rw [hxc] at hyx
  exact h y hy (unicodeToLower_eq_nonletter y c hc hyx)

theorem ReplaceAll_mem (s : String) (old : Char) (new : String) (x : Char)
    (hx : x ∈ (ReplaceAll s old new).data) : x ∈ new.data ∨ (x ∈ s.data ∧ x ≠ old) := by
  unfold ReplaceAll at hx
  simp only [List.mem_flatMap] at hx
  obtain ⟨y, hy, hxy⟩ := hx
  split at hxy
  · exact Or.inl hxy
  · rename_i hne
    simp only [List.mem_singleton] at hxy
    rw [hxy]
    exact Or.inr ⟨hy, hne⟩

theorem ReplaceAll_mem_of (s : String) (old : Char) (new : String) (x : Char)
    (hx : x ∈ s.data) (hne : x ≠ old) : x ∈ (ReplaceAll s old new).data := by
  unfold ReplaceAll
  simp only [List.mem_flatMap]
  exact ⟨x, hx, by simp [hne]⟩

theorem ReplaceAll_mem_new (s : String) (old : Char) (new : String) (x : Char)
    (hold : old ∈ s.data) (hx : x ∈ new.data) : x ∈ (ReplaceAll s old new).data := by
  unfold ReplaceAll
  simp only [List.mem_flatMap]
  exact ⟨old, hold, by simp [hx]⟩

theorem TrimSpace_mem (s : String) (x : Char) (hx : x ∈ (TrimSpace s).data) : x ∈ s.data := by
  unfold TrimSpace dropWhileEnd at hx
  simp only [List.mem_reverse] at hx
  have h1 := (List.dropWhile_sublist isSpace).subset hx
  have h2 := List.mem_reverse.mp h1
  exact (List.dropWhile_sublist isSpace).subset h2

end Go

namespace config

open Go generator

/-! ## Results of `Validate` and `ParseRatio` -/

@[simp] theorem failed_error {ε α : Type} (e : ε) : failed (Except.error e : Except ε α) = true := rfl

@[simp] theorem failed_ok {ε α : Type} (a : α) : failed (Except.ok a : Except ε α) = false := rfl

theorem validateRatios_failed (presetName : String) (rs : List String) :
    failed (validateRatios presetName rs) = true ↔ ∃ r ∈ rs, failed (ParseRatio r) = true := by
  induction rs with
  | nil => simp [validateRatios]
  | cons r rest ih =>
    cases h : ParseRatio r with
    | error e => simp [validateRatios, h]
    | ok v => simp [validateRatios, h, ih]

theorem validatePresets_failed (ps : List (String × Preset)) :
    failed (validatePresets ps) = true ↔
      ∃ p ∈ ps, ∃ r ∈ p.2.Ratios, failed (ParseRatio r) = true := by
  induction ps with
  | nil => simp [validatePresets]
  | cons p rest ih =>
    obtain ⟨n, pr⟩ := p
    have hr := validateRatios_failed n pr.Ratios
    cases h : validateRatios n pr.Ratios with
    | error e =>
      rw [h] at hr
      have := hr.mp rfl
      simp [validatePresets, h, this]
    | ok v =>
      rw [h] at hr
      have hn : ¬ ∃ r ∈ pr.Ratios, failed (ParseRatio r) = true := fun hx => by
        have := hr.mpr hx
        simp at this
      simp only [validatePresets, h, ih, List.mem_cons, exists_eq_or_imp]
      simp [hn]

theorem validateDimensions_failed (what : String) (dims : List Int) :
    failed (validateDimensions what dims) = true ↔ ¬ goodDimensions dims := by
  unfold validateDimensions goodDimensions
  match dims with
  | [] => simp
  | [a] => simp
  | [a, b] =>
    by_cases h : a ≤ 0 ∨ b ≤ 0
    · simp only [h, if_true, failed_error, true_iff]
      rintro ⟨d0, d1, he, h0, h1⟩
      simp at he
      omega
    · simp only [h, if_false]
      simp
      omega
  | a :: b :: c :: r => simp

theorem validateTargets_failed (ts : List (String × Target)) :
    failed (validateTargets ts) = true ↔ ∃ t ∈ ts, ¬ goodDimensions t.2.Dimensions := by
  induction ts with
  | nil => simp [validateTargets]
  | cons t rest ih =>
    obtain ⟨n, tg⟩ := t
    have hd := validateDimensions_failed ("target " ++ n) tg.Dimensions
    cases h : validateDimensions ("target " ++ n) tg.Dimensions with
    | error e =>
      rw [h] at hd
      have := hd.mp rfl
      simp [validateTargets, h, this]
    | ok v =>
      rw [h] at hd
      have hn : goodDimensions tg.Dimensions := by
        by_contra hx
        have := hd.mpr hx
        simp at this
      simp only [validateTargets, h, ih, List.mem_cons, exists_eq_or_imp]
      simp [hn]

theorem validateEdgeCases_failed (es : List EdgeCase) :
    failed (validateEdgeCases es) = true ↔ ∃ e ∈ es, ¬ goodDimensions e.Dimensions := by
  induction es with
  | nil => simp [validateEdgeCases]
  | cons e rest ih =>
    have hd := validateDimensions_failed ("edge case " ++ e.Name) e.Dimensions
    cases h : validateDimensions ("edge case " ++ e.Name) e.Dimensions with
    | error x =>
      rw [h] at hd
      have := hd.mp rfl
      simp [validateEdgeCases, h, this]
    | ok v =>
      rw [h] at hd
      have hn : goodDimensions e.Dimensions := by
        by_contra hx
        have := hd.mpr hx
        simp at this
      simp only [validateEdgeCases, h, ih, List.mem_cons, exists_eq_or_imp]
      simp [hn]

theorem Validate_failed_iff (c : Config) :
    failed c.Validate = true ↔
      (c.Version = "" ∨ c.Presets = [] ∨ c.Sizes = [] ∨ c.Formats = [] ∨
        (∃ p ∈ c.Presets, ∃ r ∈ p.2.Ratios, failed (ParseRatio r) = true) ∨
        (∃ t ∈ c.Targets, ¬ goodDimensions t.2.Dimensions) ∨
        (∃ e ∈ c.EdgeCases, ¬ goodDimensions e.Dimensions)) := by
  unfold Config.Validate
  by_cases hv : c.Version = ""
  · simp [hv]
  by_cases hp : c.Presets = []
  · simp [hv, hp]
  by_cases hs : c.Sizes = []
  · simp [hv, hp, hs]
  by_cases hf : c.Formats = []
  · simp [hv, hp, hs, hf]
  simp only [hv, hp, hs, hf, List.length_eq_zero, if_false, false_or]
  have h1 := validatePresets_failed c.Presets
  have h2 := validateTargets_failed c.Targets
  have h3 := validateEdgeCases_failed c.EdgeCases
  cases e1 : validatePresets c.Presets with
  | error x =>
    rw [e1] at h1
    simp only [failed_error, true_iff]
    exact Or.inl (h1.mp rfl)
  | ok v =>
    rw [e1] at h1
    have n1 : ¬ ∃ p ∈ c.Presets, ∃ r ∈ p.2.Ratios, failed (ParseRatio r) = true := fun hx => by
      have := h1.mpr hx
      simp at this
    cases e2 : validateTargets c.Targets with
    | error x =>
      rw [e2] at h2
      simp only [failed_error, true_iff]
      exact Or.inr (Or.inl (h2.mp rfl))
    | ok w =>
      rw [e2] at h2
      have n2 : ¬ ∃ t ∈ c.Targets, ¬ goodDimensions t.2.Dimensions := fun hx => by
        have := h2.mpr hx
        simp at this
      simp only [h3]
      constructor
      · intro h; exact Or.inr (Or.inr h)
      · rintro (h | h | h)
        · exact absurd h n1
        · exact absurd h n2
        · exact h

theorem ParseRatio_ok_inv (s : String) (r : RatioInfo) (h : ParseRatio s = .ok r) :
    ∃ p0 p1, Split (TrimSpace s) ':' = [p0, p1] ∧ 0 < r.Width ∧ 0 < r.Height ∧
      r.Ratio = TrimSpace s ∧ r.DisplayName = displayToken (TrimSpace s) ∧
      r.IsDecimal = (Contains (TrimSpace p0) '.' || Contains (TrimSpace p1) '.') ∧
      ((r.IsDecimal = true ∧ ∃ w h, ParseFloat (TrimSpace p0) = some w ∧
          ParseFloat (TrimSpace p1) = some h ∧
          r.Width = F64.toInt (F64.mul w (F64.ofInt 100)) ∧
          r.Height = F64.toInt (F64.mul h (F64.ofInt 100)) ∧ r.Decimal = F64.div w h) ∨
       (r.IsDecimal = false ∧ Atoi (TrimSpace p0) = some r.Width ∧
          Atoi (TrimSpace p1) = some r.Height ∧
          r.Decimal = F64.div (F64.ofInt r.Width) (F64.ofInt r.Height))) := by
  unfold ParseRatio at h
  dsimp only at h
  split at h
  · rename_i p0 p1 hsplit
    refine ⟨p0, p1, hsplit, ?_⟩
    split at h
    · rename_i hdec
      split at h
      · exact absurd h (by simp)
      · rename_i w hw
        split at h
        · exact absurd h (by simp)
        · rename_i hh hhh
          split at h
          · exact absurd h (by simp)
          · rename_i hpos
            simp only [Except.ok.injEq] at h
            subst h
            simp only [not_or, not_le] at hpos
            refine ⟨hpos.1, hpos.2, rfl, rfl, rfl, Or.inl ⟨hdec, w, hh, hw, hhh, rfl, rfl, rfl⟩⟩
    · rename_i hdec
      split at h
      · exact absurd h (by simp)
      · rename_i w hw
        split at h
        · exact absurd h (by simp)
        · rename_i hh hhh
          split at h
          · exact absurd h (by simp)
          · rename_i hpos
            simp only [Except.ok.injEq] at h
            subst h
            simp only [not_or, not_le] at hpos
            simp only [Bool.not_eq_true] at hdec
            refine ⟨hpos.1, hpos.2, rfl, rfl, rfl, Or.inr ⟨hdec, hw, hhh, rfl⟩⟩
  · exact absurd h (by simp)

theorem failed_iff {ε α : Type} (r : Except ε α) : failed r = true ↔ ∃ e, r = .error e := by
  cases r <;> simp

/-- C6: `Validate` returns an error exactly when the version is empty, or the
presets, sizes or formats are empty, or `ParseRatio` rejects a ratio string of
a preset, or a target or an edge case does not have exactly two dimensions
that are both positive. -/
theorem Validate_error_iff (c : Config) :
    (∃ msg, c.Validate = .error msg) ↔
      (c.Version = "" ∨ c.Presets = [] ∨ c.Sizes = [] ∨ c.Formats = [] ∨
        (∃ p ∈ c.Presets, ∃ r ∈ p.2.Ratios, ∃ msg, ParseRatio r = .error msg) ∨
        (∃ t ∈ c.Targets, ¬ goodDimensions t.2.Dimensions) ∨
        (∃ e ∈ c.EdgeCases, ¬ goodDimensions e.Dimensions)) := by
  rw [← failed_iff, Validate_failed_iff]
  simp only [failed_iff]

/-- C5: at a configuration whose only defect is the unparsable ratio string
`oops` of a target, `Validate` returns no error, although `ParseRatio` rejects
the string and `BuildSpecs` then fails on it. -/
theorem Validate_accepts_bad_target_ratio :
    ParseRatio "oops" = .error "invalid ratio format: oops (expected W:H)" ∧
      badTargetRatioConfig.Validate = .ok () ∧
      SpecBuilder.BuildSpecs ⟨badTargetRatioConfig, ⟨[], [], []⟩, "out"⟩ =
        .error (.error ("failed to build target specs: invalid ratio oops for target bad: " ++
          "invalid ratio format: oops (expected W:H)")) := by
  decide

/-- C10: at `1.15:1` the product `1.15 * 100` is `114.99999999999999` in
binary64 and the conversion truncates it, so the width is 114 and not 115. -/
theorem ParseRatio_scaled_width_truncated :
    (ParseRatio "1.15:1").map (fun r => (r.Width, r.Height, r.IsDecimal)) =
      .ok (114, 100, true) := by
  decide

/-- C9, counterexample: `1.001:1` is accepted with width 100 and height 100,
and its decimal is the binary64 value of 1.001, not `100 / 100 = 1`: the
integer ratio keeps two decimals of each side, the decimal keeps them all. -/
theorem ParseRatio_decimal_not_quotient :
    ∃ r, ParseRatio "1.001:1" = .ok r ∧ r.Width = 100 ∧ r.Height = 100 ∧
      some r.Decimal = ParseFloat "1.001" ∧
      F64.div (F64.ofInt r.Width) (F64.ofInt r.Height) = F64.ofInt 1 ∧
      r.Decimal ≠ F64.div (F64.ofInt r.Width) (F64.ofInt r.Height) := by
  refine ⟨⟨"1.001:1", 100, 100, F64.fin false 2254051613498933 (-51), true, "1_001-1"⟩, ?_⟩
  decide

/-- C9, amended: an accepted string has positive width and height; without a
decimal point the decimal is the `float64` quotient of width and height; with
one, it is the `float64` quotient of the two parsed components. -/
theorem ParseRatio_ok_fields (s : String) (r : RatioInfo) (h : ParseRatio s = .ok r) :
    0 < r.Width ∧ 0 < r.Height ∧
      (r.IsDecimal = false →
        r.Decimal = F64.div (F64.ofInt r.Width) (F64.ofInt r.Height)) ∧
      (r.IsDecimal = true →
        ∃ p0 p1 w h, Split (TrimSpace s) ':' = [p0, p1] ∧
          ParseFloat (TrimSpace p0) = some w ∧ ParseFloat (TrimSpace p1) = some h ∧
          r.Decimal = F64.div w h) := by
  obtain ⟨p0, p1, hs, hw, hh, -, -, -, hcase⟩ := ParseRatio_ok_inv s r h
  refine ⟨hw, hh, ?_, ?_⟩
  · intro hd
    rcases hcase with ⟨ht, -⟩ | ⟨-, -, -, hq⟩
    · rw [hd] at ht; exact absurd ht (by simp)
    · exact hq
  · intro hd
    rcases hcase with ⟨-, w, h', hpw, hph, e1, e2, e3⟩ | ⟨hf, -⟩
    · exact ⟨p0, p1, w, h', hs, hpw, hph, e3⟩
    · rw [hd] at hf; exact absurd hf (by simp)

/-- A witness of `ParseRatio_ok_fields`, at `2:3`: the decimal is the nearest
`float64` of two thirds, the quotient of width and height. -/
theorem ParseRatio_ok_fields_witness :
    ParseRatio "2:3" = .ok ⟨"2:3", 2, 3, F64.fin false 6004799503160661 (-53), false, "2-3"⟩ ∧
      (0 : Int) < 2 ∧ (0 : Int) < 3 ∧
      F64.fin false 6004799503160661 (-53) = F64.div (F64.ofInt 2) (F64.ofInt 3) :=
  ⟨by decide,
    (ParseRatio_ok_fields "2:3" ⟨"2:3", 2, 3, F64.fin false 6004799503160661 (-53), false, "2-3"⟩
      (by decide)).1,
    (ParseRatio_ok_fields "2:3" ⟨"2:3", 2, 3, F64.fin false 6004799503160661 (-53), false, "2-3"⟩
      (by decide)).2.1,
    (ParseRatio_ok_fields "2:3" ⟨"2:3", 2, 3, F64.fin false 6004799503160661 (-53), false, "2-3"⟩
      (by decide)).2.2.1 rfl⟩

theorem nonPositive_mul_hundred (w : F64) (h : F64.nonPositive w = true) :
    F64.nonPositive (F64.mul w (F64.ofInt 100)) = true := by
  have h100 : F64.ofInt 100 = F64.fin false 25 2 := by decide
  rw [h100]
  cases w with
  | nan => simp [F64.nonPositive] at h
  | inf s =>
    simp only [F64.nonPositive] at h
    subst h
    simp [F64.mul, F64.nonPositive]
  | fin s m e =>
    simp only [F64.nonPositive, Bool.or_eq_true, beq_iff_eq] at h
    rcases h with h | h
    · subst h
      rcases F64.mul_fin_shape true false m 25 e 2 with hx | ⟨m', e', hx⟩
      · rw [hx]; simp [F64.nonPositive]
      · rw [hx]; simp [F64.nonPositive]
    · subst h
      simp [F64.mul, F64.roundScaled, F64.round, F64.nonPositive]

theorem not_ok_error {α : Type} (r : Except String α) (h : ∀ a, r ≠ .ok a) :
    ∃ msg, r = .error msg := by
  cases r with
  | error e => exact ⟨e, rfl⟩
  | ok a => exact absurd rfl (h a)

/-- C7: `ParseRatio` returns an error for every string that, after trimming,
is not made of exactly two components separated by one colon, or that has a
component which is not numeric, or a component which is zero or negative. -/
theorem ParseRatio_rejects (s : String)
    (h : (Split (TrimSpace s) ':').length ≠ 2 ∨
      ∃ p0 p1, Split (TrimSpace s) ':' = [p0, p1] ∧
        (¬ Numeric (TrimSpace p0) ∨ ¬ Numeric (TrimSpace p1) ∨
          ZeroOrNegative (TrimSpace p0) ∨ ZeroOrNegative (TrimSpace p1))) :
    ∃ msg, ParseRatio s = .error msg := by
  apply not_ok_error
  intro r hr
  obtain ⟨q0, q1, hs, hw, hh, -, -, -, hcase⟩ := ParseRatio_ok_inv s r hr
  rcases h with h | ⟨p0, p1, hp, h⟩
  · rw [hs] at h
    exact h rfl
  · rw [hs] at hp
    obtain ⟨e0, e1'⟩ := List.cons.inj hp
    obtain ⟨e1, -⟩ := List.cons.inj e1'
    subst e0 e1
    rcases hcase with ⟨-, w, h', pw, ph, ew, eh, -⟩ | ⟨-, aw, ah, -⟩
    · -- both sides read by `ParseFloat`
      have key : ∀ (p : String) (v : F64), ParseFloat p = some v → ZeroOrNegative p →
          F64.toInt (F64.mul v (F64.ofInt 100)) ≤ 0 := by
        intro p v hv hz
        apply F64.toInt_nonPositive
        apply nonPositive_mul_hundred
        rcases hz with ⟨z, hz1, hz2⟩ | ⟨v', hv1, hv2⟩
        · exact (Atoi_ParseFloat_sign p z v hz1 hv).mp hz2
        · rw [hv] at hv1
          simp only [Option.some.injEq] at hv1
          rw [hv1]
          exact hv2
      rcases h with h | h | h | h
      · exact h (Or.inr (by rw [pw]; rfl))
      · exact h (Or.inr (by rw [ph]; rfl))
      · have := key _ _ pw h
        omega
      · have := key _ _ ph h
        omega
    · -- both sides read by `Atoi`
      have key : ∀ (p : String) (z : Int), Atoi p = some z → ZeroOrNegative p → z ≤ 0 := by
        intro p z hz hzn
        rcases hzn with ⟨z', hz1, hz2⟩ | ⟨v', hv1, hv2⟩
        · rw [hz] at hz1
          simp only [Option.some.injEq] at hz1
          omega
        · exact (Atoi_ParseFloat_sign p z v' hz hv1).mpr hv2
      rcases h with h | h | h | h
      · exact h (Or.inl (by rw [aw]; rfl))
      · exact h (Or.inl (by rw [ah]; rfl))
      · have := key _ _ aw h
        omega
      · have := key _ _ ah h
        omega

/-- A witness of `ParseRatio_rejects`, at `2:-3`. -/
theorem ParseRatio_rejects_witness :
    ∃ msg, ParseRatio "2:-3" = .error msg :=
  ParseRatio_rejects "2:-3"
    (Or.inr ⟨"2", "-3", by decide, Or.inr (Or.inr (Or.inr (Or.inl ⟨-3, by decide, by decide⟩)))⟩)

/-- The scaled component of a numeral between 0.01 and 10^16 is positive. -/
theorem scaled_component_pos (n k : Nat) (hlo : 10 ^ k ≤ 100 * n) (hhi : n ≤ 10 ^ 16 * 10 ^ k) :
    ∃ v, rangeChecked (F64.round false n (10 ^ k)) = some v ∧
      0 < F64.toInt (F64.mul v (F64.ofInt 100)) := by
  have hk : 0 < 10 ^ k := by positivity
  have c0 : F64.round false 1 100 = F64.fin false 5764607523034235 (-59) := by decide
  have c1 : F64.round false (10 ^ 16) 1 = F64.fin false 152587890625 16 := by decide
  have h100 : F64.ofInt 100 = F64.fin false 25 2 := by decide
  have m0 : F64.mul (F64.fin false 5764607523034235 (-59)) (F64.fin false 25 2) =
      F64.fin false 1 0 := by decide
  have m1 : F64.mul (F64.fin false 152587890625 16) (F64.fin false 25 2) =
      F64.fin false 3814697265625 18 := by decide
  have lo := F64.round_mono false false 1 100 n (10 ^ k) (by norm_num) hk (by omega)
  have hi := F64.round_mono false false n (10 ^ k) (10 ^ 16) 1 hk Nat.one_pos (by omega)
  rw [c0] at lo
  rw [c1] at hi
  rcases F64.round_shape false n (10 ^ k) with hinf | ⟨m, e, hfin⟩
  · rw [hinf] at hi
    simp only [F64.absRat] at hi
    norm_num at hi
  · refine ⟨F64.fin false m e, by rw [hfin]; rfl, ?_⟩
    rw [hfin] at lo hi
    rw [h100]
    have lo2 := F64.mul_mono false false false false _ m 25 _ e 2 lo
    have hi2 := F64.mul_mono false false false false m _ 25 e _ 2 hi
    rw [m0] at lo2
    rw [m1] at hi2
    rcases F64.mul_fin_shape false false m 25 e 2 with hx | ⟨m', e', hx⟩
    · rw [hx] at hi2
      simp only [F64.absRat] at hi2
      norm_num at hi2
    · simp only [Bool.xor_false] at hx
      rw [hx] at lo2 hi2 ⊢
      apply F64.toInt_pos
      · refine le_trans ?_ lo2
        simp [F64.absRat]
      · refine lt_of_le_of_lt hi2 ?_
        simp only [F64.absRat]
        norm_num

theorem ParseRatio_ok_of_parts (s p0 p1 : String) (hs : Split (TrimSpace s) ':' = [p0, p1])
    (hdec : (Contains (TrimSpace p0) '.' || Contains (TrimSpace p1) '.') = true →
      ∃ w h, ParseFloat (TrimSpace p0) = some w ∧ ParseFloat (TrimSpace p1) = some h ∧
        0 < F64.toInt (F64.mul w (F64.ofInt 100)) ∧ 0 < F64.toInt (F64.mul h (F64.ofInt 100)))
    (hint : (Contains (TrimSpace p0) '.' || Contains (TrimSpace p1) '.') = false →
      ∃ w h, Atoi (TrimSpace p0) = some w ∧ Atoi (TrimSpace p1) = some h ∧ 0 < w ∧ 0 < h) :
    ∃ r, ParseRatio s = .ok r := by
  unfold ParseRatio
  dsimp only
  rw [hs]
  dsimp only
  by_cases hd : (Contains (TrimSpace p0) '.' || Contains (TrimSpace p1) '.') = true
  · obtain ⟨w, h, pw, ph, hw, hh⟩ := hdec hd
    rw [if_pos hd, pw, ph]
    dsimp only
    rw [if_neg (by omega)]
    exact ⟨_, rfl⟩
  · have hd' : (Contains (TrimSpace p0) '.' || Contains (TrimSpace p1) '.') = false := by
      simpa using hd
    obtain ⟨w, h, pw, ph, hw, hh⟩ := hint hd'
    rw [if_neg hd, pw, ph]
    dsimp only
    rw [if_neg (by omega)]
    exact ⟨_, rfl⟩

theorem String_eq_mk (s : String) (l : List Char) (h : s.data = l) : s = ⟨l⟩ := by
  cases s
  simp only at h
  rw [h]

/-- C8, amended: for unsigned numerals `A` and `B` (digits, optionally a point
and more digits) with values of at least 0.01 and at most 10^16, `ParseRatio`
accepts `A:B`. -/
theorem ParseRatio_accepts_numerals (A B : String) (ia fa ib fb : List Char)
    (hA : IsNumeral A ia fa) (hB : IsNumeral B ib fb)
    (rA : InScaledRange ia fa) (rB : InScaledRange ib fb) :
    ∃ r, ParseRatio (A ++ ":" ++ B) = .ok r := by
  have eA := String_eq_mk A _ hA.chars
  have eB := String_eq_mk B _ hB.chars
  subst eA eB
  have hcolA := numeralChars_ne ia fa hA.digits ':' (by decide)
  have hcolB := numeralChars_ne ib fb hB.digits ':' (by decide)
  have hwhole : (⟨numeralChars ia fa⟩ ++ ":" ++ ⟨numeralChars ib fb⟩ : String) =
      ⟨numeralChars ia fa ++ ':' :: numeralChars ib fb⟩ := by
    apply String.ext
    simp [String.data_append]
  obtain ⟨a, m, ha, hm⟩ := numeralChars_head ia fa hA.nonempty
  obtain ⟨b, m', hb, hm'⟩ := numeralChars_last ib fb hB.nonempty
  have htrim : TrimSpace ⟨numeralChars ia fa ++ ':' :: numeralChars ib fb⟩ =
      ⟨numeralChars ia fa ++ ':' :: numeralChars ib fb⟩ := by
    apply TrimSpace_id a b _ (digit_not_space a (hA.digits a (by simp [ha])))
      (digit_not_space b (hB.digits b hb))
    refine ⟨m ++ ':' :: numeralChars ib fb, by rw [hm]; rfl,
      numeralChars ia fa ++ ':' :: m', ?_⟩
    rw [hm', List.append_assoc, List.cons_append]
  have hsplit : Split ⟨numeralChars ia fa ++ ':' :: numeralChars ib fb⟩ ':' =
      [⟨numeralChars ia fa⟩, ⟨numeralChars ib fb⟩] := by
    unfold Split
    simp only
    rw [splitOnChar_append ':' _ _ hcolA, splitOnChar_no_sep ':' _ hcolB]
    rfl
  rw [hwhole]
  apply ParseRatio_ok_of_parts _ ⟨numeralChars ia fa⟩ ⟨numeralChars ib fb⟩
  · rw [htrim, hsplit]
  · intro _
    rw [TrimSpace_numeral ia fa hA.nonempty hA.digits,
      TrimSpace_numeral ib fb hB.nonempty hB.digits,
      ParseFloat_numeral ia fa hA.nonempty hA.digits,
      ParseFloat_numeral ib fb hB.nonempty hB.digits]
    obtain ⟨w, hw1, hw2⟩ := scaled_component_pos _ _ rA.1 rA.2
    obtain ⟨h, hh1, hh2⟩ := scaled_component_pos _ _ rB.1 rB.2
    exact ⟨w, h, hw1, hh1, hw2, hh2⟩
  · intro hnd
    rw [TrimSpace_numeral ia fa hA.nonempty hA.digits,
      TrimSpace_numeral ib fb hB.nonempty hB.digits,
      Contains_numeral ia fa hA.digits, Contains_numeral ib fb hB.digits] at hnd
    simp only [Bool.or_eq_false_iff, Bool.not_eq_false', List.isEmpty_iff] at hnd
    obtain ⟨hfa, hfb⟩ := hnd
    subst hfa hfb
    have rA' := rA
    have rB' := rB
    simp only [InScaledRange, List.append_nil, List.length_nil, pow_zero, mul_one] at rA' rB'
    have dA : ∀ c ∈ ia, isDigitChar c = true := fun c hc => hA.digits c (by simp [hc])
    have dB : ∀ c ∈ ib, isDigitChar c = true := fun c hc => hB.digits c (by simp [hc])
    have nA : numeralChars ia [] = ia := by simp [numeralChars]
    have nB : numeralChars ib [] = ib := by simp [numeralChars]
    rw [TrimSpace_numeral ia [] hA.nonempty hA.digits,
      TrimSpace_numeral ib [] hB.nonempty hB.digits, nA, nB]
    refine ⟨_, _, Atoi_digits ia hA.nonempty dA ?_, Atoi_digits ib hB.nonempty dB ?_, ?_, ?_⟩
    · unfold twoPow63; omega
    · unfold twoPow63; omega
    · omega
    · omega

/-- A witness of `ParseRatio_accepts_numerals`, at `1.91:1`. -/
theorem ParseRatio_accepts_numerals_witness : ∃ r, ParseRatio ("1.91" ++ ":" ++ "1") = .ok r :=
  ParseRatio_accepts_numerals "1.91" "1" ['1'] ['9', '1'] ['1'] []
    ⟨by decide, by decide, by decide⟩ ⟨by decide, by decide, by decide⟩
    ⟨by decide, by decide⟩ ⟨by decide, by decide⟩

/-- C8, counterexample: `0.001` and `1` are positive decimal and integer
numerals, yet `ParseRatio` rejects `0.001:1`: the test for positive components
is made on the integer ratio, in hundredths, where `0.001` is zero. -/
theorem ParseRatio_rejects_small_decimal :
    IsNumeral "0.001" ['0'] ['0', '0', '1'] ∧ 0 < digitsFrom 0 (['0'] ++ ['0', '0', '1']) ∧
      IsNumeral "1" ['1'] [] ∧ 0 < digitsFrom 0 (['1'] ++ []) ∧
      ParseRatio "0.001:1" = .error "ratio dimensions must be positive: 0.001:1" :=
  ⟨⟨by decide, by decide, by decide⟩, by decide, ⟨by decide, by decide, by decide⟩, by decide,
    by decide⟩

/-! ## The loops of the builder -/

theorem buildPresetSpecs_eq [CaseTables]
    (b : SpecBuilder) (presetName : String) (rs : List String) :
    buildPresetSpecs b presetName rs = collectSpecs (ratioStep b presetName) rs := by
  induction rs with
  | nil => rfl
  | cons r rest ih =>
    simp only [buildPresetSpecs, collectSpecs, ratioStep, ih]
    cases ParseRatio r <;> rfl

theorem buildRatioLoop_eq [CaseTables] (b : SpecBuilder) (ps : List (String × Preset)) :
    buildRatioLoop b ps = collectSpecs (presetStep b) ps := by
  induction ps with
  | nil => rfl
  | cons p rest ih =>
    obtain ⟨n, pr⟩ := p
    simp only [buildRatioLoop, collectSpecs, presetStep, ih, buildPresetSpecs_eq]
    by_cases h : (!b.Filters.ShouldIncludeRatioCategory n) = true
    · simp only [h, if_true]
      cases collectSpecs (presetStep b) rest <;> simp
    · simp only [h, if_false]
      rfl

theorem buildTargetLoop_eq [CaseTables] (b : SpecBuilder) (ts : List (String × Target)) :
    buildTargetLoop b ts = collectSpecs (fun t => targetSpecs b t.1 t.2) ts := by
  induction ts with
  | nil => rfl
  | cons t rest ih =>
    obtain ⟨n, tg⟩ := t
    simp only [buildTargetLoop, collectSpecs, ih]

theorem buildEdgeCaseLoop_eq [CaseTables] (b : SpecBuilder) (es : List EdgeCase) :
    buildEdgeCaseLoop b es = collectSpecs (edgeCaseSpecs b) es := by
  induction es with
  | nil => rfl
  | cons e rest ih =>
    simp only [buildEdgeCaseLoop, collectSpecs, ih]

theorem collectSpecs_ok {α : Type} (f : α → Except Failure (List ImageSpec)) (l : List α)
    (h : ∀ x ∈ l, failed (f x) = false) :
    collectSpecs f l = .ok (l.flatMap (fun x => okList (f x))) := by
  induction l with
  | nil => rfl
  | cons x xs ih =>
    have hx := h x (by simp)
    have ih' := ih (fun y hy => h y (by simp [hy]))
    simp only [collectSpecs, ih', List.flatMap_cons]
    cases hfx : f x with
    | error e => rw [hfx] at hx; simp at hx
    | ok l => simp [okList]

theorem collectSpecs_failed {α : Type} (f : α → Except Failure (List ImageSpec)) (l : List α) :
    failed (collectSpecs f l) = true ↔ ∃ x ∈ l, failed (f x) = true := by
  induction l with
  | nil => simp [collectSpecs]
  | cons x xs ih =>
    simp only [collectSpecs, List.mem_cons, exists_eq_or_imp]
    cases hfx : f x with
    | error e => simp
    | ok l =>
      simp only [failed_ok, Bool.false_eq_true, false_or]
      rw [← ih]
      cases collectSpecs f xs <;> simp

/-- A loop whose steps never panic does not panic. -/
theorem collectSpecs_no_panic {α : Type} (f : α → Except Failure (List ImageSpec))
    (l : List α) (h : ∀ x ∈ l, ∀ msg, f x ≠ .error (.panic msg)) :
    ∀ msg, collectSpecs f l ≠ .error (.panic msg) := by
  induction l with
  | nil => intro msg; simp [collectSpecs]
  | cons x xs ih =>
    intro msg
    have hx := h x (by simp)
    have ih' := ih (fun y hy => h y (by simp [hy]))
    simp only [collectSpecs]
    cases hfx : f x with
    | error e =>
      intro hc
      simp only [Except.error.injEq] at hc
      rw [hc] at hfx
      exact hx msg hfx
    | ok l =>
      simp only
      cases hr : collectSpecs f xs with
      | error e =>
        intro hc
        simp only [Except.error.injEq] at hc
        rw [hc] at hr
        exact ih' msg hr
      | ok m => simp

theorem error_of_failed_no_panic {α : Type} (r : Except Failure α) (hf : failed r = true)
    (hp : ∀ msg, r ≠ .error (.panic msg)) : ∃ msg, r = .error (.error msg) := by
  cases r with
  | ok a => simp at hf
  | error e =>
    cases e with
    | error m => exact ⟨m, rfl⟩
    | panic m => exact absurd rfl (hp m)

theorem ratioStep_no_panic [CaseTables] (b : SpecBuilder) (presetName r : String) :
    ∀ msg, ratioStep b presetName r ≠ .error (.panic msg) := by
  intro msg
  unfold ratioStep
  cases ParseRatio r <;> simp

theorem ratioStep_failed [CaseTables] (b : SpecBuilder) (presetName r : String) :
    failed (ratioStep b presetName r) = failed (ParseRatio r) := by
  unfold ratioStep
  cases ParseRatio r <;> rfl

theorem presetStep_no_panic [CaseTables] (b : SpecBuilder) (entry : String × Preset) :
    ∀ msg, presetStep b entry ≠ .error (.panic msg) := by
  intro msg
  unfold presetStep
  split
  · simp
  · exact collectSpecs_no_panic _ _ (fun r _ => ratioStep_no_panic b entry.1 r) msg

theorem presetStep_failed [CaseTables] (b : SpecBuilder) (entry : String × Preset) :
    failed (presetStep b entry) = true ↔
      (b.Filters.ShouldIncludeRatioCategory entry.1 = true ∧
        ∃ r ∈ entry.2.Ratios, failed (ParseRatio r) = true) := by
  unfold presetStep
  by_cases h : b.Filters.ShouldIncludeRatioCategory entry.1 = true
  · simp only [h, Bool.not_true, Bool.false_eq_true, if_false, true_and, collectSpecs_failed,
      ratioStep_failed]
  · simp [h]

theorem buildRatioSpecs_no_panic [CaseTables] (b : SpecBuilder) :
    ∀ msg, b.buildRatioSpecs ≠ .error (.panic msg) := by
  unfold SpecBuilder.buildRatioSpecs
  rw [buildRatioLoop_eq]
  exact collectSpecs_no_panic _ _ (fun p _ => presetStep_no_panic b p)

theorem buildRatioSpecs_failed [CaseTables] (b : SpecBuilder) :
    failed b.buildRatioSpecs = true ↔
      ∃ p ∈ b.Config.Presets, b.Filters.ShouldIncludeRatioCategory p.1 = true ∧
        ∃ r ∈ p.2.Ratios, failed (ParseRatio r) = true := by
  unfold SpecBuilder.buildRatioSpecs
  rw [buildRatioLoop_eq, collectSpecs_failed]
  simp only [presetStep_failed]

theorem two_le_length {α : Type} (l : List α) (h : 2 ≤ l.length) :
    ∃ a b t, l = a :: b :: t := by
  match l, h with
  | a :: b :: t, _ => exact ⟨a, b, t, rfl⟩

theorem targetSpecs_ok [CaseTables] (b : SpecBuilder) (targetName : String) (target : Target)
    (ratioInfo : RatioInfo) (w h : Int) (tl : List Int)
    (hp : ParseRatio target.Ratio = .ok ratioInfo) (hd : target.Dimensions = w :: h :: tl) :
    targetSpecs b targetName target = .ok (targetJobs b targetName target ratioInfo w h) := by
  unfold targetSpecs targetJobs
  rw [hp, hd]
  dsimp only
  split_ifs <;> rfl

theorem edgeCaseSpecs_ok [CaseTables]
    (b : SpecBuilder) (edgeCase : EdgeCase) (w h : Int) (tl : List Int)
    (hd : edgeCase.Dimensions = w :: h :: tl) :
    edgeCaseSpecs b edgeCase = .ok (edgeJobs b edgeCase w h) := by
  unfold edgeCaseSpecs edgeJobs
  rw [hd]
  dsimp only
  split_ifs <;> rfl

theorem targetSpecs_no_panic [CaseTables] (b : SpecBuilder) (targetName : String) (target : Target)
    (hd : 2 ≤ target.Dimensions.length) :
    ∀ msg, targetSpecs b targetName target ≠ .error (.panic msg) := by
  intro msg hc
  obtain ⟨w, h, tl, hdim⟩ := two_le_length _ hd
  cases hp : ParseRatio target.Ratio with
  | error e =>
    unfold targetSpecs at hc
    rw [hp] at hc
    simp at hc
  | ok info =>
    rw [targetSpecs_ok b targetName target info w h tl hp hdim] at hc
    simp at hc

theorem targetSpecs_failed_of_bad_ratio [CaseTables] (b : SpecBuilder) (targetName : String)
    (target : Target) (h : failed (ParseRatio target.Ratio) = true) :
    failed (targetSpecs b targetName target) = true := by
  unfold targetSpecs
  cases hp : ParseRatio target.Ratio with
  | error e => rfl
  | ok r => rw [hp] at h; simp at h

theorem buildTargetSpecs_no_panic [CaseTables] (b : SpecBuilder)
    (hd : ∀ t ∈ b.Config.Targets, 2 ≤ t.2.Dimensions.length) :
    ∀ msg, b.buildTargetSpecs ≠ .error (.panic msg) := by
  unfold SpecBuilder.buildTargetSpecs
  rw [buildTargetLoop_eq]
  exact collectSpecs_no_panic _ _ (fun t ht => targetSpecs_no_panic b t.1 t.2 (hd t ht))

/-- C4, amended: when `ParseRatio` rejects a ratio string of a preset that
passes the ratio-category filter, or the ratio string of a target, `BuildSpecs`
returns an error and no job list; every target is assumed to have its two
dimensions, as `Validate` requires. -/
theorem BuildSpecs_error_on_bad_ratio [CaseTables] (b : SpecBuilder)
    (hdims : ∀ t ∈ b.Config.Targets, 2 ≤ t.2.Dimensions.length)
    (h : (∃ p ∈ b.Config.Presets, b.Filters.ShouldIncludeRatioCategory p.1 = true ∧
          ∃ r ∈ p.2.Ratios, ∃ msg, ParseRatio r = .error msg) ∨
        (∃ t ∈ b.Config.Targets, ∃ msg, ParseRatio t.2.Ratio = .error msg)) :
    ∃ msg, b.BuildSpecs = .error (.error msg) := by
  unfold SpecBuilder.BuildSpecs
  cases hr : b.buildRatioSpecs with
  | error e =>
    obtain ⟨m, hm⟩ := error_of_failed_no_panic b.buildRatioSpecs (by rw [hr]; rfl)
      (buildRatioSpecs_no_panic b)
    rw [hr] at hm
    simp only [Except.error.injEq] at hm
    subst hm
    exact ⟨_, rfl⟩
  | ok ratioSpecs =>
    dsimp only
    have hnot : ¬ failed b.buildRatioSpecs = true := by rw [hr]; simp
    rw [buildRatioSpecs_failed] at hnot
    rcases h with ⟨p, hp, hinc, r, hr', msg, hmsg⟩ | ⟨t, ht, msg, hmsg⟩
    · exact absurd ⟨p, hp, hinc, r, hr', by rw [hmsg]; rfl⟩ hnot
    · have hfail : failed b.buildTargetSpecs = true := by
        unfold SpecBuilder.buildTargetSpecs
        rw [buildTargetLoop_eq, collectSpecs_failed]
        exact ⟨t, ht, targetSpecs_failed_of_bad_ratio b t.1 t.2 (by rw [hmsg]; rfl)⟩
      obtain ⟨m, hm⟩ := error_of_failed_no_panic b.buildTargetSpecs hfail
        (buildTargetSpecs_no_panic b hdims)
      rw [hm]
      exact ⟨_, rfl⟩

/-- A witness of `BuildSpecs_error_on_bad_ratio`: the preset `broken` with no
filter. -/
theorem BuildSpecs_error_on_bad_ratio_witness :
    ∃ msg, SpecBuilder.BuildSpecs ⟨filteredBadRatioConfig, ⟨[], [], []⟩, "out"⟩ =
      .error (.error msg) :=
  BuildSpecs_error_on_bad_ratio ⟨filteredBadRatioConfig, ⟨[], [], []⟩, "out"⟩
    (by decide)
    (Or.inl ⟨("broken", ⟨"", ["bad"]⟩), by decide, by decide, "bad", by decide,
      "invalid ratio format: bad (expected W:H)", by decide⟩)

/-- C4, counterexample: the ratio string `bad` of the preset `broken` is
rejected by `ParseRatio`, yet with the ratio filter `good` the builder skips
that preset and returns one job. -/
theorem BuildSpecs_skips_filtered_bad_ratio :
    ParseRatio "bad" = .error "invalid ratio format: bad (expected W:H)" ∧
      (SpecBuilder.BuildSpecs ⟨filteredBadRatioConfig, ⟨["good"], [], []⟩, "out"⟩).map
        (fun specs => specs.map (fun s => s.OutputPath)) =
        .ok ["out/ratios/1-1/small_100x100_jpeg_q85.jpg"] := by
  decide

theorem length_flatMap_filter {α β : Type} (l : List α) (f : α → List β) (p : α → Bool)
    (k : Nat) (h : ∀ x ∈ l, (f x).length = if p x = true then k else 0) :
    (l.flatMap f).length = (l.filter p).length * k := by
  induction l with
  | nil => simp
  | cons x xs ih =>
    have hx := h x (by simp)
    have ih' := ih (fun y hy => h y (by simp [hy]))
    rw [List.flatMap_cons, List.length_append, hx, ih']
    by_cases hp : p x = true
    · simp only [hp, if_true, List.filter_cons_of_pos, List.length_cons]
      ring
    · simp only [hp, if_false, List.filter_cons_of_neg, Bool.false_eq_true, not_false_eq_true]
      ring

theorem length_flatMap_const {α β : Type} (l : List α) (f : α → List β) (k : Nat)
    (h : ∀ x ∈ l, (f x).length = k) : (l.flatMap f).length = l.length * k := by
  induction l with
  | nil => simp
  | cons x xs ih =>
    rw [List.flatMap_cons, List.length_append, h x (by simp),
      ih (fun y hy => h y (by simp [hy])), List.length_cons]
    ring

theorem length_flatMap_sum {α β : Type} (l : List α) (f : α → List β) (g : α → Nat) (k : Nat)
    (h : ∀ x ∈ l, (f x).length = g x * k) :
    (l.flatMap f).length = (l.map g).sum * k := by
  induction l with
  | nil => simp
  | cons x xs ih =>
    rw [List.flatMap_cons, List.length_append, h x (by simp),
      ih (fun y hy => h y (by simp [hy])), List.map_cons, List.sum_cons]
    ring

theorem noFilters_ratio [CaseTables]
    (x : String) : noFilters.ShouldIncludeRatioCategory x = true := rfl

theorem noFilters_size [CaseTables]
    (x : String) : noFilters.ShouldIncludeSizeCategory x = true := rfl

theorem noFilters_format [CaseTables] (x : String) : noFilters.ShouldIncludeFormat x = true := rfl

theorem ratioSpecs_length [CaseTables] (b : SpecBuilder) (hf : b.Filters = noFilters)
    (presetName ratioStr : String) (ratioInfo : RatioInfo) :
    (ratioSpecs b presetName ratioStr ratioInfo).length =
      sizesWithBase b.Config * formatsWithQuality b.Config := by
  unfold ratioSpecs sizesWithBase
  apply length_flatMap_filter
  intro s _
  unfold ratioSizeSpecs
  simp only [hf, noFilters_size, Bool.not_true, Bool.false_eq_true, if_false]
  cases hb : s.2.BaseSizes with
  | nil => simp
  | cons base rest =>
    simp only [List.isEmpty_cons, Bool.not_false, if_true]
    unfold formatsWithQuality
    refine (length_flatMap_filter _ _ (fun f => !f.2.Qualities.isEmpty) 1 ?_).trans
      (Nat.mul_one _)
    intro f _
    unfold ratioFormatSpecs
    simp only [hf, noFilters_format, Bool.not_true, Bool.false_eq_true, if_false]
    split <;> rename_i hq <;> simp [hq]

theorem buildRatioSpecs_count [CaseTables] (b : SpecBuilder) (hf : b.Filters = noFilters)
    (hp : ∀ p ∈ b.Config.Presets, ∀ r ∈ p.2.Ratios, ∃ info, ParseRatio r = .ok info) :
    ∃ specs, b.buildRatioSpecs = .ok specs ∧
      specs.length =
        ratioCount b.Config * (sizesWithBase b.Config * formatsWithQuality b.Config) := by
  have hstep : ∀ n r, (∃ info, ParseRatio r = .ok info) →
      failed (ratioStep b n r) = false ∧
        (okList (ratioStep b n r)).length =
          sizesWithBase b.Config * formatsWithQuality b.Config := by
    intro n r ⟨info, hinfo⟩
    unfold ratioStep
    rw [hinfo]
    exact ⟨rfl, ratioSpecs_length b hf n r info⟩
  have hpre : ∀ p ∈ b.Config.Presets, failed (presetStep b p) = false ∧
      (okList (presetStep b p)).length =
        p.2.Ratios.length * (sizesWithBase b.Config * formatsWithQuality b.Config) := by
    intro p hpm
    unfold presetStep
    simp only [hf, noFilters_ratio, Bool.not_true, Bool.false_eq_true, if_false]
    rw [collectSpecs_ok _ _ (fun r hr => (hstep p.1 r (hp p hpm r hr)).1)]
    refine ⟨rfl, ?_⟩
    simp only [okList]
    exact length_flatMap_const _ _ _ (fun r hr => (hstep p.1 r (hp p hpm r hr)).2)
  refine ⟨b.Config.Presets.flatMap (fun x => okList (presetStep b x)), ?_, ?_⟩
  · unfold SpecBuilder.buildRatioSpecs
    rw [buildRatioLoop_eq]
    exact collectSpecs_ok _ _ (fun p hpm => (hpre p hpm).1)
  · unfold ratioCount
    exact length_flatMap_sum _ _ _ _ (fun p hpm => (hpre p hpm).2)

theorem buildTargetSpecs_count [CaseTables] (b : SpecBuilder) (hf : b.Filters = noFilters)
    (ht : ∀ t ∈ b.Config.Targets, ∃ info, ParseRatio t.2.Ratio = .ok info)
    (hd : ∀ t ∈ b.Config.Targets, 2 ≤ t.2.Dimensions.length) :
    ∃ specs, b.buildTargetSpecs = .ok specs ∧
      specs.length = b.Config.Targets.length * b.Config.Formats.length := by
  have hstep : ∀ t ∈ b.Config.Targets, failed (targetSpecs b t.1 t.2) = false ∧
      (okList (targetSpecs b t.1 t.2)).length = b.Config.Formats.length := by
    intro t htm
    obtain ⟨info, hinfo⟩ := ht t htm
    obtain ⟨w, h, tl, hdim⟩ := two_le_length _ (hd t htm)
    rw [targetSpecs_ok b t.1 t.2 info w h tl hinfo hdim]
    refine ⟨rfl, ?_⟩
    simp only [okList, targetJobs, hf, noFilters_ratio, noFilters_size, Bool.not_true,
      Bool.false_eq_true, if_false]
    refine (length_flatMap_const _ _ 1 ?_).trans (Nat.mul_one _)
    intro f _
    simp [targetFormatSpecs, hf, noFilters_format]
  refine ⟨b.Config.Targets.flatMap (fun x => okList (targetSpecs b x.1 x.2)), ?_, ?_⟩
  · unfold SpecBuilder.buildTargetSpecs
    rw [buildTargetLoop_eq]
    exact collectSpecs_ok _ _ (fun t htm => (hstep t htm).1)
  · exact length_flatMap_const _ _ _ (fun t htm => (hstep t htm).2)

theorem buildEdgeCaseSpecs_count [CaseTables] (b : SpecBuilder) (hf : b.Filters = noFilters)
    (hd : ∀ e ∈ b.Config.EdgeCases, 2 ≤ e.Dimensions.length) :
    ∃ specs, b.buildEdgeCaseSpecs = .ok specs ∧
      specs.length = b.Config.EdgeCases.length * formatsWithQuality b.Config := by
  have hstep : ∀ e ∈ b.Config.EdgeCases, failed (edgeCaseSpecs b e) = false ∧
      (okList (edgeCaseSpecs b e)).length = formatsWithQuality b.Config := by
    intro e hem
    obtain ⟨w, h, tl, hdim⟩ := two_le_length _ (hd e hem)
    rw [edgeCaseSpecs_ok b e w h tl hdim]
    refine ⟨rfl, ?_⟩
    simp only [okList, edgeJobs, hf, noFilters_ratio, noFilters_size, Bool.not_true,
      Bool.false_eq_true, if_false]
    unfold formatsWithQuality
    refine (length_flatMap_filter _ _ (fun f => !f.2.Qualities.isEmpty) 1 ?_).trans
      (Nat.mul_one _)
    intro f _
    unfold edgeFormatSpecs
    simp only [hf, noFilters_format, Bool.not_true, Bool.false_eq_true, if_false]
    split <;> rename_i hq <;> simp [hq]
  refine ⟨b.Config.EdgeCases.flatMap (fun x => okList (edgeCaseSpecs b x)), ?_, ?_⟩
  · unfold SpecBuilder.buildEdgeCaseSpecs
    rw [buildEdgeCaseLoop_eq]
    exact collectSpecs_ok _ _ (fun e hem => (hstep e hem).1)
  · exact length_flatMap_const _ _ _ (fun e hem => (hstep e hem).2)

/-- C2, amended: when every ratio string of the presets and of the targets
parses and every target and edge case has its two dimensions, `BuildSpecs`
without filters returns (ratio strings) x (size categories with a base size) x
(formats with a quality) + (targets) x (formats) + (edge cases) x (formats
with a quality) jobs. -/
theorem BuildSpecs_count [CaseTables] (c : Config) (baseDir : String)
    (hp : ∀ p ∈ c.Presets, ∀ r ∈ p.2.Ratios, ∃ info, ParseRatio r = .ok info)
    (ht : ∀ t ∈ c.Targets, ∃ info, ParseRatio t.2.Ratio = .ok info)
    (hdt : ∀ t ∈ c.Targets, 2 ≤ t.2.Dimensions.length)
    (hde : ∀ e ∈ c.EdgeCases, 2 ≤ e.Dimensions.length) :
    ∃ specs, SpecBuilder.BuildSpecs ⟨c, noFilters, baseDir⟩ = .ok specs ∧
      specs.length = ratioCount c * sizesWithBase c * formatsWithQuality c +
        c.Targets.length * c.Formats.length + c.EdgeCases.length * formatsWithQuality c := by
  obtain ⟨rs, hr1, hr2⟩ := buildRatioSpecs_count ⟨c, noFilters, baseDir⟩ rfl hp
  obtain ⟨ts, ht1, ht2⟩ := buildTargetSpecs_count ⟨c, noFilters, baseDir⟩ rfl ht hdt
  obtain ⟨es, he1, he2⟩ := buildEdgeCaseSpecs_count ⟨c, noFilters, baseDir⟩ rfl hde
  refine ⟨rs ++ ts ++ es, ?_, ?_⟩
  · unfold SpecBuilder.BuildSpecs
    rw [hr1, ht1, he1]
  · rw [List.length_append, List.length_append, hr2, ht2, he2, Nat.mul_assoc]

/-- A witness of `BuildSpecs_count`: one ratio, one size, two formats of which
one lists a quality. -/
theorem BuildSpecs_count_witness :
    ∃ specs, SpecBuilder.BuildSpecs ⟨emptyQualityConfig, noFilters, "out"⟩ = .ok specs ∧
      specs.length = ratioCount emptyQualityConfig * sizesWithBase emptyQualityConfig *
          formatsWithQuality emptyQualityConfig +
        emptyQualityConfig.Targets.length * emptyQualityConfig.Formats.length +
        emptyQualityConfig.EdgeCases.length * formatsWithQuality emptyQualityConfig :=
  BuildSpecs_count emptyQualityConfig "out"
    (by
      intro p hp r hr
      simp only [emptyQualityConfig, List.mem_singleton] at hp
      subst hp
      simp only [List.mem_singleton] at hr
      subst hr
      exact ⟨⟨"1:1", 1, 1, F64.fin false 1 0, false, "1-1"⟩, by decide⟩)
    (by intro t ht; simp [emptyQualityConfig] at ht)
    (by intro t ht; simp [emptyQualityConfig] at ht)
    (by intro e he; simp [emptyQualityConfig] at he)

/-- C2, counterexample: every ratio string parses and there are one ratio, one
size category and two formats, so the claimed count is 2; the builder returns
one job, because the format `png` lists no quality. -/
theorem BuildSpecs_count_skips_empty_quality :
    (∀ p ∈ emptyQualityConfig.Presets, ∀ r ∈ p.2.Ratios, failed (ParseRatio r) = false) ∧
      ratioCount emptyQualityConfig * emptyQualityConfig.Sizes.length *
          emptyQualityConfig.Formats.length +
        emptyQualityConfig.Targets.length * emptyQualityConfig.Formats.length +
        emptyQualityConfig.EdgeCases.length * emptyQualityConfig.Formats.length = 2 ∧
      (SpecBuilder.BuildSpecs ⟨emptyQualityConfig, noFilters, "out"⟩).map List.length =
        .ok 1 := by
  decide

theorem find?_perm_of_unique {α : Type} (p : α → Bool) (l1 l2 : List α) (hp : l1.Perm l2)
    (hu : l1.Pairwise (fun a b => ¬ (p a = true ∧ p b = true))) :
    l1.find? p = l2.find? p := by
  induction hp with
  | nil => rfl
  | cons x _ ih =>
    simp only [List.find?_cons]
    cases p x with
    | true => rfl
    | false => exact ih (List.pairwise_cons.mp hu).2
  | swap x y l =>
    simp only [List.find?_cons]
    cases hx : p x with
    | false => rfl
    | true =>
      cases hy : p y with
      | false => rfl
      | true =>
        have := (List.pairwise_cons.mp hu).1 x (by simp)
        exact absurd ⟨hy, hx⟩ this
  | trans h12 _ ih1 ih2 =>
    have hu2 := (h12.pairwise_iff (fun {a b} hab hba => hab ⟨hba.2, hba.1⟩)).mp hu
    exact (ih1 hu).trans (ih2 hu2)

theorem GetCategoryForRatio_perm (c1 c2 : Config) (ratio : String)
    (hp : c1.Presets.Perm c2.Presets)
    (hu : c1.Presets.Pairwise
      (fun p q => ¬ (p.2.Ratios.contains ratio = true ∧ q.2.Ratios.contains ratio = true))) :
    c1.GetCategoryForRatio ratio = c2.GetCategoryForRatio ratio := by
  unfold Config.GetCategoryForRatio
  rw [find?_perm_of_unique (fun p => p.2.Ratios.contains ratio) _ _ hp hu]

/-- A loop over a permuted list, with steps that succeed together and return
permuted lists, succeeds and returns a permuted list. -/
theorem collectSpecs_perm {α : Type} (f1 f2 : α → Except Failure (List ImageSpec))
    (l1 l2 : List α) (hp : l1.Perm l2)
    (hstep : ∀ x ∈ l1, failed (f1 x) = false →
      failed (f2 x) = false ∧ (okList (f1 x)).Perm (okList (f2 x)))
    (hok : failed (collectSpecs f1 l1) = false) :
    ∃ s1 s2, collectSpecs f1 l1 = .ok s1 ∧ collectSpecs f2 l2 = .ok s2 ∧ s1.Perm s2 := by
  have h1 : ∀ x ∈ l1, failed (f1 x) = false := by
    intro x hx
    by_contra hc
    have : failed (collectSpecs f1 l1) = true :=
      (collectSpecs_failed f1 l1).mpr ⟨x, hx, by simpa using hc⟩
    rw [hok] at this
    exact absurd this (by simp)
  have h2 : ∀ x ∈ l2, failed (f2 x) = false := fun x hx =>
    (hstep x (hp.mem_iff.mpr hx) (h1 x (hp.mem_iff.mpr hx))).1
  refine ⟨_, _, collectSpecs_ok f1 l1 h1, collectSpecs_ok f2 l2 h2, ?_⟩
  exact (List.Perm.flatMap_left l1 (fun x hx => (hstep x hx (h1 x hx)).2)).trans
    (List.Perm.flatMap_right _ hp)

theorem ratioFormatSpecs_congr [CaseTables] (b1 b2 : SpecBuilder) (hF : b1.Filters = b2.Filters)
    (hB : b1.BaseDir = b2.BaseDir) (presetName ratioStr : String) (info : RatioInfo)
    (sizeName : String) (w h : Int) (entry : String × Format) :
    ratioFormatSpecs b1 presetName ratioStr info sizeName w h entry =
      ratioFormatSpecs b2 presetName ratioStr info sizeName w h entry := by
  unfold ratioFormatSpecs
  rw [hF, hB]

theorem targetFormatSpecs_congr [CaseTables] (b1 b2 : SpecBuilder) (hF : b1.Filters = b2.Filters)
    (hB : b1.BaseDir = b2.BaseDir) (targetName : String) (target : Target) (info : RatioInfo)
    (category sizeCategory : String) (w h : Int) (entry : String × Format) :
    targetFormatSpecs b1 targetName target info category sizeCategory w h entry =
      targetFormatSpecs b2 targetName target info category sizeCategory w h entry := by
  unfold targetFormatSpecs
  rw [hF, hB]

theorem edgeFormatSpecs_congr [CaseTables] (b1 b2 : SpecBuilder) (hF : b1.Filters = b2.Filters)
    (hB : b1.BaseDir = b2.BaseDir) (edgeCase : EdgeCase) (ratioStr : String) (dec : F64)
    (category sizeCategory : String) (w h : Int) (entry : String × Format) :
    edgeFormatSpecs b1 edgeCase ratioStr dec category sizeCategory w h entry =
      edgeFormatSpecs b2 edgeCase ratioStr dec category sizeCategory w h entry := by
  unfold edgeFormatSpecs
  rw [hF, hB]

theorem flatMap_perm_congr {α β : Type} (l1 l2 : List α) (g1 g2 : α → List β)
    (hp : l1.Perm l2) (hg : ∀ x, g1 x = g2 x) : (l1.flatMap g1).Perm (l2.flatMap g2) := by
  have : g1 = g2 := funext hg
  rw [this]
  exact List.Perm.flatMap_right _ hp

theorem ratioSpecs_perm [CaseTables] (b1 b2 : SpecBuilder) (hF : b1.Filters = b2.Filters)
    (hB : b1.BaseDir = b2.BaseDir) (hs : sameMaps b1.Config b2.Config)
    (presetName ratioStr : String) (info : RatioInfo) :
    (ratioSpecs b1 presetName ratioStr info).Perm (ratioSpecs b2 presetName ratioStr info) := by
  obtain ⟨-, -, hsz, hfm, -, -⟩ := hs
  unfold ratioSpecs
  refine (List.Perm.flatMap_left _ (fun s _ => ?_)).trans (List.Perm.flatMap_right _ hsz)
  unfold ratioSizeSpecs
  rw [hF]
  split
  · exact List.Perm.refl _
  · split
    · exact List.Perm.refl _
    · exact flatMap_perm_congr _ _ _ _ hfm
        (fun e => ratioFormatSpecs_congr b1 b2 hF hB _ _ _ _ _ _ e)

theorem presetStep_perm [CaseTables] (b1 b2 : SpecBuilder) (hF : b1.Filters = b2.Filters)
    (hB : b1.BaseDir = b2.BaseDir) (hs : sameMaps b1.Config b2.Config)
    (entry : String × Preset) (hok : failed (presetStep b1 entry) = false) :
    failed (presetStep b2 entry) = false ∧
      (okList (presetStep b1 entry)).Perm (okList (presetStep b2 entry)) := by
  unfold presetStep at hok ⊢
  rw [← hF]
  by_cases hin : (!b1.Filters.ShouldIncludeRatioCategory entry.1) = true
  · simp only [hin, if_true]
    exact ⟨rfl, List.Perm.refl _⟩
  · simp only [hin, if_false] at hok ⊢
    have hstep : ∀ r ∈ entry.2.Ratios, failed (ratioStep b1 entry.1 r) = false →
        failed (ratioStep b2 entry.1 r) = false ∧
          (okList (ratioStep b1 entry.1 r)).Perm (okList (ratioStep b2 entry.1 r)) := by
      intro r _ hr
      unfold ratioStep at hr ⊢
      cases hp : ParseRatio r with
      | error e => rw [hp] at hr; simp at hr
      | ok info => exact ⟨rfl, ratioSpecs_perm b1 b2 hF hB hs _ _ _⟩
    obtain ⟨s1, s2, e1, e2, hperm⟩ :=
      collectSpecs_perm _ _ _ _ (List.Perm.refl entry.2.Ratios) hstep hok
    rw [e1, e2]
    exact ⟨rfl, hperm⟩

theorem targetJobs_perm [CaseTables] (b1 b2 : SpecBuilder) (hF : b1.Filters = b2.Filters)
    (hB : b1.BaseDir = b2.BaseDir) (hs : sameMaps b1.Config b2.Config)
    (targetName : String) (target : Target) (info : RatioInfo) (w h : Int)
    (hcat : b1.Config.GetCategoryForRatio target.Ratio =
      b2.Config.GetCategoryForRatio target.Ratio) :
    (targetJobs b1 targetName target info w h).Perm
      (targetJobs b2 targetName target info w h) := by
  unfold targetJobs
  rw [← hF, ← hcat]
  split_ifs <;>
    first
    | exact List.Perm.refl _
    | exact flatMap_perm_congr _ _ _ _ hs.2.2.2.1
        (fun e => targetFormatSpecs_congr b1 b2 hF hB _ _ _ _ _ _ _ e)

theorem edgeJobs_perm [CaseTables] (b1 b2 : SpecBuilder) (hF : b1.Filters = b2.Filters)
    (hB : b1.BaseDir = b2.BaseDir) (hs : sameMaps b1.Config b2.Config)
    (e : EdgeCase) (w h : Int) : (edgeJobs b1 e w h).Perm (edgeJobs b2 e w h) := by
  unfold edgeJobs
  rw [← hF]
  split_ifs <;>
    first
    | exact List.Perm.refl _
    | exact flatMap_perm_congr _ _ _ _ hs.2.2.2.1
        (fun x => edgeFormatSpecs_congr b1 b2 hF hB _ _ _ _ _ _ _ x)

theorem targetSpecs_short [CaseTables] (b : SpecBuilder) (targetName : String) (target : Target)
    (info : RatioInfo) (hp : ParseRatio target.Ratio = .ok info)
    (hd : target.Dimensions.length < 2) :
    targetSpecs b targetName target =
      if !b.Filters.ShouldIncludeRatioCategory (b.Config.GetCategoryForRatio target.Ratio)
      then .ok []
      else .error (.panic (if target.Dimensions.length = 0
        then "index out of range [0] with length 0"
        else "index out of range [1] with length 1")) := by
  unfold targetSpecs
  rw [hp]
  dsimp only
  match hdim : target.Dimensions with
  | [] => simp
  | [_] => simp
  | a :: b :: tl =>
    exfalso
    rw [hdim] at hd
    simp only [List.length_cons] at hd
    omega

theorem targetSpecs_perm [CaseTables] (b1 b2 : SpecBuilder) (hF : b1.Filters = b2.Filters)
    (hB : b1.BaseDir = b2.BaseDir) (hs : sameMaps b1.Config b2.Config)
    (hu : targetCategoriesUnique b1.Config) (t : String × Target) (ht : t ∈ b1.Config.Targets)
    (hok : failed (targetSpecs b1 t.1 t.2) = false) :
    failed (targetSpecs b2 t.1 t.2) = false ∧
      (okList (targetSpecs b1 t.1 t.2)).Perm (okList (targetSpecs b2 t.1 t.2)) := by
  have hcat := GetCategoryForRatio_perm b1.Config b2.Config t.2.Ratio hs.2.1 (hu t ht)
  cases hp : ParseRatio t.2.Ratio with
  | error e =>
    have := targetSpecs_failed_of_bad_ratio b1 t.1 t.2 (by rw [hp]; rfl)
    rw [hok] at this
    exact absurd this (by simp)
  | ok info =>
    by_cases hlen : 2 ≤ t.2.Dimensions.length
    · obtain ⟨w, h, tl, hd⟩ := two_le_length _ hlen
      rw [targetSpecs_ok b1 t.1 t.2 info w h tl hp hd,
        targetSpecs_ok b2 t.1 t.2 info w h tl hp hd]
      exact ⟨rfl, targetJobs_perm b1 b2 hF hB hs _ _ _ _ _ hcat⟩
    · have hshort : t.2.Dimensions.length < 2 := by omega
      rw [targetSpecs_short b1 t.1 t.2 info hp hshort] at hok ⊢
      rw [targetSpecs_short b2 t.1 t.2 info hp hshort, ← hF, ← hcat]
      by_cases hin : (!b1.Filters.ShouldIncludeRatioCategory
          (b1.Config.GetCategoryForRatio t.2.Ratio)) = true
      · simp only [hin, if_true]
        exact ⟨rfl, List.Perm.refl _⟩
      · simp only [hin, if_false] at hok
        simp at hok

theorem edgeCaseSpecs_short [CaseTables]
    (b : SpecBuilder) (e : EdgeCase) (hd : e.Dimensions.length < 2) :
    failed (edgeCaseSpecs b e) = true := by
  unfold edgeCaseSpecs
  match hdim : e.Dimensions with
  | [] => rfl
  | [_] => rfl
  | a :: b :: tl =>
    exfalso
    rw [hdim] at hd
    simp only [List.length_cons] at hd
    omega

theorem edgeCaseSpecs_perm [CaseTables] (b1 b2 : SpecBuilder) (hF : b1.Filters = b2.Filters)
    (hB : b1.BaseDir = b2.BaseDir) (hs : sameMaps b1.Config b2.Config) (e : EdgeCase)
    (hok : failed (edgeCaseSpecs b1 e) = false) :
    failed (edgeCaseSpecs b2 e) = false ∧
      (okList (edgeCaseSpecs b1 e)).Perm (okList (edgeCaseSpecs b2 e)) := by
  by_cases hlen : 2 ≤ e.Dimensions.length
  · obtain ⟨w, h, tl, hd⟩ := two_le_length _ hlen
    rw [edgeCaseSpecs_ok b1 e w h tl hd, edgeCaseSpecs_ok b2 e w h tl hd]
    exact ⟨rfl, edgeJobs_perm b1 b2 hF hB hs e w h⟩
  · have := edgeCaseSpecs_short b1 e (by omega)
    rw [hok] at this
    exact absurd this (by simp)

theorem failed_false_ok {ε α : Type} (r : Except ε α) (h : failed r = false) :
    ∃ a, r = .ok a := by
  cases r with
  | error e => simp at h
  | ok a => exact ⟨a, rfl⟩

theorem BuildSpecs_sweeps_ok [CaseTables] (b : SpecBuilder) (hok : failed b.BuildSpecs = false) :
    failed b.buildRatioSpecs = false ∧ failed b.buildTargetSpecs = false ∧
      failed b.buildEdgeCaseSpecs = false := by
  unfold SpecBuilder.BuildSpecs at hok
  cases h1 : b.buildRatioSpecs with
  | error e => rw [h1] at hok; simp at hok
  | ok r =>
    rw [h1] at hok
    dsimp only at hok
    cases h2 : b.buildTargetSpecs with
    | error e => rw [h2] at hok; simp at hok
    | ok t =>
      rw [h2] at hok
      dsimp only at hok
      cases h3 : b.buildEdgeCaseSpecs with
      | error e => rw [h3] at hok; simp at hok
      | ok e => exact ⟨rfl, rfl, rfl⟩

theorem buildRatioSpecs_perm [CaseTables] (b1 b2 : SpecBuilder) (hF : b1.Filters = b2.Filters)
    (hB : b1.BaseDir = b2.BaseDir) (hs : sameMaps b1.Config b2.Config)
    (hok : failed b1.buildRatioSpecs = false) :
    ∃ r1 r2, b1.buildRatioSpecs = .ok r1 ∧ b2.buildRatioSpecs = .ok r2 ∧ r1.Perm r2 := by
  unfold SpecBuilder.buildRatioSpecs at hok ⊢
  rw [buildRatioLoop_eq] at hok
  rw [buildRatioLoop_eq, buildRatioLoop_eq]
  exact collectSpecs_perm (presetStep b1) (presetStep b2) _ _ hs.2.1
    (fun p _ hp => presetStep_perm b1 b2 hF hB hs p hp) hok

theorem buildTargetSpecs_perm [CaseTables] (b1 b2 : SpecBuilder) (hF : b1.Filters = b2.Filters)
    (hB : b1.BaseDir = b2.BaseDir) (hs : sameMaps b1.Config b2.Config)
    (hu : targetCategoriesUnique b1.Config) (hok : failed b1.buildTargetSpecs = false) :
    ∃ t1 t2, b1.buildTargetSpecs = .ok t1 ∧ b2.buildTargetSpecs = .ok t2 ∧ t1.Perm t2 := by
  unfold SpecBuilder.buildTargetSpecs at hok ⊢
  rw [buildTargetLoop_eq] at hok
  rw [buildTargetLoop_eq, buildTargetLoop_eq]
  have hp : b1.Config.Targets.Perm b2.Config.Targets := hs.2.2.2.2.1
  have hstep : ∀ t ∈ b1.Config.Targets, failed (targetSpecs b1 t.1 t.2) = false →
      failed (targetSpecs b2 t.1 t.2) = false ∧
        (okList (targetSpecs b1 t.1 t.2)).Perm (okList (targetSpecs b2 t.1 t.2)) :=
    fun t htm hp => targetSpecs_perm b1 b2 hF hB hs hu t htm hp
  have key := @collectSpecs_perm (String × Target) (fun t => targetSpecs b1 t.1 t.2)
    (fun t => targetSpecs b2 t.1 t.2) b1.Config.Targets b2.Config.Targets hp
  exact key hstep hok

theorem buildEdgeCaseSpecs_perm [CaseTables] (b1 b2 : SpecBuilder) (hF : b1.Filters = b2.Filters)
    (hB : b1.BaseDir = b2.BaseDir) (hs : sameMaps b1.Config b2.Config)
    (hok : failed b1.buildEdgeCaseSpecs = false) :
    ∃ e1 e2, b1.buildEdgeCaseSpecs = .ok e1 ∧ b2.buildEdgeCaseSpecs = .ok e2 ∧ e1.Perm e2 := by
  unfold SpecBuilder.buildEdgeCaseSpecs at hok ⊢
  rw [buildEdgeCaseLoop_eq] at hok
  rw [buildEdgeCaseLoop_eq, buildEdgeCaseLoop_eq]
  have hpe : b1.Config.EdgeCases.Perm b2.Config.EdgeCases := by
    rw [hs.2.2.2.2.2]
  exact collectSpecs_perm (edgeCaseSpecs b1) (edgeCaseSpecs b2) _ _ hpe
    (fun e _ hp => edgeCaseSpecs_perm b1 b2 hF hB hs e hp) hok

theorem BuildSpecs_of_sweeps [CaseTables] (b : SpecBuilder) (r t e : List ImageSpec)
    (hr : b.buildRatioSpecs = .ok r) (ht : b.buildTargetSpecs = .ok t)
    (he : b.buildEdgeCaseSpecs = .ok e) : b.BuildSpecs = .ok (r ++ t ++ e) := by
  unfold SpecBuilder.BuildSpecs
  rw [hr, ht, he]

/-- Two listings of the maps of one configuration, each visited as listed in
every loop, give sweep by sweep the same jobs up to their order, provided that
no ratio string of a target is declared by two presets. -/
theorem BuildSpecs_perm_of_sameMaps [CaseTables] (c1 c2 : Config) (f : Filters) (baseDir : String)
    (hs : sameMaps c1 c2) (hu : targetCategoriesUnique c1)
    (hok : failed (SpecBuilder.BuildSpecs ⟨c1, f, baseDir⟩) = false) :
    ∃ r1 t1 e1 r2 t2 e2,
      SpecBuilder.buildRatioSpecs ⟨c1, f, baseDir⟩ = .ok r1 ∧
      SpecBuilder.buildTargetSpecs ⟨c1, f, baseDir⟩ = .ok t1 ∧
      SpecBuilder.buildEdgeCaseSpecs ⟨c1, f, baseDir⟩ = .ok e1 ∧
      SpecBuilder.BuildSpecs ⟨c1, f, baseDir⟩ = .ok (r1 ++ t1 ++ e1) ∧
      SpecBuilder.buildRatioSpecs ⟨c2, f, baseDir⟩ = .ok r2 ∧
      SpecBuilder.buildTargetSpecs ⟨c2, f, baseDir⟩ = .ok t2 ∧
      SpecBuilder.buildEdgeCaseSpecs ⟨c2, f, baseDir⟩ = .ok e2 ∧
      SpecBuilder.BuildSpecs ⟨c2, f, baseDir⟩ = .ok (r2 ++ t2 ++ e2) ∧
      r1.Perm r2 ∧ t1.Perm t2 ∧ e1.Perm e2 := by
  obtain ⟨k1, k2, k3⟩ := BuildSpecs_sweeps_ok _ hok
  obtain ⟨r1, r2, hr1, hr2, hr⟩ :=
    buildRatioSpecs_perm ⟨c1, f, baseDir⟩ ⟨c2, f, baseDir⟩ rfl rfl hs k1
  obtain ⟨t1, t2, ht1, ht2, ht⟩ :=
    buildTargetSpecs_perm ⟨c1, f, baseDir⟩ ⟨c2, f, baseDir⟩ rfl rfl hs hu k2
  obtain ⟨e1, e2, he1, he2, he⟩ :=
    buildEdgeCaseSpecs_perm ⟨c1, f, baseDir⟩ ⟨c2, f, baseDir⟩ rfl rfl hs k3
  exact ⟨r1, t1, e1, r2, t2, e2, hr1, ht1, he1, BuildSpecs_of_sweeps _ _ _ _ hr1 ht1 he1,
    hr2, ht2, he2, BuildSpecs_of_sweeps _ _ _ _ hr2 ht2 he2, hr, ht, he⟩

/-! ### Runs that visit the maps in their own orders -/

theorem sameJobs_refl (r : Except Failure (List ImageSpec)) : sameJobs r r :=
  ⟨rfl, List.Perm.refl _⟩

theorem sameJobs_symm {r1 r2 : Except Failure (List ImageSpec)} (h : sameJobs r1 r2) :
    sameJobs r2 r1 :=
  ⟨h.1.symm, h.2.symm⟩

theorem sameJobs_trans {r1 r2 r3 : Except Failure (List ImageSpec)} (h12 : sameJobs r1 r2)
    (h23 : sameJobs r2 r3) : sameJobs r1 r3 :=
  ⟨h12.1.trans h23.1, h12.2.trans h23.2⟩

theorem sameJobs_ok {l1 l2 : List ImageSpec} (h : l1.Perm l2) :
    sameJobs (.ok l1) (.ok l2) :=
  ⟨rfl, h⟩

/-- Results that succeed together, with the same jobs up to order whenever the
first succeeds, are the same up to order. -/
theorem sameJobs_of_ok (r1 r2 : Except Failure (List ImageSpec))
    (h12 : failed r1 = false → failed r2 = false ∧ (okList r1).Perm (okList r2))
    (h21 : failed r2 = false → failed r1 = false) : sameJobs r1 r2 := by
  cases h1 : failed r1 with
  | false => exact ⟨by rw [h1, (h12 h1).1], (h12 h1).2⟩
  | true =>
    cases h2 : failed r2 with
    | false => rw [h21 h2] at h1; exact absurd h1 (by simp)
    | true =>
      refine ⟨by rw [h1, h2], ?_⟩
      cases r1 with
      | ok l => simp [failed] at h1
      | error e =>
        cases r2 with
        | ok l => simp [failed] at h2
        | error e2 => exact List.Perm.refl _

theorem sameJobs_results {r1 r2 : Except Failure (List ImageSpec)} (h : sameJobs r1 r2)
    (l1 : List ImageSpec) (h1 : r1 = .ok l1) : ∃ l2, r2 = .ok l2 ∧ l1.Perm l2 := by
  subst h1
  obtain ⟨hf, hp⟩ := h
  cases r2 with
  | error e => simp [failed] at hf
  | ok l2 => exact ⟨l2, rfl, hp⟩

/-- One round of a loop of the builder keeps the relation. -/
theorem sameJobs_round (x1 x2 r1 r2 : Except Failure (List ImageSpec))
    (hx : sameJobs x1 x2) (hr : sameJobs r1 r2) :
    sameJobs (thenAppend x1 r1) (thenAppend x2 r2) := by
  obtain ⟨hxf, hxp⟩ := hx
  obtain ⟨hrf, hrp⟩ := hr
  cases x1 with
  | error e1 =>
    cases x2 with
    | ok l2 => simp [failed] at hxf
    | error e2 => exact ⟨rfl, List.Perm.refl _⟩
  | ok l1 =>
    cases x2 with
    | error e2 => simp [failed] at hxf
    | ok l2 =>
      cases r1 with
      | error e1 =>
        cases r2 with
        | ok m2 => simp [failed] at hrf
        | error e2 => exact ⟨rfl, List.Perm.refl _⟩
      | ok m1 =>
        cases r2 with
        | error e2 => simp [failed] at hrf
        | ok m2 => exact ⟨rfl, List.Perm.append hxp hrp⟩

/-- A loop over a permuted list, with steps that are the same up to order, is
the same up to order. -/
theorem collectSpecs_sameJobs {α : Type} (f1 f2 : α → Except Failure (List ImageSpec))
    (l1 l2 : List α) (hp : l1.Perm l2) (hstep : ∀ x ∈ l1, sameJobs (f1 x) (f2 x)) :
    sameJobs (collectSpecs f1 l1) (collectSpecs f2 l2) := by
  apply sameJobs_of_ok
  · intro hok
    obtain ⟨s1, s2, e1, e2, hs⟩ := collectSpecs_perm f1 f2 l1 l2 hp
      (fun x hx hfx => ⟨(hstep x hx).1 ▸ hfx, (hstep x hx).2⟩) hok
    rw [e1, e2]
    exact ⟨rfl, hs⟩
  · intro hok
    obtain ⟨s1, s2, e1, e2, -⟩ := collectSpecs_perm f2 f1 l2 l1 hp.symm
      (fun x hx hfx => ⟨(hstep x (hp.mem_iff.mpr hx)).1 ▸ hfx,
        (hstep x (hp.mem_iff.mpr hx)).2.symm⟩) hok
    rw [e2]
    rfl

theorem visiting_Filters (b : SpecBuilder) (ps : List (String × Preset))
    (fs : List (String × Format)) : (b.visiting ps fs).Filters = b.Filters := rfl

theorem visiting_BaseDir (b : SpecBuilder) (ps : List (String × Preset))
    (fs : List (String × Format)) : (b.visiting ps fs).BaseDir = b.BaseDir := rfl

theorem visiting_sameMaps (b : SpecBuilder) (ps : List (String × Preset))
    (fs : List (String × Format)) (hp : ps.Perm b.Config.Presets)
    (hf : fs.Perm b.Config.Formats) : sameMaps (b.visiting ps fs).Config b.Config :=
  ⟨rfl, hp, List.Perm.refl _, hf, List.Perm.refl _, rfl⟩

theorem sameMaps_symm {c1 c2 : Config} (h : sameMaps c1 c2) : sameMaps c2 c1 :=
  ⟨h.1.symm, h.2.1.symm, h.2.2.1.symm, h.2.2.2.1.symm, h.2.2.2.2.1.symm, h.2.2.2.2.2.symm⟩

theorem targetCategoriesUnique_perm {c1 c2 : Config} (h : sameMaps c1 c2)
    (hu : targetCategoriesUnique c1) : targetCategoriesUnique c2 := by
  intro t ht
  have ht1 : t ∈ c1.Targets := h.2.2.2.2.1.mem_iff.mpr ht
  exact (h.2.1.pairwise_iff (fun {a b} hab hba => hab ⟨hba.2, hba.1⟩)).mp (hu t ht1)

/-- The body of the size loop returns the same jobs, up to their order,
whatever the order of the format loop. -/
theorem ratioSizeSpecs_perm [CaseTables] (b1 b2 : SpecBuilder) (hF : b1.Filters = b2.Filters)
    (hB : b1.BaseDir = b2.BaseDir) (hfm : b1.Config.Formats.Perm b2.Config.Formats)
    (presetName ratioStr : String) (info : RatioInfo) (s : String × SizeConfig) :
    (ratioSizeSpecs b1 presetName ratioStr info s).Perm
      (ratioSizeSpecs b2 presetName ratioStr info s) := by
  unfold ratioSizeSpecs
  rw [hF]
  split
  · exact List.Perm.refl _
  · split
    · exact List.Perm.refl _
    · exact flatMap_perm_congr _ _ _ _ hfm
        (fun e => ratioFormatSpecs_congr b1 b2 hF hB _ _ _ _ _ _ e)

theorem ratioSpecsIn_perm [CaseTables] (o : MapOrders) (b : SpecBuilder) (hv : o.Valid b.Config)
    (presetName : String) (i : Nat) (ratioStr : String) (info : RatioInfo) :
    (ratioSpecsIn o b presetName i ratioStr info).Perm
      (ratioSpecs b presetName ratioStr info) := by
  unfold ratioSpecsIn ratioSpecs
  refine (List.Perm.flatMap_left _ (fun s _ => ?_)).trans
    (List.Perm.flatMap_right _ (hv.sizes presetName i))
  exact ratioSizeSpecs_perm
    (b.visiting b.Config.Presets (o.ratioFormats presetName i s.1)) b rfl rfl
    (hv.ratioFormats presetName i s.1) _ _ _ _

theorem buildPresetSpecsIn_sameJobs [CaseTables] (o : MapOrders) (b : SpecBuilder)
    (hv : o.Valid b.Config) (presetName : String) (i : Nat) (rs : List String) :
    sameJobs (buildPresetSpecsIn o b presetName i rs) (buildPresetSpecs b presetName rs) := by
  induction rs generalizing i with
  | nil => exact sameJobs_refl _
  | cons r rest ih =>
    unfold buildPresetSpecsIn buildPresetSpecs
    cases hp : ParseRatio r with
    | error e => exact sameJobs_refl _
    | ok info =>
      show sameJobs
        (thenAppend (.ok (ratioSpecsIn o b presetName i r info))
          (buildPresetSpecsIn o b presetName (i + 1) rest))
        (thenAppend (.ok (ratioSpecs b presetName r info)) (buildPresetSpecs b presetName rest))
      exact sameJobs_round _ _ _ _
        (sameJobs_ok (ratioSpecsIn_perm o b hv presetName i r info)) (ih (i + 1))

/-- The step of the preset loop in a run with the orders `o`. -/
theorem buildRatioLoopIn_eq [CaseTables] (o : MapOrders) (b : SpecBuilder)
    (ps : List (String × Preset)) :
    buildRatioLoopIn o b ps = collectSpecs (fun entry =>
      if !b.Filters.ShouldIncludeRatioCategory entry.1 then .ok []
      else buildPresetSpecsIn o b entry.1 0 entry.2.Ratios) ps := by
  induction ps with
  | nil => rfl
  | cons p rest ih =>
    obtain ⟨n, pr⟩ := p
    simp only [buildRatioLoopIn, collectSpecs, ih]
    by_cases h : (!b.Filters.ShouldIncludeRatioCategory n) = true
    · simp only [h, if_true]
      cases collectSpecs _ rest <;> simp
    · simp only [h, if_false]
      rfl

theorem buildRatioSpecsIn_sameJobs [CaseTables] (o : MapOrders) (b : SpecBuilder)
    (hv : o.Valid b.Config) : sameJobs (b.buildRatioSpecsIn o) b.buildRatioSpecs := by
  unfold SpecBuilder.buildRatioSpecsIn SpecBuilder.buildRatioSpecs
  rw [buildRatioLoopIn_eq, buildRatioLoop_eq]
  apply collectSpecs_sameJobs _ _ _ _ hv.presets
  intro entry _
  unfold presetStep
  by_cases h : (!b.Filters.ShouldIncludeRatioCategory entry.1) = true
  · simp only [h, if_true]
    exact sameJobs_refl _
  · simp only [h, if_false]
    rw [← buildPresetSpecs_eq]
    exact buildPresetSpecsIn_sameJobs o b hv entry.1 0 entry.2.Ratios

theorem targetSpecs_sameJobs [CaseTables] (b : SpecBuilder) (ps : List (String × Preset))
    (fs : List (String × Format)) (hp : ps.Perm b.Config.Presets)
    (hf : fs.Perm b.Config.Formats) (hu : targetCategoriesUnique b.Config)
    (t : String × Target) (ht : t ∈ b.Config.Targets) :
    sameJobs (targetSpecs (b.visiting ps fs) t.1 t.2) (targetSpecs b t.1 t.2) := by
  have hs := visiting_sameMaps b ps fs hp hf
  apply sameJobs_of_ok
  · intro hok
    exact targetSpecs_perm (b.visiting ps fs) b rfl rfl hs
      (targetCategoriesUnique_perm (sameMaps_symm hs) hu) t ht hok
  · intro hok
    exact (targetSpecs_perm b (b.visiting ps fs) rfl rfl (sameMaps_symm hs) hu t ht hok).1

theorem buildTargetLoopIn_eq [CaseTables] (o : MapOrders) (b : SpecBuilder)
    (ts : List (String × Target)) :
    buildTargetLoopIn o b ts = collectSpecs (fun t =>
      targetSpecs (b.visiting (o.categoryPresets t.1) (o.targetFormats t.1)) t.1 t.2) ts := by
  induction ts with
  | nil => rfl
  | cons t rest ih =>
    obtain ⟨n, tg⟩ := t
    simp only [buildTargetLoopIn, collectSpecs, ih]

theorem buildTargetSpecsIn_sameJobs [CaseTables] (o : MapOrders) (b : SpecBuilder)
    (hv : o.Valid b.Config) (hu : targetCategoriesUnique b.Config) :
    sameJobs (b.buildTargetSpecsIn o) b.buildTargetSpecs := by
  unfold SpecBuilder.buildTargetSpecsIn SpecBuilder.buildTargetSpecs
  rw [buildTargetLoopIn_eq, buildTargetLoop_eq]
  apply collectSpecs_sameJobs _ _ _ _ hv.targets
  intro t ht
  exact targetSpecs_sameJobs b _ _ (hv.categoryPresets t.1) (hv.targetFormats t.1) hu t
    (hv.targets.mem_iff.mp ht)

theorem edgeCaseSpecs_sameJobs [CaseTables] (b : SpecBuilder) (fs : List (String × Format))
    (hf : fs.Perm b.Config.Formats) (e : EdgeCase) :
    sameJobs (edgeCaseSpecs (b.visiting b.Config.Presets fs) e) (edgeCaseSpecs b e) := by
  have hs := visiting_sameMaps b b.Config.Presets fs (List.Perm.refl _) hf
  apply sameJobs_of_ok
  · intro hok
    exact edgeCaseSpecs_perm (b.visiting b.Config.Presets fs) b rfl rfl hs e hok
  · intro hok
    exact (edgeCaseSpecs_perm b (b.visiting b.Config.Presets fs) rfl rfl (sameMaps_symm hs)
      e hok).1

theorem buildEdgeCaseLoopIn_sameJobs [CaseTables] (o : MapOrders) (b : SpecBuilder)
    (hv : o.Valid b.Config) (i : Nat) (es : List EdgeCase) :
    sameJobs (buildEdgeCaseLoopIn o b i es) (buildEdgeCaseLoop b es) := by
  induction es generalizing i with
  | nil => exact sameJobs_refl _
  | cons e rest ih =>
    show sameJobs
      (thenAppend (edgeCaseSpecs (b.visiting b.Config.Presets (o.edgeFormats i)) e)
        (buildEdgeCaseLoopIn o b (i + 1) rest))
      (thenAppend (edgeCaseSpecs b e) (buildEdgeCaseLoop b rest))
    exact sameJobs_round _ _ _ _ (edgeCaseSpecs_sameJobs b _ (hv.edgeFormats i) e) (ih (i + 1))

theorem BuildSpecsIn_of_sweeps [CaseTables] (b : SpecBuilder) (o : MapOrders)
    (r t e : List ImageSpec) (hr : b.buildRatioSpecsIn o = .ok r)
    (ht : b.buildTargetSpecsIn o = .ok t) (he : b.buildEdgeCaseSpecsIn o = .ok e) :
    b.BuildSpecsIn o = .ok (r ++ t ++ e) := by
  unfold SpecBuilder.BuildSpecsIn
  rw [hr, ht, he]

theorem BuildSpecsIn_sweeps_ok [CaseTables] (b : SpecBuilder) (o : MapOrders)
    (hok : failed (b.BuildSpecsIn o) = false) :
    ∃ r t e, b.buildRatioSpecsIn o = .ok r ∧ b.buildTargetSpecsIn o = .ok t ∧
      b.buildEdgeCaseSpecsIn o = .ok e := by
  unfold SpecBuilder.BuildSpecsIn at hok
  cases h1 : b.buildRatioSpecsIn o with
  | error e => rw [h1] at hok; simp at hok
  | ok r =>
    rw [h1] at hok
    dsimp only at hok
    cases h2 : b.buildTargetSpecsIn o with
    | error e => rw [h2] at hok; simp at hok
    | ok t =>
      rw [h2] at hok
      dsimp only at hok
      cases h3 : b.buildEdgeCaseSpecsIn o with
      | error e => rw [h3] at hok; simp at hok
      | ok e => exact ⟨r, t, e, rfl, rfl, rfl⟩

/-- The orders that visit every map as the configuration lists it are orders
of a run. -/
theorem listed_Valid (c : Config) : (MapOrders.listed c).Valid c :=
  ⟨List.Perm.refl _, fun _ _ => List.Perm.refl _, fun _ _ _ => List.Perm.refl _,
    List.Perm.refl _, fun _ => List.Perm.refl _, fun _ => List.Perm.refl _,
    fun _ => List.Perm.refl _⟩

theorem buildPresetSpecsIn_listed [CaseTables] (b : SpecBuilder) (presetName : String) (i : Nat)
    (rs : List String) :
    buildPresetSpecsIn (MapOrders.listed b.Config) b presetName i rs =
      buildPresetSpecs b presetName rs := by
  induction rs generalizing i with
  | nil => rfl
  | cons r rest ih =>
    unfold buildPresetSpecsIn buildPresetSpecs
    rw [ih]
    rfl

theorem buildRatioLoopIn_listed [CaseTables] (b : SpecBuilder) (ps : List (String × Preset)) :
    buildRatioLoopIn (MapOrders.listed b.Config) b ps = buildRatioLoop b ps := by
  induction ps with
  | nil => rfl
  | cons p rest ih =>
    obtain ⟨n, pr⟩ := p
    unfold buildRatioLoopIn buildRatioLoop
    rw [ih, buildPresetSpecsIn_listed]

theorem buildTargetLoopIn_listed [CaseTables] (b : SpecBuilder) (ts : List (String × Target)) :
    buildTargetLoopIn (MapOrders.listed b.Config) b ts = buildTargetLoop b ts := by
  induction ts with
  | nil => rfl
  | cons t rest ih =>
    obtain ⟨n, tg⟩ := t
    unfold buildTargetLoopIn buildTargetLoop
    rw [ih]
    rfl

theorem buildEdgeCaseLoopIn_listed [CaseTables] (b : SpecBuilder) (i : Nat)
    (es : List EdgeCase) :
    buildEdgeCaseLoopIn (MapOrders.listed b.Config) b i es = buildEdgeCaseLoop b es := by
  induction es generalizing i with
  | nil => rfl
  | cons e rest ih =>
    unfold buildEdgeCaseLoopIn buildEdgeCaseLoop
    rw [ih]
    rfl

/-- The run that visits every map as the configuration lists it is the run
that `BuildSpecs` stands for. -/
theorem BuildSpecsIn_listed [CaseTables] (b : SpecBuilder) :
    b.BuildSpecsIn (MapOrders.listed b.Config) = b.BuildSpecs := by
  unfold SpecBuilder.BuildSpecsIn SpecBuilder.BuildSpecs SpecBuilder.buildRatioSpecsIn
    SpecBuilder.buildTargetSpecsIn SpecBuilder.buildEdgeCaseSpecsIn SpecBuilder.buildRatioSpecs
    SpecBuilder.buildTargetSpecs SpecBuilder.buildEdgeCaseSpecs
  rw [buildRatioLoopIn_listed, buildTargetLoopIn_listed, buildEdgeCaseLoopIn_listed]
  rfl

/-- C3, amended: in every run `BuildSpecs` returns the ratio-preset jobs, then
the platform-target jobs, then the edge-case jobs. For the same configuration,
filters and base directory, in which no ratio string of a target is declared
by two presets, let two runs visit the maps in any orders, drawn anew at every
execution of a `range` statement: when the first run succeeds, so does the
second, and the two runs return, sweep by sweep, the same jobs up to their
order. -/
theorem BuildSpecs_runs_perm [CaseTables] (c : Config) (f : Filters) (baseDir : String)
    (o1 o2 : MapOrders) (h1 : o1.Valid c) (h2 : o2.Valid c) (hu : targetCategoriesUnique c)
    (hok : failed (SpecBuilder.BuildSpecsIn ⟨c, f, baseDir⟩ o1) = false) :
    ∃ r1 t1 e1 r2 t2 e2,
      SpecBuilder.buildRatioSpecsIn ⟨c, f, baseDir⟩ o1 = .ok r1 ∧
      SpecBuilder.buildTargetSpecsIn ⟨c, f, baseDir⟩ o1 = .ok t1 ∧
      SpecBuilder.buildEdgeCaseSpecsIn ⟨c, f, baseDir⟩ o1 = .ok e1 ∧
      SpecBuilder.BuildSpecsIn ⟨c, f, baseDir⟩ o1 = .ok (r1 ++ t1 ++ e1) ∧
      SpecBuilder.buildRatioSpecsIn ⟨c, f, baseDir⟩ o2 = .ok r2 ∧
      SpecBuilder.buildTargetSpecsIn ⟨c, f, baseDir⟩ o2 = .ok t2 ∧
      SpecBuilder.buildEdgeCaseSpecsIn ⟨c, f, baseDir⟩ o2 = .ok e2 ∧
      SpecBuilder.BuildSpecsIn ⟨c, f, baseDir⟩ o2 = .ok (r2 ++ t2 ++ e2) ∧
      r1.Perm r2 ∧ t1.Perm t2 ∧ e1.Perm e2 := by
  obtain ⟨r1, t1, e1, hr1, ht1, he1⟩ := BuildSpecsIn_sweeps_ok _ _ hok
  have kr := sameJobs_trans (buildRatioSpecsIn_sameJobs o1 ⟨c, f, baseDir⟩ h1)
    (sameJobs_symm (buildRatioSpecsIn_sameJobs o2 ⟨c, f, baseDir⟩ h2))
  have kt := sameJobs_trans (buildTargetSpecsIn_sameJobs o1 ⟨c, f, baseDir⟩ h1 hu)
    (sameJobs_symm (buildTargetSpecsIn_sameJobs o2 ⟨c, f, baseDir⟩ h2 hu))
  have ke := sameJobs_trans
    (buildEdgeCaseLoopIn_sameJobs o1 ⟨c, f, baseDir⟩ h1 0 c.EdgeCases)
    (sameJobs_symm (buildEdgeCaseLoopIn_sameJobs o2 ⟨c, f, baseDir⟩ h2 0 c.EdgeCases))
  obtain ⟨r2, hr2, pr⟩ := sameJobs_results kr r1 hr1
  obtain ⟨t2, ht2, pt⟩ := sameJobs_results kt t1 ht1
  obtain ⟨e2, he2, pe⟩ := sameJobs_results ke e1 he1
  exact ⟨r1, t1, e1, r2, t2, e2, hr1, ht1, he1, BuildSpecsIn_of_sweeps _ _ _ _ _ hr1 ht1 he1,
    hr2, ht2, he2, BuildSpecsIn_of_sweeps _ _ _ _ _ hr2 ht2 he2, pr, pt, pe⟩

theorem redrawnOrders_Valid : redrawnOrders.Valid twoRatioConfig :=
  ⟨List.Perm.refl _, fun _ i => by
      unfold redrawnOrders
      dsimp only
      split
      · exact List.Perm.refl _
      · exact List.Perm.swap _ _ _,
    fun _ _ _ => List.Perm.refl _, List.Perm.refl _, fun _ => List.Perm.refl _,
    fun _ => List.Perm.refl _, fun _ => List.Perm.refl _⟩

/-- A witness of `BuildSpecs_runs_perm`: the run on `twoRatioConfig` that visits
the maps as listed, and the run that visits the size categories in another
order for the second ratio. -/
theorem BuildSpecs_runs_perm_witness :
    (MapOrders.listed twoRatioConfig).Valid twoRatioConfig ∧
      redrawnOrders.Valid twoRatioConfig ∧ targetCategoriesUnique twoRatioConfig ∧
      failed (SpecBuilder.BuildSpecsIn ⟨twoRatioConfig, noFilters, "out"⟩
        (MapOrders.listed twoRatioConfig)) = false ∧
      ∃ r1 t1 e1 r2 t2 e2,
        SpecBuilder.buildRatioSpecsIn ⟨twoRatioConfig, noFilters, "out"⟩
          (MapOrders.listed twoRatioConfig) = .ok r1 ∧
        SpecBuilder.buildTargetSpecsIn ⟨twoRatioConfig, noFilters, "out"⟩
          (MapOrders.listed twoRatioConfig) = .ok t1 ∧
        SpecBuilder.buildEdgeCaseSpecsIn ⟨twoRatioConfig, noFilters, "out"⟩
          (MapOrders.listed twoRatioConfig) = .ok e1 ∧
        SpecBuilder.BuildSpecsIn ⟨twoRatioConfig, noFilters, "out"⟩
          (MapOrders.listed twoRatioConfig) = .ok (r1 ++ t1 ++ e1) ∧
        SpecBuilder.buildRatioSpecsIn ⟨twoRatioConfig, noFilters, "out"⟩ redrawnOrders =
          .ok r2 ∧
        SpecBuilder.buildTargetSpecsIn ⟨twoRatioConfig, noFilters, "out"⟩ redrawnOrders =
          .ok t2 ∧
        SpecBuilder.buildEdgeCaseSpecsIn ⟨twoRatioConfig, noFilters, "out"⟩ redrawnOrders =
          .ok e2 ∧
        SpecBuilder.BuildSpecsIn ⟨twoRatioConfig, noFilters, "out"⟩ redrawnOrders =
          .ok (r2 ++ t2 ++ e2) ∧
        r1.Perm r2 ∧ t1.Perm t2 ∧ e1.Perm e2 :=
  ⟨listed_Valid _, redrawnOrders_Valid, by intro t ht; simp [twoRatioConfig] at ht, by decide,
    BuildSpecs_runs_perm twoRatioConfig noFilters "out" (MapOrders.listed twoRatioConfig)
      redrawnOrders (listed_Valid _) redrawnOrders_Valid
      (by intro t ht; simp [twoRatioConfig] at ht) (by decide)⟩

/-- C3, counterexample: two runs on the same configuration, filters and base
directory return the same four jobs in different orders. The first run visits
the size categories as listed, the second visits them in the other order for
the second ratio only, an outcome that no single order of the map gives. -/
theorem BuildSpecs_order_depends_on_iteration :
    (MapOrders.listed twoRatioConfig).Valid twoRatioConfig ∧
      redrawnOrders.Valid twoRatioConfig ∧
      (SpecBuilder.BuildSpecsIn ⟨twoRatioConfig, noFilters, "out"⟩
          (MapOrders.listed twoRatioConfig)).map
          (fun specs => specs.map (fun s => s.Filename)) =
        .ok ["small_100x100_jpeg_q85.jpg", "large_2000x2000_jpeg_q85.jpg",
          "small_100x50_jpeg_q85.jpg", "large_2000x1000_jpeg_q85.jpg"] ∧
      (SpecBuilder.BuildSpecsIn ⟨twoRatioConfig, noFilters, "out"⟩ redrawnOrders).map
          (fun specs => specs.map (fun s => s.Filename)) =
        .ok ["small_100x100_jpeg_q85.jpg", "large_2000x2000_jpeg_q85.jpg",
          "large_2000x1000_jpeg_q85.jpg", "small_100x50_jpeg_q85.jpg"] ∧
      SpecBuilder.BuildSpecsIn ⟨twoRatioConfig, noFilters, "out"⟩
          (MapOrders.listed twoRatioConfig) ≠
        SpecBuilder.BuildSpecsIn ⟨twoRatioConfig, noFilters, "out"⟩ redrawnOrders :=
  ⟨listed_Valid _, redrawnOrders_Valid, by decide, by decide, by decide⟩
/-! ## The output paths of the jobs -/

/-- The three parts that follow the label in a file name: dimensions, format
and quality with extension. -/
theorem fileName_data [CaseTables] (label : String) (w h : Int) (formatName : String) (q : Int)
    (ext : String) :
    (fileName label w h formatName q ext).data =
      ((label.data ++ '_' :: ((Itoa w).data ++ 'x' :: (Itoa h).data)) ++
        '_' :: (ToLower formatName).data) ++ '_' :: ('q' :: ((Itoa q).data ++ ext.data)) := by
  unfold fileName
  simp only [String.data_append]
  simp

theorem fileName_parts_free [CaseTables] (w h : Int) (formatName : String) (q : Int) (ext : String)
    (hf : freeOf '_' formatName.data) (he : freeOf '_' ext.data) :
    freeOf '_' ((Itoa w).data ++ 'x' :: (Itoa h).data) ∧
      freeOf '_' (ToLower formatName).data ∧
      freeOf '_' ('q' :: ((Itoa q).data ++ ext.data)) := by
  have hi : ∀ z : Int, freeOf '_' (Itoa z).data := fun z => Itoa_freeOf z '_' (by decide)
  refine ⟨?_, ToLower_freeOf _ _ (by decide) hf, ?_⟩
  · rw [freeOf_append, freeOf_cons]
    exact ⟨hi w, by decide, hi h⟩
  · rw [freeOf_cons, freeOf_append]
    exact ⟨by decide, hi q, he⟩

/-- A file name determines its label and its lower-cased format name, when
format names and extensions hold no underscore. -/
theorem fileName_inj [CaseTables]
    (l1 l2 : String) (w1 h1 w2 h2 : Int) (f1 f2 : String) (q1 q2 : Int)
    (e1 e2 : String) (hf1 : freeOf '_' f1.data) (he1 : freeOf '_' e1.data)
    (hf2 : freeOf '_' f2.data) (he2 : freeOf '_' e2.data)
    (h : (fileName l1 w1 h1 f1 q1 e1).data = (fileName l2 w2 h2 f2 q2 e2).data) :
    l1 = l2 ∧ ToLower f1 = ToLower f2 := by
  rw [fileName_data, fileName_data] at h
  obtain ⟨a1, a2, a3⟩ := fileName_parts_free w1 h1 f1 q1 e1 hf1 he1
  obtain ⟨b1, b2, b3⟩ := fileName_parts_free w2 h2 f2 q2 e2 hf2 he2
  obtain ⟨k1, -⟩ := append_sep_inj '_' _ _ _ _ a3 b3 h
  obtain ⟨k2, k3⟩ := append_sep_inj '_' _ _ _ _ a2 b2 k1
  obtain ⟨k4, -⟩ := append_sep_inj '_' _ _ _ _ a1 b1 k2
  exact ⟨String.ext k4, String.ext k3⟩

/-- A file name is a normal path component, when its parts hold no separator. -/
theorem fileName_normal [CaseTables] (label : String) (w h : Int) (formatName : String) (q : Int)
    (ext : String) (hl : freeOf '/' label.data) (hf : freeOf '/' formatName.data)
    (he : freeOf '/' ext.data) : normalComp (fileName label w h formatName q ext).data := by
  have hi : ∀ z : Int, freeOf '/' (Itoa z).data := fun z => Itoa_freeOf z '/' (by decide)
  have hmem : '_' ∈ (fileName label w h formatName q ext).data := by
    rw [fileName_data]
    simp
  refine ⟨?_, ?_, ?_, ?_⟩
  · intro hnil
    rw [hnil] at hmem
    simp at hmem
  · rw [fileName_data]
    show freeOf '/' _
    simp only [freeOf_append, freeOf_cons]
    exact ⟨⟨⟨hl, by decide, hi w, by decide, hi h⟩, by decide,
      ToLower_freeOf _ _ (by decide) hf⟩, by decide, by decide, hi q, he⟩
  · intro hdot
    rw [hdot] at hmem
    revert hmem
    decide
  · intro hdot
    rw [hdot] at hmem
    revert hmem
    decide

theorem splitOnChar_two_mem (c : Char) (l p0 p1 : List Char)
    (h : splitOnChar c l = [p0, p1]) : c ∈ l := by
  by_contra hc
  have := splitOnChar_no_sep c l (fun x hx hxc => hc (hxc ▸ hx))
  rw [this] at h
  simp at h

/-- The display token of an accepted ratio string is a normal path component,
when the string holds no separator. -/
theorem displayName_normal (r : String) (info : RatioInfo) (h : ParseRatio r = .ok info)
    (hfree : freeOf '/' r.data) :
    info.DisplayName = displayToken (TrimSpace r) ∧ normalComp info.DisplayName.data := by
  obtain ⟨p0, p1, hs, -, -, -, hname, -, -⟩ := ParseRatio_ok_inv r info h
  refine ⟨hname, ?_⟩
  have hcolon : ':' ∈ (TrimSpace r).data := by
    unfold Split at hs
    have hlen : (splitOnChar ':' (TrimSpace r).data).length = 2 := by
      have := congrArg List.length hs
      simpa using this
    match hsp : splitOnChar ':' (TrimSpace r).data, hlen with
    | [a, b], _ => exact splitOnChar_two_mem ':' _ a b hsp
  have hdash : '-' ∈ info.DisplayName.data := by
    rw [hname]
    unfold displayToken
    apply ReplaceAll_mem_of _ _ _ _ _ (by decide)
    apply ReplaceAll_mem_of _ _ _ _ _ (by decide)
    exact ReplaceAll_mem_new _ _ _ _ hcolon (by decide)
  have hslash : freeOf '/' info.DisplayName.data := by
    intro x hx hxs
    subst hxs
    rw [hname] at hx
    unfold displayToken at hx
    rcases ReplaceAll_mem _ _ _ _ hx with h1 | ⟨h1, -⟩
    · revert h1; decide
    · rcases ReplaceAll_mem _ _ _ _ h1 with h2 | ⟨h2, -⟩
      · revert h2; decide
      · rcases ReplaceAll_mem _ _ _ _ h2 with h3 | ⟨h3, -⟩
        · revert h3; decide
        · exact hfree _ (TrimSpace_mem r _ h3) rfl
  refine ⟨?_, hslash, ?_, ?_⟩
  · intro hnil
    rw [hnil] at hdash
    simp at hdash
  · intro hdot
    rw [hdot] at hdash
    revert hdash
    decide
  · intro hdot
    rw [hdot] at hdash
    revert hdash
    decide

theorem ratioPath_split [CaseTables] (b : SpecBuilder) (token label : String) (f : String × Format)
    (w h q : Int) (ht : normalComp token.data) (hl : freeOf '/' label.data)
    (hf : freeOf '/' f.1.data) (he : freeOf '/' f.2.Extension.data) :
    splitOnChar '/' (ratioPath b token label f w h q).data =
      pathPrefix b.BaseDir ++
        ["ratios".data, token.data, (fileName label w h f.1 q f.2.Extension).data] := by
  unfold ratioPath
  rw [Join_split _ _ (by simp)]
  · rfl
  · intro t htm
    simp only [List.mem_cons, List.mem_singleton, List.not_mem_nil, or_false] at htm
    rcases htm with rfl | rfl | rfl
    · exact ⟨by decide, by decide, by decide, by decide⟩
    · exact ht
    · exact fileName_normal _ _ _ _ _ _ hl hf he

theorem flatPath_split [CaseTables] (b : SpecBuilder) (dir label : String) (f : String × Format)
    (w h q : Int) (hd : normalComp dir.data) (hl : freeOf '/' label.data)
    (hf : freeOf '/' f.1.data) (he : freeOf '/' f.2.Extension.data) :
    splitOnChar '/' (flatPath b dir label f w h q).data =
      pathPrefix b.BaseDir ++ [dir.data, (fileName label w h f.1 q f.2.Extension).data] := by
  unfold flatPath
  rw [Join_split _ _ (by simp)]
  · rfl
  · intro t htm
    simp only [List.mem_cons, List.mem_singleton, List.not_mem_nil, or_false] at htm
    rcases htm with rfl | rfl
    · exact hd
    · exact fileName_normal _ _ _ _ _ _ hl hf he

/-- Equal paths of the ratio sweep have the same token, label and lower-cased
format name. -/
theorem ratioPath_inj [CaseTables]
    (b : SpecBuilder) (t1 t2 l1 l2 : String) (f1 f2 : String × Format)
    (w1 h1 q1 w2 h2 q2 : Int) (ht1 : normalComp t1.data) (ht2 : normalComp t2.data)
    (hl1 : freeOf '/' l1.data) (hl2 : freeOf '/' l2.data) (hf1 : plainFormat f1)
    (hf2 : plainFormat f2)
    (h : ratioPath b t1 l1 f1 w1 h1 q1 = ratioPath b t2 l2 f2 w2 h2 q2) :
    t1 = t2 ∧ l1 = l2 ∧ ToLower f1.1 = ToLower f2.1 := by
  have hs := congrArg (fun p => splitOnChar '/' p.data) h
  simp only at hs
  rw [ratioPath_split b t1 l1 f1 w1 h1 q1 ht1 hl1 hf1.1 hf1.2.2.1,
    ratioPath_split b t2 l2 f2 w2 h2 q2 ht2 hl2 hf2.1 hf2.2.2.1] at hs
  have hs' := List.append_cancel_left hs
  simp only [List.cons.injEq, and_true, true_and] at hs'
  obtain ⟨k1, k2⟩ := hs'
  obtain ⟨k3, k4⟩ := fileName_inj _ _ _ _ _ _ _ _ _ _ _ _ hf1.2.1 hf1.2.2.2 hf2.2.1 hf2.2.2.2 k2
  exact ⟨String.ext k1, k3, k4⟩

/-- Equal paths of the target and edge-case sweeps have the same directory,
label and lower-cased format name. -/
theorem flatPath_inj [CaseTables] (b : SpecBuilder) (d1 d2 l1 l2 : String) (f1 f2 : String × Format)
    (w1 h1 q1 w2 h2 q2 : Int) (hd1 : normalComp d1.data) (hd2 : normalComp d2.data)
    (hl1 : freeOf '/' l1.data) (hl2 : freeOf '/' l2.data) (hf1 : plainFormat f1)
    (hf2 : plainFormat f2)
    (h : flatPath b d1 l1 f1 w1 h1 q1 = flatPath b d2 l2 f2 w2 h2 q2) :
    d1 = d2 ∧ l1 = l2 ∧ ToLower f1.1 = ToLower f2.1 := by
  have hs := congrArg (fun p => splitOnChar '/' p.data) h
  simp only at hs
  rw [flatPath_split b d1 l1 f1 w1 h1 q1 hd1 hl1 hf1.1 hf1.2.2.1,
    flatPath_split b d2 l2 f2 w2 h2 q2 hd2 hl2 hf2.1 hf2.2.2.1] at hs
  have hs' := List.append_cancel_left hs
  simp only [List.cons.injEq, and_true] at hs'
  obtain ⟨k1, k2⟩ := hs'
  obtain ⟨k3, k4⟩ := fileName_inj _ _ _ _ _ _ _ _ _ _ _ _ hf1.2.1 hf1.2.2.2 hf2.2.1 hf2.2.2.2 k2
  exact ⟨String.ext k1, k3, k4⟩

/-- A path of the ratio sweep is no path of the other two sweeps. -/
theorem ratioPath_ne_flatPath [CaseTables] (b : SpecBuilder) (t1 d2 l1 l2 : String)
    (f1 f2 : String × Format) (w1 h1 q1 w2 h2 q2 : Int) (ht1 : normalComp t1.data)
    (hd2 : normalComp d2.data) (hl1 : freeOf '/' l1.data) (hl2 : freeOf '/' l2.data)
    (hf1 : plainFormat f1) (hf2 : plainFormat f2) :
    ratioPath b t1 l1 f1 w1 h1 q1 ≠ flatPath b d2 l2 f2 w2 h2 q2 := by
  intro h
  have hs := congrArg (fun p => splitOnChar '/' p.data) h
  simp only at hs
  rw [ratioPath_split b t1 l1 f1 w1 h1 q1 ht1 hl1 hf1.1 hf1.2.2.1,
    flatPath_split b d2 l2 f2 w2 h2 q2 hd2 hl2 hf2.1 hf2.2.2.1] at hs
  have hs' := congrArg List.length (List.append_cancel_left hs)
  simp at hs'

/-- The lists built from the entries of a list are pairwise related when each
one is and two entries that share unrelated elements share a key, the keys
being distinct over the list. -/
theorem pairwise_flatMap_of_keys {α β κ : Type} (R : β → β → Prop) (l : List α)
    (f : α → List β) (ks : α → List κ) (hk : (l.flatMap ks).Nodup)
    (hf : ∀ x ∈ l, (f x).Pairwise R)
    (hsep : ∀ x ∈ l, ∀ y ∈ l, ∀ p ∈ f x, ∀ q ∈ f y, ¬ R p q → ∃ k ∈ ks x, k ∈ ks y) :
    (l.flatMap f).Pairwise R := by
  rw [List.pairwise_flatMap]
  refine ⟨hf, ?_⟩
  have hd := (List.nodup_flatMap.1 hk).2
  refine List.Pairwise.imp_of_mem ?_ hd
  intro a b ha hb hdis p hp q hq
  by_contra hR
  obtain ⟨k, hka, hkb⟩ := hsep a ha b hb p hp q hq hR
  exact hdis hka hkb

theorem pairwise_flatMap_of_key {α β κ : Type} (R : β → β → Prop) (l : List α)
    (f : α → List β) (k : α → κ) (hk : (l.map k).Nodup)
    (hf : ∀ x ∈ l, (f x).Pairwise R)
    (hsep : ∀ x ∈ l, ∀ y ∈ l, ∀ p ∈ f x, ∀ q ∈ f y, ¬ R p q → k x = k y) :
    (l.flatMap f).Pairwise R := by
  rw [List.pairwise_flatMap]
  refine ⟨hf, ?_⟩
  have hd : l.Pairwise (fun a b => k a ≠ k b) := List.pairwise_map.1 hk
  refine List.Pairwise.imp_of_mem ?_ hd
  intro a b ha hb hne p hp q hq
  by_contra hR
  exact hne (hsep a ha b hb p hp q hq hR)

/-- The list of a loop is empty, or the lists of its steps appended. -/
theorem okList_collectSpecs {α : Type} (f : α → Except Failure (List ImageSpec))
    (l : List α) :
    okList (collectSpecs f l) = [] ∨
      okList (collectSpecs f l) = l.flatMap (fun x => okList (f x)) := by
  cases h : collectSpecs f l with
  | error e => left; rfl
  | ok r =>
    right
    have hall : ∀ x ∈ l, failed (f x) = false := by
      intro x hx
      cases hfx : failed (f x) with
      | false => rfl
      | true =>
        have hc : failed (collectSpecs f l) = true := (collectSpecs_failed f l).2 ⟨x, hx, hfx⟩
        rw [h] at hc
        simp at hc
    have hk := collectSpecs_ok f l hall
    rw [h] at hk
    simp only [Except.ok.injEq] at hk
    simp only [okList, hk]

theorem mem_okList_collectSpecs {α : Type} (f : α → Except Failure (List ImageSpec))
    (l : List α) (x : ImageSpec) (hx : x ∈ okList (collectSpecs f l)) :
    ∃ a ∈ l, x ∈ okList (f a) := by
  rcases okList_collectSpecs f l with h | h
  · rw [h] at hx
    simp at hx
  · rw [h] at hx
    exact List.mem_flatMap.1 hx

theorem collectSpecs_pairwise_of_keys {α κ : Type} (R : ImageSpec → ImageSpec → Prop)
    (f : α → Except Failure (List ImageSpec)) (l : List α) (ks : α → List κ)
    (hk : (l.flatMap ks).Nodup) (hf : ∀ x ∈ l, (okList (f x)).Pairwise R)
    (hsep : ∀ x ∈ l, ∀ y ∈ l, ∀ p ∈ okList (f x), ∀ q ∈ okList (f y), ¬ R p q →
      ∃ k ∈ ks x, k ∈ ks y) :
    (okList (collectSpecs f l)).Pairwise R := by
  rcases okList_collectSpecs f l with h | h
  · rw [h]
    exact List.Pairwise.nil
  · rw [h]
    exact pairwise_flatMap_of_keys R l (fun x => okList (f x)) ks hk hf hsep

theorem collectSpecs_pairwise_of_key {α κ : Type} (R : ImageSpec → ImageSpec → Prop)
    (f : α → Except Failure (List ImageSpec)) (l : List α) (k : α → κ)
    (hk : (l.map k).Nodup) (hf : ∀ x ∈ l, (okList (f x)).Pairwise R)
    (hsep : ∀ x ∈ l, ∀ y ∈ l, ∀ p ∈ okList (f x), ∀ q ∈ okList (f y), ¬ R p q →
      k x = k y) :
    (okList (collectSpecs f l)).Pairwise R := by
  rcases okList_collectSpecs f l with h | h
  · rw [h]
    exact List.Pairwise.nil
  · rw [h]
    exact pairwise_flatMap_of_key R l (fun x => okList (f x)) k hk hf hsep

theorem not_apart {x y : ImageSpec} (h : ¬ apart x y) : x.OutputPath = y.OutputPath := by
  unfold apart at h
  exact not_not.1 h

/-! ### The paths of the format loops -/

theorem ratioFormatSpecs_path [CaseTables] (b : SpecBuilder) (n r : String) (info : RatioInfo)
    (sz : String) (w h : Int) (f : String × Format) (x : ImageSpec)
    (hx : x ∈ ratioFormatSpecs b n r info sz w h f) :
    ∃ q, x.OutputPath = ratioPath b info.DisplayName (ToLower sz) f w h q := by
  unfold ratioFormatSpecs at hx
  split at hx
  · simp at hx
  · split at hx
    · simp at hx
    · rename_i q _ _
      simp only [List.mem_singleton] at hx
      exact ⟨q, by rw [hx]; rfl⟩

theorem ratioFormatSpecs_pairwise [CaseTables] (b : SpecBuilder) (n r : String) (info : RatioInfo)
    (sz : String) (w h : Int) (f : String × Format) :
    (ratioFormatSpecs b n r info sz w h f).Pairwise apart := by
  unfold ratioFormatSpecs
  split
  · exact List.Pairwise.nil
  · split
    · exact List.Pairwise.nil
    · exact List.pairwise_singleton _ _

theorem targetFormatSpecs_path [CaseTables]
    (b : SpecBuilder) (n : String) (t : Target) (info : RatioInfo)
    (cat sc : String) (w h : Int) (f : String × Format) (x : ImageSpec)
    (hx : x ∈ targetFormatSpecs b n t info cat sc w h f) :
    ∃ q, x.OutputPath = flatPath b "targets" n f w h q := by
  unfold targetFormatSpecs at hx
  split at hx
  · simp at hx
  · simp only [List.mem_singleton] at hx
    exact ⟨targetQuality f.2.Qualities, by rw [hx]; rfl⟩

theorem targetFormatSpecs_pairwise [CaseTables] (b : SpecBuilder) (n : String) (t : Target)
    (info : RatioInfo) (cat sc : String) (w h : Int) (f : String × Format) :
    (targetFormatSpecs b n t info cat sc w h f).Pairwise apart := by
  unfold targetFormatSpecs
  split
  · exact List.Pairwise.nil
  · exact List.pairwise_singleton _ _

theorem edgeFormatSpecs_path [CaseTables] (b : SpecBuilder) (e : EdgeCase) (rs : String) (rd : F64)
    (cat sc : String) (w h : Int) (f : String × Format) (x : ImageSpec)
    (hx : x ∈ edgeFormatSpecs b e rs rd cat sc w h f) :
    ∃ q, x.OutputPath = flatPath b "edge-cases" e.Name f w h q := by
  unfold edgeFormatSpecs at hx
  split at hx
  · simp at hx
  · split at hx
    · simp at hx
    · rename_i q _ _
      simp only [List.mem_singleton] at hx
      exact ⟨q, by rw [hx]; rfl⟩

theorem edgeFormatSpecs_pairwise [CaseTables]
    (b : SpecBuilder) (e : EdgeCase) (rs : String) (rd : F64)
    (cat sc : String) (w h : Int) (f : String × Format) :
    (edgeFormatSpecs b e rs rd cat sc w h f).Pairwise apart := by
  unfold edgeFormatSpecs
  split
  · exact List.Pairwise.nil
  · split
    · exact List.Pairwise.nil
    · exact List.pairwise_singleton _ _

/-! ### Paths that agree -/

theorem RatioJob_inj [CaseTables] (b : SpecBuilder) (t1 t2 l1 l2 : String) (x y : ImageSpec)
    (hp : ∀ f ∈ b.Config.Formats, plainFormat f) (ht1 : normalComp t1.data)
    (ht2 : normalComp t2.data) (hl1 : freeOf '/' l1.data) (hl2 : freeOf '/' l2.data)
    (hx : RatioJob b t1 l1 x) (hy : RatioJob b t2 l2 y)
    (he : x.OutputPath = y.OutputPath) : t1 = t2 ∧ l1 = l2 := by
  obtain ⟨f1, hf1, w1, h1, q1, e1⟩ := hx
  obtain ⟨f2, hf2, w2, h2, q2, e2⟩ := hy
  rw [e1, e2] at he
  have := ratioPath_inj b t1 t2 l1 l2 f1 f2 w1 h1 q1 w2 h2 q2 ht1 ht2 hl1 hl2 (hp f1 hf1)
    (hp f2 hf2) he
  exact ⟨this.1, this.2.1⟩

theorem FlatJob_inj [CaseTables] (b : SpecBuilder) (d1 d2 l1 l2 : String) (x y : ImageSpec)
    (hp : ∀ f ∈ b.Config.Formats, plainFormat f) (hd1 : normalComp d1.data)
    (hd2 : normalComp d2.data) (hl1 : freeOf '/' l1.data) (hl2 : freeOf '/' l2.data)
    (hx : FlatJob b d1 l1 x) (hy : FlatJob b d2 l2 y)
    (he : x.OutputPath = y.OutputPath) : d1 = d2 ∧ l1 = l2 := by
  obtain ⟨f1, hf1, w1, h1, q1, e1⟩ := hx
  obtain ⟨f2, hf2, w2, h2, q2, e2⟩ := hy
  rw [e1, e2] at he
  have := flatPath_inj b d1 d2 l1 l2 f1 f2 w1 h1 q1 w2 h2 q2 hd1 hd2 hl1 hl2 (hp f1 hf1)
    (hp f2 hf2) he
  exact ⟨this.1, this.2.1⟩

theorem RatioJob_apart_FlatJob [CaseTables]
    (b : SpecBuilder) (t1 d2 l1 l2 : String) (x y : ImageSpec)
    (hp : ∀ f ∈ b.Config.Formats, plainFormat f) (ht1 : normalComp t1.data)
    (hd2 : normalComp d2.data) (hl1 : freeOf '/' l1.data) (hl2 : freeOf '/' l2.data)
    (hx : RatioJob b t1 l1 x) (hy : FlatJob b d2 l2 y) : apart x y := by
  obtain ⟨f1, hf1, w1, h1, q1, e1⟩ := hx
  obtain ⟨f2, hf2, w2, h2, q2, e2⟩ := hy
  unfold apart
  rw [e1, e2]
  exact ratioPath_ne_flatPath b t1 d2 l1 l2 f1 f2 w1 h1 q1 w2 h2 q2 ht1 hd2 hl1 hl2 (hp f1 hf1)
    (hp f2 hf2)

theorem normalComp_targets : normalComp "targets".data :=
  ⟨by decide, by decide, by decide, by decide⟩

theorem normalComp_edge_cases : normalComp "edge-cases".data :=
  ⟨by decide, by decide, by decide, by decide⟩

/-! ### The ratio sweep -/

theorem lower_plain [CaseTables]
    (s : String) (h : freeOf '/' s.data) : freeOf '/' (ToLower s).data :=
  ToLower_freeOf s '/' (Or.inl (by decide)) h

theorem ratioSizeSpecs_job [CaseTables] (b : SpecBuilder) (n r : String) (info : RatioInfo)
    (s : String × SizeConfig) (x : ImageSpec) (hx : x ∈ ratioSizeSpecs b n r info s) :
    RatioJob b info.DisplayName (ToLower s.1) x := by
  unfold ratioSizeSpecs at hx
  split at hx
  · simp at hx
  · split at hx
    · simp at hx
    · dsimp only at hx
      obtain ⟨f, hf, hxf⟩ := List.mem_flatMap.1 hx
      obtain ⟨q, hq⟩ := ratioFormatSpecs_path _ _ _ _ _ _ _ _ _ hxf
      exact ⟨f, hf, _, _, q, hq⟩

theorem ratioSizeSpecs_pairwise [CaseTables] (b : SpecBuilder) (n r : String) (info : RatioInfo)
    (s : String × SizeConfig) (hp : ∀ f ∈ b.Config.Formats, plainFormat f)
    (hn : (b.Config.Formats.map (fun f => ToLower f.1)).Nodup)
    (ht : normalComp info.DisplayName.data) (hs : freeOf '/' s.1.data) :
    (ratioSizeSpecs b n r info s).Pairwise apart := by
  unfold ratioSizeSpecs
  split
  · exact List.Pairwise.nil
  · split
    · exact List.Pairwise.nil
    · dsimp only
      refine pairwise_flatMap_of_key apart _ _ (fun f => ToLower f.1) hn ?_ ?_
      · intro f _
        exact ratioFormatSpecs_pairwise _ _ _ _ _ _ _ _
      · intro f1 h1 f2 h2 x hx y hy hR
        obtain ⟨q1, e1⟩ := ratioFormatSpecs_path _ _ _ _ _ _ _ _ _ hx
        obtain ⟨q2, e2⟩ := ratioFormatSpecs_path _ _ _ _ _ _ _ _ _ hy
        have he := not_apart hR
        rw [e1, e2] at he
        exact (ratioPath_inj b _ _ _ _ f1 f2 _ _ q1 _ _ q2 ht ht (lower_plain _ hs)
          (lower_plain _ hs) (hp f1 h1) (hp f2 h2) he).2.2

theorem ratioSpecs_job [CaseTables]
    (b : SpecBuilder) (n r : String) (info : RatioInfo) (x : ImageSpec)
    (hx : x ∈ ratioSpecs b n r info) :
    ∃ s ∈ b.Config.Sizes, RatioJob b info.DisplayName (ToLower s.1) x := by
  unfold ratioSpecs at hx
  obtain ⟨s, hs, hxs⟩ := List.mem_flatMap.1 hx
  exact ⟨s, hs, ratioSizeSpecs_job b n r info s x hxs⟩

theorem ratioSpecs_pairwise [CaseTables] (b : SpecBuilder) (n r : String) (info : RatioInfo)
    (hc : PlainNames b.Config) (hd : DistinctNames b.Config)
    (ht : normalComp info.DisplayName.data) : (ratioSpecs b n r info).Pairwise apart := by
  unfold ratioSpecs
  refine pairwise_flatMap_of_key apart _ _ (fun s => ToLower s.1) hd.sizes ?_ ?_
  · intro s hs
    exact ratioSizeSpecs_pairwise b n r info s hc.formats hd.formats ht (hc.sizes s hs)
  · intro s1 h1 s2 h2 x hx y hy hR
    exact (RatioJob_inj b _ _ _ _ x y hc.formats ht ht (lower_plain _ (hc.sizes s1 h1))
      (lower_plain _ (hc.sizes s2 h2)) (ratioSizeSpecs_job b n r info s1 x hx)
      (ratioSizeSpecs_job b n r info s2 y hy) (not_apart hR)).2

theorem ratioStep_okList [CaseTables] (b : SpecBuilder) (n r : String) :
    okList (ratioStep b n r) = [] ∨
      ∃ info, ParseRatio r = .ok info ∧ okList (ratioStep b n r) = ratioSpecs b n r info := by
  unfold ratioStep
  cases hp : ParseRatio r with
  | error e => left; rfl
  | ok info => right; exact ⟨info, rfl, rfl⟩

theorem ratioStep_job [CaseTables] (b : SpecBuilder) (n r : String) (x : ImageSpec)
    (hr : freeOf '/' r.data) (hx : x ∈ okList (ratioStep b n r)) :
    normalComp (displayToken (TrimSpace r)).data ∧
      ∃ s ∈ b.Config.Sizes, RatioJob b (displayToken (TrimSpace r)) (ToLower s.1) x := by
  rcases ratioStep_okList b n r with h | ⟨info, hp, h⟩
  · rw [h] at hx
    simp at hx
  · rw [h] at hx
    obtain ⟨hname, hnorm⟩ := displayName_normal r info hp hr
    rw [← hname]
    exact ⟨hnorm, ratioSpecs_job b n r info x hx⟩

theorem ratioStep_pairwise [CaseTables] (b : SpecBuilder) (n r : String) (hc : PlainNames b.Config)
    (hd : DistinctNames b.Config) (hr : freeOf '/' r.data) :
    (okList (ratioStep b n r)).Pairwise apart := by
  rcases ratioStep_okList b n r with h | ⟨info, hp, h⟩
  · rw [h]
    exact List.Pairwise.nil
  · rw [h]
    exact ratioSpecs_pairwise b n r info hc hd (displayName_normal r info hp hr).2

theorem ratioStep_inj [CaseTables] (b : SpecBuilder) (n1 n2 r1 r2 : String) (x y : ImageSpec)
    (hc : PlainNames b.Config) (h1 : freeOf '/' r1.data) (h2 : freeOf '/' r2.data)
    (hx : x ∈ okList (ratioStep b n1 r1)) (hy : y ∈ okList (ratioStep b n2 r2))
    (he : x.OutputPath = y.OutputPath) :
    displayToken (TrimSpace r1) = displayToken (TrimSpace r2) := by
  obtain ⟨t1, s1, hs1, j1⟩ := ratioStep_job b n1 r1 x h1 hx
  obtain ⟨t2, s2, hs2, j2⟩ := ratioStep_job b n2 r2 y h2 hy
  exact (RatioJob_inj b _ _ _ _ x y hc.formats t1 t2 (lower_plain _ (hc.sizes s1 hs1))
    (lower_plain _ (hc.sizes s2 hs2)) j1 j2 he).1

theorem presetStep_okList [CaseTables] (b : SpecBuilder) (p : String × Preset) :
    okList (presetStep b p) = [] ∨
      okList (presetStep b p) = okList (collectSpecs (ratioStep b p.1) p.2.Ratios) := by
  unfold presetStep
  split
  · left; rfl
  · right; rfl

theorem presetStep_job [CaseTables] (b : SpecBuilder) (p : String × Preset) (x : ImageSpec)
    (hx : x ∈ okList (presetStep b p)) :
    ∃ r ∈ p.2.Ratios, x ∈ okList (ratioStep b p.1 r) := by
  rcases presetStep_okList b p with h | h
  · rw [h] at hx
    simp at hx
  · rw [h] at hx
    exact mem_okList_collectSpecs _ _ x hx

theorem tokens_flatMap [CaseTables] (c : Config) (hd : DistinctNames c) :
    (c.Presets.flatMap
      (fun p => p.2.Ratios.map (fun r => displayToken (TrimSpace r)))).Nodup := by
  have := hd.tokens
  rwa [List.map_flatMap] at this

theorem presetStep_pairwise [CaseTables] (b : SpecBuilder) (p : String × Preset)
    (hp : p ∈ b.Config.Presets) (hc : PlainNames b.Config) (hd : DistinctNames b.Config) :
    (okList (presetStep b p)).Pairwise apart := by
  rcases presetStep_okList b p with h | h
  · rw [h]
    exact List.Pairwise.nil
  · rw [h]
    have hn := (List.nodup_flatMap.1 (tokens_flatMap b.Config hd)).1 p hp
    refine collectSpecs_pairwise_of_key apart _ _ (fun r => displayToken (TrimSpace r)) hn ?_ ?_
    · intro r hr
      exact ratioStep_pairwise b p.1 r hc hd (hc.ratios p hp r hr)
    · intro r1 h1 r2 h2 x hx y hy hR
      exact ratioStep_inj b p.1 p.1 r1 r2 x y hc (hc.ratios p hp r1 h1) (hc.ratios p hp r2 h2)
        hx hy (not_apart hR)

theorem buildRatioSpecs_pairwise [CaseTables] (b : SpecBuilder) (hc : PlainNames b.Config)
    (hd : DistinctNames b.Config) : (okList b.buildRatioSpecs).Pairwise apart := by
  unfold SpecBuilder.buildRatioSpecs
  rw [buildRatioLoop_eq]
  refine collectSpecs_pairwise_of_keys apart _ _
    (fun p => p.2.Ratios.map (fun r => displayToken (TrimSpace r)))
    (tokens_flatMap b.Config hd) ?_ ?_
  · intro p hp
    exact presetStep_pairwise b p hp hc hd
  · intro p1 h1 p2 h2 x hx y hy hR
    obtain ⟨r1, hr1, hx1⟩ := presetStep_job b p1 x hx
    obtain ⟨r2, hr2, hy2⟩ := presetStep_job b p2 y hy
    have ht := ratioStep_inj b p1.1 p2.1 r1 r2 x y hc (hc.ratios p1 h1 r1 hr1)
      (hc.ratios p2 h2 r2 hr2) hx1 hy2 (not_apart hR)
    refine ⟨displayToken (TrimSpace r1), List.mem_map.2 ⟨r1, hr1, rfl⟩, ?_⟩
    rw [ht]
    exact List.mem_map.2 ⟨r2, hr2, rfl⟩

theorem buildRatioSpecs_job [CaseTables]
    (b : SpecBuilder) (hc : PlainNames b.Config) (x : ImageSpec)
    (hx : x ∈ okList b.buildRatioSpecs) :
    ∃ t l, normalComp t.data ∧ freeOf '/' l.data ∧ RatioJob b t l x := by
  unfold SpecBuilder.buildRatioSpecs at hx
  rw [buildRatioLoop_eq] at hx
  obtain ⟨p, hp, hxp⟩ := mem_okList_collectSpecs _ _ x hx
  obtain ⟨r, hr, hxr⟩ := presetStep_job b p x hxp
  obtain ⟨hn, s, hs, hj⟩ := ratioStep_job b p.1 r x (hc.ratios p hp r hr) hxr
  exact ⟨_, _, hn, lower_plain _ (hc.sizes s hs), hj⟩

/-! ### The target sweep and the edge-case sweep -/

theorem targetSpecs_okList [CaseTables] (b : SpecBuilder) (n : String) (t : Target) :
    okList (targetSpecs b n t) = [] ∨
      ∃ info cat sc w h, okList (targetSpecs b n t) =
        b.Config.Formats.flatMap (targetFormatSpecs b n t info cat sc w h) := by
  cases hp : ParseRatio t.Ratio with
  | error e =>
    left
    unfold targetSpecs
    rw [hp]
    rfl
  | ok info =>
    by_cases hlen : 2 ≤ t.Dimensions.length
    · obtain ⟨w, h, tl, hdim⟩ := two_le_length _ hlen
      rw [targetSpecs_ok b n t info w h tl hp hdim]
      unfold targetJobs
      by_cases h1 : (!b.Filters.ShouldIncludeRatioCategory
          (b.Config.GetCategoryForRatio t.Ratio)) = true
      · left
        rw [if_pos h1]
        rfl
      · rw [if_neg h1]
        by_cases h2 : (!b.Filters.ShouldIncludeSizeCategory
            (getSizeCategoryForDimension (if h > w then h else w))) = true
        · left
          rw [if_pos h2]
          rfl
        · right
          rw [if_neg h2]
          exact ⟨info, _, _, w, h, rfl⟩
    · left
      rw [targetSpecs_short b n t info hp (by omega)]
      split_ifs <;> rfl

theorem targetSpecs_job [CaseTables] (b : SpecBuilder) (n : String) (t : Target) (x : ImageSpec)
    (hx : x ∈ okList (targetSpecs b n t)) : FlatJob b "targets" n x := by
  rcases targetSpecs_okList b n t with h | ⟨info, cat, sc, w, h, hk⟩
  · rw [h] at hx
    simp at hx
  · rw [hk] at hx
    obtain ⟨f, hf, hxf⟩ := List.mem_flatMap.1 hx
    obtain ⟨q, hq⟩ := targetFormatSpecs_path _ _ _ _ _ _ _ _ _ _ hxf
    exact ⟨f, hf, _, _, q, hq⟩

theorem targetSpecs_pairwise [CaseTables] (b : SpecBuilder) (n : String) (t : Target)
    (hp : ∀ f ∈ b.Config.Formats, plainFormat f)
    (hn : (b.Config.Formats.map (fun f => ToLower f.1)).Nodup) (hl : freeOf '/' n.data) :
    (okList (targetSpecs b n t)).Pairwise apart := by
  rcases targetSpecs_okList b n t with h | ⟨info, cat, sc, w, h, hk⟩
  · rw [h]
    exact List.Pairwise.nil
  · rw [hk]
    refine pairwise_flatMap_of_key apart _ _ (fun f => ToLower f.1) hn ?_ ?_
    · intro f _
      exact targetFormatSpecs_pairwise _ _ _ _ _ _ _ _ _
    · intro f1 h1 f2 h2 x hx y hy hR
      obtain ⟨q1, e1⟩ := targetFormatSpecs_path _ _ _ _ _ _ _ _ _ _ hx
      obtain ⟨q2, e2⟩ := targetFormatSpecs_path _ _ _ _ _ _ _ _ _ _ hy
      have he := not_apart hR
      rw [e1, e2] at he
      exact (flatPath_inj b _ _ _ _ f1 f2 _ _ q1 _ _ q2 normalComp_targets normalComp_targets
        hl hl (hp f1 h1) (hp f2 h2) he).2.2

theorem buildTargetSpecs_job [CaseTables] (b : SpecBuilder) (x : ImageSpec)
    (hx : x ∈ okList b.buildTargetSpecs) :
    ∃ t ∈ b.Config.Targets, FlatJob b "targets" t.1 x := by
  unfold SpecBuilder.buildTargetSpecs at hx
  rw [buildTargetLoop_eq] at hx
  obtain ⟨t, ht, hxt⟩ := mem_okList_collectSpecs _ _ x hx
  exact ⟨t, ht, targetSpecs_job b t.1 t.2 x hxt⟩

theorem buildTargetSpecs_pairwise [CaseTables] (b : SpecBuilder) (hc : PlainNames b.Config)
    (hd : DistinctNames b.Config) : (okList b.buildTargetSpecs).Pairwise apart := by
  unfold SpecBuilder.buildTargetSpecs
  rw [buildTargetLoop_eq]
  have key := @collectSpecs_pairwise_of_key (String × Target) String apart
    (fun t => targetSpecs b t.1 t.2) b.Config.Targets (fun t => t.1) hd.targets
  refine key ?_ ?_
  · intro t ht
    exact targetSpecs_pairwise b t.1 t.2 hc.formats hd.formats (hc.targets t ht)
  · intro t1 h1 t2 h2 x hx y hy hR
    exact (FlatJob_inj b _ _ _ _ x y hc.formats normalComp_targets normalComp_targets
      (hc.targets t1 h1) (hc.targets t2 h2) (targetSpecs_job b t1.1 t1.2 x hx)
      (targetSpecs_job b t2.1 t2.2 y hy) (not_apart hR)).2

theorem edgeCaseSpecs_okList [CaseTables] (b : SpecBuilder) (e : EdgeCase) :
    okList (edgeCaseSpecs b e) = [] ∨
      ∃ rs rd cat sc w h, okList (edgeCaseSpecs b e) =
        b.Config.Formats.flatMap (edgeFormatSpecs b e rs rd cat sc w h) := by
  by_cases hlen : 2 ≤ e.Dimensions.length
  · obtain ⟨w, h, tl, hdim⟩ := two_le_length _ hlen
    rw [edgeCaseSpecs_ok b e w h tl hdim]
    unfold edgeJobs
    by_cases h1 : (!b.Filters.ShouldIncludeRatioCategory "edge") = true
    · left
      rw [if_pos h1]
      rfl
    · rw [if_neg h1]
      by_cases h2 : (!b.Filters.ShouldIncludeSizeCategory
          (getSizeCategoryForDimension (if h > w then h else w))) = true
      · left
        rw [if_pos h2]
        rfl
      · right
        rw [if_neg h2]
        exact ⟨_, _, _, _, w, h, rfl⟩
  · left
    have hf := edgeCaseSpecs_short b e (by omega)
    cases hk : edgeCaseSpecs b e with
    | error err => rfl
    | ok l =>
      rw [hk] at hf
      simp at hf

theorem edgeCaseSpecs_job [CaseTables] (b : SpecBuilder) (e : EdgeCase) (x : ImageSpec)
    (hx : x ∈ okList (edgeCaseSpecs b e)) : FlatJob b "edge-cases" e.Name x := by
  rcases edgeCaseSpecs_okList b e with h | ⟨rs, rd, cat, sc, w, h, hk⟩
  · rw [h] at hx
    simp at hx
  · rw [hk] at hx
    obtain ⟨f, hf, hxf⟩ := List.mem_flatMap.1 hx
    obtain ⟨q, hq⟩ := edgeFormatSpecs_path _ _ _ _ _ _ _ _ _ _ hxf
    exact ⟨f, hf, _, _, q, hq⟩

theorem edgeCaseSpecs_pairwise [CaseTables] (b : SpecBuilder) (e : EdgeCase)
    (hp : ∀ f ∈ b.Config.Formats, plainFormat f)
    (hn : (b.Config.Formats.map (fun f => ToLower f.1)).Nodup) (hl : freeOf '/' e.Name.data) :
    (okList (edgeCaseSpecs b e)).Pairwise apart := by
  rcases edgeCaseSpecs_okList b e with h | ⟨rs, rd, cat, sc, w, h, hk⟩
  · rw [h]
    exact List.Pairwise.nil
  · rw [hk]
    refine pairwise_flatMap_of_key apart _ _ (fun f => ToLower f.1) hn ?_ ?_
    · intro f _
      exact edgeFormatSpecs_pairwise _ _ _ _ _ _ _ _ _
    · intro f1 h1 f2 h2 x hx y hy hR
      obtain ⟨q1, e1⟩ := edgeFormatSpecs_path _ _ _ _ _ _ _ _ _ _ hx
      obtain ⟨q2, e2⟩ := edgeFormatSpecs_path _ _ _ _ _ _ _ _ _ _ hy
      have he := not_apart hR
      rw [e1, e2] at he
      exact (flatPath_inj b _ _ _ _ f1 f2 _ _ q1 _ _ q2 normalComp_edge_cases
        normalComp_edge_cases hl hl (hp f1 h1) (hp f2 h2) he).2.2

theorem buildEdgeCaseSpecs_job [CaseTables] (b : SpecBuilder) (x : ImageSpec)
    (hx : x ∈ okList b.buildEdgeCaseSpecs) :
    ∃ e ∈ b.Config.EdgeCases, FlatJob b "edge-cases" e.Name x := by
  unfold SpecBuilder.buildEdgeCaseSpecs at hx
  rw [buildEdgeCaseLoop_eq] at hx
  obtain ⟨e, he, hxe⟩ := mem_okList_collectSpecs _ _ x hx
  exact ⟨e, he, edgeCaseSpecs_job b e x hxe⟩

theorem buildEdgeCaseSpecs_pairwise [CaseTables] (b : SpecBuilder) (hc : PlainNames b.Config)
    (hd : DistinctNames b.Config) : (okList b.buildEdgeCaseSpecs).Pairwise apart := by
  unfold SpecBuilder.buildEdgeCaseSpecs
  rw [buildEdgeCaseLoop_eq]
  refine collectSpecs_pairwise_of_key apart _ _ (fun e => e.Name) hd.edgeCases ?_ ?_
  · intro e he
    exact edgeCaseSpecs_pairwise b e hc.formats hd.formats (hc.edgeCases e he)
  · intro e1 h1 e2 h2 x hx y hy hR
    exact (FlatJob_inj b _ _ _ _ x y hc.formats normalComp_edge_cases normalComp_edge_cases
      (hc.edgeCases e1 h1) (hc.edgeCases e2 h2) (edgeCaseSpecs_job b e1 x hx)
      (edgeCaseSpecs_job b e2 y hy) (not_apart hR)).2

theorem BuildSpecs_ok_append [CaseTables] (b : SpecBuilder) (specs : List ImageSpec)
    (hok : b.BuildSpecs = .ok specs) :
    specs = okList b.buildRatioSpecs ++ okList b.buildTargetSpecs ++
      okList b.buildEdgeCaseSpecs := by
  obtain ⟨k1, k2, k3⟩ := BuildSpecs_sweeps_ok b (by rw [hok]; rfl)
  obtain ⟨r, hr⟩ := failed_false_ok _ k1
  obtain ⟨t, ht⟩ := failed_false_ok _ k2
  obtain ⟨e, he⟩ := failed_false_ok _ k3
  have h := BuildSpecs_of_sweeps b r t e hr ht he
  rw [hok] at h
  simp only [Except.ok.injEq] at h
  rw [h, hr, ht, he]
  rfl

theorem sweeps_pairwise [CaseTables] (b : SpecBuilder) (hc : PlainNames b.Config)
    (hd : DistinctNames b.Config) :
    (okList b.buildRatioSpecs ++ okList b.buildTargetSpecs ++
      okList b.buildEdgeCaseSpecs).Pairwise apart := by
  rw [List.pairwise_append, List.pairwise_append]
  refine ⟨⟨buildRatioSpecs_pairwise b hc hd, buildTargetSpecs_pairwise b hc hd, ?_⟩,
    buildEdgeCaseSpecs_pairwise b hc hd, ?_⟩
  · intro x hx y hy
    obtain ⟨tk, l, hn, hl, hj⟩ := buildRatioSpecs_job b hc x hx
    obtain ⟨t, ht, hf⟩ := buildTargetSpecs_job b y hy
    exact RatioJob_apart_FlatJob b tk _ l _ x y hc.formats hn normalComp_targets hl
      (hc.targets t ht) hj hf
  · intro x hx y hy
    obtain ⟨e, he, hf⟩ := buildEdgeCaseSpecs_job b y hy
    rcases List.mem_append.1 hx with hx | hx
    · obtain ⟨tk, l, hn, hl, hj⟩ := buildRatioSpecs_job b hc x hx
      exact RatioJob_apart_FlatJob b tk _ l _ x y hc.formats hn normalComp_edge_cases hl
        (hc.edgeCases e he) hj hf
    · obtain ⟨t, ht, hg⟩ := buildTargetSpecs_job b x hx
      intro heq
      have := (FlatJob_inj b _ _ _ _ x y hc.formats normalComp_targets normalComp_edge_cases
        (hc.targets t ht) (hc.edgeCases e he) hg hf heq).1
      revert this
      decide

/-- C1, amended: when `BuildSpecs` succeeds on a configuration whose names are
plain (no path separator in a ratio string, in a size, format, target or
edge-case name or in an extension, and no underscore in a format name or an
extension) and distinct (the display tokens of the ratio strings of all
presets, the size names in lower case, the format names in lower case, the
target names, the edge-case names), the output paths of the returned jobs are
pairwise distinct over the three sweeps combined, for every filters value and
every base directory. -/
theorem BuildSpecs_paths_nodup [CaseTables] (c : Config) (f : Filters) (baseDir : String)
    (specs : List ImageSpec) (hc : PlainNames c) (hd : DistinctNames c)
    (hok : SpecBuilder.BuildSpecs ⟨c, f, baseDir⟩ = .ok specs) :
    (specs.map (fun s => s.OutputPath)).Nodup := by
  rw [BuildSpecs_ok_append ⟨c, f, baseDir⟩ specs hok]
  unfold List.Nodup
  rw [List.pairwise_map]
  exact sweeps_pairwise ⟨c, f, baseDir⟩ hc hd

/-- A witness of `BuildSpecs_paths_nodup`: a configuration with two ratios, a
target and an edge case. -/
theorem BuildSpecs_paths_nodup_witness :
    PlainNames distinctNamesConfig ∧ DistinctNames distinctNamesConfig ∧
      (SpecBuilder.BuildSpecs ⟨distinctNamesConfig, noFilters, "out"⟩).map
          (fun specs => specs.map (fun s => s.OutputPath)) =
        .ok ["out/ratios/1-1/small_100x100_jpeg_q85.jpg",
          "out/ratios/2-3/small_66x100_jpeg_q85.jpg",
          "out/targets/IG_FEED_1_1_1080x1080_jpeg_q85.jpg",
          "out/edge-cases/extreme_wide_1000x100_jpeg_q85.jpg"] ∧
      ((okList (SpecBuilder.BuildSpecs ⟨distinctNamesConfig, noFilters, "out"⟩)).map
        (fun s => s.OutputPath)).Nodup :=
  ⟨⟨by unfold freeOf; decide, by unfold freeOf; decide, by unfold plainFormat freeOf; decide,
      by unfold freeOf; decide, by unfold freeOf; decide⟩,
    ⟨by decide, by decide, by decide, by decide, by decide⟩,
    by decide,
    BuildSpecs_paths_nodup distinctNamesConfig noFilters "out" _
      ⟨by unfold freeOf; decide, by unfold freeOf; decide, by unfold plainFormat freeOf; decide,
        by unfold freeOf; decide, by unfold freeOf; decide⟩
      ⟨by decide, by decide, by decide, by decide, by decide⟩ (by decide)⟩

/-- C1, counterexample: a configuration that `Validate` accepts, with the
ratio `1:1` listed by the presets `platform` and `common`, gives two jobs with
the same output path. -/
theorem BuildSpecs_paths_collide :
    sharedRatioConfig.Validate = .ok () ∧
      (SpecBuilder.BuildSpecs ⟨sharedRatioConfig, noFilters, "out"⟩).map
          (fun specs => specs.map (fun s => (s.Category, s.OutputPath))) =
        .ok [("platform", "out/ratios/1-1/small_100x100_jpeg_q85.jpg"),
          ("common", "out/ratios/1-1/small_100x100_jpeg_q85.jpg")] ∧
      ¬ ((okList (SpecBuilder.BuildSpecs ⟨sharedRatioConfig, noFilters, "out"⟩)).map
        (fun s => s.OutputPath)).Nodup :=
  ⟨by decide, by decide, by decide⟩

/-! ## The display token -/

theorem displayToken_data (s : String) :
    (displayToken s).data = s.data.flatMap tokenChar := by
  unfold displayToken ReplaceAll
  simp only [List.flatMap_assoc]
  congr 1
  funext c
  unfold tokenChar
  by_cases h1 : c = ':'
  · subst h1
    decide
  · by_cases h2 : c = '.'
    · subst h2
      decide
    · by_cases h3 : c = ' '
      · subst h3
        decide
      · simp [h1, h2, h3]

theorem tokenChar_not_mem (c x : Char) (hx : x ∈ tokenChar c) :
    x ≠ ':' ∧ x ≠ '.' ∧ x ≠ ' ' := by
  unfold tokenChar at hx
  split at hx
  · simp only [List.mem_singleton] at hx
    subst hx
    decide
  · split at hx
    · simp only [List.mem_singleton] at hx
      subst hx
      decide
    · split at hx
      · simp at hx
      · simp only [List.mem_singleton] at hx
        subst hx
        exact ⟨by assumption, by assumption, by assumption⟩

/-- C11, amended: for every string that `ParseRatio` accepts, `DisplayName` is
the input without its leading and trailing whitespace, with every colon
replaced by a hyphen, every point by an underscore and every space (U+0020)
removed, the other characters unchanged and in order; it holds no colon, no
point and no space. -/
theorem ParseRatio_displayName (r : String) (info : RatioInfo)
    (h : ParseRatio r = .ok info) :
    info.DisplayName.data = (TrimSpace r).data.flatMap tokenChar ∧
      ':' ∉ info.DisplayName.data ∧ '.' ∉ info.DisplayName.data ∧
      ' ' ∉ info.DisplayName.data := by
  obtain ⟨p0, p1, -, -, -, -, hname, -, -⟩ := ParseRatio_ok_inv r info h
  have hd : info.DisplayName.data = (TrimSpace r).data.flatMap tokenChar := by
    rw [hname, displayToken_data]
  have hfree : ∀ x ∈ info.DisplayName.data, x ≠ ':' ∧ x ≠ '.' ∧ x ≠ ' ' := by
    intro x hx
    rw [hd] at hx
    obtain ⟨c, -, hc⟩ := List.mem_flatMap.1 hx
    exact tokenChar_not_mem c x hc
  exact ⟨hd, fun hm => (hfree _ hm).1 rfl, fun hm => (hfree _ hm).2.1 rfl,
    fun hm => (hfree _ hm).2.2 rfl⟩

/-- A witness of `ParseRatio_displayName`: the string ` 4 : 5 ` gives `4-5`. -/
theorem ParseRatio_displayName_witness :
    (ParseRatio " 4 : 5 ").map (fun i => i.DisplayName) = .ok "4-5" ∧
      ∃ info, ParseRatio " 4 : 5 " = .ok info ∧
        info.DisplayName.data = (TrimSpace " 4 : 5 ").data.flatMap tokenChar ∧
        ':' ∉ info.DisplayName.data ∧ '.' ∉ info.DisplayName.data ∧
        ' ' ∉ info.DisplayName.data :=
  ⟨by decide,
    ⟨"4 : 5", 4, 5, F64.div (F64.ofInt 4) (F64.ofInt 5), false, "4-5"⟩, by decide,
    ParseRatio_displayName " 4 : 5 "
      ⟨"4 : 5", 4, 5, F64.div (F64.ofInt 4) (F64.ofInt 5), false, "4-5"⟩ (by decide)⟩

/-- C11, counterexample: a tab inside an accepted ratio string stays in the
display token, which then holds a whitespace character. -/
theorem ParseRatio_displayName_keeps_tab :
    (ParseRatio "4\t:5").map (fun i => (i.Width, i.Height, i.DisplayName)) =
        .ok (4, 5, "4\t-5") ∧
      isSpace '\t' = true ∧ '\t' ∈ "4\t-5".data :=
  ⟨by decide, by decide, by decide⟩

/-! ## `CalculateDimensions` -/

theorem derived_side_eq (b s l : Int) (hb : 1 ≤ b) (hs : 0 < s) (hl : 0 < l) (hsl : s ≤ l)
    (hr : b * l ≤ 2 ^ 51) :
    F64.toInt (F64.div (F64.mul (F64.ofInt b) (F64.ofInt s)) (F64.ofInt l)) = b * s / l := by
  lift b to Nat using (by omega)
  lift s to Nat using (by omega)
  lift l to Nat using (by omega)
  have hb' : 0 < b := by omega
  have hs' : 0 < s := by omega
  have hl' : 0 < l := by omega
  have hsl' : s ≤ l := by omega
  have hr' : b * l ≤ 2 ^ 51 := by exact_mod_cast hr
  have h1 : b * s ≤ b * l := Nat.mul_le_mul_left b hsl'
  have h2 : l ≤ b * l := Nat.le_mul_of_pos_left l hb'
  have h3 : (2 : Nat) ^ 52 = 2 * 2 ^ 51 := by norm_num
  rw [F64.toInt_div_mul_ofNat b s l hb' hs' hl' (by omega)]
  norm_cast

/-- The result of `CalculateDimensions` in the exact range: the base size on
the side of the larger component, the truncated quotient (at least 1) on the
other. -/
theorem CalculateDimensions_eq (info : RatioInfo) (baseSize : Int) (hW : 0 < info.Width)
    (hH : 0 < info.Height) (hb : 1 ≤ baseSize) (hr : InExactRange info baseSize) :
    CalculateDimensions info baseSize =
      if info.Height > info.Width
      then (max 1 (baseSize * info.Width / info.Height), baseSize)
      else (baseSize, max 1 (baseSize * info.Height / info.Width)) := by
  unfold InExactRange at hr
  unfold CalculateDimensions
  by_cases hp : info.Height > info.Width
  · have hmax : max info.Width info.Height = info.Height := max_eq_right (le_of_lt hp)
    rw [hmax] at hr
    simp only [hp, if_true]
    rw [derived_side_eq baseSize info.Width info.Height hb hW hH (le_of_lt hp) hr]
    have hb2 : ¬ baseSize < 1 := by omega
    simp only [hb2, if_false]
    congr 1
    rcases lt_or_le (baseSize * info.Width / info.Height) 1 with h | h
    · rw [if_pos h, max_eq_left (le_of_lt h)]
    · rw [if_neg (not_lt.2 h), max_eq_right h]
  · have hle : info.Height ≤ info.Width := not_lt.1 hp
    have hmax : max info.Width info.Height = info.Width := max_eq_left hle
    rw [hmax] at hr
    simp only [hp, if_false]
    rw [derived_side_eq baseSize info.Height info.Width hb hH hW hle hr]
    have hb2 : ¬ baseSize < 1 := by omega
    simp only [hb2, if_false]
    congr 1
    rcases lt_or_le (baseSize * info.Height / info.Width) 1 with h | h
    · rw [if_pos h, max_eq_left (le_of_lt h)]
    · rw [if_neg (not_lt.2 h), max_eq_right h]

theorem CalculateDimensions_ge_one (info : RatioInfo) (baseSize : Int) :
    1 ≤ (CalculateDimensions info baseSize).1 ∧ 1 ≤ (CalculateDimensions info baseSize).2 := by
  unfold CalculateDimensions
  dsimp only
  constructor <;> split <;> omega

theorem floor_quotient (a l : Int) (hl : 0 < l) : ⌊(a : ℚ) / (l : ℚ)⌋ = a / l := by
  lift l to Nat using (le_of_lt hl)
  have := Rat.floor_intCast_div_natCast a l
  simpa using this

/-- C12, amended: for every `RatioInfo` with positive components and every
base size of at least 1, in the range where the `float64` products are exact
(base size times the larger component at most `2^51`): for a portrait ratio
the height is the base size and the width is the integer part of
`baseSize * Width / Height` (the quotient truncated, not rounded to the
nearest integer); otherwise the width is the base size and the height is the
integer part of `baseSize * Height / Width`; the derived side is raised to at
least 1. -/
theorem CalculateDimensions_truncates (info : RatioInfo) (baseSize : Int)
    (hW : 0 < info.Width) (hH : 0 < info.Height) (hb : 1 ≤ baseSize)
    (hr : InExactRange info baseSize) :
    (info.Height > info.Width →
      (CalculateDimensions info baseSize).2 = baseSize ∧
      (CalculateDimensions info baseSize).1 =
        max 1 ⌊((baseSize : ℚ) * (info.Width : ℚ)) / (info.Height : ℚ)⌋) ∧
    (¬ info.Height > info.Width →
      (CalculateDimensions info baseSize).1 = baseSize ∧
      (CalculateDimensions info baseSize).2 =
        max 1 ⌊((baseSize : ℚ) * (info.Height : ℚ)) / (info.Width : ℚ)⌋) := by
  have key := CalculateDimensions_eq info baseSize hW hH hb hr
  constructor
  · intro hp
    rw [key, if_pos hp]
    refine ⟨rfl, ?_⟩
    have := floor_quotient (baseSize * info.Width) info.Height hH
    push_cast at this
    rw [this]
  · intro hp
    rw [key, if_neg hp]
    refine ⟨rfl, ?_⟩
    have := floor_quotient (baseSize * info.Height) info.Width hW
    push_cast at this
    rw [this]

/-- A witness of `CalculateDimensions_truncates`: the ratio `2:3` at the base
size 100. -/
theorem CalculateDimensions_truncates_witness :
    ParseRatio "2:3" = .ok (intRatio 2 3) ∧
      CalculateDimensions (intRatio 2 3) 100 = (66, 100) ∧
      (intRatio 2 3).Height > (intRatio 2 3).Width ∧
      (CalculateDimensions (intRatio 2 3) 100).2 = 100 ∧
      (CalculateDimensions (intRatio 2 3) 100).1 =
        max 1 ⌊(((100 : Int) : ℚ) * ((intRatio 2 3).Width : ℚ)) /
          ((intRatio 2 3).Height : ℚ)⌋ :=
  ⟨by decide, by decide, by decide,
    (CalculateDimensions_truncates (intRatio 2 3) 100 (by decide) (by decide) (by decide)
      (by unfold InExactRange; decide)).1 (by decide)⟩

/-- C12, counterexample: the ratio `2:3` at the base size 100 gives the width
66, while the nearest integer to `100 * 2 / 3` is 67. -/
theorem CalculateDimensions_not_nearest :
    ParseRatio "2:3" = .ok (intRatio 2 3) ∧
      CalculateDimensions (intRatio 2 3) 100 = (66, 100) ∧
      (67 : ℚ) - 1 / 2 < 100 * 2 / 3 ∧ (100 * 2 : ℚ) / 3 < 67 + 1 / 2 :=
  ⟨by decide, by decide, by norm_num, by norm_num⟩

/-- C13, amended: for every `RatioInfo` with positive components and every
base size of at least 1, in the range where the `float64` products are exact
(base size times the larger component at most `2^51`), the derived side is the
integer quotient `baseSize * shorter / longer`, raised to at least 1, and the
other side is the base size. -/
theorem CalculateDimensions_quotient (info : RatioInfo) (baseSize : Int)
    (hW : 0 < info.Width) (hH : 0 < info.Height) (hb : 1 ≤ baseSize)
    (hr : InExactRange info baseSize) :
    CalculateDimensions info baseSize =
      if info.Height > info.Width
      then (max 1 (baseSize * min info.Width info.Height / max info.Width info.Height),
        baseSize)
      else (baseSize,
        max 1 (baseSize * min info.Width info.Height / max info.Width info.Height)) := by
  rw [CalculateDimensions_eq info baseSize hW hH hb hr]
  by_cases hp : info.Height > info.Width
  · rw [if_pos hp, if_pos hp, min_eq_left (le_of_lt hp), max_eq_right (le_of_lt hp)]
  · rw [if_neg hp, if_neg hp, min_eq_right (not_lt.1 hp), max_eq_left (not_lt.1 hp)]

/-- A witness of `CalculateDimensions_quotient`: `2:3` at 1500, with the four
results of the test table. -/
theorem CalculateDimensions_quotient_witness :
    (CalculateDimensions (intRatio 2 3) 1500 =
        if (intRatio 2 3).Height > (intRatio 2 3).Width
        then (max 1 (1500 * min (intRatio 2 3).Width (intRatio 2 3).Height /
            max (intRatio 2 3).Width (intRatio 2 3).Height), 1500)
        else (1500, max 1 (1500 * min (intRatio 2 3).Width (intRatio 2 3).Height /
            max (intRatio 2 3).Width (intRatio 2 3).Height))) ∧
      (ParseRatio "2:3").map (fun i => CalculateDimensions i 1500) = .ok (1000, 1500) ∧
      (ParseRatio "2:3").map (fun i => CalculateDimensions i 100) = .ok (66, 100) ∧
      (ParseRatio "16:9").map (fun i => CalculateDimensions i 1920) = .ok (1920, 1080) ∧
      (ParseRatio "1.91:1").map (fun i => CalculateDimensions i 1200) = .ok (1200, 628) :=
  ⟨CalculateDimensions_quotient (intRatio 2 3) 1500 (by decide) (by decide) (by decide)
      (by unfold InExactRange; decide),
    by decide, by decide, by decide, by decide⟩

/-- C13, counterexample: the ratio `1:1` at the base size `2^53 + 1`; the
conversion to `float64` rounds the base size to `2^53`, so the derived height
is not the quotient `baseSize * 1 / 1`. -/
theorem CalculateDimensions_inexact_quotient :
    ParseRatio "1:1" = .ok (intRatio 1 1) ∧
      CalculateDimensions (intRatio 1 1) 9007199254740993 =
        (9007199254740993, 9007199254740992) ∧
      (9007199254740993 : Int) * 1 / 1 = 9007199254740993 :=
  ⟨by decide, by decide, by decide⟩

/-- C14, amended: `CalculateDimensions` returns a width and a height of at
least 1, for every input. For positive components and a base size of at least
1, in the range where the `float64` products are exact (base size times the
larger component at most `2^51`), the larger of the two results is the base
size, neither result exceeds it, and for a portrait ratio the height is the
base size. -/
theorem CalculateDimensions_bounds (info : RatioInfo) (baseSize : Int) :
    1 ≤ (CalculateDimensions info baseSize).1 ∧ 1 ≤ (CalculateDimensions info baseSize).2 ∧
      (0 < info.Width → 0 < info.Height → 1 ≤ baseSize → InExactRange info baseSize →
        max (CalculateDimensions info baseSize).1 (CalculateDimensions info baseSize).2 =
            baseSize ∧
          (CalculateDimensions info baseSize).1 ≤ baseSize ∧
          (CalculateDimensions info baseSize).2 ≤ baseSize ∧
          (info.Height > info.Width → (CalculateDimensions info baseSize).2 = baseSize)) := by
  refine ⟨(CalculateDimensions_ge_one info baseSize).1,
    (CalculateDimensions_ge_one info baseSize).2, ?_⟩
  intro hW hH hb hr
  rw [CalculateDimensions_eq info baseSize hW hH hb hr]
  by_cases hp : info.Height > info.Width
  · rw [if_pos hp]
    have hq : baseSize * info.Width / info.Height ≤ baseSize := by
      apply Int.ediv_le_of_le_mul hH
      exact Int.mul_le_mul_of_nonneg_left (le_of_lt hp) (by omega)
    have hm : max 1 (baseSize * info.Width / info.Height) ≤ baseSize := max_le hb hq
    exact ⟨max_eq_right hm, hm, le_rfl, fun _ => rfl⟩
  · rw [if_neg hp]
    have hq : baseSize * info.Height / info.Width ≤ baseSize := by
      apply Int.ediv_le_of_le_mul hW
      exact Int.mul_le_mul_of_nonneg_left (not_lt.1 hp) (by omega)
    have hm : max 1 (baseSize * info.Height / info.Width) ≤ baseSize := max_le hb hq
    exact ⟨max_eq_left hm, le_rfl, hm, fun h => absurd h hp⟩

/-- A witness of `CalculateDimensions_bounds`: the ratio `2:3` at 1500. -/
theorem CalculateDimensions_bounds_witness :
    CalculateDimensions (intRatio 2 3) 1500 = (1000, 1500) ∧
      max (CalculateDimensions (intRatio 2 3) 1500).1 (CalculateDimensions (intRatio 2 3) 1500).2 =
        1500 ∧
      (CalculateDimensions (intRatio 2 3) 1500).1 ≤ 1500 ∧
      (CalculateDimensions (intRatio 2 3) 1500).2 ≤ 1500 ∧
      ((intRatio 2 3).Height > (intRatio 2 3).Width →
        (CalculateDimensions (intRatio 2 3) 1500).2 = 1500) :=
  ⟨by decide,
    (CalculateDimensions_bounds (intRatio 2 3) 1500).2.2 (by decide) (by decide) (by decide)
      (by unfold InExactRange; decide)⟩

/-- C14, counterexample: the ratio `1:1` at the base size `2^53 + 3`; the
conversion to `float64` rounds the base size up to `2^53 + 4`, so the height
exceeds the base size. -/
theorem CalculateDimensions_exceeds_base :
    ParseRatio "1:1" = .ok (intRatio 1 1) ∧
      CalculateDimensions (intRatio 1 1) 9007199254740995 =
        (9007199254740995, 9007199254740996) ∧
      (9007199254740995 : Int) < 9007199254740996 :=
  ⟨by decide, by decide, by decide⟩

/-! ## The filters -/

theorem map_eq_map_iff_forall₂ {α β : Type} (g : α → β) (l1 l2 : List α) :
    l1.map g = l2.map g ↔ List.Forall₂ (fun x y => g x = g y) l1 l2 := by
  induction l1 generalizing l2 with
  | nil =>
    cases l2 with
    | nil => simp
    | cons y ys => simp
  | cons x xs ih =>
    cases l2 with
    | nil => simp
    | cons y ys =>
      simp only [List.map_cons, List.cons.injEq, List.forall₂_cons]
      rw [ih]

theorem forall₂_congr_mem {α : Type} (R S : α → α → Prop) (l1 l2 : List α)
    (h : ∀ x ∈ l1, ∀ y ∈ l2, (R x y ↔ S x y)) :
    List.Forall₂ R l1 l2 ↔ List.Forall₂ S l1 l2 := by
  induction l1 generalizing l2 with
  | nil =>
    cases l2 with
    | nil => simp
    | cons y ys => simp
  | cons x xs ih =>
    cases l2 with
    | nil => simp
    | cons y ys =>
      simp only [List.forall₂_cons]
      rw [h x (List.mem_cons_self _ _) y (List.mem_cons_self _ _),
        ih ys (fun a ha b hb => h a (List.mem_cons_of_mem _ ha) b (List.mem_cons_of_mem _ hb))]

theorem toLower_toLower (c : Char) : c.toLower.toLower = c.toLower := by
  by_cases h : 65 ≤ c.toNat ∧ c.toNat ≤ 90
  · have hc : Char.ofNat c.toNat = c := Char.ofNat_toNat c
    obtain ⟨h1, h2⟩ := h
    generalize c.toNat = n at h1 h2 hc
    subst hc
    interval_cases n <;> decide
  · have : c.toLower = c := by
      unfold Char.toLower
      simp only
      rw [if_neg h]
    rw [this, this]

theorem toLower_toUpper (c : Char) : c.toUpper.toLower = c.toLower := by
  by_cases h : 97 ≤ c.toNat ∧ c.toNat ≤ 122
  · have hc : Char.ofNat c.toNat = c := Char.ofNat_toNat c
    obtain ⟨h1, h2⟩ := h
    generalize c.toNat = n at h1 h2 hc
    subst hc
    interval_cases n <;> decide
  · have : c.toUpper = c := by
      unfold Char.toUpper
      simp only
      rw [if_neg h]
    rw [this]

/-- On an ASCII rune `unicode.ToLower` does not consult the case tables. -/
theorem unicodeToLower_ascii [CaseTables] (c : Char) (h : c.toNat ≤ 127) :
    unicodeToLower c = c.toLower := by
  unfold unicodeToLower
  rw [if_pos h]

/-- On an ASCII rune `unicode.ToUpper` does not consult the case tables. -/
theorem unicodeToUpper_ascii [CaseTables] (c : Char) (h : c.toNat ≤ 127) :
    unicodeToUpper c = c.toUpper := by
  unfold unicodeToUpper
  rw [if_pos h]

/-- Two ASCII runes are the same letter up to case exactly when they have the
same lower case. -/
theorem sameLetter_ascii [CaseTables] (x y : Char) (hx : x.toNat ≤ 127) (hy : y.toNat ≤ 127) :
    sameLetter x y = true ↔ unicodeToLower x = unicodeToLower y := by
  unfold sameLetter
  simp only [Bool.or_eq_true, decide_eq_true_eq]
  constructor
  · rintro ((h | h) | h)
    · rw [h]
    · exact h
    · rw [unicodeToUpper_ascii x hx, unicodeToUpper_ascii y hy] at h
      rw [unicodeToLower_ascii x hx, unicodeToLower_ascii y hy, ← toLower_toUpper x,
        ← toLower_toUpper y, h]
  · intro h
    exact Or.inl (Or.inr h)

theorem ToLower_eq_iff [CaseTables] (a b : String) :
    ToLower a = ToLower b ↔
      List.Forall₂ (fun x y => unicodeToLower x = unicodeToLower y) a.data b.data := by
  unfold ToLower
  constructor
  · intro h
    exact (map_eq_map_iff_forall₂ unicodeToLower a.data b.data).1 (congrArg String.data h)
  · intro h
    exact congrArg String.mk ((map_eq_map_iff_forall₂ unicodeToLower a.data b.data).2 h)

/-- Strings with the same lower-case form are equal ignoring letter case. -/
theorem equalFold_of_ToLower [CaseTables] (a b : String) (h : ToLower a = ToLower b) :
    equalFold a b := by
  unfold equalFold
  refine List.Forall₂.imp ?_ ((ToLower_eq_iff a b).1 h)
  intro x y hxy
  unfold sameLetter
  simp only [Bool.or_eq_true, decide_eq_true_eq]
  exact Or.inl (Or.inr hxy)

/-- ASCII strings are equal ignoring letter case exactly when they have the
same lower-case form. -/
theorem equalFold_ascii [CaseTables] (a b : String) (ha : isASCII a = true)
    (hb : isASCII b = true) : ToLower a = ToLower b ↔ equalFold a b := by
  unfold isASCII at ha hb
  simp only [List.all_eq_true, decide_eq_true_eq] at ha hb
  rw [ToLower_eq_iff]
  unfold equalFold
  exact forall₂_congr_mem _ _ _ _
    (fun x hx y hy => (sameLetter_ascii x y (ha x hx) (hb y hy)).symm)

theorem shouldInclude_iff [CaseTables] (allowed : List String) (c : String) :
    shouldInclude allowed c = true ↔ allowed = [] ∨ ∃ r ∈ allowed, ToLower r = ToLower c := by
  unfold shouldInclude
  cases allowed with
  | nil => simp
  | cons a rest =>
    simp only [List.length_cons, Nat.add_one_ne_zero, if_false, List.any_eq_true,
      decide_eq_true_eq, false_or, reduceCtorEq]

/-- C15, amended: for every `Filters` value, in particular one built by
`NewFilters`, and every string, each of the three membership tests returns
true exactly when its own list is empty or some entry of that list has the
same lower-case form as the string. Such an entry equals the string ignoring
letter case, and between ASCII strings to have the same lower-case form is to
be equal ignoring letter case. An empty list excludes nothing, and a test does
not depend on the other two lists. -/
theorem ShouldInclude_iff [CaseTables] (f : Filters) (c : String) :
    (f.ShouldIncludeRatioCategory c = true ↔
        f.Ratios = [] ∨ ∃ r ∈ f.Ratios, ToLower r = ToLower c) ∧
      (f.ShouldIncludeSizeCategory c = true ↔
        f.Sizes = [] ∨ ∃ r ∈ f.Sizes, ToLower r = ToLower c) ∧
      (f.ShouldIncludeFormat c = true ↔
        f.Formats = [] ∨ ∃ r ∈ f.Formats, ToLower r = ToLower c) ∧
      (∀ r : String, ToLower r = ToLower c → equalFold r c) ∧
      (∀ r : String, isASCII r = true → isASCII c = true →
        (ToLower r = ToLower c ↔ equalFold r c)) ∧
      (∀ ratios sizes formats : List String,
        (NewFilters ratios sizes formats).Ratios = normalizeStrings ratios ∧
        (NewFilters ratios sizes formats).Sizes = normalizeStrings sizes ∧
        (NewFilters ratios sizes formats).Formats = normalizeStrings formats) ∧
      (∀ g : Filters,
        (g.Ratios = f.Ratios →
          g.ShouldIncludeRatioCategory c = f.ShouldIncludeRatioCategory c) ∧
        (g.Sizes = f.Sizes →
          g.ShouldIncludeSizeCategory c = f.ShouldIncludeSizeCategory c) ∧
        (g.Formats = f.Formats → g.ShouldIncludeFormat c = f.ShouldIncludeFormat c)) := by
  refine ⟨shouldInclude_iff f.Ratios c, shouldInclude_iff f.Sizes c,
    shouldInclude_iff f.Formats c, fun r h => equalFold_of_ToLower r c h,
    fun r hr hc => equalFold_ascii r c hr hc, fun _ _ _ => ⟨rfl, rfl, rfl⟩,
    fun g => ⟨?_, ?_, ?_⟩⟩
  · intro h
    unfold Filters.ShouldIncludeRatioCategory
    rw [h]
  · intro h
    unfold Filters.ShouldIncludeSizeCategory
    rw [h]
  · intro h
    unfold Filters.ShouldIncludeFormat
    rw [h]

/-- A witness of `ShouldInclude_iff`: the filters built from `Platform`, no
size and `JPEG`; and the filter `é`, which admits `É`. -/
theorem ShouldInclude_iff_witness :
    NewFilters [" Platform "] [" "] ["JPEG"] = ⟨["platform"], [], ["jpeg"]⟩ ∧
      (NewFilters [" Platform "] [" "] ["JPEG"]).ShouldIncludeRatioCategory "PLATFORM" = true ∧
      (NewFilters [" Platform "] [" "] ["JPEG"]).ShouldIncludeRatioCategory "common" = false ∧
      (NewFilters [" Platform "] [" "] ["JPEG"]).ShouldIncludeSizeCategory "large" = true ∧
      ((NewFilters [" Platform "] [" "] ["JPEG"]).Ratios = [] ∨
        ∃ r ∈ (NewFilters [" Platform "] [" "] ["JPEG"]).Ratios,
          ToLower r = ToLower "PLATFORM") ∧
      equalFold "platform" "PLATFORM" ∧
      (NewFilters [] [] ["é"]).ShouldIncludeFormat "É" = true :=
  ⟨by decide, by decide, by decide, by decide,
    (ShouldInclude_iff (NewFilters [" Platform "] [" "] ["JPEG"]) "PLATFORM").1.1 (by decide),
    (ShouldInclude_iff (NewFilters [" Platform "] [" "] ["JPEG"]) "PLATFORM").2.2.2.1
      "platform" (by decide), by decide⟩

/-- C15, counterexample: the filter entry `ſ` (`U+017F`, the long s) has the
upper case `S` and so equals `S` ignoring letter case, yet the format filter
built from it does not admit `S`: its lower case is `ſ` itself, that of `S` is
`s`. -/
theorem ShouldInclude_not_long_s :
    (NewFilters [] [] ["ſ"]).Formats = ["ſ"] ∧ ToUpper "ſ" = "S" ∧ equalFold "ſ" "S" ∧
      ToLower "ſ" = "ſ" ∧ ToLower "S" = "s" ∧
      (NewFilters [] [] ["ſ"]).ShouldIncludeFormat "S" = false :=
  ⟨by decide, by decide, List.Forall₂.cons (by decide) List.Forall₂.nil, by decide, by decide,
    by decide⟩

theorem foundKey_iff [CaseTables] (value : String) (keys : List String) :
    foundKey value keys = true ↔ ∃ k ∈ keys, ToLower k = value := by
  induction keys with
  | nil => simp [foundKey]
  | cons k rest ih =>
    simp only [foundKey, List.mem_cons, exists_eq_or_imp]
    by_cases h : ToLower k = value
    · simp [h]
    · simp [h, ih]

theorem validateEntries_failed [CaseTables] (what : String) (keys entries : List String) :
    failed (validateEntries what keys entries) = true ↔
      ∃ e ∈ entries, ∀ k ∈ keys, ToLower k ≠ ToLower e := by
  induction entries with
  | nil => simp [validateEntries]
  | cons e rest ih =>
    simp only [validateEntries, List.mem_cons, exists_eq_or_imp]
    by_cases h : foundKey (ToLower e) keys = true
    · rw [if_pos h, ih]
      obtain ⟨k, hk, hke⟩ := (foundKey_iff _ _).1 h
      have : ¬ ∀ k ∈ keys, ToLower k ≠ ToLower e := fun hall => hall k hk hke
      simp only [this, false_or]
    · rw [if_neg h]
      simp only [failed_error, true_iff]
      left
      intro k hk he
      exact h ((foundKey_iff _ _).2 ⟨k, hk, he⟩)

theorem validateEntries_nil [CaseTables] (what : String) (keys : List String) :
    validateEntries what keys [] = .ok () := rfl

/-- An entry matches no key by its lower-case form: stated on the entries of a
map. -/
theorem unmatched_iff [CaseTables] {V : Type} (entries : List String) (m : List (String × V)) :
    (∃ e ∈ entries, ∀ k ∈ m.map (fun p => p.1), ToLower k ≠ ToLower e) ↔
      ∃ e ∈ entries, ∀ p ∈ m, ToLower p.1 ≠ ToLower e := by
  simp only [List.mem_map, forall_exists_index, and_imp, forall_apply_eq_imp_iff₂]

/-- Among ASCII strings, an entry matches no key by its lower-case form
exactly when it equals no key ignoring letter case; in general the second
implies the first. -/
theorem unmatched_fold [CaseTables] {V : Type} (entries : List String) (m : List (String × V)) :
    ((∃ e ∈ entries, ∀ p ∈ m, ¬ equalFold e p.1) →
        ∃ e ∈ entries, ∀ p ∈ m, ToLower p.1 ≠ ToLower e) ∧
      ((∀ e ∈ entries, isASCII e = true) → (∀ p ∈ m, isASCII p.1 = true) →
        ((∃ e ∈ entries, ∀ p ∈ m, ToLower p.1 ≠ ToLower e) ↔
          ∃ e ∈ entries, ∀ p ∈ m, ¬ equalFold e p.1)) := by
  constructor
  · rintro ⟨e, he, h⟩
    exact ⟨e, he, fun p hp hl => h p hp (equalFold_of_ToLower e p.1 hl.symm)⟩
  · intro ha hb
    constructor
    · rintro ⟨e, he, h⟩
      exact ⟨e, he, fun p hp hf =>
        h p hp ((equalFold_ascii e p.1 (ha e he) (hb p hp)).2 hf).symm⟩
    · rintro ⟨e, he, h⟩
      exact ⟨e, he, fun p hp hl => h p hp (equalFold_of_ToLower e p.1 hl.symm)⟩

/-- C16, amended: `Filters.Validate` returns an error exactly when some entry
of `Ratios`, `Sizes` or `Formats` has a lower-case form that is the lower-case
form of no key of the presets, of the size categories or of the formats
respectively. An entry that equals no key ignoring letter case is such an
entry, and when the entries and the keys are ASCII strings the two conditions
are the same. With the three lists empty `Validate` succeeds. -/
theorem FiltersValidate_error_iff [CaseTables] (f : Filters) (cfg : Config) :
    (failed (f.Validate cfg) = true ↔
        (∃ e ∈ f.Ratios, ∀ p ∈ cfg.Presets, ToLower p.1 ≠ ToLower e) ∨
        (∃ e ∈ f.Sizes, ∀ s ∈ cfg.Sizes, ToLower s.1 ≠ ToLower e) ∨
        (∃ e ∈ f.Formats, ∀ x ∈ cfg.Formats, ToLower x.1 ≠ ToLower e)) ∧
      ((∃ e ∈ f.Ratios, ∀ p ∈ cfg.Presets, ¬ equalFold e p.1) ∨
        (∃ e ∈ f.Sizes, ∀ s ∈ cfg.Sizes, ¬ equalFold e s.1) ∨
        (∃ e ∈ f.Formats, ∀ x ∈ cfg.Formats, ¬ equalFold e x.1) →
          failed (f.Validate cfg) = true) ∧
      (asciiKeys f cfg →
        (failed (f.Validate cfg) = true ↔
          (∃ e ∈ f.Ratios, ∀ p ∈ cfg.Presets, ¬ equalFold e p.1) ∨
          (∃ e ∈ f.Sizes, ∀ s ∈ cfg.Sizes, ¬ equalFold e s.1) ∨
          (∃ e ∈ f.Formats, ∀ x ∈ cfg.Formats, ¬ equalFold e x.1))) ∧
      (f.Ratios = [] → f.Sizes = [] → f.Formats = [] → f.Validate cfg = .ok ()) := by
  have h1 := (validateEntries_failed "unknown ratio category: "
    (cfg.Presets.map (fun p => p.1)) f.Ratios).trans (unmatched_iff f.Ratios cfg.Presets)
  have h2 := (validateEntries_failed "unknown size category: "
    (cfg.Sizes.map (fun s => s.1)) f.Sizes).trans (unmatched_iff f.Sizes cfg.Sizes)
  have h3 := (validateEntries_failed "unknown format: "
    (cfg.Formats.map (fun x => x.1)) f.Formats).trans (unmatched_iff f.Formats cfg.Formats)
  have key : failed (f.Validate cfg) = true ↔
      (∃ e ∈ f.Ratios, ∀ p ∈ cfg.Presets, ToLower p.1 ≠ ToLower e) ∨
      (∃ e ∈ f.Sizes, ∀ s ∈ cfg.Sizes, ToLower s.1 ≠ ToLower e) ∨
      (∃ e ∈ f.Formats, ∀ x ∈ cfg.Formats, ToLower x.1 ≠ ToLower e) := by
    unfold Filters.Validate
    rw [← h1, ← h2, ← h3]
    cases validateEntries "unknown ratio category: " (cfg.Presets.map (fun p => p.1)) f.Ratios with
    | error e => simp
    | ok u =>
      cases validateEntries "unknown size category: " (cfg.Sizes.map (fun s => s.1)) f.Sizes with
      | error e => simp
      | ok u => simp
  refine ⟨key, ?_, ?_, ?_⟩
  · intro h
    rw [key]
    rcases h with h | h | h
    · exact Or.inl ((unmatched_fold f.Ratios cfg.Presets).1 h)
    · exact Or.inr (Or.inl ((unmatched_fold f.Sizes cfg.Sizes).1 h))
    · exact Or.inr (Or.inr ((unmatched_fold f.Formats cfg.Formats).1 h))
  · rintro ⟨a1, a2, a3, a4, a5, a6⟩
    rw [key, (unmatched_fold f.Ratios cfg.Presets).2 a1 a4,
      (unmatched_fold f.Sizes cfg.Sizes).2 a2 a5, (unmatched_fold f.Formats cfg.Formats).2 a3 a6]
  · intro hr hs hf
    unfold Filters.Validate
    rw [hr, hs, hf]
    rfl

/-- A witness of `FiltersValidate_error_iff`: the filter `PLATFORM` is known to
the configuration with the presets `platform` and `common`, the filter `edge`
is not. -/
theorem FiltersValidate_error_iff_witness :
    Filters.Validate ⟨["PLATFORM"], [], []⟩ twoPresetConfig = .ok () ∧
      Filters.Validate ⟨["platform", "Edge"], [], []⟩ twoPresetConfig =
        .error "unknown ratio category: edge" ∧
      (failed (Filters.Validate ⟨["platform", "Edge"], [], []⟩ twoPresetConfig) = true ↔
        (∃ e ∈ ["platform", "Edge"], ∀ p ∈ twoPresetConfig.Presets, ¬ equalFold e p.1) ∨
        (∃ e ∈ ([] : List String), ∀ s ∈ twoPresetConfig.Sizes, ¬ equalFold e s.1) ∨
        (∃ e ∈ ([] : List String), ∀ x ∈ twoPresetConfig.Formats, ¬ equalFold e x.1)) ∧
      Filters.Validate ⟨[], [], []⟩ twoPresetConfig = .ok () :=
  ⟨by decide, by decide,
    (FiltersValidate_error_iff ⟨["platform", "Edge"], [], []⟩ twoPresetConfig).2.2.1
      (by unfold asciiKeys; decide),
    (FiltersValidate_error_iff ⟨[], [], []⟩ twoPresetConfig).2.2.2 rfl rfl rfl⟩

/-- C16, counterexample: the filter entry `ſ` equals the format key `S`
ignoring letter case, yet `Validate` rejects it as an unknown format. -/
theorem FiltersValidate_rejects_long_s :
    equalFold "ſ" "S" ∧ capitalSConfig.Formats.map (fun x => x.1) = ["S"] ∧
      (NewFilters [] [] ["ſ"]) = ⟨[], [], ["ſ"]⟩ ∧
      Filters.Validate (NewFilters [] [] ["ſ"]) capitalSConfig =
        .error "unknown format: ſ" :=
  ⟨List.Forall₂.cons (by decide) List.Forall₂.nil, by decide, by decide, by decide⟩
/-! ## The size category, the quality and the ratio of a job -/

theorem maxDim_eq (w h : Int) : (if h > w then h else w) = max w h := by
  split <;> omega

theorem targetFormatSpecs_fields [CaseTables] (b : SpecBuilder) (n : String) (t : Target)
    (info : RatioInfo) (cat sc : String) (w h : Int) (f : String × Format) (x : ImageSpec)
    (hx : x ∈ targetFormatSpecs b n t info cat sc w h f) :
    x.SizeCategory = Title sc ∧ x.Quality = targetQuality f.2.Qualities ∧ x.Category = cat ∧
      x.Width = w ∧ x.Height = h := by
  unfold targetFormatSpecs at hx
  split at hx
  · simp at hx
  · simp only [List.mem_singleton] at hx
    rw [hx]
    exact ⟨rfl, rfl, rfl, rfl, rfl⟩

theorem edgeFormatSpecs_fields [CaseTables]
    (b : SpecBuilder) (e : EdgeCase) (rs : String) (rd : F64)
    (cat sc : String) (w h : Int) (f : String × Format) (x : ImageSpec)
    (hx : x ∈ edgeFormatSpecs b e rs rd cat sc w h f) :
    x.SizeCategory = Title sc ∧ x.Ratio = rs ∧ x.Category = cat ∧ x.Width = w ∧
      x.Height = h := by
  unfold edgeFormatSpecs at hx
  split at hx
  · simp at hx
  · split at hx
    · simp at hx
    · simp only [List.mem_singleton] at hx
      rw [hx]
      exact ⟨rfl, rfl, rfl, rfl, rfl⟩

/-- The jobs of a target with two dimensions: none, or the jobs of
`targetJobs`. -/
theorem targetSpecs_okList_dims [CaseTables] (b : SpecBuilder) (n : String) (t : Target) (w h : Int)
    (tl : List Int) (hd : t.Dimensions = w :: h :: tl) :
    okList (targetSpecs b n t) = [] ∨
      ∃ info, ParseRatio t.Ratio = .ok info ∧
        okList (targetSpecs b n t) = targetJobs b n t info w h := by
  cases hp : ParseRatio t.Ratio with
  | error e =>
    left
    unfold targetSpecs
    rw [hp]
    rfl
  | ok info =>
    right
    exact ⟨info, rfl, by rw [targetSpecs_ok b n t info w h tl hp hd]; rfl⟩

theorem targetJobs_mem [CaseTables] (b : SpecBuilder) (n : String) (t : Target) (info : RatioInfo)
    (w h : Int) (x : ImageSpec) (hx : x ∈ targetJobs b n t info w h) :
    b.Filters.ShouldIncludeSizeCategory (getSizeCategoryForDimension (max w h)) = true ∧
      ∃ f ∈ b.Config.Formats, x ∈ targetFormatSpecs b n t info
        (b.Config.GetCategoryForRatio t.Ratio) (getSizeCategoryForDimension (max w h)) w h f := by
  unfold targetJobs at hx
  rw [maxDim_eq] at hx
  by_cases h1 : (!b.Filters.ShouldIncludeRatioCategory
      (b.Config.GetCategoryForRatio t.Ratio)) = true
  · rw [if_pos h1] at hx
    simp at hx
  · rw [if_neg h1] at hx
    by_cases h2 : (!b.Filters.ShouldIncludeSizeCategory
        (getSizeCategoryForDimension (max w h))) = true
    · rw [if_pos h2] at hx
      simp at hx
    · rw [if_neg h2] at hx
      refine ⟨by simpa using h2, ?_⟩
      exact List.mem_flatMap.1 hx

theorem edgeJobs_mem [CaseTables] (b : SpecBuilder) (e : EdgeCase) (w h : Int) (x : ImageSpec)
    (hx : x ∈ edgeJobs b e w h) :
    b.Filters.ShouldIncludeSizeCategory (getSizeCategoryForDimension (max w h)) = true ∧
      ∃ f ∈ b.Config.Formats, x ∈ edgeFormatSpecs b e (edgeRatioStr w h)
        (F64.div (F64.ofInt w) (F64.ofInt h)) "edge"
        (getSizeCategoryForDimension (max w h)) w h f := by
  unfold edgeJobs at hx
  rw [maxDim_eq] at hx
  by_cases h1 : (!b.Filters.ShouldIncludeRatioCategory "edge") = true
  · rw [if_pos h1] at hx
    simp at hx
  · rw [if_neg h1] at hx
    by_cases h2 : (!b.Filters.ShouldIncludeSizeCategory
        (getSizeCategoryForDimension (max w h))) = true
    · rw [if_pos h2] at hx
      simp at hx
    · rw [if_neg h2] at hx
      refine ⟨by simpa using h2, ?_⟩
      exact List.mem_flatMap.1 hx

theorem edgeCaseSpecs_okList_dims [CaseTables] (b : SpecBuilder) (e : EdgeCase) (w h : Int)
    (tl : List Int) (hd : e.Dimensions = w :: h :: tl) :
    okList (edgeCaseSpecs b e) = edgeJobs b e w h := by
  rw [edgeCaseSpecs_ok b e w h tl hd]
  rfl

/-- C17: for every target and every edge case with dimensions `w` and `h`,
each emitted job carries the size category of `m = max w h` (in title case),
that category has passed the size filter, and the category is `tiny` for
`m ≤ 200`, `small` for `200 < m ≤ 800`, `medium` for `800 < m ≤ 1500`, `large`
for `1500 < m ≤ 3000` and `xlarge` above. -/
theorem sizeCategory_by_max [CaseTables] (b : SpecBuilder) (w h : Int) (tl : List Int) :
    (∀ (n : String) (t : Target), t.Dimensions = w :: h :: tl →
        ∀ x ∈ okList (targetSpecs b n t),
          x.SizeCategory = Title (getSizeCategoryForDimension (max w h)) ∧
          b.Filters.ShouldIncludeSizeCategory (getSizeCategoryForDimension (max w h)) =
            true) ∧
      (∀ e : EdgeCase, e.Dimensions = w :: h :: tl →
        ∀ x ∈ okList (edgeCaseSpecs b e),
          x.SizeCategory = Title (getSizeCategoryForDimension (max w h)) ∧
          b.Filters.ShouldIncludeSizeCategory (getSizeCategoryForDimension (max w h)) =
            true) ∧
      (max w h ≤ 200 → getSizeCategoryForDimension (max w h) = "tiny") ∧
      (200 < max w h → max w h ≤ 800 → getSizeCategoryForDimension (max w h) = "small") ∧
      (800 < max w h → max w h ≤ 1500 →
        getSizeCategoryForDimension (max w h) = "medium") ∧
      (1500 < max w h → max w h ≤ 3000 →
        getSizeCategoryForDimension (max w h) = "large") ∧
      (3000 < max w h → getSizeCategoryForDimension (max w h) = "xlarge") := by
  refine ⟨?_, ?_, ?_, ?_, ?_, ?_, ?_⟩
  · intro n t hd x hx
    rcases targetSpecs_okList_dims b n t w h tl hd with h0 | ⟨info, -, hk⟩
    · rw [h0] at hx
      simp at hx
    · rw [hk] at hx
      obtain ⟨hf, f, -, hxf⟩ := targetJobs_mem b n t info w h x hx
      exact ⟨(targetFormatSpecs_fields _ _ _ _ _ _ _ _ _ _ hxf).1, hf⟩
  · intro e hd x hx
    rw [edgeCaseSpecs_okList_dims b e w h tl hd] at hx
    obtain ⟨hf, f, -, hxf⟩ := edgeJobs_mem b e w h x hx
    exact ⟨(edgeFormatSpecs_fields _ _ _ _ _ _ _ _ _ _ hxf).1, hf⟩
  · intro h1
    unfold getSizeCategoryForDimension
    rw [if_pos h1]
  · intro h1 h2
    unfold getSizeCategoryForDimension
    rw [if_neg (by omega), if_pos h2]
  · intro h1 h2
    unfold getSizeCategoryForDimension
    rw [if_neg (by omega), if_neg (by omega), if_pos h2]
  · intro h1 h2
    unfold getSizeCategoryForDimension
    rw [if_neg (by omega), if_neg (by omega), if_neg (by omega), if_pos h2]
  · intro h1
    unfold getSizeCategoryForDimension
    rw [if_neg (by omega), if_neg (by omega), if_neg (by omega), if_neg (by omega)]

/-- A witness of `sizeCategory_by_max`: the target of 1200 by 628 pixels is
`medium`; the dimension 3500 is `xlarge`. -/
theorem sizeCategory_by_max_witness :
    (okList (targetSpecs ⟨sizedConfig, noFilters, "out"⟩ "LI_1_91_1"
        ⟨"LinkedIn", [1200, 628], "1.91:1", ""⟩)).map (fun x => x.SizeCategory) = ["Medium"] ∧
      getSizeCategoryForDimension (max 1200 628) = "medium" ∧
      getSizeCategoryForDimension 1200 = "medium" ∧
      getSizeCategoryForDimension 3500 = "xlarge" :=
  ⟨by decide,
    (sizeCategory_by_max ⟨sizedConfig, noFilters, "out"⟩ 1200 628 []).2.2.2.2.1
      (by decide) (by decide),
    by decide, by decide⟩

/-! ## `GetCategoryForRatio` -/

/-- C20: `GetCategoryForRatio` returns `edge` when no preset lists the exact
string; otherwise it returns the name of a preset that lists it; when the
presets that list it all bear one name, that name is the result. -/
theorem GetCategoryForRatio_spec (c : Config) (r : String) :
    ((∀ p ∈ c.Presets, r ∉ p.2.Ratios) → c.GetCategoryForRatio r = "edge") ∧
      ((∃ p ∈ c.Presets, r ∈ p.2.Ratios) →
        ∃ p ∈ c.Presets, r ∈ p.2.Ratios ∧ c.GetCategoryForRatio r = p.1) ∧
      (∀ p ∈ c.Presets, r ∈ p.2.Ratios →
        (∀ q ∈ c.Presets, r ∈ q.2.Ratios → q.1 = p.1) → c.GetCategoryForRatio r = p.1) := by
  have hsome : (∃ p ∈ c.Presets, r ∈ p.2.Ratios) →
      ∃ p ∈ c.Presets, r ∈ p.2.Ratios ∧ c.GetCategoryForRatio r = p.1 := by
    rintro ⟨p, hp, hr⟩
    unfold Config.GetCategoryForRatio
    cases hf : c.Presets.find? (fun p => p.2.Ratios.contains r) with
    | none =>
      rw [List.find?_eq_none] at hf
      have := hf p hp
      simp only [List.contains_eq_any_beq, List.any_eq_true, beq_iff_eq, not_exists,
        not_and] at this
      exact absurd rfl (this r hr)
    | some q =>
      have hq := List.find?_some hf
      have hmem := List.mem_of_find?_eq_some hf
      simp only [List.contains_eq_any_beq, List.any_eq_true, beq_iff_eq] at hq
      obtain ⟨y, hy, hyr⟩ := hq
      exact ⟨q, hmem, by rw [hyr]; exact hy, rfl⟩
  refine ⟨?_, hsome, ?_⟩
  · intro hnone
    unfold Config.GetCategoryForRatio
    have : c.Presets.find? (fun p => p.2.Ratios.contains r) = none := by
      rw [List.find?_eq_none]
      intro p hp
      simp only [List.contains_eq_any_beq, List.any_eq_true, beq_iff_eq, not_exists, not_and]
      intro y hy hyr
      exact hnone p hp (by rw [← hyr] at hy; exact hy)
    rw [this]
  · intro p hp hr huniq
    obtain ⟨q, hq, hqr, hres⟩ := hsome ⟨p, hp, hr⟩
    rw [hres]
    exact huniq q hq hqr

/-- A witness of `GetCategoryForRatio_spec`: the table of
`TestGetCategoryForRatio`. -/
theorem GetCategoryForRatio_spec_witness :
    twoPresetConfig.GetCategoryForRatio "2:3" = "platform" ∧
      twoPresetConfig.GetCategoryForRatio "4:5" = "platform" ∧
      twoPresetConfig.GetCategoryForRatio "16:9" = "common" ∧
      twoPresetConfig.GetCategoryForRatio "99:99" = "edge" :=
  ⟨by decide, by decide,
    (GetCategoryForRatio_spec twoPresetConfig "16:9").2.2 ("common", ⟨"", ["3:2", "16:9"]⟩)
      (by decide) (by decide) (by decide),
    (GetCategoryForRatio_spec twoPresetConfig "99:99").1 (by decide)⟩

/-! ## The quality of a target job -/

theorem abs_wrap_eq (q : Int) (h1 : -twoPow63 + 85 < q) (h2 : q < twoPow63) :
    abs (wrap64 (q - 85)) = (distance85 q : Int) := by
  unfold abs wrap64 distance85 twoPow63 at *
  split <;> omega

/-- The loop of `targetQuality` keeps the first entry at the least value of
`d`: `a` holds the entries seen before the current choice, `c` those seen
after it. -/
theorem foldl_first_min (d : Int → Int) (l a c : List Int) (best : Int)
    (ha : ∀ q ∈ a, d best < d q) (hc : ∀ q ∈ c, d best ≤ d q) :
    ∃ a' c',
      a ++ best :: c ++ l =
        a' ++ l.foldl (fun quality q => if d q < d quality then q else quality) best :: c' ∧
      (∀ q ∈ a',
        d (l.foldl (fun quality q => if d q < d quality then q else quality) best) < d q) ∧
      (∀ q ∈ c',
        d (l.foldl (fun quality q => if d q < d quality then q else quality) best) ≤ d q) := by
  induction l generalizing a c best with
  | nil => exact ⟨a, c, by simp, ha, hc⟩
  | cons q l ih =>
    simp only [List.foldl_cons]
    by_cases hq : d q < d best
    · rw [if_pos hq]
      obtain ⟨a', c', h1, h2, h3⟩ := ih (a ++ best :: c) [] q
        (by
          intro x hx
          simp only [List.mem_append, List.mem_cons] at hx
          rcases hx with hx | rfl | hx
          · exact lt_trans hq (ha x hx)
          · exact hq
          · exact lt_of_lt_of_le hq (hc x hx))
        (by simp)
      refine ⟨a', c', ?_, h2, h3⟩
      rw [← h1]
      simp
    · rw [if_neg hq]
      obtain ⟨a', c', h1, h2, h3⟩ := ih a (c ++ [q]) best ha
        (by
          intro x hx
          simp only [List.mem_append, List.mem_singleton] at hx
          rcases hx with hx | rfl
          · exact hc x hx
          · exact not_lt.1 hq)
      refine ⟨a', c', ?_, h2, h3⟩
      rw [← h1]
      simp

theorem targetQuality_cons (q0 : Int) (rest : List Int) :
    targetQuality (q0 :: rest) =
      rest.foldl (fun quality q =>
        if abs (wrap64 (q - 85)) < abs (wrap64 (quality - 85)) then q else quality) q0 := by
  unfold targetQuality
  simp only [List.foldl_cons, lt_self_iff_false, if_false]

theorem targetQuality_first_min (qs : List Int) (hne : qs ≠ []) :
    ∃ pre post, qs = pre ++ targetQuality qs :: post ∧
      (∀ q ∈ pre, abs (wrap64 (targetQuality qs - 85)) < abs (wrap64 (q - 85))) ∧
      (∀ q ∈ post, abs (wrap64 (targetQuality qs - 85)) ≤ abs (wrap64 (q - 85))) := by
  cases qs with
  | nil => exact absurd rfl hne
  | cons q0 rest =>
    rw [targetQuality_cons]
    obtain ⟨a', c', h1, h2, h3⟩ := foldl_first_min (fun q => abs (wrap64 (q - 85))) rest [] [] q0
      (by simp) (by simp)
    exact ⟨a', c', by simpa using h1, h2, h3⟩

/-- Where the distance to 85 is computed without overflow: for a format
without qualities the quality of a platform-target job is 85; for a non-empty
quality list whose entries `q` all satisfy `-2^63 + 85 < q < 2^63`, it is an
entry of the list at the least distance from 85, and the first such entry:
every entry before it is strictly farther from 85, every entry after it at
least as far. -/
theorem targetQuality_closest [CaseTables] (qs : List Int) :
    (qs = [] → targetQuality qs = 85) ∧
      (qs ≠ [] → qualitiesInRange qs →
        ∃ pre post, qs = pre ++ targetQuality qs :: post ∧
          (∀ q ∈ pre, distance85 (targetQuality qs) < distance85 q) ∧
          (∀ q ∈ post, distance85 (targetQuality qs) ≤ distance85 q)) ∧
      (∀ (b : SpecBuilder) (n : String) (t : Target) (info : RatioInfo) (cat sc : String)
          (w h : Int) (f : String × Format), f.2.Qualities = qs →
        ∀ x ∈ targetFormatSpecs b n t info cat sc w h f, x.Quality = targetQuality qs) := by
  refine ⟨?_, ?_, ?_⟩
  · intro h
    rw [h]
    rfl
  · intro hne hr
    obtain ⟨pre, post, h1, h2, h3⟩ := targetQuality_first_min qs hne
    have hmem : ∀ q, q ∈ pre ∨ q = targetQuality qs ∨ q ∈ post → q ∈ qs := by
      intro q hq
      rw [h1]
      simp only [List.mem_append, List.mem_cons]
      exact hq
    have hd : ∀ q, q ∈ qs → abs (wrap64 (q - 85)) = (distance85 q : Int) :=
      fun q hq => abs_wrap_eq q (hr q hq).1 (hr q hq).2
    have hbest := hd (targetQuality qs) (hmem _ (Or.inr (Or.inl rfl)))
    refine ⟨pre, post, h1, ?_, ?_⟩
    · intro q hq
      have := h2 q hq
      rw [hbest, hd q (hmem q (Or.inl hq))] at this
      exact_mod_cast this
    · intro q hq
      have := h3 q hq
      rw [hbest, hd q (hmem q (Or.inr (Or.inr hq)))] at this
      exact_mod_cast this
  · intro b n t info cat sc w h f hf x hx
    rw [← hf]
    exact (targetFormatSpecs_fields b n t info cat sc w h f x hx).2.1

/-- A witness of `targetQuality_closest`: the qualities 60, 82 and 95 give 82. -/
theorem targetQuality_closest_witness :
    targetQuality [60, 82, 95] = 82 ∧
      (okList (targetSpecs ⟨sizedConfig, noFilters, "out"⟩ "LI_1_91_1"
        ⟨"LinkedIn", [1200, 628], "1.91:1", ""⟩)).map (fun x => x.Quality) = [82] ∧
      ∃ pre post, [60, 82, 95] = pre ++ targetQuality [60, 82, 95] :: post ∧
        (∀ q ∈ pre, distance85 (targetQuality [60, 82, 95]) < distance85 q) ∧
        (∀ q ∈ post, distance85 (targetQuality [60, 82, 95]) ≤ distance85 q) :=
  ⟨by decide, by decide,
    (targetQuality_closest [60, 82, 95]).2.1 (by decide)
      (by unfold qualitiesInRange; decide)⟩

/-- C18 fails in the code: for the qualities 0 and `-2^63 + 85` the second is
chosen, at the distance `2^63` from 85, while 0 is at the distance 85. The
difference `q - 85` is the least `int`, which `abs` returns unchanged, a
negative number, against its own description (the absolute value of an
integer) and against the comment of the loop (find closest to 85). -/
theorem targetQuality_overflow :
    targetQuality [0, -9223372036854775723] = -9223372036854775723 ∧
      abs (wrap64 (-9223372036854775723 - 85)) = -9223372036854775808 ∧
      distance85 0 = 85 ∧ distance85 (-9223372036854775723) = 9223372036854775808 :=
  ⟨by decide, by decide, by decide, by decide⟩

/-! ## The ratio of an edge case -/

/-- With at least `b` rounds the loop of `gcd` ends, on the greatest common
divisor. -/
theorem gcdLoop_eq (fuel a b : Nat) (h : b ≤ fuel) :
    gcdLoop fuel (a : Int) (b : Int) = ((Nat.gcd a b : Nat) : Int) := by
  induction fuel generalizing a b with
  | zero =>
    have hb : b = 0 := by omega
    subst hb
    simp [gcdLoop]
  | succ n ih =>
    unfold gcdLoop
    by_cases hb : b = 0
    · subst hb
      simp
    · have hb' : ((b : Int) ≠ 0) := by exact_mod_cast hb
      rw [if_pos hb', ← Int.ofNat_tmod]
      have hlt : a % b < b := Nat.mod_lt a (Nat.pos_of_ne_zero hb)
      rw [ih b (a % b) (by omega)]
      congr 1
      rw [Nat.gcd_comm a b, Nat.gcd_rec b a, Nat.gcd_comm]

theorem gcdLoop_pos (fuel : Nat) (w h : Int) (hw : 0 < w) (hh : 0 < h)
    (hf : h.natAbs ≤ fuel) : gcdLoop fuel w h = (Int.gcd w h : Int) := by
  lift w to Nat using (le_of_lt hw)
  lift h to Nat using (le_of_lt hh)
  rw [gcdLoop_eq fuel w h (by simpa using hf)]
  rfl

theorem gcd_pos_eq (w h : Int) (hw : 0 < w) (hh : 0 < h) :
    gcd w h = (Int.gcd w h : Int) := by
  unfold gcd
  exact gcdLoop_pos _ w h hw hh le_rfl

theorem edgeRatioStr_pos (w h : Int) (hw : 0 < w) (hh : 0 < h) :
    edgeRatioStr w h = Itoa (w / gcd w h) ++ ":" ++ Itoa (h / gcd w h) := by
  have hg : gcd w h = (Int.gcd w h : Int) := gcd_pos_eq w h hw hh
  have hgpos : 0 < Int.gcd w h := Int.gcd_pos_of_ne_zero_left h (by omega)
  unfold edgeRatioStr
  dsimp only
  rw [hg]
  by_cases h1 : ((Int.gcd w h : Int)) > 1
  · rw [if_pos h1, Int.tdiv_eq_ediv (le_of_lt hw) (by omega),
      Int.tdiv_eq_ediv (le_of_lt hh) (by omega)]
  · rw [if_neg h1]
    have : (Int.gcd w h : Int) = 1 := by omega
    rw [this, Int.ediv_one, Int.ediv_one]

/-- C19: for every edge case with positive dimensions `w` and `h`, the loop of
`gcd` ends (every number of rounds from `h` on gives the same result) with the
greatest common divisor `g`; the ratio string of each emitted job is `a:b`
with `a = w / g` and `b = h / g`, which are coprime and satisfy
`a * h = b * w`. -/
theorem edgeRatio_reduced [CaseTables] (w h : Int) (hw : 0 < w) (hh : 0 < h) :
    (∀ fuel : Nat, h.natAbs ≤ fuel → gcdLoop fuel w h = (Int.gcd w h : Int)) ∧
      gcd w h = (Int.gcd w h : Int) ∧
      edgeRatioStr w h = Itoa (w / gcd w h) ++ ":" ++ Itoa (h / gcd w h) ∧
      Int.gcd (w / gcd w h) (h / gcd w h) = 1 ∧
      w / gcd w h * h = h / gcd w h * w ∧
      (∀ (b : SpecBuilder) (e : EdgeCase) (tl : List Int), e.Dimensions = w :: h :: tl →
        ∀ x ∈ okList (edgeCaseSpecs b e),
          x.Ratio = Itoa (w / gcd w h) ++ ":" ++ Itoa (h / gcd w h)) := by
  have hg : gcd w h = (Int.gcd w h : Int) := gcd_pos_eq w h hw hh
  have hgpos : 0 < Int.gcd w h := Int.gcd_pos_of_ne_zero_left h (by omega)
  refine ⟨fun fuel hf => gcdLoop_pos fuel w h hw hh hf, hg, edgeRatioStr_pos w h hw hh, ?_, ?_,
    ?_⟩
  · rw [hg]
    exact Int.gcd_div_gcd_div_gcd hgpos
  · rw [hg]
    have e1 : w / (Int.gcd w h : Int) * (Int.gcd w h : Int) = w :=
      Int.ediv_mul_cancel Int.gcd_dvd_left
    have e2 : h / (Int.gcd w h : Int) * (Int.gcd w h : Int) = h :=
      Int.ediv_mul_cancel Int.gcd_dvd_right
    generalize (Int.gcd w h : Int) = g at e1 e2 ⊢
    calc w / g * h = w / g * (h / g * g) := by rw [e2]
      _ = h / g * (w / g * g) := by ring
      _ = h / g * w := by rw [e1]
  · intro b e tl hd x hx
    rw [edgeCaseSpecs_okList_dims b e w h tl hd] at hx
    obtain ⟨-, f, -, hxf⟩ := edgeJobs_mem b e w h x hx
    rw [(edgeFormatSpecs_fields _ _ _ _ _ _ _ _ _ _ hxf).2.1]
    exact edgeRatioStr_pos w h hw hh

/-- A witness of `edgeRatio_reduced`: the edge case of 1024 by 768 pixels has
the ratio `4:3`. -/
theorem edgeRatio_reduced_witness :
    gcd 1024 768 = 256 ∧ edgeRatioStr 1024 768 = "4:3" ∧
      (okList (edgeCaseSpecs ⟨sizedConfig, noFilters, "out"⟩ ⟨"xga", [1024, 768], ""⟩)).map
        (fun x => x.Ratio) = ["4:3"] ∧
      edgeRatioStr 1024 768 = Itoa (1024 / gcd 1024 768) ++ ":" ++ Itoa (768 / gcd 1024 768) :=
  ⟨by decide, by decide, by decide,
    (edgeRatio_reduced 1024 768 (by decide) (by decide)).2.2.1⟩

/-! ## The jobs of the ratio sweep, triple by triple -/

theorem flatMap_eq_nil_of_forall {α β : Type} (l : List α) (f : α → List β)
    (h : ∀ x ∈ l, f x = []) : l.flatMap f = [] := by
  induction l with
  | nil => rfl
  | cons x xs ih =>
    rw [List.flatMap_cons, h x (by simp), ih (fun y hy => h y (by simp [hy]))]
    rfl

theorem flatMap_congr_mem {α β : Type} (l : List α) (f g : α → List β)
    (h : ∀ x ∈ l, f x = g x) : l.flatMap f = l.flatMap g := by
  induction l with
  | nil => rfl
  | cons x xs ih =>
    rw [List.flatMap_cons, List.flatMap_cons, h x (by simp),
      ih (fun y hy => h y (by simp [hy]))]

theorem flatMap_ite_filter {α β : Type} (l : List α) (p : α → Bool) (f : α → List β) :
    l.flatMap (fun x => if p x = true then f x else []) = (l.filter p).flatMap f := by
  induction l with
  | nil => rfl
  | cons x xs ih =>
    rw [List.flatMap_cons, ih]
    by_cases hp : p x = true
    · rw [if_pos hp, List.filter_cons_of_pos hp, List.flatMap_cons]
    · rw [if_neg hp, List.filter_cons_of_neg hp]
      rfl

theorem tripleJobs_of_ok [CaseTables] (b : SpecBuilder) (n r : String) (info : RatioInfo)
    (s : String × SizeConfig) (f : String × Format) (bs0 q0 : Int) (bsr qr : List Int)
    (hp : ParseRatio r = .ok info) (hb : s.2.BaseSizes = bs0 :: bsr)
    (hq : f.2.Qualities = q0 :: qr) :
    tripleJobs b n r s f =
      if b.Filters.ShouldIncludeSizeCategory s.1 = true ∧
          b.Filters.ShouldIncludeFormat f.1 = true
      then [ratioJob b n r info s f bs0 q0] else [] := by
  unfold tripleJobs
  rw [hp, hb, hq]

theorem tripleJobs_no_parse [CaseTables] (b : SpecBuilder) (n r : String) (s : String × SizeConfig)
    (f : String × Format) (e : String) (hp : ParseRatio r = .error e) :
    tripleJobs b n r s f = [] := by
  unfold tripleJobs
  rw [hp]

theorem tripleJobs_no_base [CaseTables] (b : SpecBuilder) (n r : String) (s : String × SizeConfig)
    (f : String × Format) (hb : s.2.BaseSizes = []) : tripleJobs b n r s f = [] := by
  unfold tripleJobs
  rw [hb]
  split <;> simp_all

theorem tripleJobs_no_quality [CaseTables]
    (b : SpecBuilder) (n r : String) (s : String × SizeConfig)
    (f : String × Format) (hq : f.2.Qualities = []) : tripleJobs b n r s f = [] := by
  unfold tripleJobs
  rw [hq]
  split <;> simp_all

theorem tripleJobs_filtered [CaseTables] (b : SpecBuilder) (n r : String) (s : String × SizeConfig)
    (f : String × Format)
    (hf : ¬ (b.Filters.ShouldIncludeSizeCategory s.1 = true ∧
      b.Filters.ShouldIncludeFormat f.1 = true)) : tripleJobs b n r s f = [] := by
  unfold tripleJobs
  split
  · rw [if_neg hf]
  · rfl

theorem ratioFormatSpecs_eq_triple [CaseTables] (b : SpecBuilder) (n r : String) (info : RatioInfo)
    (s : String × SizeConfig) (f : String × Format) (bs0 : Int) (bsr : List Int)
    (hp : ParseRatio r = .ok info) (hb : s.2.BaseSizes = bs0 :: bsr)
    (hs : b.Filters.ShouldIncludeSizeCategory s.1 = true) :
    ratioFormatSpecs b n r info s.1 (CalculateDimensions info bs0).1
      (CalculateDimensions info bs0).2 f = tripleJobs b n r s f := by
  unfold ratioFormatSpecs
  by_cases hf : b.Filters.ShouldIncludeFormat f.1 = true
  · have h1 : ¬ ((!b.Filters.ShouldIncludeFormat f.1) = true) := by simp [hf]
    rw [if_neg h1]
    cases hq : f.2.Qualities with
    | nil => rw [tripleJobs_no_quality b n r s f hq]
    | cons q0 qr =>
      rw [tripleJobs_of_ok b n r info s f bs0 q0 bsr qr hp hb hq, if_pos ⟨hs, hf⟩]
      rfl
  · have h1 : (!b.Filters.ShouldIncludeFormat f.1) = true := by simpa using hf
    rw [if_pos h1, tripleJobs_filtered b n r s f (fun h => hf h.2)]

theorem ratioSizeSpecs_eq_triples [CaseTables] (b : SpecBuilder) (n r : String) (info : RatioInfo)
    (s : String × SizeConfig) (hp : ParseRatio r = .ok info) :
    ratioSizeSpecs b n r info s = b.Config.Formats.flatMap (tripleJobs b n r s) := by
  unfold ratioSizeSpecs
  by_cases hs : b.Filters.ShouldIncludeSizeCategory s.1 = true
  · have h1 : ¬ ((!b.Filters.ShouldIncludeSizeCategory s.1) = true) := by simp [hs]
    rw [if_neg h1]
    cases hb : s.2.BaseSizes with
    | nil =>
      rw [flatMap_eq_nil_of_forall _ _ (fun f _ => tripleJobs_no_base b n r s f hb)]
    | cons bs0 bsr =>
      dsimp only
      exact flatMap_congr_mem _ _ _
        (fun f _ => ratioFormatSpecs_eq_triple b n r info s f bs0 bsr hp hb hs)
  · have h1 : (!b.Filters.ShouldIncludeSizeCategory s.1) = true := by simpa using hs
    rw [if_pos h1,
      flatMap_eq_nil_of_forall _ _ (fun f _ => tripleJobs_filtered b n r s f (fun h => hs h.1))]

theorem ratioStep_eq_triples [CaseTables] (b : SpecBuilder) (n r : String) :
    okList (ratioStep b n r) =
      b.Config.Sizes.flatMap (fun s => b.Config.Formats.flatMap (tripleJobs b n r s)) := by
  unfold ratioStep
  cases hp : ParseRatio r with
  | error e =>
    symm
    apply flatMap_eq_nil_of_forall
    intro s _
    exact flatMap_eq_nil_of_forall _ _ (fun f _ => tripleJobs_no_parse b n r s f e hp)
  | ok info =>
    show ratioSpecs b n r info = _
    unfold ratioSpecs
    exact flatMap_congr_mem _ _ _ (fun s _ => ratioSizeSpecs_eq_triples b n r info s hp)

theorem okList_collectSpecs_of_ok {α : Type} (f : α → Except Failure (List ImageSpec))
    (l : List α) (h : failed (collectSpecs f l) = false) :
    okList (collectSpecs f l) = l.flatMap (fun x => okList (f x)) ∧
      ∀ x ∈ l, failed (f x) = false := by
  have hall : ∀ x ∈ l, failed (f x) = false := by
    intro x hx
    cases hfx : failed (f x) with
    | false => rfl
    | true =>
      have hc : failed (collectSpecs f l) = true := (collectSpecs_failed f l).2 ⟨x, hx, hfx⟩
      rw [h] at hc
      simp at hc
  refine ⟨?_, hall⟩
  rw [collectSpecs_ok f l hall]
  rfl

theorem presetStep_eq_triples [CaseTables] (b : SpecBuilder) (p : String × Preset)
    (h : failed (presetStep b p) = false) :
    okList (presetStep b p) =
      if b.Filters.ShouldIncludeRatioCategory p.1 = true
      then p.2.Ratios.flatMap (fun r =>
        b.Config.Sizes.flatMap (fun s => b.Config.Formats.flatMap (tripleJobs b p.1 r s)))
      else [] := by
  unfold presetStep at h ⊢
  by_cases hi : b.Filters.ShouldIncludeRatioCategory p.1 = true
  · have h1 : ¬ ((!b.Filters.ShouldIncludeRatioCategory p.1) = true) := by simp [hi]
    rw [if_neg h1] at h ⊢
    rw [if_pos hi, (okList_collectSpecs_of_ok _ _ h).1]
    exact flatMap_congr_mem _ _ _ (fun r _ => ratioStep_eq_triples b p.1 r)
  · have h1 : (!b.Filters.ShouldIncludeRatioCategory p.1) = true := by simpa using hi
    rw [if_pos h1, if_neg hi]
    rfl

/-- The list of the ratio sweep: the jobs of the triples, in the order of the
loops. -/
theorem buildRatioSpecs_eq_triples [CaseTables] (b : SpecBuilder) (specs : List ImageSpec)
    (h : b.buildRatioSpecs = .ok specs) :
    specs =
      (b.Config.Presets.filter (fun p => b.Filters.ShouldIncludeRatioCategory p.1)).flatMap
        (fun p => p.2.Ratios.flatMap (fun r =>
          b.Config.Sizes.flatMap (fun s =>
            b.Config.Formats.flatMap (tripleJobs b p.1 r s)))) := by
  unfold SpecBuilder.buildRatioSpecs at h
  rw [buildRatioLoop_eq] at h
  have hf : failed (collectSpecs (presetStep b) b.Config.Presets) = false := by rw [h]; rfl
  obtain ⟨h1, h2⟩ := okList_collectSpecs_of_ok _ _ hf
  rw [h] at h1
  have h3 : specs = b.Config.Presets.flatMap (fun x => okList (presetStep b x)) := h1
  rw [h3, ← flatMap_ite_filter]
  exact flatMap_congr_mem _ _ _ (fun p hp => presetStep_eq_triples b p (h2 p hp))

theorem tripleJobs_length_le [CaseTables] (b : SpecBuilder) (n r : String) (s : String × SizeConfig)
    (f : String × Format) : (tripleJobs b n r s f).length ≤ 1 := by
  unfold tripleJobs
  split
  · split <;> simp
  · simp

/-- C21, amended: the list of the ratio sweep is made of the jobs of the
triples (ratio string, size category, format), in the order of the loops over
the presets that pass the ratio filter. A triple gives at most one job; it
gives exactly one when the ratio parses, the size category lists a base size,
the format lists a quality and both pass their filters. That job has the
dimensions `CalculateDimensions` of the parsed ratio and the first base size,
the first quality of the format, the file name
`<s>_<W>x<H>_<f>_q<quality><ext>` with the size and format names in lower
case, and the output path `Join(base, "ratios", display token, file name)`;
when the ratio string, the names and the extension hold no separator, the
components of the path after those of the base directory are `ratios`, the
display token and the file name. -/
theorem buildRatioSpecs_triples [CaseTables] (b : SpecBuilder) (specs : List ImageSpec)
    (h : b.buildRatioSpecs = .ok specs) :
    specs =
        (b.Config.Presets.filter (fun p => b.Filters.ShouldIncludeRatioCategory p.1)).flatMap
          (fun p => p.2.Ratios.flatMap (fun r =>
            b.Config.Sizes.flatMap (fun s =>
              b.Config.Formats.flatMap (tripleJobs b p.1 r s)))) ∧
      (∀ (n r : String) (s : String × SizeConfig) (f : String × Format),
        (tripleJobs b n r s f).length ≤ 1) ∧
      (∀ (n r : String) (info : RatioInfo) (s : String × SizeConfig) (f : String × Format)
          (bs0 q0 : Int) (bsr qr : List Int),
        ParseRatio r = .ok info → s.2.BaseSizes = bs0 :: bsr → f.2.Qualities = q0 :: qr →
        b.Filters.ShouldIncludeSizeCategory s.1 = true →
        b.Filters.ShouldIncludeFormat f.1 = true →
        ∃ x, tripleJobs b n r s f = [x] ∧
          (x.Width, x.Height) = CalculateDimensions info bs0 ∧ x.Quality = q0 ∧
          x.Filename = fileName (ToLower s.1) x.Width x.Height f.1 q0 f.2.Extension ∧
          x.OutputPath = Join [b.BaseDir, "ratios", info.DisplayName, x.Filename] ∧
          (freeOf '/' r.data → freeOf '/' s.1.data → freeOf '/' f.1.data →
            freeOf '/' f.2.Extension.data →
            splitOnChar '/' x.OutputPath.data =
              pathPrefix b.BaseDir ++
                ["ratios".data, info.DisplayName.data, x.Filename.data])) := by
  refine ⟨buildRatioSpecs_eq_triples b specs h, tripleJobs_length_le b, ?_⟩
  intro n r info s f bs0 q0 bsr qr hp hb hq hs hf
  refine ⟨ratioJob b n r info s f bs0 q0, ?_, rfl, rfl, rfl, rfl, ?_⟩
  · rw [tripleJobs_of_ok b n r info s f bs0 q0 bsr qr hp hb hq, if_pos ⟨hs, hf⟩]
  · intro h1 h2 h3 h4
    exact ratioPath_split b info.DisplayName (ToLower s.1) f _ _ q0
      (displayName_normal r info hp h1).2 (lower_plain _ h2) h3 h4

/-- A witness of `buildRatioSpecs_triples`: the two ratios of
`distinctNamesConfig`. -/
theorem buildRatioSpecs_triples_witness :
    (SpecBuilder.buildRatioSpecs ⟨distinctNamesConfig, noFilters, "out"⟩).map
        (fun l => l.map (fun x => (x.Width, x.Height, x.Quality, x.OutputPath))) =
      .ok [(100, 100, 85, "out/ratios/1-1/small_100x100_jpeg_q85.jpg"),
        (66, 100, 85, "out/ratios/2-3/small_66x100_jpeg_q85.jpg")] ∧
      okList (SpecBuilder.buildRatioSpecs ⟨distinctNamesConfig, noFilters, "out"⟩) =
        (distinctNamesConfig.Presets.filter
          (fun p => noFilters.ShouldIncludeRatioCategory p.1)).flatMap
          (fun p => p.2.Ratios.flatMap (fun r =>
            distinctNamesConfig.Sizes.flatMap (fun s =>
              distinctNamesConfig.Formats.flatMap
                (tripleJobs ⟨distinctNamesConfig, noFilters, "out"⟩ p.1 r s)))) :=
  ⟨by decide,
    (buildRatioSpecs_triples ⟨distinctNamesConfig, noFilters, "out"⟩ _ (by decide)).1⟩

/-- C21, counterexample: the directory of the ratio sweep is `ratios`, not
`ratio-preset`; and the triple of `1:1`, `small` and `png`, which passes the
filters, gives no job because `png` lists no quality. -/
theorem buildRatioSpecs_directory_and_skips :
    (SpecBuilder.buildRatioSpecs ⟨emptyQualityConfig, noFilters, "out"⟩).map
        (fun l => l.map (fun x => x.OutputPath)) =
      .ok ["out/ratios/1-1/small_100x100_jpeg_q85.jpg"] ∧
      "out/ratios/1-1/small_100x100_jpeg_q85.jpg" ≠
        "out/ratio-preset/1-1/small_100x100_jpeg_q85.jpg" ∧
      noFilters.ShouldIncludeRatioCategory "test" = true ∧
      noFilters.ShouldIncludeSizeCategory "small" = true ∧
      noFilters.ShouldIncludeFormat "png" = true ∧
      tripleJobs ⟨emptyQualityConfig, noFilters, "out"⟩ "test" "1:1" ("small", ⟨"", [100]⟩)
        ("png", ⟨[], "image/png", ".png"⟩) = [] :=
  ⟨by decide, by decide, by decide, by decide, by decide, by decide⟩

/-! ## Where a job comes from -/

theorem tripleJobs_mem [CaseTables] (b : SpecBuilder) (n r : String) (s : String × SizeConfig)
    (f : String × Format) (x : ImageSpec) (hx : x ∈ tripleJobs b n r s f) :
    ∃ info bs0 bsr q0 qr, ParseRatio r = .ok info ∧ s.2.BaseSizes = bs0 :: bsr ∧
      f.2.Qualities = q0 :: qr ∧ b.Filters.ShouldIncludeSizeCategory s.1 = true ∧
      b.Filters.ShouldIncludeFormat f.1 = true ∧ x = ratioJob b n r info s f bs0 q0 := by
  cases hp : ParseRatio r with
  | error e =>
    rw [tripleJobs_no_parse b n r s f e hp] at hx
    simp at hx
  | ok info =>
    cases hb : s.2.BaseSizes with
    | nil =>
      rw [tripleJobs_no_base b n r s f hb] at hx
      simp at hx
    | cons bs0 bsr =>
      cases hq : f.2.Qualities with
      | nil =>
        rw [tripleJobs_no_quality b n r s f hq] at hx
        simp at hx
      | cons q0 qr =>
        rw [tripleJobs_of_ok b n r info s f bs0 q0 bsr qr hp hb hq] at hx
        split at hx
        · rename_i hf
          simp only [List.mem_singleton] at hx
          exact ⟨info, bs0, bsr, q0, qr, rfl, rfl, rfl, hf.1, hf.2, hx⟩
        · simp at hx

/-- A job of the ratio sweep is the job of a preset, a ratio, a size category
and a format that pass the filters. -/
theorem buildRatioSpecs_mem [CaseTables] (b : SpecBuilder) (specs : List ImageSpec)
    (h : b.buildRatioSpecs = .ok specs) (x : ImageSpec) (hx : x ∈ specs) :
    ∃ p ∈ b.Config.Presets, b.Filters.ShouldIncludeRatioCategory p.1 = true ∧
      ∃ r ∈ p.2.Ratios, ∃ s ∈ b.Config.Sizes, ∃ f ∈ b.Config.Formats,
        ∃ info bs0 q0, ParseRatio r = .ok info ∧
          b.Filters.ShouldIncludeSizeCategory s.1 = true ∧
          b.Filters.ShouldIncludeFormat f.1 = true ∧
          x = ratioJob b p.1 r info s f bs0 q0 := by
  rw [buildRatioSpecs_eq_triples b specs h] at hx
  obtain ⟨p, hp, hx⟩ := List.mem_flatMap.1 hx
  obtain ⟨r, hr, hx⟩ := List.mem_flatMap.1 hx
  obtain ⟨s, hs, hx⟩ := List.mem_flatMap.1 hx
  obtain ⟨f, hf, hx⟩ := List.mem_flatMap.1 hx
  obtain ⟨info, bs0, bsr, q0, qr, h1, -, -, h4, h5, h6⟩ := tripleJobs_mem b p.1 r s f x hx
  rw [List.mem_filter] at hp
  exact ⟨p, hp.1, hp.2, r, hr, s, hs, f, hf, info, bs0, q0, h1, h4, h5, h6⟩

theorem targetFormatSpecs_format [CaseTables] (b : SpecBuilder) (n : String) (t : Target)
    (info : RatioInfo) (cat sc : String) (w h : Int) (f : String × Format) (x : ImageSpec)
    (hx : x ∈ targetFormatSpecs b n t info cat sc w h f) :
    x.Format = ToUpper f.1 ∧ b.Filters.ShouldIncludeFormat f.1 = true := by
  unfold targetFormatSpecs at hx
  by_cases hf : b.Filters.ShouldIncludeFormat f.1 = true
  · have h1 : ¬ ((!b.Filters.ShouldIncludeFormat f.1) = true) := by simp [hf]
    rw [if_neg h1] at hx
    simp only [List.mem_singleton] at hx
    rw [hx]
    exact ⟨rfl, hf⟩
  · have h1 : (!b.Filters.ShouldIncludeFormat f.1) = true := by simpa using hf
    rw [if_pos h1] at hx
    simp at hx

theorem edgeFormatSpecs_format [CaseTables]
    (b : SpecBuilder) (e : EdgeCase) (rs : String) (rd : F64)
    (cat sc : String) (w h : Int) (f : String × Format) (x : ImageSpec)
    (hx : x ∈ edgeFormatSpecs b e rs rd cat sc w h f) :
    x.Format = ToUpper f.1 ∧ b.Filters.ShouldIncludeFormat f.1 = true := by
  unfold edgeFormatSpecs at hx
  by_cases hf : b.Filters.ShouldIncludeFormat f.1 = true
  · have h1 : ¬ ((!b.Filters.ShouldIncludeFormat f.1) = true) := by simp [hf]
    rw [if_neg h1] at hx
    split at hx
    · simp at hx
    · simp only [List.mem_singleton] at hx
      rw [hx]
      exact ⟨rfl, hf⟩
  · have h1 : (!b.Filters.ShouldIncludeFormat f.1) = true := by simpa using hf
    rw [if_pos h1] at hx
    simp at hx

theorem targetJobs_category [CaseTables]
    (b : SpecBuilder) (n : String) (t : Target) (info : RatioInfo)
    (w h : Int) (x : ImageSpec) (hx : x ∈ targetJobs b n t info w h) :
    b.Filters.ShouldIncludeRatioCategory (b.Config.GetCategoryForRatio t.Ratio) = true := by
  unfold targetJobs at hx
  by_cases h1 : (!b.Filters.ShouldIncludeRatioCategory
      (b.Config.GetCategoryForRatio t.Ratio)) = true
  · rw [if_pos h1] at hx
    simp at hx
  · simpa using h1

theorem edgeJobs_category [CaseTables] (b : SpecBuilder) (e : EdgeCase) (w h : Int) (x : ImageSpec)
    (hx : x ∈ edgeJobs b e w h) : b.Filters.ShouldIncludeRatioCategory "edge" = true := by
  unfold edgeJobs at hx
  by_cases h1 : (!b.Filters.ShouldIncludeRatioCategory "edge") = true
  · rw [if_pos h1] at hx
    simp at hx
  · simpa using h1

/-- A job of the target sweep: its target, its two dimensions and its format,
with the three filters passed. -/
theorem buildTargetSpecs_mem [CaseTables] (b : SpecBuilder) (x : ImageSpec)
    (hx : x ∈ okList b.buildTargetSpecs) :
    ∃ t ∈ b.Config.Targets, ∃ w h tl, t.2.Dimensions = w :: h :: tl ∧
      x.Width = w ∧ x.Height = h ∧
      x.Category = b.Config.GetCategoryForRatio t.2.Ratio ∧
      b.Filters.ShouldIncludeRatioCategory x.Category = true ∧
      x.SizeCategory = Title (getSizeCategoryForDimension (max w h)) ∧
      b.Filters.ShouldIncludeSizeCategory (getSizeCategoryForDimension (max w h)) = true ∧
      ∃ f ∈ b.Config.Formats, x.Format = ToUpper f.1 ∧
        b.Filters.ShouldIncludeFormat f.1 = true := by
  unfold SpecBuilder.buildTargetSpecs at hx
  rw [buildTargetLoop_eq] at hx
  obtain ⟨t, ht, hxt⟩ := mem_okList_collectSpecs _ _ x hx
  by_cases hlen : 2 ≤ t.2.Dimensions.length
  · obtain ⟨w, h, tl, hd⟩ := two_le_length _ hlen
    rcases targetSpecs_okList_dims b t.1 t.2 w h tl hd with h0 | ⟨info, -, hk⟩
    · rw [h0] at hxt
      simp at hxt
    · rw [hk] at hxt
      obtain ⟨hsz, f, hf, hxf⟩ := targetJobs_mem b t.1 t.2 info w h x hxt
      obtain ⟨k1, -, k3, k4, k5⟩ := targetFormatSpecs_fields _ _ _ _ _ _ _ _ _ _ hxf
      obtain ⟨k6, k7⟩ := targetFormatSpecs_format _ _ _ _ _ _ _ _ _ _ hxf
      refine ⟨t, ht, w, h, tl, hd, k4, k5, k3, ?_, k1, hsz, f, hf, k6, k7⟩
      rw [k3]
      exact targetJobs_category b t.1 t.2 info w h x hxt
  · exfalso
    rcases targetSpecs_okList b t.1 t.2 with h0 | ⟨info, cat, sc, w, h, hk⟩
    · rw [h0] at hxt
      simp at hxt
    · cases hp : ParseRatio t.2.Ratio with
      | error e =>
        have : okList (targetSpecs b t.1 t.2) = [] := by
          unfold targetSpecs
          rw [hp]
          rfl
        rw [this] at hxt
        simp at hxt
      | ok info' =>
        have hs := targetSpecs_short b t.1 t.2 info' hp (by omega)
        rw [hs] at hxt
        split at hxt <;> simp [okList] at hxt

/-- A job of the edge-case sweep: its edge case, its two dimensions and its
format, with the three filters passed. -/
theorem buildEdgeCaseSpecs_mem [CaseTables] (b : SpecBuilder) (x : ImageSpec)
    (hx : x ∈ okList b.buildEdgeCaseSpecs) :
    ∃ e ∈ b.Config.EdgeCases, ∃ w h tl, e.Dimensions = w :: h :: tl ∧
      x.Width = w ∧ x.Height = h ∧ x.Category = "edge" ∧
      b.Filters.ShouldIncludeRatioCategory "edge" = true ∧
      x.SizeCategory = Title (getSizeCategoryForDimension (max w h)) ∧
      b.Filters.ShouldIncludeSizeCategory (getSizeCategoryForDimension (max w h)) = true ∧
      ∃ f ∈ b.Config.Formats, x.Format = ToUpper f.1 ∧
        b.Filters.ShouldIncludeFormat f.1 = true := by
  unfold SpecBuilder.buildEdgeCaseSpecs at hx
  rw [buildEdgeCaseLoop_eq] at hx
  obtain ⟨e, he, hxe⟩ := mem_okList_collectSpecs _ _ x hx
  by_cases hlen : 2 ≤ e.Dimensions.length
  · obtain ⟨w, h, tl, hd⟩ := two_le_length _ hlen
    rw [edgeCaseSpecs_okList_dims b e w h tl hd] at hxe
    obtain ⟨hsz, f, hf, hxf⟩ := edgeJobs_mem b e w h x hxe
    obtain ⟨k1, -, k3, k4, k5⟩ := edgeFormatSpecs_fields _ _ _ _ _ _ _ _ _ _ hxf
    obtain ⟨k6, k7⟩ := edgeFormatSpecs_format _ _ _ _ _ _ _ _ _ _ hxf
    exact ⟨e, he, w, h, tl, hd, k4, k5, k3, edgeJobs_category b e w h x hxe, k1, hsz, f, hf,
      k6, k7⟩
  · exfalso
    have hf := edgeCaseSpecs_short b e (by omega)
    cases hk : edgeCaseSpecs b e with
    | error err =>
      rw [hk] at hxe
      simp [okList] at hxe
    | ok l =>
      rw [hk] at hf
      simp at hf

theorem BuildSpecs_mem [CaseTables] (b : SpecBuilder) (specs : List ImageSpec)
    (h : b.BuildSpecs = .ok specs) (x : ImageSpec) (hx : x ∈ specs) :
    (∃ r, b.buildRatioSpecs = .ok r ∧ x ∈ r) ∨ x ∈ okList b.buildTargetSpecs ∨
      x ∈ okList b.buildEdgeCaseSpecs := by
  rw [BuildSpecs_ok_append b specs h] at hx
  simp only [List.mem_append] at hx
  obtain ⟨k1, -, -⟩ := BuildSpecs_sweeps_ok b (by rw [h]; rfl)
  obtain ⟨r, hr⟩ := failed_false_ok _ k1
  rcases hx with (hx | hx) | hx
  · left
    rw [hr] at hx
    exact ⟨r, hr, hx⟩
  · exact Or.inr (Or.inl hx)
  · exact Or.inr (Or.inr hx)

/-! ## Filter soundness -/

theorem toLower_ascii (c : Char) (h : c.toNat ≤ 127) : c.toLower.toNat ≤ 127 := by
  by_cases hr : 65 ≤ c.toNat ∧ c.toNat ≤ 90
  · have hc : Char.ofNat c.toNat = c := Char.ofNat_toNat c
    obtain ⟨h1, h2⟩ := hr
    generalize c.toNat = n at h1 h2 hc
    subst hc
    interval_cases n <;> decide
  · have : c.toLower = c := by
      unfold Char.toLower
      simp only
      rw [if_neg hr]
    rw [this]
    exact h

theorem toUpper_ascii (c : Char) (h : c.toNat ≤ 127) : c.toUpper.toNat ≤ 127 := by
  by_cases hr : 97 ≤ c.toNat ∧ c.toNat ≤ 122
  · have hc : Char.ofNat c.toNat = c := Char.ofNat_toNat c
    obtain ⟨h1, h2⟩ := hr
    generalize c.toNat = n at h1 h2 hc
    subst hc
    interval_cases n <;> decide
  · have : c.toUpper = c := by
      unfold Char.toUpper
      simp only
      rw [if_neg hr]
    rw [this]
    exact h

theorem titleLoop_toLower (l : List Char) (w : Bool) :
    (titleLoop l w).map Char.toLower = l.map Char.toLower := by
  induction l generalizing w with
  | nil => rfl
  | cons c cs ih =>
    simp only [titleLoop, List.map_cons, ih]
    cases w
    · simp only [Bool.false_eq_true, if_false, toLower_toUpper]
    · simp only [if_true, toLower_toLower]

theorem titleLoop_ascii (l : List Char) (w : Bool) (h : ∀ c ∈ l, c.toNat ≤ 127) :
    ∀ c ∈ titleLoop l w, c.toNat ≤ 127 := by
  induction l generalizing w with
  | nil => simp [titleLoop]
  | cons a as ih =>
    intro c hc
    simp only [titleLoop, List.mem_cons] at hc
    rcases hc with hc | hc
    · rw [hc]
      cases w
      · simp only [Bool.false_eq_true, if_false]
        exact toUpper_ascii a (h a (List.mem_cons_self _ _))
      · simp only [if_true]
        exact toLower_ascii a (h a (List.mem_cons_self _ _))
    · exact ih _ (fun c hc => h c (List.mem_cons_of_mem _ hc)) c hc

/-- On a list of ASCII runes `unicode.ToLower` is the ASCII lower case. -/
theorem map_unicodeToLower_ascii [CaseTables] (l : List Char) (h : ∀ c ∈ l, c.toNat ≤ 127) :
    l.map unicodeToLower = l.map Char.toLower :=
  List.map_congr_left (fun c hc => unicodeToLower_ascii c (h c hc))

/-- The title case of an ASCII string has the lower-case form of the
string. -/
theorem ToLower_Title [CaseTables] (s : String) (h : isASCII s = true) :
    ToLower (Title s) = ToLower s := by
  have ha : ∀ c ∈ s.data, c.toNat ≤ 127 := by
    unfold isASCII at h
    simpa only [List.all_eq_true, decide_eq_true_eq] using h
  unfold ToLower Title
  rw [if_pos h]
  show String.mk ((titleLoop s.data false).map unicodeToLower) = _
  rw [map_unicodeToLower_ascii _ (titleLoop_ascii s.data false ha), titleLoop_toLower,
    map_unicodeToLower_ascii _ ha]

/-- The upper-case form of an ASCII string has the lower-case form of the
string. -/
theorem ToLower_ToUpper [CaseTables] (s : String) (h : isASCII s = true) :
    ToLower (ToUpper s) = ToLower s := by
  have ha : ∀ c ∈ s.data, c.toNat ≤ 127 := by
    unfold isASCII at h
    simpa only [List.all_eq_true, decide_eq_true_eq] using h
  unfold ToLower ToUpper
  simp only [List.map_map]
  congr 1
  apply List.map_congr_left
  intro c hc
  show unicodeToLower (unicodeToUpper c) = unicodeToLower c
  rw [unicodeToUpper_ascii c (ha c hc), unicodeToLower_ascii _ (toUpper_ascii c (ha c hc)),
    unicodeToLower_ascii c (ha c hc)]
  exact toLower_toUpper c

theorem shouldInclude_congr [CaseTables] (allowed : List String) (a b : String)
    (h : ToLower a = ToLower b) : shouldInclude allowed a = shouldInclude allowed b := by
  unfold shouldInclude
  rw [h]

/-- The size categories that the builder computes from a dimension are ASCII
strings. -/
theorem getSizeCategoryForDimension_ascii (n : Int) :
    isASCII (getSizeCategoryForDimension n) = true := by
  unfold getSizeCategoryForDimension
  split_ifs <;> decide

/-- The case mappings of the builder keep the lower-case form of ASCII
names. -/
theorem caseStable_of_ascii [CaseTables] (c : Config) (h : asciiNames c) : caseStable c :=
  ⟨fun s hs => ToLower_Title s.1 (h.1 s hs), fun f hf => ToLower_ToUpper f.1 (h.2 f hf)⟩

/-- C29, amended: every job that `BuildSpecs` returns passes the filter of the
ratio categories on its field `Category`. When title case keeps the lower-case
form of every size name of the configuration and upper case that of every
format name, as they do when these names are ASCII strings, the job also
passes the filter of the size categories on its field `SizeCategory` and the
filter of the formats on its field `Format`. This holds for every `Filters`
value, in particular one built by `NewFilters`. -/
theorem BuildSpecs_filter_sound [CaseTables] (c : Config) (f : Filters) (baseDir : String)
    (specs : List ImageSpec) (h : SpecBuilder.BuildSpecs ⟨c, f, baseDir⟩ = .ok specs) :
    (asciiNames c → caseStable c) ∧
      ∀ x ∈ specs, f.ShouldIncludeRatioCategory x.Category = true ∧
        (caseStable c → f.ShouldIncludeSizeCategory x.SizeCategory = true ∧
          f.ShouldIncludeFormat x.Format = true) := by
  refine ⟨caseStable_of_ascii c, ?_⟩
  intro x hx
  have hcat : ∀ n : Int, f.ShouldIncludeSizeCategory (Title (getSizeCategoryForDimension n)) =
      f.ShouldIncludeSizeCategory (getSizeCategoryForDimension n) := fun n =>
    shouldInclude_congr _ _ _ (ToLower_Title _ (getSizeCategoryForDimension_ascii n))
  rcases BuildSpecs_mem ⟨c, f, baseDir⟩ specs h x hx with ⟨r, hr, hxr⟩ | hxt | hxe
  · obtain ⟨p, -, hp, ra, -, s, hsm, fm, hfm, info, bs0, q0, -, hs, hf, hx⟩ :=
      buildRatioSpecs_mem ⟨c, f, baseDir⟩ r hr x hxr
    rw [hx]
    refine ⟨hp, fun ha => ⟨?_, ?_⟩⟩
    · show f.ShouldIncludeSizeCategory (Title s.1) = true
      rw [show f.ShouldIncludeSizeCategory (Title s.1) = f.ShouldIncludeSizeCategory s.1 from
        shouldInclude_congr _ _ _ (ha.1 s hsm)]
      exact hs
    · show f.ShouldIncludeFormat (ToUpper fm.1) = true
      rw [show f.ShouldIncludeFormat (ToUpper fm.1) = f.ShouldIncludeFormat fm.1 from
        shouldInclude_congr _ _ _ (ha.2 fm hfm)]
      exact hf
  · obtain ⟨t, -, w, h', tl, -, -, -, -, k1, k2, k3, fm, hfm, k4, k5⟩ :=
      buildTargetSpecs_mem ⟨c, f, baseDir⟩ x hxt
    refine ⟨k1, fun ha => ⟨?_, ?_⟩⟩
    · rw [k2, hcat]
      exact k3
    · rw [k4, show f.ShouldIncludeFormat (ToUpper fm.1) = f.ShouldIncludeFormat fm.1 from
        shouldInclude_congr _ _ _ (ha.2 fm hfm)]
      exact k5
  · obtain ⟨e, -, w, h', tl, -, -, -, k0, k1, k2, k3, fm, hfm, k4, k5⟩ :=
      buildEdgeCaseSpecs_mem ⟨c, f, baseDir⟩ x hxe
    refine ⟨by rw [k0]; exact k1, fun ha => ⟨?_, ?_⟩⟩
    · rw [k2, hcat]
      exact k3
    · rw [k4, show f.ShouldIncludeFormat (ToUpper fm.1) = f.ShouldIncludeFormat fm.1 from
        shouldInclude_congr _ _ _ (ha.2 fm hfm)]
      exact k5

/-- A witness of `BuildSpecs_filter_sound`: the filters `platform`, `small`
and `JPEG` on `distinctNamesConfig` leave the two ratio jobs. -/
theorem BuildSpecs_filter_sound_witness :
    (SpecBuilder.BuildSpecs
        ⟨distinctNamesConfig, NewFilters ["platform"] ["Small"] ["JPEG"], "out"⟩).map
        (fun l => l.map (fun x => (x.Category, x.SizeCategory, x.Format))) =
      .ok [("platform", "Small", "JPEG"), ("platform", "Small", "JPEG")] ∧
      asciiNames distinctNamesConfig ∧
      ∀ x ∈ okList (SpecBuilder.BuildSpecs
          ⟨distinctNamesConfig, NewFilters ["platform"] ["Small"] ["JPEG"], "out"⟩),
        (NewFilters ["platform"] ["Small"] ["JPEG"]).ShouldIncludeRatioCategory x.Category =
            true ∧
          (caseStable distinctNamesConfig →
            (NewFilters ["platform"] ["Small"] ["JPEG"]).ShouldIncludeSizeCategory
              x.SizeCategory = true ∧
            (NewFilters ["platform"] ["Small"] ["JPEG"]).ShouldIncludeFormat x.Format = true) :=
  ⟨by decide, by unfold asciiNames; decide,
    (BuildSpecs_filter_sound distinctNamesConfig (NewFilters ["platform"] ["Small"] ["JPEG"])
      "out" _ (by decide)).2⟩

/-- C29, counterexample: the format named `ı` (`U+0131`) with the filter `ı`.
`Validate` accepts the filter, the builder emits a job with the format `I`,
the upper case of `ı`, and `ShouldIncludeFormat` rejects `I`, whose lower case
is `i`. -/
theorem BuildSpecs_filter_unsound_dotless :
    Filters.Validate (NewFilters [] [] ["ı"]) dotlessConfig = .ok () ∧
      (SpecBuilder.BuildSpecs ⟨dotlessConfig, NewFilters [] [] ["ı"], "out"⟩).map
        (fun l => l.map (fun x => (x.Category, x.SizeCategory, x.Format))) =
        .ok [("platform", "Small", "I")] ∧
      (NewFilters [] [] ["ı"]).ShouldIncludeFormat "I" = false ∧
      ToUpper "ı" = "I" ∧ ToLower "I" = "i" ∧ ToLower "ı" = "ı" ∧
      ¬ caseStable dotlessConfig :=
  ⟨by decide, by decide, by decide, by decide, by decide, by decide,
    fun h => absurd (h.2 ("ı", ⟨[85], "image/jpeg", ".jpg"⟩) (List.mem_singleton.2 rfl))
      (by decide)⟩

/-! ## No index out of range -/

theorem wrapError_panic (pre : String) (e : Failure) (msg : String)
    (h : wrapError pre e = .panic msg) : e = .panic msg := by
  cases e with
  | error m => simp [wrapError] at h
  | panic m => simpa [wrapError] using h

theorem buildEdgeCaseSpecs_no_panic [CaseTables] (b : SpecBuilder)
    (hd : ∀ e ∈ b.Config.EdgeCases, 2 ≤ e.Dimensions.length) :
    ∀ msg, b.buildEdgeCaseSpecs ≠ .error (.panic msg) := by
  unfold SpecBuilder.buildEdgeCaseSpecs
  rw [buildEdgeCaseLoop_eq]
  apply collectSpecs_no_panic
  intro e he msg
  obtain ⟨w, h, tl, hdim⟩ := two_le_length _ (hd e he)
  rw [edgeCaseSpecs_ok b e w h tl hdim]
  simp

theorem BuildSpecs_no_panic [CaseTables] (b : SpecBuilder)
    (ht : ∀ t ∈ b.Config.Targets, 2 ≤ t.2.Dimensions.length)
    (he : ∀ e ∈ b.Config.EdgeCases, 2 ≤ e.Dimensions.length) :
    ∀ msg, b.BuildSpecs ≠ .error (.panic msg) := by
  intro msg hc
  unfold SpecBuilder.BuildSpecs at hc
  cases h1 : b.buildRatioSpecs with
  | error e =>
    rw [h1] at hc
    simp only [Except.error.injEq] at hc
    rw [wrapError_panic _ _ _ hc] at h1
    exact buildRatioSpecs_no_panic b msg h1
  | ok r =>
    rw [h1] at hc
    dsimp only at hc
    cases h2 : b.buildTargetSpecs with
    | error e =>
      rw [h2] at hc
      simp only [Except.error.injEq] at hc
      rw [wrapError_panic _ _ _ hc] at h2
      exact buildTargetSpecs_no_panic b ht msg h2
    | ok t =>
      rw [h2] at hc
      dsimp only at hc
      cases h3 : b.buildEdgeCaseSpecs with
      | error e =>
        rw [h3] at hc
        simp only [Except.error.injEq] at hc
        rw [wrapError_panic _ _ _ hc] at h3
        exact buildEdgeCaseSpecs_no_panic b he msg h3
      | ok e =>
        rw [h3] at hc
        simp at hc

theorem Validate_ok_dims (c : Config) (hv : c.Validate = .ok ()) :
    (∀ t ∈ c.Targets, goodDimensions t.2.Dimensions) ∧
      (∀ e ∈ c.EdgeCases, goodDimensions e.Dimensions) := by
  have hf : ¬ failed c.Validate = true := by rw [hv]; simp
  rw [Validate_failed_iff] at hf
  constructor
  · intro t ht
    by_contra hg
    exact hf (Or.inr (Or.inr (Or.inr (Or.inr (Or.inr (Or.inl ⟨t, ht, hg⟩))))))
  · intro e he
    by_contra hg
    exact hf (Or.inr (Or.inr (Or.inr (Or.inr (Or.inr (Or.inr ⟨e, he, hg⟩))))))

theorem goodDimensions_cons (dims : List Int) (w h : Int) (tl : List Int)
    (hg : goodDimensions dims) (hd : dims = w :: h :: tl) : 0 < w ∧ 0 < h ∧ tl = [] := by
  obtain ⟨d0, d1, he, h0, h1⟩ := hg
  rw [he] at hd
  simp only [List.cons.injEq] at hd
  obtain ⟨rfl, rfl, h3⟩ := hd
  exact ⟨h0, h1, h3.symm⟩

/-- C30: for every configuration that `Validate` accepts, every filters value
and every base directory, `BuildSpecs` does not panic with an index out of
range: every target and every edge case has exactly two dimensions, so the
accesses at 0 and 1 are within bounds, and the first base size and the first
quality are read only from non-empty lists. Every job returned has a width
and a height of at least 1. -/
theorem BuildSpecs_safe [CaseTables] (c : Config) (f : Filters) (baseDir : String)
    (hv : c.Validate = .ok ()) :
    (∀ msg, SpecBuilder.BuildSpecs ⟨c, f, baseDir⟩ ≠ .error (.panic msg)) ∧
      (∀ t ∈ c.Targets, ∃ w h, t.2.Dimensions = [w, h]) ∧
      (∀ e ∈ c.EdgeCases, ∃ w h, e.Dimensions = [w, h]) ∧
      (∀ specs, SpecBuilder.BuildSpecs ⟨c, f, baseDir⟩ = .ok specs →
        ∀ x ∈ specs, 1 ≤ x.Width ∧ 1 ≤ x.Height) := by
  obtain ⟨ht, he⟩ := Validate_ok_dims c hv
  refine ⟨?_, ?_, ?_, ?_⟩
  · apply BuildSpecs_no_panic
    · intro t htm
      obtain ⟨d0, d1, hd, -, -⟩ := ht t htm
      show 2 ≤ t.2.Dimensions.length
      rw [hd]
      simp
    · intro e hem
      obtain ⟨d0, d1, hd, -, -⟩ := he e hem
      show 2 ≤ e.Dimensions.length
      rw [hd]
      simp
  · intro t htm
    obtain ⟨d0, d1, hd, -, -⟩ := ht t htm
    exact ⟨d0, d1, hd⟩
  · intro e hem
    obtain ⟨d0, d1, hd, -, -⟩ := he e hem
    exact ⟨d0, d1, hd⟩
  · intro specs h x hx
    rcases BuildSpecs_mem ⟨c, f, baseDir⟩ specs h x hx with ⟨r, hr, hxr⟩ | hxt | hxe
    · obtain ⟨p, -, -, ra, -, s, -, fm, -, info, bs0, q0, -, -, -, hx⟩ :=
        buildRatioSpecs_mem ⟨c, f, baseDir⟩ r hr x hxr
      rw [hx]
      exact CalculateDimensions_ge_one info bs0
    · obtain ⟨t, htm, w, h', tl, hd, k1, k2, -⟩ := buildTargetSpecs_mem ⟨c, f, baseDir⟩ x hxt
      obtain ⟨g1, g2, -⟩ := goodDimensions_cons _ w h' tl (ht t htm) hd
      rw [k1, k2]
      omega
    · obtain ⟨e, hem, w, h', tl, hd, k1, k2, -⟩ := buildEdgeCaseSpecs_mem ⟨c, f, baseDir⟩ x hxe
      obtain ⟨g1, g2, -⟩ := goodDimensions_cons _ w h' tl (he e hem) hd
      rw [k1, k2]
      omega

/-- A witness of `BuildSpecs_safe`: `distinctNamesConfig` with no filter. -/
theorem BuildSpecs_safe_witness :
    distinctNamesConfig.Validate = .ok () ∧
      (SpecBuilder.BuildSpecs ⟨distinctNamesConfig, noFilters, "out"⟩).map
          (fun l => l.map (fun x => (x.Width, x.Height))) =
        .ok [(100, 100), (66, 100), (1080, 1080), (1000, 100)] ∧
      ∀ specs, SpecBuilder.BuildSpecs ⟨distinctNamesConfig, noFilters, "out"⟩ = .ok specs →
        ∀ x ∈ specs, 1 ≤ x.Width ∧ 1 ≤ x.Height :=
  ⟨by decide, by decide,
    (BuildSpecs_safe distinctNamesConfig noFilters "out" (by decide)).2.2.2⟩

end config

namespace manifest

open Go

/-! ## The category and the relative path of an output path -/

theorem extractLoop_last (postRev : List String) (cat : String) (rest : List String)
    (next : Option String) (hc : isCategory cat = true)
    (hp : ∀ p ∈ postRev, isCategory p = false) :
    extractLoop (postRev ++ cat :: rest) next =
      (cat, ((postRev.reverse.head?).or next).getD "") := by
  induction postRev generalizing next with
  | nil => simp [extractLoop, hc]
  | cons x xs ih =>
    have hx : isCategory x = false := hp x (by simp)
    have hstep : extractLoop (x :: xs ++ cat :: rest) next =
        extractLoop (xs ++ cat :: rest) (some x) := by
      simp only [List.cons_append, extractLoop, hx, Bool.false_eq_true, if_false]
      rfl
    rw [hstep, ih (some x) (fun p hp' => hp p (by simp [hp']))]
    congr 2
    cases hxs : xs.reverse with
    | nil => simp [hxs]
    | cons y ys => simp [hxs]

theorem extractLoop_none (l : List String) (next : Option String)
    (hp : ∀ p ∈ l, isCategory p = false) : extractLoop l next = ("", "") := by
  induction l generalizing next with
  | nil => rfl
  | cons x xs ih =>
    have hx : isCategory x = false := hp x (by simp)
    simp only [extractLoop, hx, Bool.false_eq_true, if_false]
    exact ih (some x) (fun p hp' => hp p (by simp [hp']))

/-- C27, amended: the category is the last part of the directory of the path
(the parts of `filepath.Dir(path)` between separators) that equals `ratios`,
`targets` or `edge-cases`, and the subcategory is the part that follows it, or
the empty string when it is the last part; both are empty when no part
matches. -/
theorem extractCategoryFromPath_last (path : String) :
    (∀ (pre post : List String) (cat : String),
        Split (Dir path) '/' = pre ++ cat :: post → isCategory cat = true →
        (∀ p ∈ post, isCategory p = false) →
        extractCategoryFromPath path = (cat, post.head?.getD "")) ∧
      ((∀ p ∈ Split (Dir path) '/', isCategory p = false) →
        extractCategoryFromPath path = ("", "")) := by
  constructor
  · intro pre post cat hs hc hp
    unfold extractCategoryFromPath
    simp only [hs, List.reverse_append, List.reverse_cons, List.append_assoc,
      List.singleton_append]
    rw [extractLoop_last post.reverse cat pre.reverse none hc
      (fun p hp' => hp p (List.mem_reverse.1 hp'))]
    simp
  · intro hp
    unfold extractCategoryFromPath
    exact extractLoop_none _ none (fun p hp' => hp p (List.mem_reverse.1 hp'))

/-- A witness of `extractCategoryFromPath_last`: the table of
`TestExtractCategoryFromPath`. -/
theorem extractCategoryFromPath_last_witness :
    extractCategoryFromPath "/tmp/output/ratios/2-3/file.jpg" = ("ratios", "2-3") ∧
      extractCategoryFromPath "/tmp/output/targets/file.jpg" = ("targets", "") ∧
      extractCategoryFromPath "/tmp/output/edge-cases/file.jpg" = ("edge-cases", "") ∧
      extractCategoryFromPath "/tmp/output/ratios/16-9/subdir/file.jpg" = ("ratios", "16-9") ∧
      extractCategoryFromPath "/unknown/path/file.jpg" = ("", "") :=
  ⟨by decide, by decide, by decide,
    (extractCategoryFromPath_last "/tmp/output/ratios/16-9/subdir/file.jpg").1
      ["", "tmp", "output"] ["16-9", "subdir"] "ratios" (by decide) (by decide) (by decide),
    (extractCategoryFromPath_last "/unknown/path/file.jpg").2 (by decide)⟩

/-- C27, counterexample: in a directory with the parts `ratios` and `targets`
the category is `targets`, the last of the two, and the subcategory is empty;
the first matching part, `ratios`, is followed by `x`. -/
theorem extractCategoryFromPath_not_first :
    Split (Dir "/tmp/ratios/x/targets/file.jpg") '/' = ["", "tmp", "ratios", "x", "targets"] ∧
      extractCategoryFromPath "/tmp/ratios/x/targets/file.jpg" = ("targets", "") :=
  ⟨by decide, by decide⟩

theorem relativeLoop_first (pre : List String) (cat : String) (rest : List String)
    (hc : isCategory cat = true) (hp : ∀ p ∈ pre, isCategory p = false) :
    relativeLoop (pre ++ cat :: rest) = some (stringsJoin (cat :: rest) "/") := by
  induction pre with
  | nil => simp [relativeLoop, hc]
  | cons x xs ih =>
    have hx : isCategory x = false := hp x (by simp)
    have hstep : relativeLoop (x :: xs ++ cat :: rest) = relativeLoop (xs ++ cat :: rest) := by
      simp only [List.cons_append, relativeLoop, hx, Bool.false_eq_true, if_false]
      rfl
    rw [hstep, ih (fun p hp' => hp p (by simp [hp']))]

/-- The relative path of a path whose parts are those of a base directory
without category name, followed by a category name and further parts. -/
theorem getRelativePath_of_split (path : String) (pre : List (List Char)) (cat : String)
    (rest : List String)
    (hs : splitOnChar '/' path.data = pre ++ cat.data :: rest.map String.data)
    (hc : isCategory cat = true) (hp : ∀ p ∈ pre, isCategory ⟨p⟩ = false) :
    getRelativePath path = stringsJoin (cat :: rest) "/" := by
  unfold getRelativePath Split
  rw [hs]
  have : (pre ++ cat.data :: rest.map String.data).map String.mk =
      pre.map String.mk ++ cat :: rest := by
    simp only [List.map_append, List.map_cons, List.map_map]
    congr 2
    exact List.map_id'' (fun _ => rfl) rest
  rw [this, relativeLoop_first _ cat rest hc]
  intro p hp'
  obtain ⟨q, hq, rfl⟩ := List.mem_map.1 hp'
  exact hp q hq

theorem getRelativePath_ratioPath [CaseTables] (b : config.SpecBuilder) (token label : String)
    (f : String × config.Format) (w h q : Int) (ht : normalComp token.data)
    (hl : freeOf '/' label.data) (hf : freeOf '/' f.1.data)
    (he : freeOf '/' f.2.Extension.data)
    (hb : ∀ p ∈ pathPrefix b.BaseDir, isCategory ⟨p⟩ = false) :
    getRelativePath (config.ratioPath b token label f w h q) =
      stringsJoin ["ratios", token, config.fileName label w h f.1 q f.2.Extension] "/" :=
  getRelativePath_of_split _ (pathPrefix b.BaseDir) "ratios"
    [token, config.fileName label w h f.1 q f.2.Extension]
    (config.ratioPath_split b token label f w h q ht hl hf he) (by decide) hb

theorem getRelativePath_flatPath [CaseTables] (b : config.SpecBuilder) (dir label : String)
    (f : String × config.Format) (w h q : Int) (hd : normalComp dir.data)
    (hc : isCategory dir = true) (hl : freeOf '/' label.data) (hf : freeOf '/' f.1.data)
    (he : freeOf '/' f.2.Extension.data)
    (hb : ∀ p ∈ pathPrefix b.BaseDir, isCategory ⟨p⟩ = false) :
    getRelativePath (config.flatPath b dir label f w h q) =
      stringsJoin [dir, config.fileName label w h f.1 q f.2.Extension] "/" :=
  getRelativePath_of_split _ (pathPrefix b.BaseDir) dir
    [config.fileName label w h f.1 q f.2.Extension]
    (config.flatPath_split b dir label f w h q hd hl hf he) hc hb

/-- The claim of C28 within its scope: when the names of the configuration
hold no separator and no component of the cleaned base directory is `ratios`,
`targets` or `edge-cases`, the relative path of every job of `BuildSpecs` is
made of the components that the builder joined to the base directory. -/
theorem getRelativePath_of_job [CaseTables]
    (b : config.SpecBuilder) (specs : List generator.ImageSpec)
    (h : b.BuildSpecs = .ok specs) (hc : config.PlainNames b.Config)
    (hb : ∀ p ∈ pathPrefix b.BaseDir, isCategory ⟨p⟩ = false) :
    ∀ x ∈ specs,
      (∃ token file, x.OutputPath = Join [b.BaseDir, "ratios", token, file] ∧
        getRelativePath x.OutputPath = stringsJoin ["ratios", token, file] "/") ∨
      (∃ file, x.OutputPath = Join [b.BaseDir, "targets", file] ∧
        getRelativePath x.OutputPath = stringsJoin ["targets", file] "/") ∨
      (∃ file, x.OutputPath = Join [b.BaseDir, "edge-cases", file] ∧
        getRelativePath x.OutputPath = stringsJoin ["edge-cases", file] "/") := by
  intro x hx
  rcases config.BuildSpecs_mem b specs h x hx with ⟨r, hr, hxr⟩ | hxt | hxe
  · left
    have hxr' : x ∈ config.okList b.buildRatioSpecs := by rw [hr]; exact hxr
    obtain ⟨t, l, hn, hl, f, hf, w, h', q, hp⟩ := config.buildRatioSpecs_job b hc x hxr'
    refine ⟨t, config.fileName l w h' f.1 q f.2.Extension, ?_, ?_⟩
    · rw [hp]
      rfl
    · rw [hp]
      exact getRelativePath_ratioPath b t l f w h' q hn hl (hc.formats f hf).1
        (hc.formats f hf).2.2.1 hb
  · right
    left
    obtain ⟨t, ht, f, hf, w, h', q, hp⟩ := config.buildTargetSpecs_job b x hxt
    refine ⟨config.fileName t.1 w h' f.1 q f.2.Extension, ?_, ?_⟩
    · rw [hp]
      rfl
    · rw [hp]
      exact getRelativePath_flatPath b "targets" t.1 f w h' q config.normalComp_targets
        (by decide) (hc.targets t ht) (hc.formats f hf).1 (hc.formats f hf).2.2.1 hb
  · right
    right
    obtain ⟨e, he, f, hf, w, h', q, hp⟩ := config.buildEdgeCaseSpecs_job b x hxe
    refine ⟨config.fileName e.Name w h' f.1 q f.2.Extension, ?_, ?_⟩
    · rw [hp]
      rfl
    · rw [hp]
      exact getRelativePath_flatPath b "edge-cases" e.Name f w h' q
        config.normalComp_edge_cases (by decide) (hc.edgeCases e he) (hc.formats f hf).1
        (hc.formats f hf).2.2.1 hb

/-- C28, failing input: with the base directory `data/targets` the relative
path of the one job of `emptyQualityConfig` starts at the part `targets` of
the base directory, so it is not the path relative to the base directory
(`ratios/1-1/small_100x100_jpeg_q85.jpg`), while `extractCategoryFromPath`
gives the category `ratios` for the same path; the table of
`TestGetRelativePath` holds. -/
theorem getRelativePath_base_with_category :
    (config.SpecBuilder.BuildSpecs ⟨config.emptyQualityConfig, config.noFilters,
        "data/targets"⟩).map (fun l => l.map (fun x => x.OutputPath)) =
      .ok ["data/targets/ratios/1-1/small_100x100_jpeg_q85.jpg"] ∧
      getRelativePath "data/targets/ratios/1-1/small_100x100_jpeg_q85.jpg" =
        "targets/ratios/1-1/small_100x100_jpeg_q85.jpg" ∧
      extractCategoryFromPath "data/targets/ratios/1-1/small_100x100_jpeg_q85.jpg" =
        ("ratios", "1-1") ∧
      getRelativePath "/tmp/output/ratios/2-3/file.jpg" = "ratios/2-3/file.jpg" ∧
      getRelativePath "/tmp/output/targets/file.jpg" = "targets/file.jpg" ∧
      getRelativePath "/tmp/output/edge-cases/file.jpg" = "edge-cases/file.jpg" ∧
      getRelativePath "/unknown/path/file.jpg" = "file.jpg" :=
  ⟨by decide, by decide, by decide, by decide, by decide, by decide, by decide⟩

end manifest

namespace generator

open Go

/-! ## `GenerationStats.ImagesPerSecond` -/

/-- The seconds of a positive duration: a finite value between `2^-30` and `2^35`. -/
theorem Seconds_pos (d : Int) (h1 : 0 < d) (h2 : d < twoPow63) :
    ∃ m e, Seconds d = F64.fin false m e ∧ (1 : ℚ) / 2 ^ 30 ≤ F64.absRat (F64.fin false m e) ∧
      F64.absRat (F64.fin false m e) ≤ 2 ^ (35 : Int) := by
  have hsec0 : 0 ≤ d.tdiv 1000000000 := Int.tdiv_nonneg h1.le (by norm_num)
  have hdiv : d.tdiv 1000000000 = d / 1000000000 := Int.tdiv_eq_ediv h1.le (by norm_num)
  have hmod : d.tmod 1000000000 = d % 1000000000 := Int.tmod_eq_emod h1.le (by norm_num)
  have hn0 : 0 ≤ d % 1000000000 := Int.emod_nonneg _ (by norm_num)
  have hn1 : d % 1000000000 < 1000000000 := Int.emod_lt_of_pos _ (by norm_num)
  have hdm := Int.emod_add_ediv d 1000000000
  have h63 : twoPow63 = 9223372036854775808 := rfl
  have hsec1 : d / 1000000000 < 2 ^ 34 := by
    norm_num
    omega
  obtain ⟨mx, ex, hx, vx⟩ := F64.ofInt_exact (d.tdiv 1000000000) hsec0
    (by rw [hdiv]; exact lt_trans hsec1 (by norm_num))
  obtain ⟨mn, en, hn, vn⟩ := F64.ofInt_exact (d.tmod 1000000000)
    (by rw [hmod]; exact hn0) (by rw [hmod]; exact lt_trans hn1 (by norm_num))
  obtain ⟨mq, eq, hq, vq⟩ := F64.ofInt_exact 1000000000 (by norm_num) (by norm_num)
  have hmq : mq ≠ 0 := by
    intro h
    rw [h] at vq
    simp [F64.absRat] at vq
  have hquot : F64.absRat (F64.fin false mn en) / F64.absRat (F64.fin false mq eq) =
      ((d % 1000000000 : Int) : ℚ) / 1000000000 := by
    rw [vn, vq, hmod]
    norm_num
  have hq1 : ((d % 1000000000 : Int) : ℚ) / 1000000000 < 1 := by
    rw [div_lt_one (by norm_num)]
    exact_mod_cast hn1
  have hq0 : (0 : ℚ) ≤ ((d % 1000000000 : Int) : ℚ) / 1000000000 := by
    apply div_nonneg _ (by norm_num)
    exact_mod_cast hn0
  have hsecq : ((d.tdiv 1000000000 : Int) : ℚ) < 2 ^ 34 := by
    rw [hdiv]
    exact_mod_cast hsec1
  unfold Seconds
  simp only []
  rw [hx, hn, hq]
  by_cases hs : d / 1000000000 = 0
  · -- less than a second
    have hd : 1 ≤ d % 1000000000 := by omega
    have hlo : (1 : ℚ) / 2 ^ 30 ≤ ((d % 1000000000 : Int) : ℚ) / 1000000000 := by
      rw [div_le_div_iff₀ (by positivity) (by norm_num)]
      have : (1 : ℚ) ≤ ((d % 1000000000 : Int) : ℚ) := by exact_mod_cast hd
      nlinarith
    obtain ⟨my, ey, hy, ly, uy⟩ := F64.div_fin_between false false mn mq en eq hmq 1 30 0
      (by norm_num) (by norm_num) (by norm_num) (by norm_num)
      (by rw [hquot]; exact_mod_cast hlo) (by rw [hquot]; simpa using hq1)
    rw [hy]
    simp only [Bool.xor_false] at ly uy ⊢
    have hvx : F64.absRat (F64.fin false mx ex) = 0 := by
      rw [vx, hdiv, hs]
      simp
    obtain ⟨ms, es, hsum, ls, us⟩ := F64.add_fin_between mx my ex ey 1 30 35 (by norm_num)
      (by norm_num) (by norm_num) (by norm_num) (by norm_num)
      (by rw [hvx, zero_add]; exact ly)
      (by
        rw [hvx, zero_add]
        refine lt_of_le_of_lt uy ?_
        norm_num)
    exact ⟨ms, es, hsum, by simpa using ls, us⟩
  · -- a second or more
    have hd : 1 ≤ d / 1000000000 := by
      rw [hdiv] at hsec0
      omega
    obtain ⟨my, ey, hy, ly, uy⟩ := F64.div_fin_between false false mn mq en eq hmq 0 0 0
      (by norm_num) (by norm_num) (by norm_num) (by norm_num)
      (by rw [hquot]; simpa using hq0) (by rw [hquot]; simpa using hq1)
    rw [hy]
    simp only [Bool.xor_false] at ly uy ⊢
    have hvx1 : (1 : ℚ) ≤ F64.absRat (F64.fin false mx ex) := by
      rw [vx, hdiv]
      exact_mod_cast hd
    have hvx2 : F64.absRat (F64.fin false mx ex) < 2 ^ 34 := by
      rw [vx]
      exact hsecq
    have hy0 : (0 : ℚ) ≤ F64.absRat (F64.fin false my ey) := by
      simp only [F64.absRat]
      positivity
    obtain ⟨ms, es, hsum, ls, us⟩ := F64.add_fin_between mx my ex ey 1 30 35 (by norm_num)
      (by norm_num) (by norm_num) (by norm_num) (by norm_num)
      (by
        have : (1 : ℚ) / 2 ^ 30 ≤ 1 := by norm_num
        push_cast
        linarith)
      (by
        have h35 : (2 : ℚ) ^ (35 : Int) = 2 ^ 34 + 2 ^ 34 := by norm_num
        have uy1 : F64.absRat (F64.fin false my ey) ≤ 1 := by simpa using uy
        rw [h35]
        have : (1 : ℚ) ≤ 2 ^ 34 := by norm_num
        linarith)
    exact ⟨ms, es, hsum, by simpa using ls, us⟩

/-- The rate over a positive duration, for a count in the range of a non-negative
`int32`: a non-negative finite value. -/
theorem rate_finite (c d : Int) (hc0 : 0 ≤ c) (hc : c < 2 ^ 31) (h1 : 0 < d)
    (h2 : d < twoPow63) : ∃ m e, F64.div (F64.ofInt c) (Seconds d) = F64.fin false m e := by
  obtain ⟨ms, es, hs, ls, us⟩ := Seconds_pos d h1 h2
  obtain ⟨mc, ec, hcv, vc⟩ := F64.ofInt_exact c hc0 (lt_trans hc (by norm_num))
  have hms : ms ≠ 0 := by
    intro h
    rw [h] at ls
    simp only [F64.absRat, Nat.cast_zero, zero_mul] at ls
    have hp : (0 : ℚ) < 1 / 2 ^ 30 := by positivity
    linarith
  have hspos : (0 : ℚ) < F64.absRat (F64.fin false ms es) :=
    lt_of_lt_of_le (by positivity) ls
  have hcq : (c : ℚ) < 2 ^ 31 := by exact_mod_cast hc
  have hcq0 : (0 : ℚ) ≤ (c : ℚ) := by exact_mod_cast hc0
  obtain ⟨m, e, hme, -, -⟩ := F64.div_fin_between false false mc ms ec es hms 0 0 62
    (by norm_num) (by norm_num) (by norm_num) (by norm_num)
    (by
      rw [vc]
      simp only [Nat.cast_zero, zero_div]
      exact div_nonneg hcq0 hspos.le)
    (by
      rw [vc, div_lt_iff₀ hspos]
      have h62 : (2 : ℚ) ^ (62 : Int) = 2 ^ 31 * 2 ^ 30 * 2 := by norm_num
      rw [h62]
      have h30 : (1 : ℚ) ≤ 2 ^ 30 * F64.absRat (F64.fin false ms es) := by
        have := mul_le_mul_of_nonneg_left ls (by positivity : (0 : ℚ) ≤ 2 ^ 30)
        simpa using this
      nlinarith)
  rw [hs, hcv, hme]
  exact ⟨m, e, rfl⟩

/-- A duration of `k` whole seconds has exactly `k` seconds. -/
theorem Seconds_whole (k : Nat) (h1 : 0 < k) (h2 : (k : Int) * 1000000000 < twoPow63) :
    ∃ m e, Seconds ((k : Int) * 1000000000) = F64.fin false m e ∧ m ≠ 0 ∧
      F64.absRat (F64.fin false m e) = (k : ℚ) := by
  have h63 : twoPow63 = 9223372036854775808 := rfl
  have hsec : ((k : Int) * 1000000000).tdiv 1000000000 = k := by
    rw [Int.tdiv_eq_ediv (by positivity) (by norm_num)]
    omega
  have hnsec : ((k : Int) * 1000000000).tmod 1000000000 = 0 := by
    rw [Int.tmod_eq_emod (by positivity) (by norm_num)]
    omega
  unfold Seconds
  simp only []
  rw [hsec, hnsec]
  obtain ⟨mx, ex, hx, vx⟩ := F64.ofInt_exact (k : Int) (by positivity) (by omega)
  obtain ⟨mq, eq, hq, vq⟩ := F64.ofInt_exact 1000000000 (by norm_num) (by norm_num)
  have hmq : mq ≠ 0 := by
    intro h
    rw [h] at vq
    simp [F64.absRat] at vq
  have hzero : F64.ofInt 0 = F64.fin false 0 0 := by decide
  have hy : F64.div (F64.fin false 0 0) (F64.fin false mq eq) = F64.fin false 0 0 := by
    simp [F64.div, hmq, F64.roundScaled, F64.round]
  rw [hx, hq, hzero, hy]
  have hk53 : k < 2 ^ 53 := by omega
  obtain ⟨m, e, hme, hv⟩ := F64.add_fin_exact mx 0 ex 0 k h1 hk53
    (by
      rw [vx]
      simp [F64.absRat])
  refine ⟨m, e, hme, ?_, hv⟩
  intro h0
  rw [h0] at hv
  simp only [F64.absRat, Nat.cast_zero, zero_mul] at hv
  have : (0 : ℚ) < (k : ℚ) := by exact_mod_cast h1
  linarith

/-- The rate over `k` whole seconds is the `float64` nearest to `c / k`. -/
theorem rate_whole (c k : Nat) (hc : c < 2 ^ 31) (h1 : 0 < k)
    (h2 : (k : Int) * 1000000000 < twoPow63) :
    F64.absRat (F64.div (F64.ofInt c) (Seconds ((k : Int) * 1000000000))) =
      F64.absRat (F64.round false c k) := by
  obtain ⟨ms, es, hs, hms, vs⟩ := Seconds_whole k h1 h2
  obtain ⟨mc, ec, hcv, vc⟩ := F64.ofInt_exact (c : Int) (by positivity)
    (by
      have : c < 2 ^ 53 := lt_trans hc (by norm_num)
      exact_mod_cast this)
  rw [hs, hcv]
  apply F64.div_fin_value false false mc ms ec es hms c k h1
  rw [vc, vs]
  simp

/-- A `Duration` that `Time.Sub` returns is an `int64`. -/
theorem Sub_range (t u : Time) : -twoPow63 ≤ t.Sub u ∧ t.Sub u < twoPow63 := by
  have h63 : twoPow63 = 9223372036854775808 := rfl
  unfold Time.Sub
  simp only []
  split_ifs <;> omega

/-- C26: `ImagesPerSecond` is `+0` when `Duration()` is zero, and otherwise the
`float64` quotient of `float64(Completed)` by `Duration().Seconds()`; once
`EndTime` is set, `Duration()` is `EndTime.Sub(StartTime)`, which is the
difference `EndTime - StartTime` whenever that fits a `Duration`; for a
finished run (`EndTime` set and not before `StartTime`, `Completed` a
non-negative `int32`) the result is a non-negative finite `float64`; and over a
duration of `k` whole seconds the result is the `float64` nearest to the exact
quotient `Completed / k`. -/
theorem ImagesPerSecond_spec (s : GenerationStats) (now : Time) :
    (s.Duration now = 0 → s.ImagesPerSecond now = F64.fin false 0 0) ∧
    (s.Duration now ≠ 0 →
      s.ImagesPerSecond now = F64.div (F64.ofInt s.Completed) (Seconds (s.Duration now))) ∧
    (s.EndTime.IsZero = false → s.Duration now = s.EndTime.Sub s.StartTime) ∧
    (s.EndTime.IsZero = false → -twoPow63 ≤ s.EndTime.nanos - s.StartTime.nanos →
      s.EndTime.nanos - s.StartTime.nanos < twoPow63 →
      s.Duration now = s.EndTime.nanos - s.StartTime.nanos) ∧
    (s.EndTime.IsZero = false → s.StartTime.nanos ≤ s.EndTime.nanos →
      0 ≤ s.Completed → s.Completed < 2 ^ 31 →
      ∃ m e, s.ImagesPerSecond now = F64.fin false m e) ∧
    (∀ k : Nat, 0 < k → s.Duration now = (k : Int) * 1000000000 →
      0 ≤ s.Completed → s.Completed < 2 ^ 31 →
      F64.absRat (s.ImagesPerSecond now) =
        F64.absRat (F64.round false s.Completed.toNat k)) := by
  have hdur : s.EndTime.IsZero = false → s.Duration now = s.EndTime.Sub s.StartTime := by
    intro hz
    simp only [GenerationStats.Duration, hz, Bool.false_eq_true, if_false]
  refine ⟨?_, ?_, hdur, ?_, ?_, ?_⟩
  · intro h
    simp only [GenerationStats.ImagesPerSecond, h, if_true]
  · intro h
    simp only [GenerationStats.ImagesPerSecond, h, if_false]
  · intro hz h1 h2
    rw [hdur hz]
    unfold Time.Sub
    simp only []
    rw [if_neg (by omega), if_neg (by omega)]
  · intro hz hle hc0 hc
    by_cases h0 : s.Duration now = 0
    · exact ⟨0, 0, by simp only [GenerationStats.ImagesPerSecond, h0, if_true]⟩
    · simp only [GenerationStats.ImagesPerSecond, h0, if_false]
      have h63 : twoPow63 = 9223372036854775808 := rfl
      have hd := hdur hz
      have hrange : 0 ≤ s.Duration now ∧ s.Duration now < twoPow63 := by
        rw [hd]
        unfold Time.Sub
        simp only []
        split_ifs <;> omega
      exact rate_finite s.Completed (s.Duration now) hc0 hc
        (lt_of_le_of_ne hrange.1 (Ne.symm h0)) hrange.2
  · intro k hk hd hc0 hc
    have hlt : (k : Int) * 1000000000 < twoPow63 := by
      rw [← hd]
      unfold GenerationStats.Duration
      split_ifs
      · exact (Sub_range _ _).2
      · exact (Sub_range _ _).2
    have h0 : s.Duration now ≠ 0 := by
      rw [hd]
      positivity
    simp only [GenerationStats.ImagesPerSecond, h0, if_false]
    rw [hd]
    have hcn : s.Completed = ((s.Completed.toNat : Nat) : Int) := (Int.toNat_of_nonneg hc0).symm
    have hc31 : s.Completed.toNat < 2 ^ 31 := by omega
    have := rate_whole s.Completed.toNat k hc31 hk hlt
    rw [← hcn] at this
    exact this

/-- C26, at a run of ten images that took two seconds: the rate is `5`. -/
theorem ImagesPerSecond_spec_witness :
    tenInTwoSeconds.EndTime.IsZero = false ∧
    tenInTwoSeconds.Duration ⟨0⟩ = 2000000000 ∧
    tenInTwoSeconds.ImagesPerSecond ⟨0⟩ = F64.fin false 5 0 ∧
    ∃ m e, tenInTwoSeconds.ImagesPerSecond ⟨0⟩ = F64.fin false m e :=
  ⟨by decide, by decide, by decide,
    (ImagesPerSecond_spec tenInTwoSeconds ⟨0⟩).2.2.2.2.1 (by decide) (by decide) (by decide)
      (by decide)⟩

end generator

namespace generator

open Go

/-! ## Runs of `GenerateAll` -/

/-- An element at an index splits the list around it. -/
theorem getElem?_decomp {α : Type} (l : List α) (i : Nat) (x : α) (h : l[i]? = some x) :
    ∃ pre post, l = pre ++ x :: post ∧ pre.length = i ∧
      ∀ y, l.set i y = pre ++ y :: post := by
  induction l generalizing i with
  | nil => simp at h
  | cons a l ih =>
    cases i with
    | zero =>
      simp only [List.getElem?_cons_zero, Option.some.injEq] at h
      subst h
      exact ⟨[], l, rfl, rfl, fun y => rfl⟩
    | succ i =>
      simp only [List.getElem?_cons_succ] at h
      obtain ⟨pre, post, h1, h2, h3⟩ := ih i h
      refine ⟨a :: pre, post, by rw [h1]; rfl, by simp [h2], fun y => ?_⟩
      simp only [List.set_cons_succ, h3, List.cons_append]

/-- An element of a list sits at an index. -/
theorem getElem?_of_decomp {α : Type} (pre post : List α) (x : α) :
    (pre ++ x :: post)[pre.length]? = some x := by
  rw [List.getElem?_append_right (le_refl _)]
  simp

theorem wrap32_succ (x : Int) : wrap32 (wrap32 x + 1) = wrap32 (x + 1) := by
  unfold wrap32
  omega

theorem wrap32_small (x : Int) (h0 : 0 ≤ x) (h : x < 2147483648) : wrap32 x = x := by
  unfold wrap32
  omega

theorem wrap32_zero : wrap32 ((0 : Nat) : Int) = 0 := by
  unfold wrap32
  omega

theorem wrap32_lt (x : Int) : wrap32 x < 2147483648 := by
  unfold wrap32
  omega

theorem wrap32_le (x : Int) (h0 : 0 ≤ x) : wrap32 x ≤ x := by
  unfold wrap32
  omega

/-- The invariant holds at the start. -/
theorem inv_start (o : Orchestrator) (specs : List ImageSpec) (now : Time)
    (hcap : 0 ≤ o.MaxConcurrency) : Inv o specs (start o specs now) := by
  unfold start
  by_cases h : specs.length = 0
  · have hs : specs = [] := List.length_eq_zero.1 h
    subst hs
    simp only [List.length_nil, if_true]
    exact
      { notPanicked := rfl, launched := rfl, semHeld := rfl, semCap := hcap, wgRunning := rfl,
        deliveredSent := List.Perm.refl _, owns := by simp, completed := wrap32_zero.symm, failed := wrap32_zero.symm,
        total := rfl,
        finished := by
          intro rs err h
          simp only [MainPc.returned.injEq] at h
          simp [failureError, h.2]
        nonempty := fun _ => ⟨_, rfl⟩
        wgBound := by norm_num }
  · simp only [h, if_false]
    exact
      { notPanicked := by simp; omega, launched := by simp, semHeld := rfl, semCap := hcap,
        wgRunning := rfl, deliveredSent := List.Perm.refl _, owns := by simp, completed := wrap32_zero.symm,
        failed := wrap32_zero.symm, total := rfl,
        finished := by
          intro rs err h
          simp at h
        nonempty := fun h0 => absurd h0 h
        wgBound := by norm_num }

/-- A step is taken only when the program has not panicked. -/
theorem step_not_panicked (o : Orchestrator) (specs : List ImageSpec) (a : Action)
    (st st' : RunState) (h : step o specs a st = some st') : st.panicked = false := by
  unfold step at h
  cases hp : st.panicked with
  | true => rw [hp] at h; simp at h
  | false => rfl

/-- The panic of a call of `Generate`: the task is in the call of
`generateOne`, and the program ends. -/
theorem step_crash_cases (o : Orchestrator) (specs : List ImageSpec) (i : Nat)
    (st st' : RunState) (h : step o specs (.crash i) st = some st') :
    st.panicked = false ∧ (∃ s, st.tasks[i]? = some (s, .render)) ∧
      st' = { st with panicked := true } := by
  unfold step at h
  cases hp : st.panicked with
  | true => rw [if_pos hp] at h; simp at h
  | false =>
    rw [if_neg (by rw [hp]; decide)] at h
    simp only at h
    cases ht : st.tasks[i]? with
    | none => rw [ht] at h; simp at h
    | some t =>
      obtain ⟨s, pc⟩ := t
      rw [ht] at h
      cases pc <;> simp at h
      exact ⟨rfl, ⟨s, rfl⟩, h.symm⟩

/-- A step that does not panic is not the panic of a call of `Generate`. -/
theorem step_not_crash (o : Orchestrator) (specs : List ImageSpec) (a : Action)
    (st st' : RunState) (h : step o specs a st = some st') (hnp : st'.panicked = false) :
    a.isCrash = false := by
  cases a with
  | main now => rfl
  | task i g z => rfl
  | crash i =>
    obtain ⟨-, -, rfl⟩ := step_crash_cases o specs i st st' h
    simp at hnp

/-- The steps of the calling goroutine. -/
theorem step_main_cases (o : Orchestrator) (specs : List ImageSpec) (now : Time)
    (st st' : RunState) (h : step o specs (.main now) st = some st') :
    (∃ s rest, st.main = .launch (s :: rest) ∧ wrap32 (st.wg + 1) < 0 ∧
        st' = { st with panicked := true }) ∨
    (∃ s rest, st.main = .launch (s :: rest) ∧ ¬ wrap32 (st.wg + 1) < 0 ∧
        st' = { st with main := .launch rest, wg := wrap32 (st.wg + 1),
                        tasks := st.tasks ++ [(s, .acquire)] }) ∨
    (st.main = .launch [] ∧ st' = { st with main := .wait }) ∨
    (st.main = .wait ∧ st.wg = 0 ∧
        st' = { st with
          stats := { st.stats with EndTime := now }
          resultsChan := []
          main := .returned st.resultsChan
            (if st.stats.Failed > 0 then
              some (Itoa st.stats.Failed ++ " image(s) failed to generate")
            else none) }) := by
  have hp := step_not_panicked o specs _ st st' h
  unfold step at h
  rw [if_neg (by rw [hp]; decide)] at h
  cases hm : st.main with
  | launch rest =>
    cases rest with
    | nil =>
      rw [hm] at h
      simp only [Option.some.injEq] at h
      exact Or.inr (Or.inr (Or.inl ⟨rfl, h.symm⟩))
    | cons s rest =>
      rw [hm] at h
      simp only at h
      by_cases hw : wrap32 (st.wg + 1) < 0
      · rw [if_pos hw] at h
        simp only [Option.some.injEq] at h
        exact Or.inl ⟨s, rest, rfl, hw, h.symm⟩
      · rw [if_neg hw] at h
        simp only [Option.some.injEq] at h
        exact Or.inr (Or.inl ⟨s, rest, rfl, hw, h.symm⟩)
  | wait =>
    rw [hm] at h
    simp only at h
    by_cases hw : st.wg = 0
    · rw [if_pos hw] at h
      simp only [Option.some.injEq] at h
      exact Or.inr (Or.inr (Or.inr ⟨rfl, hw, h.symm⟩))
    · rw [if_neg hw] at h
      simp at h
  | returned rs err =>
    rw [hm] at h
    simp at h

/-- The steps of a task goroutine. -/
theorem step_task_cases (o : Orchestrator) (specs : List ImageSpec) (i : Nat)
    (g : Option String) (z : Except String Int) (st st' : RunState)
    (h : step o specs (.task i g z) st = some st') :
    st.panicked = false ∧
    ∃ pre post s pc pc' sh, st.tasks = pre ++ (s, pc) :: post ∧ pre.length = i ∧
      taskStep o specs st s g z pc = some (pc', sh) ∧
      st' = { sh with tasks := pre ++ (s, pc') :: post } := by
  unfold step at h
  cases hp : st.panicked with
  | true => rw [hp] at h; simp at h
  | false =>
    refine ⟨rfl, ?_⟩
    rw [hp] at h
    simp only [Bool.false_eq_true, if_false] at h
    cases ht : st.tasks[i]? with
    | none => rw [ht] at h; simp at h
    | some t =>
      obtain ⟨s, pc⟩ := t
      rw [ht] at h
      simp only at h
      cases hs : taskStep o specs st s g z pc with
      | none => rw [hs] at h; simp at h
      | some r =>
        obtain ⟨pc', sh⟩ := r
        rw [hs] at h
        simp only [Option.some.injEq] at h
        obtain ⟨pre, post, h1, h2, h3⟩ := getElem?_decomp st.tasks i (s, pc) ht
        exact ⟨pre, post, s, pc, pc', sh, h1, h2, hs, by rw [← h, h3]⟩

/-- The statements of a task goroutine, one by one. -/
theorem taskStep_cases (o : Orchestrator) (specs : List ImageSpec) (st : RunState)
    (s : ImageSpec) (g : Option String) (z : Except String Int) (pc pc' : TaskPc)
    (sh : RunState) (h : taskStep o specs st s g z pc = some (pc', sh)) :
    (pc = .acquire ∧ (st.sem : Int) < o.MaxConcurrency ∧ pc' = .render ∧
      sh = { st with sem := st.sem + 1 }) ∨
    (pc = .render ∧ pc' = .send (generateOne s g z) ∧ sh = st) ∨
    (∃ r, pc = .send r ∧ st.resultsChan.length < specs.length ∧ pc' = .count r ∧
      sh = { st with resultsChan := st.resultsChan ++ [r] }) ∨
    (∃ r, pc = .count r ∧ r.Error = none ∧ pc' = .release r ∧
      sh = { st with stats := { st.stats with Completed := wrap32 (st.stats.Completed + 1) } }) ∨
    (∃ r, pc = .count r ∧ r.Error ≠ none ∧ pc' = .release r ∧
      sh = { st with stats := { st.stats with Failed := wrap32 (st.stats.Failed + 1) } }) ∨
    (∃ r, pc = .release r ∧ 0 < st.sem ∧ pc' = .done r ∧ sh = { st with sem := st.sem - 1 }) ∨
    (∃ r, pc = .done r ∧ pc' = .exited r ∧
      sh = { st with wg := wrap32 (st.wg - 1),
                     panicked := st.panicked || decide (wrap32 (st.wg - 1) < 0) }) := by
  cases pc with
  | acquire =>
    simp only [taskStep] at h
    by_cases hc : (st.sem : Int) < o.MaxConcurrency
    · rw [if_pos hc] at h
      simp only [Option.some.injEq, Prod.mk.injEq] at h
      exact Or.inl ⟨rfl, hc, h.1.symm, h.2.symm⟩
    · rw [if_neg hc] at h
      simp at h
  | render =>
    simp only [taskStep, Option.some.injEq, Prod.mk.injEq] at h
    exact Or.inr (Or.inl ⟨rfl, h.1.symm, h.2.symm⟩)
  | send r =>
    simp only [taskStep] at h
    by_cases hc : st.resultsChan.length < specs.length
    · rw [if_pos hc] at h
      simp only [Option.some.injEq, Prod.mk.injEq] at h
      exact Or.inr (Or.inr (Or.inl ⟨r, rfl, hc, h.1.symm, h.2.symm⟩))
    · rw [if_neg hc] at h
      simp at h
  | count r =>
    simp only [taskStep] at h
    by_cases hc : r.Error = none
    · rw [if_pos hc] at h
      simp only [Option.some.injEq, Prod.mk.injEq] at h
      exact Or.inr (Or.inr (Or.inr (Or.inl ⟨r, rfl, hc, h.1.symm, h.2.symm⟩)))
    · rw [if_neg hc] at h
      simp only [Option.some.injEq, Prod.mk.injEq] at h
      exact Or.inr (Or.inr (Or.inr (Or.inr (Or.inl ⟨r, rfl, hc, h.1.symm, h.2.symm⟩))))
  | release r =>
    simp only [taskStep] at h
    by_cases hc : 0 < st.sem
    · rw [if_pos hc] at h
      simp only [Option.some.injEq, Prod.mk.injEq] at h
      exact Or.inr (Or.inr (Or.inr (Or.inr (Or.inr (Or.inl ⟨r, rfl, hc, h.1.symm, h.2.symm⟩)))))
    · rw [if_neg hc] at h
      simp at h
  | done r =>
    simp only [taskStep, Option.some.injEq, Prod.mk.injEq] at h
    exact Or.inr (Or.inr (Or.inr (Or.inr (Or.inr (Or.inr ⟨r, rfl, h.1.symm, h.2.symm⟩)))))
  | exited r => simp [taskStep] at h

/-- The result of `generateOne` carries the spec. -/
theorem generateOne_Spec (s : ImageSpec) (g : Option String) (z : Except String Int) :
    (generateOne s g z).Spec = s := by
  unfold generateOne
  cases g with
  | some e => rfl
  | none =>
    cases z with
    | error e => rfl
    | ok n => rfl

/-- A step of a task goroutine keeps the invariant. -/
theorem inv_task_step (o : Orchestrator) (specs : List ImageSpec) (st sh : RunState)
    (pre post : List (ImageSpec × TaskPc)) (s : ImageSpec) (pc pc' : TaskPc)
    (g : Option String) (z : Except String Int) (hinv : Inv o specs st)
    (ht : st.tasks = pre ++ (s, pc) :: post)
    (hs : taskStep o specs st s g z pc = some (pc', sh)) :
    Inv o specs { sh with tasks := pre ++ (s, pc') :: post } := by
  have hl := hinv.launched
  have hsem := hinv.semHeld
  have hcap := hinv.semCap
  have hwg := hinv.wgRunning
  have hwb := hinv.wgBound
  have hdel := hinv.deliveredSent
  have hown := hinv.owns
  have hcom := hinv.completed
  have hfail := hinv.failed
  have hfin := hinv.finished
  rw [ht] at hl hsem hwg hdel hown hcom hfail hfin
  simp only [List.map_append, List.map_cons, List.mem_append, List.mem_cons] at hl hown hfin
  have hnotret : ∀ rs err, pc.running = true → st.main ≠ .returned rs err := by
    intro rs err hr hm
    have := (hfin rs err hm).1 (s, pc) (Or.inr (Or.inl rfl))
    simp only at this
    rw [hr] at this
    exact absurd this (by decide)
  rcases taskStep_cases o specs st s g z pc pc' sh hs with
    ⟨rfl, hc, rfl, rfl⟩ | ⟨rfl, rfl, rfl⟩ | ⟨r, rfl, hc, rfl, rfl⟩ | ⟨r, rfl, hc, rfl, rfl⟩ |
    ⟨r, rfl, hc, rfl, rfl⟩ | ⟨r, rfl, hc, rfl, rfl⟩ | ⟨r, rfl, rfl, rfl⟩
  · -- acquire
    constructor
    all_goals try dsimp only
    · exact hinv.notPanicked
    · simpa using hl
    · simp [List.countP_cons] at hsem ⊢
      omega
    · omega
    · simpa [List.countP_cons] using hwg
    · simpa [delivered] using hdel
    · intro t hm r hr
      simp only [List.mem_append, List.mem_cons] at hm
      rcases hm with hm | rfl | hm
      · exact hown t (Or.inl hm) r hr
      · simp at hr
      · exact hown t (Or.inr (Or.inr hm)) r hr
    · simpa [List.countP_cons] using hcom
    · simpa [List.countP_cons] using hfail
    · exact hinv.total
    · intro rs err hm
      exact absurd hm (hnotret rs err rfl)
    · exact hinv.nonempty
    · exact hinv.wgBound
  · -- the call of generateOne
    constructor
    all_goals try dsimp only
    · exact hinv.notPanicked
    · simpa using hl
    · simpa [List.countP_cons] using hsem
    · exact hcap
    · simpa [List.countP_cons] using hwg
    · simpa [delivered] using hdel
    · intro t hm r' hr
      simp only [List.mem_append, List.mem_cons] at hm
      rcases hm with hm | rfl | hm
      · exact hown t (Or.inl hm) r' hr
      · simp only [TaskPc.result, Option.some.injEq] at hr
        rw [← hr]
        exact generateOne_Spec _ g z
      · exact hown t (Or.inr (Or.inr hm)) r' hr
    · simpa [List.countP_cons] using hcom
    · simpa [List.countP_cons] using hfail
    · exact hinv.total
    · intro rs err hm
      exact absurd hm (hnotret rs err rfl)
    · exact hinv.nonempty
    · exact hinv.wgBound
  · -- the send
    constructor
    all_goals try dsimp only
    · exact hinv.notPanicked
    · simpa using hl
    · simpa [List.countP_cons] using hsem
    · exact hcap
    · simpa [List.countP_cons] using hwg
    · simp only [delivered, List.filterMap_append, List.filterMap_cons, TaskPc.sent] at hdel ⊢
      rw [← List.append_assoc]
      exact (List.perm_append_singleton r _).trans ((hdel.cons r).trans List.perm_middle.symm)
    · intro t hm r' hr
      simp only [List.mem_append, List.mem_cons] at hm
      rcases hm with hm | rfl | hm
      · exact hown t (Or.inl hm) r' hr
      · simp only [TaskPc.result, Option.some.injEq] at hr
        exact hown _ (Or.inr (Or.inl rfl)) r' (by simpa using hr)
      · exact hown t (Or.inr (Or.inr hm)) r' hr
    · simpa [List.countP_cons] using hcom
    · simpa [List.countP_cons] using hfail
    · exact hinv.total
    · intro rs err hm
      exact absurd hm (hnotret rs err rfl)
    · exact hinv.nonempty
    · exact hinv.wgBound
  · -- the counter Completed
    constructor
    all_goals try dsimp only
    · exact hinv.notPanicked
    · simpa using hl
    · simpa [List.countP_cons] using hsem
    · exact hcap
    · simpa [List.countP_cons] using hwg
    · simpa [delivered] using hdel
    · intro t hm r' hr
      simp only [List.mem_append, List.mem_cons] at hm
      rcases hm with hm | rfl | hm
      · exact hown t (Or.inl hm) r' hr
      · simp only [TaskPc.result, Option.some.injEq] at hr
        exact hown _ (Or.inr (Or.inl rfl)) r' (by simpa using hr)
      · exact hown t (Or.inr (Or.inr hm)) r' hr
    · simp only [List.countP_append, List.countP_cons, TaskPc.countedOk, hc, decide_True, if_true,
        Bool.false_eq_true, if_false] at hcom ⊢
      rw [hcom, wrap32_succ]
      congr 1
    · simpa [List.countP_cons, hc] using hfail
    · exact hinv.total
    · intro rs err hm
      exact absurd hm (hnotret rs err rfl)
    · exact hinv.nonempty
    · exact hinv.wgBound
  · -- the counter Failed
    constructor
    all_goals try dsimp only
    · exact hinv.notPanicked
    · simpa using hl
    · simpa [List.countP_cons] using hsem
    · exact hcap
    · simpa [List.countP_cons] using hwg
    · simpa [delivered] using hdel
    · intro t hm r' hr
      simp only [List.mem_append, List.mem_cons] at hm
      rcases hm with hm | rfl | hm
      · exact hown t (Or.inl hm) r' hr
      · simp only [TaskPc.result, Option.some.injEq] at hr
        exact hown _ (Or.inr (Or.inl rfl)) r' (by simpa using hr)
      · exact hown t (Or.inr (Or.inr hm)) r' hr
    · simpa [List.countP_cons, hc] using hcom
    · simp only [List.countP_append, List.countP_cons, TaskPc.countedFailed, ne_eq, hc,
        not_false_eq_true, decide_True, if_true, Bool.false_eq_true, if_false] at hfail ⊢
      rw [hfail, wrap32_succ]
      congr 1
    · exact hinv.total
    · intro rs err hm
      exact absurd hm (hnotret rs err rfl)
    · exact hinv.nonempty
    · exact hinv.wgBound
  · -- the release
    constructor
    all_goals try dsimp only
    · exact hinv.notPanicked
    · simpa using hl
    · simp [List.countP_cons] at hsem ⊢
      omega
    · omega
    · simpa [List.countP_cons] using hwg
    · simpa [delivered] using hdel
    · intro t hm r' hr
      simp only [List.mem_append, List.mem_cons] at hm
      rcases hm with hm | rfl | hm
      · exact hown t (Or.inl hm) r' hr
      · simp only [TaskPc.result, Option.some.injEq] at hr
        exact hown _ (Or.inr (Or.inl rfl)) r' (by simpa using hr)
      · exact hown t (Or.inr (Or.inr hm)) r' hr
    · simpa [List.countP_cons] using hcom
    · simpa [List.countP_cons] using hfail
    · exact hinv.total
    · intro rs err hm
      exact absurd hm (hnotret rs err rfl)
    · exact hinv.nonempty
    · exact hinv.wgBound
  · -- wg.Done
    constructor
    all_goals try dsimp only
    · simp [List.countP_cons] at hwg
      simp only [hinv.notPanicked, Bool.false_or, decide_eq_false_iff_not]
      rw [wrap32_small _ (by omega) (by omega)]
      omega
    · simpa using hl
    · simpa [List.countP_cons] using hsem
    · exact hcap
    · simp [List.countP_cons] at hwg ⊢
      rw [wrap32_small _ (by omega) (by omega)]
      omega
    · simpa [delivered] using hdel
    · intro t hm r' hr
      simp only [List.mem_append, List.mem_cons] at hm
      rcases hm with hm | rfl | hm
      · exact hown t (Or.inl hm) r' hr
      · simp only [TaskPc.result, Option.some.injEq] at hr
        exact hown _ (Or.inr (Or.inl rfl)) r' (by simpa using hr)
      · exact hown t (Or.inr (Or.inr hm)) r' hr
    · simpa [List.countP_cons] using hcom
    · simpa [List.countP_cons] using hfail
    · exact hinv.total
    · intro rs err hm
      exact absurd hm (hnotret rs err rfl)
    · exact hinv.nonempty
    · exact wrap32_lt _

/-- A step of the calling goroutine that does not panic keeps the invariant. -/
theorem inv_main_step (o : Orchestrator) (specs : List ImageSpec) (now : Time)
    (st st' : RunState) (hinv : Inv o specs st)
    (h : step o specs (.main now) st = some st') (hnp : st'.panicked = false) :
    Inv o specs st' := by
  have hl := hinv.launched
  have hdel := hinv.deliveredSent
  have hfin := hinv.finished
  have hwb := hinv.wgBound
  rcases step_main_cases o specs now st st' h with
    ⟨s, rest, hm, hw, rfl⟩ | ⟨s, rest, hm, hw, rfl⟩ | ⟨hm, rfl⟩ | ⟨hm, hw, rfl⟩
  · -- the panic of wg.Add
    simp at hnp
  · -- one more task is launched
    rw [hm] at hl
    simp only [delivered, hm, MainPc.results, List.nil_append] at hdel
    have hwg := hinv.wgRunning
    have hw1 : wrap32 (st.wg + 1) = st.wg + 1 := by
      unfold wrap32 at hw ⊢
      omega
    constructor
    all_goals try dsimp only
    · exact hinv.notPanicked
    · simpa using hl
    · simpa [List.countP_cons] using hinv.semHeld
    · exact hinv.semCap
    · rw [hw1]
      simp [List.countP_cons] at hwg ⊢
      omega
    · simpa [delivered] using hdel
    · intro t ht r hr
      simp only [List.mem_append, List.mem_singleton] at ht
      rcases ht with ht | rfl
      · exact hinv.owns t ht r hr
      · simp at hr
    · simpa [List.countP_cons] using hinv.completed
    · simpa [List.countP_cons] using hinv.failed
    · exact hinv.total
    · intro rs err h2
      simp at h2
    · intro h0
      obtain ⟨e, he⟩ := hinv.nonempty h0
      rw [hm] at he
      simp at he
    · exact wrap32_lt _
  · -- the launch loop ends
    rw [hm] at hl
    simp only [delivered, hm, MainPc.results, List.nil_append] at hdel
    constructor
    all_goals try dsimp only
    · exact hinv.notPanicked
    · simpa using hl
    · exact hinv.semHeld
    · exact hinv.semCap
    · exact hinv.wgRunning
    · simpa [delivered] using hdel
    · exact hinv.owns
    · exact hinv.completed
    · exact hinv.failed
    · exact hinv.total
    · intro rs err h2
      simp at h2
    · intro h0
      obtain ⟨e, he⟩ := hinv.nonempty h0
      rw [hm] at he
      simp at he
    · exact hinv.wgBound
  · -- the return
    rw [hm] at hl
    simp only [delivered, hm, MainPc.results, List.nil_append] at hdel
    have hwg := hinv.wgRunning
    rw [hw] at hwg
    have hzero : List.countP (fun t => t.2.running) st.tasks = 0 := by
      omega
    have hlen : specs.length ≠ 0 := by
      intro h0
      obtain ⟨e, he⟩ := hinv.nonempty h0
      rw [hm] at he
      simp at he
    constructor
    all_goals try dsimp only
    · exact hinv.notPanicked
    · simpa using hl
    · exact hinv.semHeld
    · exact hinv.semCap
    · exact hinv.wgRunning
    · simpa [delivered] using hdel
    · exact hinv.owns
    · exact hinv.completed
    · exact hinv.failed
    · exact hinv.total
    · intro rs err h2
      simp only [MainPc.returned.injEq] at h2
      refine ⟨?_, rfl, ?_⟩
      · intro t ht
        have := (List.countP_eq_zero.1 hzero) t ht
        simpa using this
      · rw [← h2.2]
        simp only [failureError, hlen, if_false, gt_iff_lt]
    · intro h0
      exact absurd h0 hlen
    · exact hinv.wgBound

/-- Every step that does not panic keeps the invariant. -/
theorem inv_step (o : Orchestrator) (specs : List ImageSpec) (a : Action) (st st' : RunState)
    (hinv : Inv o specs st) (h : step o specs a st = some st') (hnp : st'.panicked = false) :
    Inv o specs st' := by
  cases a with
  | main now => exact inv_main_step o specs now st st' hinv h hnp
  | task i g z =>
    obtain ⟨-, pre, post, s, pc, pc', sh, ht, -, hs, rfl⟩ := step_task_cases o specs i g z st st' h
    exact inv_task_step o specs st sh pre post s pc pc' g z hinv ht hs
  | crash i =>
    obtain ⟨-, -, rfl⟩ := step_crash_cases o specs i st st' h
    simp at hnp

/-- The steps that panic: `wg.Add(1)` in the launch loop, when the counter of
the wait group is `2^31 - 1`, and the panic of a call of `Generate`. -/
theorem panic_shape (o : Orchestrator) (specs : List ImageSpec) (a : Action)
    (st st' : RunState) (hinv : Inv o specs st) (h : step o specs a st = some st')
    (hp : st'.panicked = true) :
    st' = { st with panicked := true } ∧
      (((∃ t, a = .main t) ∧ (∃ s rest, st.main = .launch (s :: rest)) ∧
          st.wg = 2147483647) ∨
        (∃ i s, a = .crash i ∧ st.tasks[i]? = some (s, .render))) := by
  cases a with
  | main now =>
    have hnp := hinv.notPanicked
    have hwb := hinv.wgBound
    have hwg := hinv.wgRunning
    rcases step_main_cases o specs now st st' h with
      ⟨s, rest, hm, hw, rfl⟩ | ⟨s, rest, hm, hw, rfl⟩ | ⟨hm, rfl⟩ | ⟨hm, hw, rfl⟩
    · refine ⟨rfl, Or.inl ⟨⟨now, rfl⟩, ⟨s, rest, hm⟩, ?_⟩⟩
      unfold wrap32 at hw
      omega
    · simp only at hp
      rw [hnp] at hp
      exact absurd hp (by decide)
    · simp only at hp
      rw [hnp] at hp
      exact absurd hp (by decide)
    · simp only at hp
      rw [hnp] at hp
      exact absurd hp (by decide)
  | task i g z =>
    obtain ⟨-, pre, post, s, pc, pc', sh, ht, -, hs, rfl⟩ := step_task_cases o specs i g z st st' h
    have := (inv_task_step o specs st sh pre post s pc pc' g z hinv ht hs).notPanicked
    rw [this] at hp
    exact absurd hp (by decide)
  | crash i =>
    obtain ⟨-, ⟨s, hs⟩, rfl⟩ := step_crash_cases o specs i st st' h
    exact ⟨rfl, Or.inr ⟨i, s, rfl, hs⟩⟩

/-- With fewer than `2^31` jobs no step panics, but for the panic of a call of
`Generate`. -/
theorem no_panic_small (o : Orchestrator) (specs : List ImageSpec) (a : Action)
    (st st' : RunState) (hinv : Inv o specs st) (hlen : specs.length < 2147483648)
    (hc : a.isCrash = false) (h : step o specs a st = some st') : st'.panicked = false := by
  cases hp : st'.panicked with
  | false => rfl
  | true =>
    exfalso
    rcases (panic_shape o specs a st st' hinv h hp).2 with
      ⟨-, ⟨s, rest, hm⟩, hw⟩ | ⟨i, s, ha, -⟩
    · have hwg := hinv.wgRunning
      have hl := congrArg List.length hinv.launched
      rw [hm] at hl
      simp only [List.length_append, List.length_map, MainPc.pending, List.length_cons] at hl
      have hle := List.countP_le_length (fun t : ImageSpec × TaskPc => t.2.running)
        (l := st.tasks)
      omega
    · rw [ha] at hc
      simp [Action.isCrash] at hc

/-- The state before the last state of a run has not panicked. -/
theorem runSchedule_not_panicked (o : Orchestrator) (specs : List ImageSpec)
    (schedule : List Action) (st st' : RunState)
    (hr : runSchedule o specs schedule st = some st') (hnp : st'.panicked = false) :
    st.panicked = false := by
  cases schedule with
  | nil =>
    simp only [runSchedule, Option.some.injEq] at hr
    rw [hr]
    exact hnp
  | cons a rest =>
    simp only [runSchedule] at hr
    cases hs : step o specs a st with
    | none => rw [hs] at hr; simp at hr
    | some st1 => exact step_not_panicked o specs a st st1 hs

/-- The invariant holds after a schedule that ends in a state that has not
panicked. -/
theorem inv_runSchedule (o : Orchestrator) (specs : List ImageSpec)
    (schedule : List Action) (st st' : RunState) (hinv : Inv o specs st)
    (hr : runSchedule o specs schedule st = some st') (hnp : st'.panicked = false) :
    Inv o specs st' := by
  induction schedule generalizing st with
  | nil =>
    simp only [runSchedule, Option.some.injEq] at hr
    rw [← hr]
    exact hinv
  | cons a rest ih =>
    simp only [runSchedule] at hr
    cases hs : step o specs a st with
    | none => rw [hs] at hr; simp at hr
    | some st1 =>
      rw [hs] at hr
      have h1 := runSchedule_not_panicked o specs rest st1 st' hr hnp
      exact ih st1 (inv_step o specs a st st1 hinv hs h1) hr

/-- A run that ends in a panic: the last action panics, from a state that
satisfies the invariant; it is `wg.Add(1)` in the launch loop with the counter
of the wait group at `2^31 - 1`, or the panic of a call of `Generate`. -/
theorem run_panicked (o : Orchestrator) (specs : List ImageSpec)
    (schedule : List Action) (st st' : RunState) (hinv : Inv o specs st)
    (hr : runSchedule o specs schedule st = some st') (hp : st'.panicked = true) :
    ∃ pre a st0, schedule = pre ++ [a] ∧ runSchedule o specs pre st = some st0 ∧
      Inv o specs st0 ∧ step o specs a st0 = some st' ∧ st' = { st0 with panicked := true } ∧
      (((∃ t, a = .main t) ∧ (∃ s rest, st0.main = .launch (s :: rest)) ∧
          st0.wg = 2147483647) ∨
        (∃ i s, a = .crash i ∧ st0.tasks[i]? = some (s, .render))) := by
  induction schedule generalizing st with
  | nil =>
    simp only [runSchedule, Option.some.injEq] at hr
    rw [← hr, hinv.notPanicked] at hp
    exact absurd hp (by decide)
  | cons a rest ih =>
    simp only [runSchedule] at hr
    cases hs : step o specs a st with
    | none => rw [hs] at hr; simp at hr
    | some st1 =>
      rw [hs] at hr
      cases hp1 : st1.panicked with
      | false =>
        obtain ⟨pre, b, st0, he, hrun, hinv0, hstep, hst, hshape⟩ :=
          ih st1 (inv_step o specs a st st1 hinv hs hp1) hr
        refine ⟨a :: pre, b, st0, by rw [he]; rfl, ?_, hinv0, hstep, hst, hshape⟩
        simp only [runSchedule, hs]
        exact hrun
      | true =>
        obtain ⟨he, hshape⟩ := panic_shape o specs a st st1 hinv hs hp1
        cases rest with
        | nil =>
          simp only [runSchedule, Option.some.injEq] at hr
          subst hr
          exact ⟨[], a, st, rfl, rfl, hinv, hs, he, hshape⟩
        | cons b rest =>
          simp only [runSchedule] at hr
          cases hs2 : step o specs b st1 with
          | none => rw [hs2] at hr; simp at hr
          | some st2 =>
            have := step_not_panicked o specs b st1 st2 hs2
            rw [this] at hp1
            exact absurd hp1 (by decide)

/-- A state of a run satisfies the invariant, or it is a state that satisfies
the invariant in which a step has panicked. -/
theorem run_cases (o : Orchestrator) (specs : List ImageSpec)
    (schedule : List Action) (st st' : RunState) (hinv : Inv o specs st)
    (hr : runSchedule o specs schedule st = some st') :
    Inv o specs st' ∨
    ∃ st0, Inv o specs st0 ∧ st' = { st0 with panicked := true } := by
  cases hp : st'.panicked with
  | false => exact Or.inl (inv_runSchedule o specs schedule st st' hinv hr hp)
  | true =>
    obtain ⟨pre, a, st0, -, -, hinv0, -, hst, -⟩ :=
      run_panicked o specs schedule st st' hinv hr hp
    exact Or.inr ⟨st0, hinv0, hst⟩

/-- No action of a run that ends without a panic is the panic of a call of
`Generate`. -/
theorem runSchedule_no_crash (o : Orchestrator) (specs : List ImageSpec)
    (schedule : List Action) (st st' : RunState)
    (hr : runSchedule o specs schedule st = some st') (hnp : st'.panicked = false) :
    ∀ a ∈ schedule, a.isCrash = false := by
  induction schedule generalizing st with
  | nil => simp
  | cons a rest ih =>
    simp only [runSchedule] at hr
    cases hs : step o specs a st with
    | none => rw [hs] at hr; simp at hr
    | some st1 =>
      rw [hs] at hr
      have h1 := runSchedule_not_panicked o specs rest st1 st' hr hnp
      intro b hb
      rcases List.mem_cons.1 hb with rfl | hb
      · exact step_not_crash o specs _ st st1 hs h1
      · exact ih st1 hr b hb

/-- With fewer than `2^31` jobs the invariant holds after every schedule in
which no call of `Generate` panics. -/
theorem inv_run_small (o : Orchestrator) (specs : List ImageSpec)
    (schedule : List Action) (st st' : RunState) (hinv : Inv o specs st)
    (hlen : specs.length < 2147483648) (hc : ∀ a ∈ schedule, a.isCrash = false)
    (hr : runSchedule o specs schedule st = some st') : Inv o specs st' := by
  cases hp : st'.panicked with
  | false => exact inv_runSchedule o specs schedule st st' hinv hr hp
  | true =>
    exfalso
    obtain ⟨pre, a, st0, he, -, hinv0, hstep, -, -⟩ :=
      run_panicked o specs schedule st st' hinv hr hp
    have ha : a.isCrash = false := hc a (by rw [he]; simp)
    have := no_panic_small o specs a st0 st' hinv0 hlen ha hstep
    rw [this] at hp
    exact absurd hp (by decide)

/-- Every step that does not panic takes one off the number of steps left. -/
theorem step_remaining (o : Orchestrator) (specs : List ImageSpec) (a : Action)
    (st st' : RunState) (h : step o specs a st = some st') (hnp : st'.panicked = false) :
    remaining st' + 1 = remaining st := by
  cases a with
  | main now =>
    rcases step_main_cases o specs now st st' h with
      ⟨s, rest, hm, hw, rfl⟩ | ⟨s, rest, hm, hw, rfl⟩ | ⟨hm, rfl⟩ | ⟨hm, hw, rfl⟩
    · simp at hnp
    · simp [remaining, hm]
      omega
    · simp [remaining, hm]
      omega
    · simp [remaining, hm]
      omega
  | task i g z =>
    obtain ⟨-, pre, post, s, pc, pc', sh, ht, -, hs, rfl⟩ := step_task_cases o specs i g z st st' h
    rcases taskStep_cases o specs st s g z pc pc' sh hs with
      ⟨rfl, hc, rfl, rfl⟩ | ⟨rfl, rfl, rfl⟩ | ⟨r, rfl, hc, rfl, rfl⟩ | ⟨r, rfl, hc, rfl, rfl⟩ |
      ⟨r, rfl, hc, rfl, rfl⟩ | ⟨r, rfl, hc, rfl, rfl⟩ | ⟨r, rfl, rfl, rfl⟩
    all_goals
      simp [remaining, ht]
      omega
  | crash i =>
    obtain ⟨-, -, rfl⟩ := step_crash_cases o specs i st st' h
    simp at hnp

/-- A run from the start has at most `7 * N + 2` steps, counted with the steps
left. -/
theorem remaining_start (o : Orchestrator) (specs : List ImageSpec) (now : Time) :
    remaining (start o specs now) = if specs.length = 0 then 0 else 7 * specs.length + 2 := by
  unfold start
  by_cases h : specs.length = 0
  · simp [h, remaining]
  · simp [h, remaining]

/-- A schedule that is executed without a panic takes its length off the number
of steps left. -/
theorem runSchedule_remaining (o : Orchestrator) (specs : List ImageSpec)
    (schedule : List Action) (st st' : RunState)
    (hr : runSchedule o specs schedule st = some st') (hnp : st'.panicked = false) :
    remaining st' + schedule.length = remaining st := by
  induction schedule generalizing st with
  | nil =>
    simp only [runSchedule, Option.some.injEq] at hr
    simp [hr]
  | cons a rest ih =>
    simp only [runSchedule] at hr
    cases hs : step o specs a st with
    | none => rw [hs] at hr; simp at hr
    | some st1 =>
      rw [hs] at hr
      have h0 := runSchedule_not_panicked o specs rest st1 st' hr hnp
      have h1 := ih st1 hr
      have h2 := step_remaining o specs a st st1 hs h0
      simp only [List.length_cons]
      omega

/-- A task whose next statement does not block can take a step. -/
theorem step_task_of (o : Orchestrator) (specs : List ImageSpec) (st sh : RunState)
    (pre post : List (ImageSpec × TaskPc)) (s : ImageSpec) (pc pc' : TaskPc)
    (g : Option String) (z : Except String Int) (hnp : st.panicked = false)
    (ht : st.tasks = pre ++ (s, pc) :: post)
    (hs : taskStep o specs st s g z pc = some (pc', sh)) :
    step o specs (.task pre.length g z) st =
      some { sh with tasks := pre ++ (s, pc') :: post } := by
  obtain ⟨pre', post', h1, h2, h3⟩ := getElem?_decomp st.tasks pre.length (s, pc)
    (by rw [ht]; exact getElem?_of_decomp pre post (s, pc))
  unfold step
  rw [hnp]
  simp only [Bool.false_eq_true, if_false]
  have hget : st.tasks[pre.length]? = some (s, pc) := by
    rw [ht]
    exact getElem?_of_decomp pre post (s, pc)
  rw [hget]
  simp only [hs]
  have hset : st.tasks.set pre.length (s, pc') = pre ++ (s, pc') :: post := by
    rw [ht]
    simp
  rw [hset]

/-- The results channel has room for the result of a task that has not sent
yet. -/
theorem chan_room (o : Orchestrator) (specs : List ImageSpec) (st : RunState)
    (hinv : Inv o specs st) (s : ImageSpec) (r : GenerationResult)
    (hmem : (s, TaskPc.send r) ∈ st.tasks) : st.resultsChan.length < specs.length := by
  obtain ⟨pre, post, ht⟩ := List.append_of_mem hmem
  have hdel := hinv.deliveredSent.length_eq
  have hl := congrArg List.length hinv.launched
  rw [ht] at hdel hl
  have hnone : List.filterMap (fun t : ImageSpec × TaskPc => t.2.sent)
      ((s, TaskPc.send r) :: post) =
      List.filterMap (fun t : ImageSpec × TaskPc => t.2.sent) post := rfl
  rw [List.filterMap_append, hnone] at hdel
  simp only [delivered, List.length_append, List.length_map, List.length_cons] at hdel hl
  have h1 := List.length_filterMap_le (fun t : ImageSpec × TaskPc => t.2.sent) pre
  have h2 := List.length_filterMap_le (fun t : ImageSpec × TaskPc => t.2.sent) post
  omega

/-- A step of a task whose external calls behave as `outcome` says. -/
theorem task_progress (o : Orchestrator) (specs : List ImageSpec)
    (outcome : ImageSpec → Option String × Except String Int) (st sh : RunState)
    (pre post : List (ImageSpec × TaskPc)) (s : ImageSpec) (pc pc' : TaskPc)
    (hinv : Inv o specs st) (ht : st.tasks = pre ++ (s, pc) :: post)
    (hs : taskStep o specs st s (outcome s).1 (outcome s).2 pc = some (pc', sh)) :
    ∃ a st', step o specs a st = some st' ∧ st'.panicked = false ∧
      (Follows outcome st → Follows outcome st') := by
  refine ⟨_, _, step_task_of o specs st sh pre post s pc pc' _ _ hinv.notPanicked ht hs,
    (inv_task_step o specs st sh pre post s pc pc' _ _ hinv ht hs).notPanicked, ?_⟩
  intro hf t hm r hr
  simp only [List.mem_append, List.mem_cons] at hm
  have hf1 : ∀ t ∈ pre ++ (s, pc) :: post, ∀ r, t.2.result = some r →
      r = generateOne t.1 (outcome t.1).1 (outcome t.1).2 := by
    rw [← ht]
    exact hf
  rcases hm with hm | rfl | hm
  · exact hf1 t (by simp [hm]) r hr
  · rcases taskStep_cases o specs st s _ _ pc pc' sh hs with
      ⟨rfl, hc, rfl, rfl⟩ | ⟨rfl, rfl, rfl⟩ | ⟨r1, rfl, hc, rfl, rfl⟩ | ⟨r1, rfl, hc, rfl, rfl⟩ |
      ⟨r1, rfl, hc, rfl, rfl⟩ | ⟨r1, rfl, hc, rfl, rfl⟩ | ⟨r1, rfl, rfl, rfl⟩
    · simp at hr
    · simp only [TaskPc.result, Option.some.injEq] at hr
      exact hr.symm
    · exact hf1 (s, .send r1) (by simp) r (by simpa using hr)
    · exact hf1 (s, .count r1) (by simp) r (by simpa using hr)
    · exact hf1 (s, .count r1) (by simp) r (by simpa using hr)
    · exact hf1 (s, .release r1) (by simp) r (by simpa using hr)
    · exact hf1 (s, .done r1) (by simp) r (by simpa using hr)
  · exact hf1 t (by simp [hm]) r hr

/-- While a task has not exited, some task can take a step, whatever the
outcomes of the external calls are. -/
theorem task_step_exists (o : Orchestrator) (specs : List ImageSpec)
    (outcome : ImageSpec → Option String × Except String Int) (st : RunState)
    (hpos : 0 < o.MaxConcurrency) (hinv : Inv o specs st)
    (hrun : 0 < st.tasks.countP (fun t => t.2.running)) :
    ∃ a st', step o specs a st = some st' ∧ st'.panicked = false ∧
      (Follows outcome st → Follows outcome st') := by
  obtain ⟨t, htm, htr⟩ := List.countP_pos_iff.1 hrun
  obtain ⟨s, pc⟩ := t
  -- a task that holds a slot can always take a step
  have hholding : ∀ s1 pc1, (s1, pc1) ∈ st.tasks → pc1.holding = true →
      ∃ a st', step o specs a st = some st' ∧ st'.panicked = false ∧
        (Follows outcome st → Follows outcome st') := by
    intro s1 pc1 hmem hh
    obtain ⟨pre, post, ht⟩ := List.append_of_mem hmem
    have hsem : 0 < st.sem := by
      rw [hinv.semHeld]
      exact List.countP_pos_iff.2 ⟨(s1, pc1), hmem, hh⟩
    cases pc1 with
    | acquire => simp at hh
    | done r => simp at hh
    | exited r => simp at hh
    | render => exact task_progress o specs outcome st _ pre post s1 _ _ hinv ht rfl
    | send r =>
      have hroom := chan_room o specs st hinv s1 r hmem
      exact task_progress o specs outcome st _ pre post s1 _ _ hinv ht
        (by simp only [taskStep, hroom, if_true]; rfl)
    | count r =>
      by_cases he : r.Error = none
      · exact task_progress o specs outcome st _ pre post s1 _ _ hinv ht
          (by simp only [taskStep, he, if_true]; rfl)
      · exact task_progress o specs outcome st _ pre post s1 _ _ hinv ht
          (by simp only [taskStep, he, if_false]; rfl)
    | release r =>
      exact task_progress o specs outcome st _ pre post s1 _ _ hinv ht
        (by simp only [taskStep, hsem, if_true]; rfl)
  obtain ⟨pre, post, ht⟩ := List.append_of_mem htm
  cases pc with
  | exited r => simp at htr
  | render => exact hholding s _ htm rfl
  | send r => exact hholding s _ htm rfl
  | count r => exact hholding s _ htm rfl
  | release r => exact hholding s _ htm rfl
  | done r => exact task_progress o specs outcome st _ pre post s _ _ hinv ht rfl
  | acquire =>
    by_cases hc : (st.sem : Int) < o.MaxConcurrency
    · exact task_progress o specs outcome st _ pre post s _ _ hinv ht
        (by simp only [taskStep, hc, if_true]; rfl)
    · -- all slots are taken: a task that holds one can go on
      have hsem : 0 < st.sem := by omega
      rw [hinv.semHeld] at hsem
      obtain ⟨t1, hm1, hh1⟩ := List.countP_pos_iff.1 hsem
      exact hholding t1.1 t1.2 hm1 hh1

/-- No deadlock: with a positive `MaxConcurrency`, a run that has not returned
can take a step that does not panic, whatever the outcomes of the external
calls are. -/
theorem progress (o : Orchestrator) (specs : List ImageSpec)
    (outcome : ImageSpec → Option String × Except String Int) (st : RunState)
    (hpos : 0 < o.MaxConcurrency) (hinv : Inv o specs st)
    (hnr : ∀ rs err, st.main ≠ .returned rs err) :
    ∃ a st', step o specs a st = some st' ∧ st'.panicked = false ∧
      (Follows outcome st → Follows outcome st') := by
  have hnp := hinv.notPanicked
  by_cases hrun : 0 < st.tasks.countP (fun t => t.2.running)
  · exact task_step_exists o specs outcome st hpos hinv hrun
  · -- all tasks have exited: the calling goroutine goes on
    have hwg := hinv.wgRunning
    have hw : st.wg = 0 := by omega
    cases hm : st.main with
    | returned rs err => exact absurd hm (hnr rs err)
    | launch rest =>
      cases rest with
      | nil =>
        refine ⟨.main ⟨0⟩, ?_⟩
        unfold step
        rw [if_neg (by rw [hnp]; decide), hm]
        exact ⟨_, rfl, hnp, fun hf => hf⟩
      | cons s rest =>
        refine ⟨.main ⟨0⟩, ?_⟩
        unfold step
        rw [if_neg (by rw [hnp]; decide), hm]
        have h1 : ¬ wrap32 (st.wg + 1) < 0 := by
          rw [hw]
          unfold wrap32
          omega
        simp only [h1, if_false]
        refine ⟨_, rfl, hnp, fun hf t ht r hr => ?_⟩
        simp only [List.mem_append, List.mem_singleton] at ht
        rcases ht with ht | rfl
        · exact hf t ht r hr
        · simp at hr
    | wait =>
      refine ⟨.main ⟨0⟩, ?_⟩
      unfold step
      rw [if_neg (by rw [hnp]; decide), hm]
      simp only [hw, if_true]
      exact ⟨_, rfl, hnp, fun hf => hf⟩

/-- The results of tasks that have all exited: one per task, with its spec. -/
theorem sent_of_exited (tasks : List (ImageSpec × TaskPc))
    (hex : ∀ t ∈ tasks, t.2.running = false)
    (hown : ∀ t ∈ tasks, ∀ r, t.2.result = some r → r.Spec = t.1) :
    (tasks.filterMap (fun t => t.2.sent)).map (fun r => r.Spec) = tasks.map Prod.fst ∧
    tasks.countP (fun t => t.2.countedFailed) =
      failures (tasks.filterMap (fun t => t.2.sent)) ∧
    tasks.countP (fun t => t.2.countedOk) + tasks.countP (fun t => t.2.countedFailed) =
      tasks.length := by
  induction tasks with
  | nil => exact ⟨rfl, rfl, rfl⟩
  | cons t tasks ih =>
    obtain ⟨h1, h2, h3⟩ := ih (fun t ht => hex t (List.mem_cons_of_mem _ ht))
      (fun t ht => hown t (List.mem_cons_of_mem _ ht))
    obtain ⟨s, pc⟩ := t
    have hr := hex (s, pc) (List.mem_cons_self _ _)
    have ho := hown (s, pc) (List.mem_cons_self _ _)
    cases pc with
    | exited r =>
      have hs : r.Spec = s := ho r rfl
      by_cases he : r.Error = none
      · simp [failures, List.countP_cons, he, hs] at h1 h2 h3 ⊢
        refine ⟨h1, ?_, ?_⟩
        · simpa [failures] using h2
        · omega
      · simp [failures, List.countP_cons, he, hs] at h1 h2 h3 ⊢
        refine ⟨h1, ?_, ?_⟩
        · simpa [failures] using h2
        · omega
    | acquire => simp at hr
    | render => simp at hr
    | send r => simp at hr
    | count r => simp at hr
    | release r => simp at hr
    | done r => simp at hr

/-- The two counters count different tasks. -/
theorem counted_le_length (tasks : List (ImageSpec × TaskPc)) :
    tasks.countP (fun t => t.2.countedOk) + tasks.countP (fun t => t.2.countedFailed) ≤
      tasks.length := by
  induction tasks with
  | nil => simp
  | cons t tasks ih =>
    obtain ⟨s, pc⟩ := t
    cases pc with
    | acquire => simp [List.countP_cons] at ih ⊢; omega
    | render => simp [List.countP_cons] at ih ⊢; omega
    | send r => simp [List.countP_cons] at ih ⊢; omega
    | count r => simp [List.countP_cons] at ih ⊢; omega
    | release r =>
      by_cases he : r.Error = none
      · simp [List.countP_cons, he] at ih ⊢; omega
      · simp [List.countP_cons, he] at ih ⊢; omega
    | done r =>
      by_cases he : r.Error = none
      · simp [List.countP_cons, he] at ih ⊢; omega
      · simp [List.countP_cons, he] at ih ⊢; omega
    | exited r =>
      by_cases he : r.Error = none
      · simp [List.countP_cons, he] at ih ⊢; omega
      · simp [List.countP_cons, he] at ih ⊢; omega

/-- The state in which `GenerateAll` has returned. -/
theorem returned_facts (o : Orchestrator) (specs : List ImageSpec) (st : RunState)
    (hinv : Inv o specs st) (rs : List GenerationResult) (err : Option String)
    (hm : st.main = .returned rs err) :
    (rs.map (fun r => r.Spec)).Perm specs ∧ rs.length = specs.length ∧
    st.stats.Total = specs.length ∧
    st.stats.Failed = wrap32 ((failures rs : Nat) : Int) ∧
    st.stats.Completed = wrap32 ((rs.length - failures rs : Nat) : Int) ∧
    failures rs ≤ rs.length ∧
    err = failureError specs st.stats.Failed := by
  obtain ⟨hex, hchan, herr⟩ := hinv.finished rs err hm
  obtain ⟨h1, h2, h3⟩ := sent_of_exited st.tasks hex hinv.owns
  have hdel := hinv.deliveredSent
  simp only [delivered, hm, MainPc.results, hchan, List.append_nil] at hdel
  have hl := hinv.launched
  simp only [hm, MainPc.pending, List.append_nil] at hl
  have hperm : (rs.map (fun r => r.Spec)).Perm specs := by
    rw [← hl, ← h1]
    exact hdel.map _
  have hlen : rs.length = specs.length := by
    have := hperm.length_eq
    simpa using this
  have hf : failures rs = st.tasks.countP (fun t => t.2.countedFailed) := by
    rw [h2]
    exact hdel.countP_eq _
  have hlen2 : st.tasks.length = specs.length := by
    rw [← hl]
    simp
  refine ⟨hperm, hlen, hinv.total, ?_, ?_, ?_, herr⟩
  · rw [hf]
    exact hinv.failed
  · rw [hinv.completed]
    congr 2
    omega
  · omega

/-- The counters stay below the number of jobs. -/
theorem counters_le (o : Orchestrator) (specs : List ImageSpec) (st : RunState)
    (hinv : Inv o specs st) : st.stats.Completed + st.stats.Failed ≤ st.stats.Total := by
  have h1 := counted_le_length st.tasks
  have h2 := congrArg List.length hinv.launched
  simp only [List.length_append, List.length_map] at h2
  have h3 := wrap32_le ((st.tasks.countP (fun t => t.2.countedOk) : Nat) : Int)
    (Int.natCast_nonneg _)
  have h4 := wrap32_le ((st.tasks.countP (fun t => t.2.countedFailed) : Nat) : Int)
    (Int.natCast_nonneg _)
  rw [hinv.completed, hinv.failed, hinv.total]
  omega

/-- A run that can take no step has returned; from every state of a run there
is a schedule that leads to the return without a panic, with the external calls
behaving as `outcome` says. -/
theorem exists_run (o : Orchestrator) (specs : List ImageSpec)
    (outcome : ImageSpec → Option String × Except String Int)
    (hpos : 0 < o.MaxConcurrency) (n : Nat) :
    ∀ st, Inv o specs st → Follows outcome st → remaining st = n →
      ∃ schedule st', runSchedule o specs schedule st = some st' ∧ Inv o specs st' ∧
        Follows outcome st' ∧ ∃ rs err, st'.main = .returned rs err := by
  induction n with
  | zero =>
    intro st hinv hf hn
    by_cases hr : ∃ rs err, st.main = .returned rs err
    · exact ⟨[], st, rfl, hinv, hf, hr⟩
    · obtain ⟨a, st1, hs, hp, -⟩ := progress o specs outcome st hpos hinv
        (fun rs err h => hr ⟨rs, err, h⟩)
      have := step_remaining o specs a st st1 hs hp
      omega
  | succ n ih =>
    intro st hinv hf hn
    by_cases hr : ∃ rs err, st.main = .returned rs err
    · exact ⟨[], st, rfl, hinv, hf, hr⟩
    · obtain ⟨a, st1, hs, hp, hf1⟩ := progress o specs outcome st hpos hinv
        (fun rs err h => hr ⟨rs, err, h⟩)
      have h1 := step_remaining o specs a st st1 hs hp
      obtain ⟨sched, st2, h2, h3, h4, h5⟩ :=
        ih st1 (inv_step o specs a st st1 hinv hs hp) (hf1 hf) (by omega)
      refine ⟨a :: sched, st2, ?_, h3, h4, h5⟩
      simp only [runSchedule, hs]
      exact h2

/-- The maximal concurrency of a new orchestrator is positive. -/
theorem NewOrchestrator_pos (m : Int) : 0 < (NewOrchestrator m).MaxConcurrency := by
  unfold NewOrchestrator
  simp only
  split_ifs <;> omega

/-- What `GenerateAll` returns under a schedule is the returned state of a run. -/
theorem GenerateAll_some (o : Orchestrator) (specs : List ImageSpec) (now : Time)
    (schedule : List Action) (rs : List GenerationResult) (err : Option String)
    (stats : GenerationStats) :
    GenerateAll o specs now schedule = some (rs, err, stats) ↔
      ∃ st, runSchedule o specs schedule (start o specs now) = some st ∧
        st.main = .returned rs err ∧ st.stats = stats := by
  unfold GenerateAll
  cases hr : runSchedule o specs schedule (start o specs now) with
  | none => simp
  | some st =>
    cases hm : st.main with
    | launch rest => simp [hm]
    | wait => simp [hm]
    | returned rs1 err1 =>
      simp only [Option.some.injEq, Prod.mk.injEq, exists_eq_left', hm, MainPc.returned.injEq]
      tauto

/-- The invariant holds at the start of a run of a new orchestrator. -/
theorem inv_newRun (m : Int) (specs : List ImageSpec) (now : Time) :
    Inv (NewOrchestrator m) specs (newRun m specs now) :=
  inv_start (NewOrchestrator m) specs now (NewOrchestrator_pos m).le

/-- The invariant holds in a state of a run of a new orchestrator that has
returned. -/
theorem inv_returned (m : Int) (specs : List ImageSpec) (now : Time) (schedule : List Action)
    (st : RunState) (rs : List GenerationResult) (err : Option String)
    (h : runSchedule (NewOrchestrator m) specs schedule (newRun m specs now) = some st)
    (hm : st.main = .returned rs err) : Inv (NewOrchestrator m) specs st := by
  cases hp : st.panicked with
  | false => exact inv_runSchedule _ specs schedule _ st (inv_newRun m specs now) h hp
  | true =>
    exfalso
    obtain ⟨pre, a, st0, -, -, hinv0, -, hst, hshape⟩ :=
      run_panicked _ specs schedule _ st (inv_newRun m specs now) h hp
    rw [hst] at hm
    simp only at hm
    rcases hshape with ⟨-, ⟨s, rest, hm0⟩, -⟩ | ⟨i, s, -, hi⟩
    · rw [hm0] at hm
      simp at hm
    · obtain ⟨hex, -, -⟩ := hinv0.finished rs err hm
      have hmem : (s, TaskPc.render) ∈ st0.tasks := List.getElem?_mem hi
      have := hex _ hmem
      simp at this

/-- No step is taken from a state that has returned with all tasks exited. -/
theorem runSchedule_empty (o : Orchestrator) (now : Time) (schedule : List Action)
    (st : RunState) (h : runSchedule o [] schedule (start o [] now) = some st) :
    schedule = [] ∧ st = start o [] now := by
  cases schedule with
  | nil =>
    simp only [runSchedule, Option.some.injEq] at h
    exact ⟨rfl, h.symm⟩
  | cons a rest =>
    exfalso
    simp only [runSchedule] at h
    have hs : step o [] a (start o [] now) = none := by
      cases a with
      | main t => rfl
      | task i g z => rfl
      | crash i => rfl
    rw [hs] at h
    simp at h

/-- The results of a returned run come from `generateOne`, with the outcomes that
the run follows. -/
theorem returned_follows (o : Orchestrator) (specs : List ImageSpec)
    (outcome : ImageSpec → Option String × Except String Int) (st : RunState)
    (hinv : Inv o specs st) (hf : Follows outcome st) (rs : List GenerationResult)
    (err : Option String) (hm : st.main = .returned rs err) :
    ∀ r ∈ rs, r = generateOne r.Spec (outcome r.Spec).1 (outcome r.Spec).2 := by
  intro r hr
  obtain ⟨-, hchan, -⟩ := hinv.finished rs err hm
  have hdel := hinv.deliveredSent
  simp only [delivered, hm, MainPc.results, hchan, List.append_nil] at hdel
  have hmem := (hdel.mem_iff).1 hr
  simp only [List.mem_filterMap] at hmem
  obtain ⟨t, ht, hsent⟩ := hmem
  have hres : t.2.result = some r := by
    obtain ⟨s, pc⟩ := t
    cases pc <;> simp_all
  have h1 := hf t ht r hres
  have h2 := hinv.owns t ht r hres
  rw [h2]
  exact h1

/-- A run of a new orchestrator reaches the return, whatever the outcomes of the
external calls are. -/
theorem exists_return (m : Int) (specs : List ImageSpec) (now : Time)
    (outcome : ImageSpec → Option String × Except String Int) :
    ∃ schedule results err stats,
      GenerateAll (NewOrchestrator m) specs now schedule = some (results, err, stats) ∧
      ∀ r ∈ results, r = generateOne r.Spec (outcome r.Spec).1 (outcome r.Spec).2 := by
  have hinv := inv_newRun m specs now
  have hf : Follows outcome (newRun m specs now) := by
    intro t ht
    unfold newRun start at ht
    split_ifs at ht <;> simp at ht
  obtain ⟨schedule, st, hrun, hinv1, hfol, rs, err, hm⟩ :=
    exists_run (NewOrchestrator m) specs outcome (NewOrchestrator_pos m) _ _ hinv hf rfl
  refine ⟨schedule, rs, err, st.stats, ?_, ?_⟩
  · rw [GenerateAll_some]
    exact ⟨st, hrun, hm, rfl⟩
  · exact returned_follows _ specs outcome st hinv1 hfol rs err hm

/-- A task in the call of `generateOne` holds a slot. -/
theorem rendering_le_holding (tasks : List (ImageSpec × TaskPc)) :
    tasks.countP (fun t => t.2.rendering) ≤ tasks.countP (fun t => t.2.holding) := by
  apply List.countP_mono_left
  intro t _ h
  obtain ⟨s, pc⟩ := t
  cases pc <;> simp_all

/-- Whether a task can take its step does not depend on the outcomes of the
external calls. -/
theorem step_isSome_outcome (o : Orchestrator) (specs : List ImageSpec) (st : RunState)
    (i : Nat) (g g' : Option String) (z z' : Except String Int) :
    (step o specs (.task i g z) st).isSome = (step o specs (.task i g' z') st).isSome := by
  unfold step
  cases st.panicked with
  | true => rfl
  | false =>
    simp only [Bool.false_eq_true, if_false]
    cases st.tasks[i]? with
    | none => rfl
    | some t =>
      obtain ⟨s, pc⟩ := t
      cases pc with
      | acquire => simp only [taskStep]
      | render => rfl
      | send r => simp only [taskStep]
      | count r => simp only [taskStep]
      | release r => simp only [taskStep]
      | done r => rfl
      | exited r => rfl

/-- The counters change only at the counter update of a task, and then exactly
one of them does. -/
theorem step_counters (o : Orchestrator) (specs : List ImageSpec) (a : Action)
    (st st' : RunState) (h : step o specs a st = some st') :
    (st'.stats.Completed = st.stats.Completed ∧ st'.stats.Failed = st.stats.Failed) ∨
    (∃ i g z s r, a = .task i g z ∧ st.tasks[i]? = some (s, .count r) ∧
      st'.tasks[i]? = some (s, .release r) ∧
      ((r.Error = none ∧ st'.stats.Completed = wrap32 (st.stats.Completed + 1) ∧
          st'.stats.Failed = st.stats.Failed) ∨
       (r.Error ≠ none ∧ st'.stats.Failed = wrap32 (st.stats.Failed + 1) ∧
          st'.stats.Completed = st.stats.Completed))) := by
  cases a with
  | main now =>
    rcases step_main_cases o specs now st st' h with
      ⟨s, rest, hm, hw, rfl⟩ | ⟨s, rest, hm, hw, rfl⟩ | ⟨hm, rfl⟩ | ⟨hm, hw, rfl⟩
    · exact Or.inl ⟨rfl, rfl⟩
    · exact Or.inl ⟨rfl, rfl⟩
    · exact Or.inl ⟨rfl, rfl⟩
    · exact Or.inl ⟨rfl, rfl⟩
  | task i g z =>
    obtain ⟨-, pre, post, s, pc, pc', sh, ht, hi, hs, rfl⟩ :=
      step_task_cases o specs i g z st st' h
    rcases taskStep_cases o specs st s g z pc pc' sh hs with
      ⟨rfl, hc, rfl, rfl⟩ | ⟨rfl, rfl, rfl⟩ | ⟨r, rfl, hc, rfl, rfl⟩ | ⟨r, rfl, hc, rfl, rfl⟩ |
      ⟨r, rfl, hc, rfl, rfl⟩ | ⟨r, rfl, hc, rfl, rfl⟩ | ⟨r, rfl, rfl, rfl⟩
    · exact Or.inl ⟨rfl, rfl⟩
    · exact Or.inl ⟨rfl, rfl⟩
    · exact Or.inl ⟨rfl, rfl⟩
    · refine Or.inr ⟨i, g, z, s, r, rfl, ?_, ?_, Or.inl ⟨hc, rfl, rfl⟩⟩
      · rw [ht, ← hi]
        exact getElem?_of_decomp _ _ _
      · rw [← hi]
        exact getElem?_of_decomp _ _ _
    · refine Or.inr ⟨i, g, z, s, r, rfl, ?_, ?_, Or.inr ⟨hc, rfl, rfl⟩⟩
      · rw [ht, ← hi]
        exact getElem?_of_decomp _ _ _
      · rw [← hi]
        exact getElem?_of_decomp _ _ _
    · exact Or.inl ⟨rfl, rfl⟩
    · exact Or.inl ⟨rfl, rfl⟩
  | crash i =>
    obtain ⟨-, -, rfl⟩ := step_crash_cases o specs i st st' h
    exact Or.inl ⟨rfl, rfl⟩

/-- What `GenerateAll` of a new orchestrator returns. -/
theorem GenerateAll_facts (m : Int) (specs : List ImageSpec) (now : Time)
    (schedule : List Action) (rs : List GenerationResult) (err : Option String)
    (stats : GenerationStats)
    (h : GenerateAll (NewOrchestrator m) specs now schedule = some (rs, err, stats)) :
    (rs.map (fun r => r.Spec)).Perm specs ∧ rs.length = specs.length ∧
    stats.Total = specs.length ∧
    stats.Failed = wrap32 ((failures rs : Nat) : Int) ∧
    stats.Completed = wrap32 ((rs.length - failures rs : Nat) : Int) ∧
    failures rs ≤ rs.length ∧
    err = failureError specs stats.Failed := by
  obtain ⟨st, hrun, hm, rfl⟩ := (GenerateAll_some _ specs now schedule rs err stats).1 h
  exact returned_facts _ specs st (inv_returned m specs now schedule st rs err hrun hm) rs err hm

/-- In a run in which `GenerateAll` returns, no call of `Generate` panics. -/
theorem GenerateAll_no_crash (m : Int) (specs : List ImageSpec) (now : Time)
    (schedule : List Action) (rs : List GenerationResult) (err : Option String)
    (stats : GenerationStats)
    (h : GenerateAll (NewOrchestrator m) specs now schedule = some (rs, err, stats)) :
    ∀ a ∈ schedule, a.isCrash = false := by
  obtain ⟨st, hrun, hm, -⟩ := (GenerateAll_some _ specs now schedule rs err stats).1 h
  have hinv := inv_returned m specs now schedule st rs err hrun hm
  exact runSchedule_no_crash _ specs schedule _ st hrun hinv.notPanicked

/-- Every state of a run of a new orchestrator agrees, but for a panic, with a
state that satisfies the invariant. -/
theorem run_fields (m : Int) (specs : List ImageSpec) (now : Time) (schedule : List Action)
    (st : RunState)
    (h : runSchedule (NewOrchestrator m) specs schedule (newRun m specs now) = some st) :
    ∃ st0, Inv (NewOrchestrator m) specs st0 ∧ st.main = st0.main ∧ st.tasks = st0.tasks ∧
      st.sem = st0.sem ∧ st.stats = st0.stats ∧ (st.panicked = false → st = st0) := by
  rcases run_cases _ specs schedule _ st (inv_newRun m specs now) h with
    hinv | ⟨st0, hinv, he⟩
  · exact ⟨st, hinv, rfl, rfl, rfl, rfl, fun _ => rfl⟩
  · refine ⟨st0, hinv, by rw [he], by rw [he], by rw [he], by rw [he], ?_⟩
    intro hp
    rw [he] at hp
    simp at hp

/-- A schedule in two parts. -/
theorem runSchedule_append (o : Orchestrator) (specs : List ImageSpec)
    (s1 s2 : List Action) (st st1 : RunState) (h : runSchedule o specs s1 st = some st1) :
    runSchedule o specs (s1 ++ s2) st = runSchedule o specs s2 st1 := by
  induction s1 generalizing st with
  | nil =>
    simp only [runSchedule, Option.some.injEq] at h
    rw [h]
    rfl
  | cons a rest ih =>
    simp only [runSchedule] at h
    cases hs : step o specs a st with
    | none => rw [hs] at h; simp at h
    | some st2 =>
      rw [hs] at h
      simp only [List.cons_append, runSchedule, hs]
      exact ih st2 h

/-- After a panic no schedule goes on. -/
theorem runSchedule_panicked (o : Orchestrator) (specs : List ImageSpec)
    (schedule : List Action) (st : RunState) (hp : st.panicked = true) (hne : schedule ≠ []) :
    runSchedule o specs schedule st = none := by
  cases schedule with
  | nil => exact absurd rfl hne
  | cons a rest =>
    simp only [runSchedule]
    have : step o specs a st = none := by
      unfold step
      rw [if_pos hp]
    rw [this]

/-- A run on equal jobs starts with no task launched. -/
theorem newRun_replicate (m : Int) (now : Time) (s : ImageSpec) (n : Nat) (hn : 0 < n) :
    newRun m (List.replicate n s) now = launchedState now s n 0 := by
  have hpos := NewOrchestrator_pos m
  unfold newRun start launchedState
  rw [List.length_replicate, if_neg (by omega)]
  have hd : decide ((NewOrchestrator m).MaxConcurrency < 0) = false := by
    rw [decide_eq_false_iff_not]
    omega
  rw [hd]
  rfl

/-- The launch of one more task, on equal jobs. -/
theorem launch_step (o : Orchestrator) (now t : Time) (s : ImageSpec) (n j : Nat) (hj : j < n)
    (hw : j + 1 < 2147483648) :
    step o (List.replicate n s) (.main t) (launchedState now s n j) =
      some (launchedState now s n (j + 1)) := by
  have hn : n - j = (n - (j + 1)) + 1 := by omega
  have hw1 : wrap32 ((j : Int) + 1) = ((j + 1 : Nat) : Int) := by
    unfold wrap32
    omega
  have hw2 : ¬ wrap32 ((j : Int) + 1) < 0 := by
    rw [hw1]
    omega
  unfold step launchedState
  simp only [Bool.false_eq_true, if_false]
  rw [hn, List.replicate_succ]
  simp only []
  rw [if_neg hw2, hw1, ← List.replicate_succ']

/-- The launch of `k` more tasks, on equal jobs. -/
theorem launch_run (o : Orchestrator) (now t : Time) (s : ImageSpec) (n : Nat) :
    ∀ k j, j + k ≤ n → j + k < 2147483648 →
      runSchedule o (List.replicate n s) (List.replicate k (.main t)) (launchedState now s n j) =
        some (launchedState now s n (j + k)) := by
  intro k
  induction k with
  | zero =>
    intro j _ _
    rfl
  | succ k ih =>
    intro j h1 h2
    rw [List.replicate_succ]
    simp only [runSchedule]
    rw [launch_step o now t s n j (by omega) (by omega)]
    simp only []
    have := ih (j + 1) (by omega) (by omega)
    rw [this]
    congr 2
    omega

/-- The launch of one more task when `2^31 - 1` tasks are launched and none has
exited: `wg.Add(1)` panics. -/
theorem launch_panic (o : Orchestrator) (now t : Time) (s : ImageSpec) (n j : Nat)
    (hj : j < n) (hw : (j : Int) + 1 = 2147483648) :
    step o (List.replicate n s) (.main t) (launchedState now s n j) =
      some { launchedState now s n j with panicked := true } := by
  have hn1 : n - j = (n - (j + 1)) + 1 := by omega
  have hw1 : wrap32 ((j : Int) + 1) < 0 := by
    unfold wrap32
    omega
  unfold step launchedState
  simp only [Bool.false_eq_true, if_false]
  rw [hn1, List.replicate_succ]
  simp only []
  rw [if_pos hw1]

/-- On `n > k` equal jobs with `k + 1 = 2^31`: after `k` launches the next launch
panics, and no schedule that goes on leads to the return. -/
theorem launch_all_panics (m : Int) (now t : Time) (s : ImageSpec) (n k : Nat) (hk : k < n)
    (hw : (k : Int) + 1 = 2147483648) :
    runSchedule (NewOrchestrator m) (List.replicate n s)
        (List.replicate k (Action.main t) ++ [Action.main t])
        (newRun m (List.replicate n s) now) =
      some { launchedState now s n k with panicked := true } ∧
    ∀ rest, GenerateAll (NewOrchestrator m) (List.replicate n s) now
      (List.replicate k (Action.main t) ++ [Action.main t] ++ rest) = none := by
  have h1 : runSchedule (NewOrchestrator m) (List.replicate n s)
      (List.replicate k (Action.main t)) (newRun m (List.replicate n s) now) =
      some (launchedState now s n k) := by
    rw [newRun_replicate m now s n (by omega)]
    have := launch_run (NewOrchestrator m) now t s n k 0 (by omega) (by omega)
    rw [this, Nat.zero_add]
  have h2 : runSchedule (NewOrchestrator m) (List.replicate n s)
      (List.replicate k (Action.main t) ++ [Action.main t])
      (newRun m (List.replicate n s) now) =
      some { launchedState now s n k with panicked := true } := by
    rw [runSchedule_append _ _ _ _ _ _ h1]
    simp only [runSchedule]
    rw [launch_panic (NewOrchestrator m) now t s n k hk hw]
  refine ⟨h2, ?_⟩
  intro rest
  unfold GenerateAll
  have h3 : runSchedule (NewOrchestrator m) (List.replicate n s)
      (List.replicate k (Action.main t) ++ [Action.main t] ++ rest)
      (start (NewOrchestrator m) (List.replicate n s) now) =
      runSchedule (NewOrchestrator m) (List.replicate n s) rest
        { launchedState now s n k with panicked := true } :=
    runSchedule_append _ _ _ rest _ _ h2
  rw [h3]
  cases rest with
  | nil => rfl
  | cons a rest =>
    rw [runSchedule_panicked _ _ (a :: rest) _ rfl (by simp)]

/-! ## Claims on `GenerateAll` -/

/-- C22, amended: whenever `GenerateAll` of an orchestrator built by
`NewOrchestrator` returns, it returns exactly `N` results for `N` jobs, and the
specs of the results are the submitted specs up to order. A run that has not
panicked has taken at most `7 * N + 2` steps; while it has not returned, some
goroutine can execute its next statement without a panic (no deadlock); and
after `7 * N + 2` steps it has returned. A run panics only in two ways: a call
of `Generate` panics, or `wg.Add(1)` is executed in the launch loop while
`2^31 - 1` launched tasks have not yet called `wg.Done()`. So with fewer than
`2^31` jobs a run in which no call of `Generate` panics never panics, and
returns. Whatever the outcomes of the external calls are (which jobs fail),
there is a run without a panic in which `GenerateAll` returns with exactly
these outcomes. -/
theorem GenerateAll_results (m : Int) (specs : List ImageSpec) (now : Time) :
    (∀ schedule results err stats,
      GenerateAll (NewOrchestrator m) specs now schedule = some (results, err, stats) →
        results.length = specs.length ∧ (results.map (fun r => r.Spec)).Perm specs) ∧
    (∀ schedule st,
      runSchedule (NewOrchestrator m) specs schedule (newRun m specs now) = some st →
        st.panicked = false →
          schedule.length ≤ 7 * specs.length + 2 ∧
          ((∀ rs err, st.main ≠ .returned rs err) →
            ∃ a st', a.isCrash = false ∧ step (NewOrchestrator m) specs a st = some st' ∧
              st'.panicked = false) ∧
          (specs ≠ [] → schedule.length = 7 * specs.length + 2 →
            ∃ rs err, st.main = .returned rs err)) ∧
    (∀ schedule st,
      runSchedule (NewOrchestrator m) specs schedule (newRun m specs now) = some st →
        st.panicked = true →
          ∃ pre a st0, schedule = pre ++ [a] ∧
            runSchedule (NewOrchestrator m) specs pre (newRun m specs now) = some st0 ∧
            st0.panicked = false ∧ step (NewOrchestrator m) specs a st0 = some st ∧
            ((∃ i s, a = .crash i ∧ st0.tasks[i]? = some (s, .render)) ∨
              (∃ t s rest, a = .main t ∧ st0.main = .launch (s :: rest) ∧
                st0.tasks.countP (fun x => x.2.running) = 2147483647))) ∧
    (specs.length < 2147483648 →
      ∀ schedule st, (∀ a ∈ schedule, a.isCrash = false) →
        runSchedule (NewOrchestrator m) specs schedule (newRun m specs now) = some st →
          st.panicked = false) ∧
    (∀ outcome : ImageSpec → Option String × Except String Int,
      ∃ schedule results err stats,
        (∀ a ∈ schedule, a.isCrash = false) ∧
        GenerateAll (NewOrchestrator m) specs now schedule = some (results, err, stats) ∧
        ∀ r ∈ results, r = generateOne r.Spec (outcome r.Spec).1 (outcome r.Spec).2) := by
  refine ⟨?_, ?_, ?_, ?_, ?_⟩
  · intro schedule results err stats h
    obtain ⟨h1, h2, -⟩ := GenerateAll_facts m specs now schedule results err stats h
    exact ⟨h2, h1⟩
  · intro schedule st hrun hnp
    have hinv := inv_runSchedule _ specs schedule _ st (inv_newRun m specs now) hrun hnp
    have hrem := runSchedule_remaining _ specs schedule _ st hrun hnp
    have hstart := remaining_start (NewOrchestrator m) specs now
    unfold newRun at hrem
    rw [hstart] at hrem
    have hprog : (∀ rs err, st.main ≠ .returned rs err) →
        ∃ a st', step (NewOrchestrator m) specs a st = some st' ∧ st'.panicked = false := by
      intro hnr
      obtain ⟨a, st', hs, hp, -⟩ := progress _ specs (fun _ => (none, .ok 0)) st
        (NewOrchestrator_pos m) hinv hnr
      exact ⟨a, st', hs, hp⟩
    refine ⟨?_, ?_, ?_⟩
    · split_ifs at hrem <;> omega
    · intro hnr
      obtain ⟨a, st', hs, hp⟩ := hprog hnr
      exact ⟨a, st', step_not_crash _ specs a st st' hs hp, hs, hp⟩
    · intro hne hlen
      by_contra hnr
      obtain ⟨a, st', hs, hp⟩ := hprog (fun rs err h => hnr ⟨rs, err, h⟩)
      have := step_remaining _ specs a st st' hs hp
      have hl : specs.length ≠ 0 := fun h0 => hne (List.length_eq_zero.1 h0)
      rw [if_neg hl] at hrem
      omega
  · intro schedule st hrun hp
    obtain ⟨pre, a, st0, he, hpre, hinv0, hstep, -, hshape⟩ :=
      run_panicked _ specs schedule _ st (inv_newRun m specs now) hrun hp
    refine ⟨pre, a, st0, he, hpre, hinv0.notPanicked, hstep, ?_⟩
    rcases hshape with ⟨⟨t, ha⟩, ⟨s, rest, hm⟩, hw⟩ | hcrash
    · right
      refine ⟨t, s, rest, ha, hm, ?_⟩
      have hwg := hinv0.wgRunning
      omega
    · exact Or.inl hcrash
  · intro hsmall schedule st hc hrun
    exact (inv_run_small _ specs schedule _ st (inv_newRun m specs now) hsmall hc
      hrun).notPanicked
  · intro outcome
    obtain ⟨schedule, rs, err, stats, h, hall⟩ := exists_return m specs now outcome
    exact ⟨schedule, rs, err, stats, GenerateAll_no_crash m specs now schedule rs err stats h,
      h, hall⟩

/-- C22, at two jobs with one slot, of which the second job fails. -/
theorem GenerateAll_results_witness :
    GenerateAll (NewOrchestrator 1) twoJobs ⟨1⟩ twoJobSchedule =
      some (twoJobResults, some "1 image(s) failed to generate", ⟨2, 1, 1, ⟨1⟩, ⟨9⟩⟩) ∧
    twoJobResults.length = twoJobs.length ∧
    (twoJobResults.map (fun r => r.Spec)).Perm twoJobs ∧
    twoJobSchedule.length = 7 * twoJobs.length + 2 :=
  ⟨by decide, ((GenerateAll_results 1 twoJobs ⟨1⟩).1 twoJobSchedule twoJobResults
      (some "1 image(s) failed to generate") ⟨2, 1, 1, ⟨1⟩, ⟨9⟩⟩ (by decide)).1,
    ((GenerateAll_results 1 twoJobs ⟨1⟩).1 twoJobSchedule twoJobResults
      (some "1 image(s) failed to generate") ⟨2, 1, 1, ⟨1⟩, ⟨9⟩⟩ (by decide)).2, by decide⟩

/-- C22, counterexample: one job of `2^32` by `2^32` pixels, the job that
`BuildSpecs` builds for the platform target of a configuration that `Validate`
accepts. The task is launched and takes the slot; its call of `Generate`
panics in `image.NewRGBA`, and `GenerateAll` does not return, however the
schedule goes on. -/
theorem GenerateAll_panics_in_Generate :
    config.hugeTargetConfig.Validate = .ok () ∧
    config.SpecBuilder.buildTargetSpecs ⟨config.hugeTargetConfig, config.noFilters, "out"⟩ =
      .ok [hugeSpec] ∧
    runSchedule (NewOrchestrator 1) [hugeSpec]
        [Action.main ⟨1⟩, Action.task 0 none (.ok 0), Action.crash 0]
        (newRun 1 [hugeSpec] ⟨1⟩) =
      some { main := .launch [], tasks := [(hugeSpec, .render)], sem := 1, resultsChan := [],
             wg := 1, panicked := true, stats := ⟨1, 0, 0, ⟨1⟩, ⟨0⟩⟩ } ∧
    ∀ rest, GenerateAll (NewOrchestrator 1) [hugeSpec] ⟨1⟩
      ([Action.main ⟨1⟩, Action.task 0 none (.ok 0), Action.crash 0] ++ rest) = none := by
  have h2 : runSchedule (NewOrchestrator 1) [hugeSpec]
      [Action.main ⟨1⟩, Action.task 0 none (.ok 0), Action.crash 0]
      (newRun 1 [hugeSpec] ⟨1⟩) =
      some { main := .launch [], tasks := [(hugeSpec, .render)], sem := 1, resultsChan := [],
             wg := 1, panicked := true, stats := ⟨1, 0, 0, ⟨1⟩, ⟨0⟩⟩ } := by
    decide
  refine ⟨by decide, by decide, h2, ?_⟩
  intro rest
  unfold GenerateAll
  have h3 := runSchedule_append (NewOrchestrator 1) [hugeSpec]
    [Action.main ⟨1⟩, Action.task 0 none (.ok 0), Action.crash 0] rest _ _ h2
  unfold newRun at h3
  rw [h3]
  cases rest with
  | nil => rfl
  | cons a rest =>
    rw [runSchedule_panicked _ _ (a :: rest) _ rfl (by simp)]

/-- At `2^31` jobs, when all tasks are launched before one of them exits, the
last `wg.Add(1)` makes the `int32` counter of the wait group negative and
panics, so `GenerateAll` does not return, however the schedule goes on. -/
theorem GenerateAll_panics_at_overflow :
    runSchedule (NewOrchestrator 1) manyJobs
        (List.replicate 2147483647 (Action.main ⟨1⟩) ++ [Action.main ⟨1⟩])
        (newRun 1 manyJobs ⟨1⟩) =
      some { launchedState ⟨1⟩ (sampleSpec "a.jpg") 2147483648 2147483647 with
        panicked := true } ∧
    ∀ rest, GenerateAll (NewOrchestrator 1) manyJobs ⟨1⟩
      (List.replicate 2147483647 (Action.main ⟨1⟩) ++ [Action.main ⟨1⟩] ++ rest) = none :=
  launch_all_panics 1 ⟨1⟩ ⟨1⟩ (sampleSpec "a.jpg") 2147483648 2147483647 (by norm_num)
    (by norm_num)

/-- Below `2^31` jobs the counter `Failed`, an `int32`, cannot wrap, and the
error that `GenerateAll` returns is non-nil exactly when the list is empty or
some result carries an error; when `k ≥ 1` results carry an error, all `N`
results are returned and the error is `k image(s) failed to generate`; for the
empty list `GenerateAll` returns at once, with no results and the error
`no specs to generate`, and no task is ever started. -/
theorem GenerateAll_error (m : Int) (specs : List ImageSpec) (now : Time)
    (hlen : specs.length < 2147483648) :
    (∀ schedule results err stats,
      GenerateAll (NewOrchestrator m) specs now schedule = some (results, err, stats) →
        (err ≠ none ↔ specs = [] ∨ 0 < failures results) ∧
        (0 < failures results →
          results.length = specs.length ∧
          err = some (Itoa (failures results) ++ " image(s) failed to generate"))) ∧
    (specs = [] →
      GenerateAll (NewOrchestrator m) specs now [] =
        some ([], some "no specs to generate", ⟨0, 0, 0, now, ⟨0⟩⟩) ∧
      ∀ schedule st,
        runSchedule (NewOrchestrator m) specs schedule (newRun m specs now) = some st →
          schedule = [] ∧ st.tasks = []) := by
  constructor
  · intro schedule results err stats h
    obtain ⟨-, h2, -, h4, -, h6, h7⟩ := GenerateAll_facts m specs now schedule results err stats h
    have hf : stats.Failed = ((failures results : Nat) : Int) := by
      rw [h4]
      exact wrap32_small _ (Int.natCast_nonneg _) (by omega)
    rw [hf] at h7
    by_cases h0 : specs.length = 0
    · have hs : specs = [] := List.length_eq_zero.1 h0
      have hr : failures results = 0 := by omega
      refine ⟨?_, ?_⟩
      · simp [h7, failureError, h0, hs]
      · intro hpos
        omega
    · have hs : specs ≠ [] := fun h => h0 (by rw [h]; rfl)
      by_cases hk : 0 < failures results
      · have hk1 : ((failures results : Nat) : Int) > 0 := by omega
        simp only [failureError, h0, if_false, hk1, if_true] at h7
        refine ⟨?_, fun _ => ⟨h2, h7⟩⟩
        simp [h7, hk]
      · have hk1 : ¬ ((failures results : Nat) : Int) > 0 := by omega
        simp only [failureError, h0, if_false, hk1] at h7
        refine ⟨?_, fun h => absurd h hk⟩
        simp [h7, hk, hs]
  · intro hs
    subst hs
    refine ⟨rfl, ?_⟩
    intro schedule st hrun
    obtain ⟨h1, h2⟩ := runSchedule_empty _ now schedule st hrun
    exact ⟨h1, by rw [h2]; rfl⟩

/-- The error of `GenerateAll` at two jobs with one slot, of which the second
job fails. -/
theorem GenerateAll_error_witness :
    twoJobs.length < 2147483648 ∧
    GenerateAll (NewOrchestrator 1) twoJobs ⟨1⟩ twoJobSchedule =
      some (twoJobResults, some "1 image(s) failed to generate", ⟨2, 1, 1, ⟨1⟩, ⟨9⟩⟩) ∧
    failures twoJobResults = 1 ∧
    ((some "1 image(s) failed to generate" : Option String) ≠ none ↔
      twoJobs = [] ∨ 0 < failures twoJobResults) :=
  ⟨by decide, by decide, by decide,
    ((GenerateAll_error 1 twoJobs ⟨1⟩ (by decide)).1 twoJobSchedule twoJobResults
      (some "1 image(s) failed to generate") ⟨2, 1, 1, ⟨1⟩, ⟨9⟩⟩
      (by decide)).1⟩

/-- C23 fails in the code at `2^31` jobs that all fail: the counter `Failed`
wraps to `-2^31`, the test `Failed > 0` under the comment "Check if any
failed" is false, and `GenerateAll` returns all results, each with an error,
and a nil error. -/
theorem GenerateAll_error_wraps :
    ∃ schedule results stats,
      GenerateAll (NewOrchestrator 1) manyJobs ⟨1⟩ schedule = some (results, none, stats) ∧
      results.length = 2147483648 ∧ (∀ r ∈ results, r.Error ≠ none) ∧
      failures results = 2147483648 ∧ stats.Failed = -2147483648 := by
  obtain ⟨schedule, rs, err, stats, h, hall⟩ :=
    exists_return 1 manyJobs ⟨1⟩ (fun _ => (some "disk full", .ok 0))
  obtain ⟨-, h2, -, h4, -, -, h7⟩ := GenerateAll_facts 1 manyJobs ⟨1⟩ schedule rs err stats h
  have hlen : manyJobs.length = 2147483648 := by
    unfold manyJobs
    exact List.length_replicate _ _
  rw [hlen] at h2
  have herr : ∀ r ∈ rs, r.Error ≠ none := by
    intro r hr
    rw [hall r hr]
    simp [generateOne]
  have hfail : failures rs = 2147483648 := by
    rw [← h2]
    unfold failures
    rw [List.countP_eq_length]
    intro r hr
    simpa using herr r hr
  have hF : stats.Failed = -2147483648 := by
    rw [h4, hfail]
    unfold wrap32
    omega
  have he : err = none := by
    rw [h7, hF]
    unfold failureError
    rw [hlen]
    simp
  rw [he] at h
  exact ⟨schedule, rs, stats, h, h2, herr, hfail, hF⟩

/-- C24: in every state of a run, `Completed + Failed ≤ Total`, `Total` is the
number of submitted jobs, and the counters count (as `int32`) the tasks that
are past their counter update, `Completed` those whose result has no error and
`Failed` those whose result has one; every step leaves both counters as they
are, except the counter update of a task, which adds one to exactly one of
them, to `Completed` if and only if the result has no error; and for fewer than
`2^31` jobs, when `GenerateAll` returns, `Completed + Failed = Total`, with
`Failed` the number of results that carry an error. -/
theorem GenerateAll_counters (m : Int) (specs : List ImageSpec) (now : Time) :
    (∀ schedule st,
      runSchedule (NewOrchestrator m) specs schedule (newRun m specs now) = some st →
        st.stats.Completed + st.stats.Failed ≤ st.stats.Total ∧
        st.stats.Total = specs.length ∧
        st.stats.Completed =
          wrap32 ((st.tasks.countP (fun t => t.2.countedOk) : Nat) : Int) ∧
        st.stats.Failed =
          wrap32 ((st.tasks.countP (fun t => t.2.countedFailed) : Nat) : Int)) ∧
    (∀ a st st', step (NewOrchestrator m) specs a st = some st' →
      (st'.stats.Completed = st.stats.Completed ∧ st'.stats.Failed = st.stats.Failed) ∨
      (∃ i g z s r, a = .task i g z ∧ st.tasks[i]? = some (s, .count r) ∧
        st'.tasks[i]? = some (s, .release r) ∧
        ((r.Error = none ∧ st'.stats.Completed = wrap32 (st.stats.Completed + 1) ∧
            st'.stats.Failed = st.stats.Failed) ∨
         (r.Error ≠ none ∧ st'.stats.Failed = wrap32 (st.stats.Failed + 1) ∧
            st'.stats.Completed = st.stats.Completed)))) ∧
    (specs.length < 2147483648 →
      ∀ schedule results err stats,
        GenerateAll (NewOrchestrator m) specs now schedule = some (results, err, stats) →
          stats.Total = specs.length ∧ stats.Completed + stats.Failed = stats.Total ∧
          stats.Failed = failures results ∧
          stats.Completed = results.length - failures results) := by
  refine ⟨?_, ?_, ?_⟩
  · intro schedule st hrun
    obtain ⟨st0, hinv, -, ht, -, hs, -⟩ := run_fields m specs now schedule st hrun
    rw [hs, ht]
    exact ⟨counters_le _ specs st0 hinv, hinv.total, hinv.completed, hinv.failed⟩
  · intro a st st' h
    exact step_counters _ specs a st st' h
  · intro hlen schedule results err stats h
    obtain ⟨-, h2, h3, h4, h5, h6, -⟩ := GenerateAll_facts m specs now schedule results err stats h
    have hf : stats.Failed = ((failures results : Nat) : Int) := by
      rw [h4]
      exact wrap32_small _ (Int.natCast_nonneg _) (by omega)
    have hc : stats.Completed = ((results.length - failures results : Nat) : Int) := by
      rw [h5]
      exact wrap32_small _ (Int.natCast_nonneg _) (by omega)
    refine ⟨h3, ?_, hf, ?_⟩
    · rw [hf, hc, h3]
      omega
    · rw [hc]
      omega

/-- C24, at two jobs with one slot, of which the second job fails. -/
theorem GenerateAll_counters_witness :
    twoJobs.length < 2147483648 ∧
    GenerateAll (NewOrchestrator 1) twoJobs ⟨1⟩ twoJobSchedule =
      some (twoJobResults, some "1 image(s) failed to generate", ⟨2, 1, 1, ⟨1⟩, ⟨9⟩⟩) ∧
    (⟨2, 1, 1, ⟨1⟩, ⟨9⟩⟩ : GenerationStats).Completed +
      (⟨2, 1, 1, ⟨1⟩, ⟨9⟩⟩ : GenerationStats).Failed =
      (⟨2, 1, 1, ⟨1⟩, ⟨9⟩⟩ : GenerationStats).Total :=
  ⟨by decide, by decide,
    ((GenerateAll_counters 1 twoJobs ⟨1⟩).2.2 (by decide) twoJobSchedule twoJobResults
      (some "1 image(s) failed to generate") ⟨2, 1, 1, ⟨1⟩, ⟨9⟩⟩
      (by decide)).2.1⟩

/-- C24 fails at `2^31` jobs that all succeed: the counter `Completed` wraps to
`-2^31`, and `Completed + Failed` is not `Total` when `GenerateAll` returns. -/
theorem GenerateAll_counters_wrap :
    ∃ schedule results err stats,
      GenerateAll (NewOrchestrator 1) manyJobs ⟨1⟩ schedule = some (results, err, stats) ∧
      (∀ r ∈ results, r.Error = none) ∧
      stats.Total = 2147483648 ∧ stats.Completed = -2147483648 ∧ stats.Failed = 0 ∧
      stats.Completed + stats.Failed ≠ stats.Total := by
  obtain ⟨schedule, rs, err, stats, h, hall⟩ :=
    exists_return 1 manyJobs ⟨1⟩ (fun _ => (none, .ok 100))
  obtain ⟨-, h2, h3, h4, h5, -, -⟩ := GenerateAll_facts 1 manyJobs ⟨1⟩ schedule rs err stats h
  have hlen : manyJobs.length = 2147483648 := by
    unfold manyJobs
    exact List.length_replicate _ _
  rw [hlen] at h2 h3
  have herr : ∀ r ∈ rs, r.Error = none := by
    intro r hr
    rw [hall r hr]
    simp [generateOne]
  have hfail : failures rs = 0 := by
    unfold failures
    rw [List.countP_eq_zero]
    intro r hr
    simpa using herr r hr
  have hF : stats.Failed = 0 := by
    rw [h4, hfail]
    exact wrap32_zero
  have hC : stats.Completed = -2147483648 := by
    rw [h5, hfail, h2]
    unfold wrap32
    omega
  refine ⟨schedule, rs, err, stats, h, herr, by rw [h3]; rfl, hC, hF, ?_⟩
  rw [hC, hF, h3]
  omega

/-- C25: in every state of a run of an orchestrator built by `NewOrchestrator`
(whose `MaxConcurrency` is the given limit, or `10` for a limit that is not
positive), at most `MaxConcurrency` tasks are inside the call of `generateOne`;
the slots taken from the semaphore are exactly those of the tasks between
their acquire and their release, so a task that is done holds none, whether its
job failed or not; the release of a task never blocks and does not depend on
its result; a run that has neither returned nor panicked can take a step that
does not panic; when `GenerateAll` has returned, all slots are free; and
whether a task can take its next step does not depend on the outcomes of the
external calls. -/
theorem GenerateAll_concurrency (m : Int) (specs : List ImageSpec) (now : Time) :
    (NewOrchestrator m).MaxConcurrency = (if m ≤ 0 then 10 else m) ∧
    (∀ schedule st,
      runSchedule (NewOrchestrator m) specs schedule (newRun m specs now) = some st →
        ((st.tasks.countP (fun t => t.2.rendering) : Nat) : Int) ≤
          (NewOrchestrator m).MaxConcurrency ∧
        st.sem = st.tasks.countP (fun t => t.2.holding) ∧
        (st.sem : Int) ≤ (NewOrchestrator m).MaxConcurrency ∧
        (∀ s r g z, (s, TaskPc.release r) ∈ st.tasks →
          taskStep (NewOrchestrator m) specs st s g z (.release r) =
            some (.done r, { st with sem := st.sem - 1 })) ∧
        (st.panicked = false → (∀ rs err, st.main ≠ .returned rs err) →
          ∃ a st', step (NewOrchestrator m) specs a st = some st' ∧ st'.panicked = false) ∧
        (∀ rs err, st.main = .returned rs err → st.sem = 0)) ∧
    (∀ st i g z g' z',
      (step (NewOrchestrator m) specs (.task i g z) st).isSome =
        (step (NewOrchestrator m) specs (.task i g' z') st).isSome) := by
  refine ⟨rfl, ?_, fun st i g z g' z' => step_isSome_outcome _ specs st i g g' z z'⟩
  intro schedule st hrun
  obtain ⟨st0, hinv, hmain, ht, hs, -, heq⟩ := run_fields m specs now schedule st hrun
  have hle := rendering_le_holding st.tasks
  have hsem : st.sem = st.tasks.countP (fun t => t.2.holding) := by
    rw [hs, ht]
    exact hinv.semHeld
  have hcap : (st.sem : Int) ≤ (NewOrchestrator m).MaxConcurrency := by
    rw [hs]
    exact hinv.semCap
  refine ⟨by omega, hsem, hcap, ?_, ?_, ?_⟩
  · intro s r g z hmem
    have hpos : 0 < st.sem := by
      rw [hsem]
      exact List.countP_pos_iff.2 ⟨(s, .release r), hmem, rfl⟩
    simp only [taskStep, hpos, if_true]
  · intro hp hnr
    have he := heq hp
    rw [he] at hnr ⊢
    obtain ⟨a, st', h1, h2, -⟩ := progress _ specs (fun _ => (none, .ok 0)) st0
      (NewOrchestrator_pos m) hinv hnr
    exact ⟨a, st', h1, h2⟩
  · intro rs err hm
    rw [hmain] at hm
    obtain ⟨hex, -, -⟩ := hinv.finished rs err hm
    rw [hsem, ht, List.countP_eq_zero]
    intro t ht
    have := hex t ht
    obtain ⟨s, pc⟩ := t
    cases pc <;> simp_all

/-- C25, at two jobs with one slot: while the second task renders, the first
one cannot acquire the slot. -/
theorem GenerateAll_concurrency_witness :
    (NewOrchestrator 0).MaxConcurrency = 10 ∧
    runSchedule (NewOrchestrator 1) twoJobs (twoJobSchedule.take 4) (newRun 1 twoJobs ⟨1⟩) =
      some twoJobsRendering ∧
    step (NewOrchestrator 1) twoJobs (.task 0 none (.ok 0)) twoJobsRendering = none ∧
    ((twoJobsRendering.tasks.countP (fun t => t.2.rendering) : Nat) : Int) ≤
      (NewOrchestrator 1).MaxConcurrency :=
  ⟨by decide, by decide, by decide,
    ((GenerateAll_concurrency 1 twoJobs ⟨1⟩).2.1 (twoJobSchedule.take 4) twoJobsRendering
      (by decide)).1⟩

end generator
